import Mathlib

/-!
# SDL3-TUI: a shallow embedding of `tui.c` and `main.c` and their checked properties

The functions of `src/tui.c` (declared in `src/tui.h`) and of `src/main.c` are
embedded as pure Lean functions, under the names they have in C.

* C `int` values are `Int`; `uint8_t` colour indices, SDL key codes and modifier
  masks are `Nat`. The products `cell_w * scale` and `cell_h * scale` of
  `tui_set_scale`, whose factor `scale` is an argument of the public interface, are
  taken in the range of a 32-bit `int` (`int_mul`); a product outside it is a signed
  overflow, undefined behaviour.
* A `const char *` argument is a `List Char`; the end of the list plays the role
  of the terminating NUL, and a NUL character inside the list terminates the
  string as it does in C.
* The `char text[TUI_INPUT_MAX]` member of `TUI_InputState` is the list of the
  bytes of the buffer; `memmove`, `memcpy` and `strlen` on it are partial
  functions into `Option`, `none` standing for undefined behaviour
  (an access outside the buffer).
* A function that takes a pointer to a state and mutates it returns the new
  state (together with its C return value when it has one).
* `tui_puts_wrap` touches the cell buffer only through `tui_putc`; it is embedded
  as the sequence of `tui_putc` calls it issues (`tui_puts_wrap_calls`), which
  `tui_puts_wrap` replays on the `TUI` context. The outer loop runs on fuel, one
  unit per iteration; the length of the text is enough (`wrap_loop_fuel_eq`).
* The other drawing functions (`tui_puts`, `tui_hline`, `tui_vline`, `tui_fill`,
  `tui_box`, the table, the menus) are embedded the same way, as call sequences
  replayed by `tui_replay`; `tui_cell` reads a cell of the grid back.
* The terminal of `src/main.c` keeps each row of `lines` as the C string that
  `snprintf` left in it; `snprintf` into a buffer of `size` bytes keeps the first
  `size - 1` characters.
* What the code asks from SDL is an argument of the embedded function: the window
  size for `resize_grid`, `tui_set_scale` and `tui_begin`, the clock reading for
  `tui_begin` and `term_exec`. C division is `Int.tdiv`; the `uint64_t` difference
  of `tui_begin` is taken modulo `2 ^ 64`; `calloc` is taken to succeed.
* The body of the event loop of `main` is `app_dispatch`, on the record `AppState`
  of the local variables of `main`.
-/

namespace SDL3TUI

/-! ## SDL constants and events (from the SDL3 headers) -/

def SDLK_RETURN : Nat := 0x0000000d
def SDLK_ESCAPE : Nat := 0x0000001b
def SDLK_BACKSPACE : Nat := 0x00000008
def SDLK_TAB : Nat := 0x00000009
def SDLK_DELETE : Nat := 0x0000007f
def SDLK_HOME : Nat := 0x4000004a
def SDLK_END : Nat := 0x4000004d
def SDLK_RIGHT : Nat := 0x4000004f
def SDLK_LEFT : Nat := 0x40000050
def SDLK_DOWN : Nat := 0x40000051
def SDLK_UP : Nat := 0x40000052
def SDLK_KP_ENTER : Nat := 0x40000058
/-- The modifier mask `SDL_KMOD_SHIFT`, that is `SDL_KMOD_LSHIFT | SDL_KMOD_RSHIFT`. -/
def SDL_KMOD_SHIFT : Nat := 0x0003

/-- The part of the `SDL_Event` union that `tui.c` reads: the event type, and for
a key-down `key.key` and `key.mod`, for a text input `text.text`. -/
inductive SDL_Event where
  | quit
  | key_down (key : Nat) (mod : Nat)
  | text_input (text : List Char)
  | other
  deriving DecidableEq, Repr

/-! ## Menu (`tui.h` 67-71, `tui.c` 279-357) -/

structure TUI_MenuState where
  selected : Int
  confirmed : Int
  escaped : Bool
  deriving DecidableEq, Repr

def tui_menu_init : TUI_MenuState :=
  { selected := 0, confirmed := -1, escaped := false }

def tui_menu_handle (s : TUI_MenuState) (e : SDL_Event) (count : Int)
    (horizontal : Bool) : Bool × TUI_MenuState :=
  let s := { s with confirmed := -1, escaped := false }
  match e with
  | .key_down key mod =>
    let prev := if horizontal then (mod &&& SDL_KMOD_SHIFT != 0) && key == SDLK_TAB
                else key == SDLK_UP
    let next := if horizontal then key == SDLK_TAB else key == SDLK_DOWN
    if prev then
      (true, if s.selected > 0 then { s with selected := s.selected - 1 } else s)
    else if next then
      (true, if s.selected < count - 1 then { s with selected := s.selected + 1 } else s)
    else if key == SDLK_RETURN || key == SDLK_KP_ENTER then
      (true, { s with confirmed := s.selected })
    else if key == SDLK_ESCAPE then
      (true, { s with escaped := true })
    else (false, s)
  | _ => (false, s)

/-- Dispatch a sequence of events to a menu, in order. -/
def menu_run (count : Int) (horizontal : Bool) (s : TUI_MenuState)
    (es : List SDL_Event) : TUI_MenuState :=
  es.foldl (fun st e => (tui_menu_handle st e count horizontal).2) s

/-- The previous-item key of the specification: shift+Tab for a horizontal menu,
Up for a vertical one. -/
def isPrevKey (horizontal : Bool) : SDL_Event → Prop
  | .key_down key mod =>
    if horizontal then key = SDLK_TAB ∧ mod &&& SDL_KMOD_SHIFT ≠ 0 else key = SDLK_UP
  | _ => False

/-- The next-item key of the specification: Tab without shift for a horizontal
menu, Down for a vertical one. -/
def isNextKey (horizontal : Bool) : SDL_Event → Prop
  | .key_down key mod =>
    if horizontal then key = SDLK_TAB ∧ mod &&& SDL_KMOD_SHIFT = 0 else key = SDLK_DOWN
  | _ => False

/-- The confirm key of the specification: a key-down of Return or keypad Enter. -/
def isConfirmKey : SDL_Event → Prop
  | .key_down key _ => key = SDLK_RETURN ∨ key = SDLK_KP_ENTER
  | _ => False

/-- The escape key of the specification: a key-down of Escape. -/
def isEscapeKey : SDL_Event → Prop
  | .key_down key _ => key = SDLK_ESCAPE
  | _ => False

instance (h : Bool) (e : SDL_Event) : Decidable (isPrevKey h e) := by
  cases e <;> simp only [isPrevKey] <;> infer_instance

instance (h : Bool) (e : SDL_Event) : Decidable (isNextKey h e) := by
  cases e <;> simp only [isNextKey] <;> infer_instance

instance (e : SDL_Event) : Decidable (isConfirmKey e) := by
  cases e <;> simp only [isConfirmKey] <;> infer_instance

instance (e : SDL_Event) : Decidable (isEscapeKey e) := by
  cases e <;> simp only [isEscapeKey] <;> infer_instance

/-! ## Modal (`tui.h` 115-120, `tui.c` 499-576) -/

structure TUI_ModalState where
  selected : Int
  result : Int
  enforce : Bool
  active : Bool
  deriving DecidableEq, Repr

def tui_modal_open (enforce : Bool) : TUI_ModalState :=
  { active := true, selected := 0, result := -1, enforce := enforce }

def tui_modal_handle (s : TUI_ModalState) (e : SDL_Event) (count : Int) :
    Bool × TUI_ModalState :=
  if !s.active then (false, s)
  else match e with
  | .key_down key _ =>
    if key == SDLK_LEFT then
      (true, if s.selected > 0 then { s with selected := s.selected - 1 } else s)
    else if key == SDLK_RIGHT then
      (true, if s.selected < count - 1 then { s with selected := s.selected + 1 } else s)
    else if key == SDLK_RETURN || key == SDLK_KP_ENTER then
      (true, { s with result := s.selected, active := false })
    else if key == SDLK_ESCAPE then
      (true, if !s.enforce then { s with result := -1, active := false } else s)
    else (false, s)
  | _ => (false, s)

/-! ## C strings and the cell buffer (`tui.h` 21-38, `tui.c` 198-208) -/

/-- The terminating character of a C string. -/
def NUL : Char := Char.ofNat 0

/-- The characters of a `const char *` argument up to its terminator: the list
ends the string, and so does a NUL inside it. -/
def cstr (s : List Char) : List Char := s.takeWhile (fun c => c != NUL)

/-- The C `strlen` of a `const char *` argument. -/
def strlen (s : List Char) : Int := ((cstr s).length : Int)

structure TUI_Cell where
  ch : Char
  fg : Nat
  bg : Nat
  deriving DecidableEq, Repr

/-- The fields of the `TUI` context that are data (the SDL handles and the
palette are left out). -/
structure TUI where
  cell_w : Int
  cell_h : Int
  scale : Int
  cols : Int
  rows : Int
  cells : List TUI_Cell
  running : Bool
  blink_ms : Nat
  blink_on : Bool
  deriving DecidableEq, Repr

def tui_putc (t : TUI) (x y : Int) (ch : Char) (fg bg : Nat) : TUI :=
  if x < 0 ∨ x ≥ t.cols ∨ y < 0 ∨ y ≥ t.rows then t
  else { t with cells := t.cells.set (y * t.cols + x).toNat { ch := ch, fg := fg, bg := bg } }

/-- One call of `tui_putc`, as issued by a drawing function. -/
structure TUI_Put where
  x : Int
  y : Int
  ch : Char
  fg : Nat
  bg : Nat
  deriving DecidableEq, Repr

/-- Perform a sequence of `tui_putc` calls, in order. -/
def tui_replay (t : TUI) (calls : List TUI_Put) : TUI :=
  calls.foldl (fun t c => tui_putc t c.x c.y c.ch c.fg c.bg) t

/-! ## Word wrap (`tui.c` 210-242) -/

/-- The scan `while (s[i + wl] && s[i + wl] != ' ' && s[i + wl] != '\n') wl++`,
on the text from index `i` on. -/
def word_len : List Char → Nat
  | [] => 0
  | c :: cs => if c != NUL && c != ' ' && c != '\n' then word_len cs + 1 else 0

/-- The loop of the branch `wl > w` (lines 222-226) over the characters of the
word; returns the calls and the final `cx`, `cy`. -/
def wrap_hard (x y w : Int) (fg bg : Nat) :
    List Char → Int → Int → List TUI_Put × Int × Int
  | [], cx, cy => ([], cx, cy)
  | c :: cs, cx, cy =>
    let cx1 := if cx ≥ w then 0 else cx
    let cy1 := if cx ≥ w then cy + 1 else cy
    let r := wrap_hard x y w fg bg cs (cx1 + 1) cy1
    ({ x := x + cx1, y := y + cy1, ch := c, fg := fg, bg := bg } :: r.1, r.2)

/-- The loop of the other branch (lines 229-232) over the characters of the
word; returns the calls and the final `cx`. -/
def wrap_soft (x y : Int) (fg bg : Nat) : List Char → Int → Int → List TUI_Put × Int
  | [], cx, _ => ([], cx)
  | c :: cs, cx, cy =>
    let r := wrap_soft x y fg bg cs (cx + 1) cy
    ({ x := x + cx, y := y + cy, ch := c, fg := fg, bg := bg } :: r.1, r.2)

/-- The two branches on `wl > w` (lines 221-233) for the word `word` of `wl`
characters; returns the calls and the new `cx`, `cy`. -/
def wrap_word (x y w : Int) (fg bg : Nat) (wl : Nat) (word : List Char) (cx cy : Int) :
    List TUI_Put × Int × Int :=
  if (wl : Int) > w then wrap_hard x y w fg bg word cx cy
  else
    let brk : Bool := cx > 0 && cx + (wl : Int) > w
    let cx0 := if brk then 0 else cx
    let cy0 := if brk then cy + 1 else cy
    let q := wrap_soft x y fg bg word cx0 cy0
    (q.1, q.2, cy0)

/-- The test `if (s[i] == ' ')` after the word (lines 235-239), on the text from
the new index `i` on; returns the text from the next index on and the new `cx`,
`cy`. -/
def wrap_space (w : Int) (s : List Char) (cx cy : Int) : List Char × Int × Int :=
  match s with
  | ' ' :: rest => if cx + 1 ≥ w then (rest, 0, cy + 1) else (rest, cx + 1, cy)
  | rest => (rest, cx, cy)

/-- One iteration of the outer `while (s[i])` (lines 216-239), entered with
`s[i]` not NUL: `c :: cs` is the text from index `i` on. Returns the calls
issued, the text from the new `i` on, and the new `cx`, `cy`. -/
def wrap_step (x y w : Int) (fg bg : Nat) (c : Char) (cs : List Char) (cx cy : Int) :
    List TUI_Put × List Char × Int × Int :=
  if c = '\n' then ([], cs, 0, cy + 1)
  else
    let wl := word_len (c :: cs)
    let r := wrap_word x y w fg bg wl ((c :: cs).take wl) cx cy
    (r.1, wrap_space w ((c :: cs).drop wl) r.2.1 r.2.2)

/-- The outer loop `while (s[i])`. Every iteration consumes at least one
character (`wrap_step_length`), so `fuel = s.length` iterations are enough
(`wrap_loop_fuel`). -/
def wrap_loop (x y w : Int) (fg bg : Nat) :
    Nat → List Char → Int → Int → List TUI_Put × Int × Int
  | 0, _, cx, cy => ([], cx, cy)
  | _, [], cx, cy => ([], cx, cy)
  | fuel + 1, c :: cs, cx, cy =>
    if c = NUL then ([], cx, cy)
    else
      let st := wrap_step x y w fg bg c cs cx cy
      let r := wrap_loop x y w fg bg fuel st.2.1 st.2.2.1 st.2.2.2
      (st.1 ++ r.1, r.2)

/-- The calls of `tui_putc` that `tui_puts_wrap` issues, and its return value. -/
def tui_puts_wrap_calls (x y w : Int) (s : List Char) (fg bg : Nat) :
    List TUI_Put × Int :=
  if w ≤ 0 then ([], 0)
  else
    let r := wrap_loop x y w fg bg s.length s 0 0
    (r.1, r.2.2 + 1)

def tui_puts_wrap (t : TUI) (x y w : Int) (s : List Char) (fg bg : Nat) : TUI × Int :=
  let r := tui_puts_wrap_calls x y w s fg bg
  (tui_replay t r.1, r.2)

/-! ## Text input (`tui.h` 98-103, `tui.c` 422-492) -/

def TUI_INPUT_MAX : Nat := 256

/-- The member `text` is the whole buffer `char text[TUI_INPUT_MAX]`. -/
structure TUI_InputState where
  text : List Char
  cursor : Int
  scroll : Int
  max_len : Int
  deriving DecidableEq, Repr

/-- The C `strlen` on a buffer: undefined when the buffer holds no NUL. -/
def buf_strlen (buf : List Char) : Option Int :=
  if NUL ∈ buf then some ((cstr buf).length : Int) else none

/-- The call `memmove(buf + dst, buf + src, (size_t)n)` inside one buffer:
undefined when an offset is negative, when `n` is negative (a huge `size_t`), or
when either block leaves the buffer. -/
def buf_memmove (buf : List Char) (dst src n : Int) : Option (List Char) :=
  if 0 ≤ dst ∧ 0 ≤ src ∧ 0 ≤ n ∧ dst + n ≤ buf.length ∧ src + n ≤ buf.length then
    some (buf.take dst.toNat ++ (buf.drop src.toNat).take n.toNat
          ++ buf.drop (dst.toNat + n.toNat))
  else none

/-- The call `memcpy(buf + dst, src, (size_t)n)` from a C string `src`: undefined
when the destination block leaves the buffer or `n` exceeds the string. -/
def buf_memcpy (buf : List Char) (dst : Int) (src : List Char) (n : Int) :
    Option (List Char) :=
  if 0 ≤ dst ∧ 0 ≤ n ∧ dst + n ≤ buf.length ∧ n ≤ strlen src then
    some (buf.take dst.toNat ++ (cstr src).take n.toNat ++ buf.drop (dst.toNat + n.toNat))
  else none

def tui_input_init (max_len : Int) : TUI_InputState :=
  { text := List.replicate TUI_INPUT_MAX NUL, cursor := 0, scroll := 0,
    max_len := if max_len < TUI_INPUT_MAX then max_len else TUI_INPUT_MAX - 1 }

def tui_input_handle (s : TUI_InputState) (e : SDL_Event) :
    Option (Bool × TUI_InputState) :=
  match e with
  | .text_input txt => do
    let len ← buf_strlen s.text
    let add := strlen txt
    if len + add ≤ s.max_len then
      let b1 ← buf_memmove s.text (s.cursor + add) s.cursor (len - s.cursor + 1)
      let b2 ← buf_memcpy b1 s.cursor txt add
      pure (true, { s with text := b2, cursor := s.cursor + add })
    else pure (true, s)
  | .key_down key _ => do
    let len ← buf_strlen s.text
    if key = SDLK_BACKSPACE then
      if s.cursor > 0 then
        let b1 ← buf_memmove s.text (s.cursor - 1) s.cursor (len - s.cursor + 1)
        pure (true, { s with text := b1, cursor := s.cursor - 1 })
      else pure (true, s)
    else if key = SDLK_DELETE then
      if s.cursor < len then
        let b1 ← buf_memmove s.text s.cursor (s.cursor + 1) (len - s.cursor)
        pure (true, { s with text := b1 })
      else pure (true, s)
    else if key = SDLK_LEFT then
      pure (true, if s.cursor > 0 then { s with cursor := s.cursor - 1 } else s)
    else if key = SDLK_RIGHT then
      pure (true, if s.cursor < len then { s with cursor := s.cursor + 1 } else s)
    else if key = SDLK_HOME then pure (true, { s with cursor := 0 })
    else if key = SDLK_END then pure (true, { s with cursor := len })
    else pure (false, s)
  | _ => pure (false, s)

/-- The scroll adjustment of `tui_draw_input` (lines 435-437). -/
def input_scroll_adjust (inner : Int) (s : TUI_InputState) : TUI_InputState :=
  let s := if s.cursor < s.scroll then { s with scroll := s.cursor } else s
  let s := if s.cursor ≥ s.scroll + inner then { s with scroll := s.cursor - inner + 1 } else s
  if s.scroll < 0 then { s with scroll := 0 } else s

def tui_draw_input (t : TUI) (x y w : Int) (s : TUI_InputState) (focused : Bool)
    (fg bg cf cb : Nat) : Option (TUI × TUI_InputState) :=
  let inner := w - 2
  if inner < 1 then some (t, s)
  else
    let s := input_scroll_adjust inner s
    let t := tui_putc t x y '[' fg bg
    let t := tui_putc t (x + w - 1) y ']' fg bg
    do
      let slen ← buf_strlen s.text
      let t := (List.range inner.toNat).foldl (fun t i =>
        let ti := s.scroll + (i : Int)
        let ch := if ti < slen then s.text.getD ti.toNat ' ' else ' '
        let at_cur := focused && (ti == s.cursor) && t.blink_on
        tui_putc t (x + 1 + (i : Int)) y ch (if at_cur then cf else fg)
          (if at_cur then cb else bg)) t
      pure (t, s)

/-- Dispatch a sequence of events to a text field, in order. -/
def input_run (s : TUI_InputState) : List SDL_Event → Option TUI_InputState
  | [] => some s
  | e :: es => do
    let r ← tui_input_handle s e
    input_run r.2 es

/-- The representation invariant of a `TUI_InputState`, as `tui_input_init`
establishes it and every function of `tui.c` keeps it: the buffer has
`TUI_INPUT_MAX` bytes and holds a NUL (the text is a C string), and `max_len`
leaves room for the terminator. -/
def TUI_InputState.WF (s : TUI_InputState) : Prop :=
  s.text.length = TUI_INPUT_MAX ∧ NUL ∈ s.text ∧ s.max_len < TUI_INPUT_MAX

/-- The cursor lies inside the text: `0 ≤ cursor ≤ strlen(text)`. -/
def TUI_InputState.CursorOk (s : TUI_InputState) : Prop :=
  0 ≤ s.cursor ∧ s.cursor ≤ strlen s.text

instance (s : TUI_InputState) : Decidable s.WF := by
  unfold TUI_InputState.WF; infer_instance

instance (s : TUI_InputState) : Decidable s.CursorOk := by
  unfold TUI_InputState.CursorOk; infer_instance

/-- A sample field: the text "ab" in a buffer of `TUI_INPUT_MAX` bytes, the
cursor between the two characters, `max_len = 64`. -/
def input_sample : TUI_InputState :=
  { text := 'a' :: 'b' :: List.replicate 254 NUL, cursor := 1, scroll := 0, max_len := 64 }

/-- A small grid: 40 columns by 4 rows of blank cells. -/
def tui_sample : TUI :=
  { cell_w := 8, cell_h := 16, scale := 1, cols := 40, rows := 4,
    cells := List.replicate 160 { ch := ' ', fg := 7, bg := 0 },
    running := true, blink_ms := 0, blink_on := true }

/-- A character that ends the scan of a word: NUL, space or newline. -/
def isStop (c : Char) : Prop := c = NUL ∨ c = ' ' ∨ c = '\n'

instance (c : Char) : Decidable (isStop c) := by unfold isStop; infer_instance

/-- Row-major order on the positions of two calls: an earlier row, or the same
row and an earlier column. -/
def PutLt (a b : TUI_Put) : Prop := a.y < b.y ∨ (a.y = b.y ∧ a.x < b.x)

/-- The call `c` lies strictly before the position `(cx, cy)` of the block placed
at `(x, y)`, in row-major order. -/
def PutBefore (x y cx cy : Int) (c : TUI_Put) : Prop :=
  c.y < y + cy ∨ (c.y = y + cy ∧ c.x < x + cx)

/-- The call `c` lies at the position `(cx, cy)` of the block placed at `(x, y)`
or after it, in row-major order. -/
def PutFrom (x y cx cy : Int) (c : TUI_Put) : Prop :=
  y + cy < c.y ∨ (c.y = y + cy ∧ x + cx ≤ c.x)

/-- Row-major order on two positions `(cx, cy)` and `(cx1, cy1)`. -/
def PosLe (cx cy cx1 cy1 : Int) : Prop := cy < cy1 ∨ (cy = cy1 ∧ cx ≤ cx1)

/-- What a piece of the wrap loop that runs from the position `(cx, cy)` to the
position `(cx1, cy1)` guarantees about its calls: they lie in the columns
`[x, x + w)`, between the two positions, and in strictly increasing row-major
order. -/
def WrapOk (x y w cx cy : Int) (calls : List TUI_Put) (cx1 cy1 : Int) : Prop :=
  0 ≤ cx1 ∧ PosLe cx cy cx1 cy1 ∧
  (∀ c ∈ calls, x ≤ c.x ∧ c.x < x + w ∧ PutFrom x y cx cy c ∧ PutBefore x y cx1 cy1 c) ∧
  calls.Pairwise PutLt

/-- The text `pre` can stand before a word: it holds no NUL, and it is empty or
ends with a space or a newline. -/
def WordBoundary (pre : List Char) : Prop :=
  NUL ∉ pre ∧ (pre = [] ∨ ∃ p c, pre = p ++ [c] ∧ (c = ' ' ∨ c = '\n'))

/-- The text `post` can stand after a word: it is empty or starts with a space, a
newline or a NUL. -/
def WordEnd (post : List Char) : Prop :=
  post = [] ∨ ∃ c rest, post = c :: rest ∧ isStop c

/-- The values `(cx, cy)` with which the loop of `tui_puts_wrap` reaches the end
of `pre`, from `cx = cy = 0`. -/
def wrap_pos (x y w : Int) (fg bg : Nat) (pre : List Char) : Int × Int :=
  (wrap_loop x y w fg bg pre.length pre 0 0).2

/-- The calls that write the characters of `word`, the one of index `j` (counted
from `j0`) at column `x + col j` and row `y + row j`. -/
def puts_at (x y : Int) (fg bg : Nat) (col row : Nat → Int) : Nat → List Char → List TUI_Put
  | _, [] => []
  | j0, c :: cs =>
    { x := x + col j0, y := y + row j0, ch := c, fg := fg, bg := bg }
      :: puts_at x y fg bg col row (j0 + 1) cs

/-- The statement of the hard-break claim for the word whose characters are the
calls of index `n0`, ..., `n0 + len - 1`: chunks of exactly `w` characters on
consecutive lines, that is, for some first line `r0` the character of index `j` is
on line `r0 + j / w`. -/
def HardBrokenInChunks (w : Int) (calls : List TUI_Put) (n0 len : Nat) : Prop :=
  ∃ r0 : Int, ∀ j < len, (calls[n0 + j]?).map (fun c => c.y) = some (r0 + (j : Int) / w)

/-- The newline-separated pieces of a text (empty pieces included). -/
def lines_of : List Char → List (List Char)
  | [] => [[]]
  | c :: cs =>
    if c = '\n' then [] :: lines_of cs
    else match lines_of cs with
      | [] => [[c]]
      | l :: ls => (c :: l) :: ls

/-- The calls that write each piece of `ls` from column `x` on, on consecutive
rows from `y + row` on. -/
def lines_puts (x y : Int) (fg bg : Nat) : Int → List (List Char) → List TUI_Put
  | _, [] => []
  | row, l :: ls =>
    puts_at x y fg bg (fun j => (j : Int)) (fun _ => row) 0 l
      ++ lines_puts x y fg bg (row + 1) ls

/-- Dispatch a sequence of events to a modal, in order. -/
def modal_run (count : Int) (s : TUI_ModalState) (es : List SDL_Event) : TUI_ModalState :=
  es.foldl (fun st e => (tui_modal_handle st e count).2) s

/-- A field whose text "abc" was cleared from outside by `text[0] = 0` alone: the
cursor still stands at 3. -/
def input_cleared : TUI_InputState :=
  { text := NUL :: 'b' :: 'c' :: List.replicate 253 NUL, cursor := 3, scroll := 0,
    max_len := 64 }

/-! ## Palette indices (`tui.h` 11-17) -/

def TUI_BLACK : Nat := 0
def TUI_RED : Nat := 1
def TUI_GREEN : Nat := 2
def TUI_YELLOW : Nat := 3
def TUI_BLUE : Nat := 4
def TUI_MAGENTA : Nat := 5
def TUI_CYAN : Nat := 6
def TUI_WHITE : Nat := 7
def TUI_BRIGHT_BLACK : Nat := 8
def TUI_BRIGHT_RED : Nat := 9
def TUI_BRIGHT_GREEN : Nat := 10
def TUI_BRIGHT_YELLOW : Nat := 11
def TUI_BRIGHT_BLUE : Nat := 12
def TUI_BRIGHT_MAGENTA : Nat := 13
def TUI_BRIGHT_CYAN : Nat := 14
def TUI_BRIGHT_WHITE : Nat := 15
def TUI_PALETTE_SIZE : Nat := 16

/-! ## Terminal log (`main.c` 8-87) -/

def TERM_MAX_LINES : Nat := 200
def TERM_LINE_MAX : Nat := 256

/-- The string that `snprintf(buf, size, fmt, ...)` leaves in `buf`, `out` being the
whole formatted text: its first `size - 1` characters. -/
def snprintf (size : Nat) (out : List Char) : List Char := out.take (size - 1)

/-- The conversion `%2d` of a small non-negative number: decimal digits, padded
with spaces on the left to two characters. -/
def fmt_2d (i : Nat) : List Char :=
  List.replicate (2 - (Nat.repr i).length) ' ' ++ (Nat.repr i).toList

/-- The state `TermState` of `main.c`. A row `lines[i]` (256 bytes, always written
by `snprintf`, always read as a string) is the C string it holds. -/
structure TermState where
  lines : List (List Char)
  colors : List Nat
  count : Int
  scroll : Int
  input : TUI_InputState
  deriving DecidableEq, Repr

def term_init : TermState :=
  { lines := List.replicate TERM_MAX_LINES [], colors := List.replicate TERM_MAX_LINES 0,
    count := 0, scroll := 0, input := tui_input_init (TERM_LINE_MAX - 1) }

/-- The call `memmove(a + dst, a + src, n)` on an array, counted in elements. -/
def arr_memmove {α : Type} (a : List α) (dst src n : Nat) : List α :=
  a.take dst ++ (a.drop src).take n ++ a.drop (dst + n)

/-- Undefined when the row index `ts->count` is negative. -/
def term_print (ts : TermState) (msg : List Char) (fg : Nat) : Option TermState :=
  let ts :=
    if ts.count ≥ TERM_MAX_LINES then
      { ts with lines := arr_memmove ts.lines 0 1 (TERM_MAX_LINES - 1),
                colors := arr_memmove ts.colors 0 1 (TERM_MAX_LINES - 1),
                count := ((TERM_MAX_LINES - 1 : Nat) : Int) }
    else ts
  if ts.count < 0 then none
  else
    some { ts with lines := ts.lines.set ts.count.toNat (snprintf TERM_LINE_MAX (cstr msg)),
                   colors := ts.colors.set ts.count.toNat fg,
                   count := ts.count + 1 }

/-- The command `term_exec` of `main.c`; `ticks` is the value of `SDL_GetTicks()`.
Undefined when the input buffer holds no NUL. -/
def term_exec (ts : TermState) (ticks : Nat) : Option TermState :=
  if NUL ∉ ts.input.text then none
  else
    let cmd := cstr ts.input.text
    do
      let ts ←
        if cmd = "clear".toList then
          pure { ts with count := 0, scroll := 0 }
        else do
          let prompt := snprintf TERM_LINE_MAX ("> ".toList ++ cmd)
          let ts ← term_print ts prompt TUI_GREEN
          let ts ←
            if cmd = "help".toList then do
              let ts ← term_print ts "Commands:".toList TUI_CYAN
              let ts ← term_print ts "  help    - Show this help".toList TUI_CYAN
              let ts ← term_print ts "  echo    - Echo text  (echo <msg>)".toList TUI_CYAN
              let ts ← term_print ts "  clear   - Clear terminal".toList TUI_CYAN
              let ts ← term_print ts "  time    - Show SDL ticks".toList TUI_CYAN
              let ts ← term_print ts "  hello   - Greeting".toList TUI_CYAN
              let ts ← term_print ts "  colors  - Show palette".toList TUI_CYAN
              term_print ts "  version - Version info".toList TUI_CYAN
            else if cmd.take 5 = "echo ".toList then
              term_print ts (cmd.drop 5) TUI_WHITE
            else if cmd = "hello".toList then
              term_print ts "Hello, World!".toList TUI_YELLOW
            else if cmd = "time".toList then
              term_print ts (snprintf 64 ("Ticks: ".toList ++ (Nat.repr ticks).toList)) TUI_WHITE
            else if cmd = "colors".toList then
              (List.range TUI_PALETTE_SIZE).foldlM (fun ts i =>
                term_print ts
                  (snprintf 32 ("  Color ".toList ++ fmt_2d i ++ " ########".toList)) i) ts
            else if cmd = "version".toList then
              term_print ts "TUI Demo v1.0".toList TUI_BRIGHT_MAGENTA
            else if cmd ≠ [] then
              term_print ts (snprintf TERM_LINE_MAX ("Unknown command: ".toList ++ cmd))
                TUI_BRIGHT_RED
            else pure ts
          pure { ts with scroll := 0 }
      pure { ts with input := { ts.input with text := ts.input.text.set 0 NUL,
                                              cursor := 0, scroll := 0 } }

/-- Append a sequence of lines to the log with `term_print`, in order. -/
def term_prints (ts : TermState) : List (List Char × Nat) → Option TermState
  | [] => some ts
  | p :: ps => do
    let ts1 ← term_print ts p.1 p.2
    term_prints ts1 ps

/-- The lines that the log holds, with their colours: the first `count` rows. -/
def log_lines (ts : TermState) : List (List Char × Nat) :=
  (ts.lines.zip ts.colors).take ts.count.toNat

/-- The last `n` elements of a list (the whole list when it has fewer). -/
def keep_last {α : Type} (n : Nat) (l : List α) : List α := l.drop (l.length - n)

/-- The representation invariant of a `TermState`, as `term_init` establishes it and
`term_print` and `term_exec` keep it: 200 rows and colours, `0 ≤ count ≤ 200`, and a
well-formed input field. -/
def TermState.WF (ts : TermState) : Prop :=
  ts.lines.length = TERM_MAX_LINES ∧ ts.colors.length = TERM_MAX_LINES ∧
  0 ≤ ts.count ∧ ts.count ≤ TERM_MAX_LINES ∧ ts.input.WF

instance (ts : TermState) : Decidable ts.WF := by
  unfold TermState.WF; infer_instance

/-- The lines that a command other than `clear` prints after the echoed prompt. -/
def term_outputs (cmd : List Char) (ticks : Nat) : List (List Char × Nat) :=
  if cmd = "help".toList then
    [("Commands:".toList, TUI_CYAN),
     ("  help    - Show this help".toList, TUI_CYAN),
     ("  echo    - Echo text  (echo <msg>)".toList, TUI_CYAN),
     ("  clear   - Clear terminal".toList, TUI_CYAN),
     ("  time    - Show SDL ticks".toList, TUI_CYAN),
     ("  hello   - Greeting".toList, TUI_CYAN),
     ("  colors  - Show palette".toList, TUI_CYAN),
     ("  version - Version info".toList, TUI_CYAN)]
  else if cmd.take 5 = "echo ".toList then [(cmd.drop 5, TUI_WHITE)]
  else if cmd = "hello".toList then [("Hello, World!".toList, TUI_YELLOW)]
  else if cmd = "time".toList then
    [(snprintf 64 ("Ticks: ".toList ++ (Nat.repr ticks).toList), TUI_WHITE)]
  else if cmd = "colors".toList then
    (List.range TUI_PALETTE_SIZE).map (fun i =>
      (snprintf 32 ("  Color ".toList ++ fmt_2d i ++ " ########".toList), i))
  else if cmd = "version".toList then [("TUI Demo v1.0".toList, TUI_BRIGHT_MAGENTA)]
  else if cmd ≠ [] then
    [(snprintf TERM_LINE_MAX ("Unknown command: ".toList ++ cmd), TUI_BRIGHT_RED)]
  else []

/-- An input field that holds the text `cmd` (shorter than the buffer). -/
def input_with (cmd : List Char) : TUI_InputState :=
  { text := cmd ++ List.replicate (TUI_INPUT_MAX - cmd.length) NUL,
    cursor := (cmd.length : Int), scroll := 0, max_len := 255 }

/-- The end of `term_exec` (lines 81-86): the view scroll and the input field are
reset. -/
def term_exec_end (ts : TermState) : TermState :=
  { ts with scroll := 0,
            input := { ts.input with text := ts.input.text.set 0 NUL, cursor := 0, scroll := 0 } }

/-- A sequence of 201 lines: one more than the log holds. -/
def term_lines_sample : List (List Char × Nat) :=
  (['x'], TUI_RED) :: List.replicate TERM_MAX_LINES (['a'], TUI_WHITE)

/-- The terminal right after `term_init`, with `echo hi` typed in the input field. -/
def term_echo_sample : TermState :=
  { term_init with input := input_with "echo hi".toList }

/-- The terminal right after `term_init`, with `echo ` and 249 letters `a` typed in the
input field: a command of 254 characters. -/
def term_long_echo : TermState :=
  { term_init with input := input_with ("echo ".toList ++ List.replicate 249 'a') }

/-- A terminal whose log holds one line and whose input field holds `clear`. -/
def term_clear_sample : TermState :=
  { lines := "old".toList :: List.replicate (TERM_MAX_LINES - 1) [],
    colors := TUI_WHITE :: List.replicate (TERM_MAX_LINES - 1) 0,
    count := 1, scroll := 3, input := input_with "clear".toList }

/-- A terminal scrolled up by two lines, with `help` typed in the input field. -/
def term_help_sample : TermState :=
  { lines := "old".toList :: List.replicate (TERM_MAX_LINES - 1) [],
    colors := TUI_WHITE :: List.replicate (TERM_MAX_LINES - 1) 0,
    count := 1, scroll := 2, input := input_with "help".toList }

/-! ## Table (`tui.c` 204-208, 244-248, 361-418) -/

def TUI_TABLE_MAX_COLS : Nat := 16

/-- The calls of `tui_puts`: `tui_putc(t, x + i, y, s[i], fg, bg)` for every index
`i` before the terminator of `s`. -/
def tui_puts_calls (x y : Int) (s : List Char) (fg bg : Nat) : List TUI_Put :=
  (List.range (cstr s).length).map
    (fun (i : Nat) => { x := x + (i : Int), y := y, ch := s.getD i NUL, fg := fg, bg := bg })

/-- The calls of `tui_hline`: `tui_putc(t, x + i, y, ch, fg, bg)` for `0 ≤ i < w`. -/
def tui_hline_calls (x y w : Int) (ch : Char) (fg bg : Nat) : List TUI_Put :=
  (List.range w.toNat).map
    (fun (i : Nat) => { x := x + (i : Int), y := y, ch := ch, fg := fg, bg := bg })

/-- The loop of `tbl_sep` from the running column `cx`, over the widths `w[c]`,
`c < cc`, that are left. -/
def tbl_sep_cols (y : Int) (fg bg : Nat) : Int → List Int → List TUI_Put
  | _, [] => []
  | cx, w :: ws =>
    tui_hline_calls cx y (w + 2) '-' fg bg
      ++ { x := cx + (w + 2), y := y, ch := '+', fg := fg, bg := bg }
        :: tbl_sep_cols y fg bg (cx + (w + 2) + 1) ws

/-- The calls of `tbl_sep`; the array `w` with its count `cc` is the list of its
first `cc` entries. -/
def tbl_sep (x y : Int) (w : List Int) (fg bg : Nat) : List TUI_Put :=
  { x := x, y := y, ch := '+', fg := fg, bg := bg } :: tbl_sep_cols y fg bg (x + 1) w

/-- The loop of `tbl_row` from the running column `cx`, over the widths and the
cell texts that are left; it runs as long as there are widths. -/
def tbl_row_cols (y : Int) (fg bg bfg : Nat) : Int → List Int → List (List Char) → List TUI_Put
  | cx, w :: ws, s :: cells =>
    { x := cx, y := y, ch := ' ', fg := fg, bg := bg }
      :: (tui_puts_calls (cx + 1) y s fg bg
        ++ (List.range (w - strlen s).toNat).map
            (fun (k : Nat) =>
              { x := cx + 1 + (strlen s + (k : Int)), y := y, ch := ' ', fg := fg, bg := bg })
        ++ { x := cx + 1 + w, y := y, ch := ' ', fg := fg, bg := bg }
          :: { x := cx + 1 + w + 1, y := y, ch := '|', fg := bfg, bg := bg }
            :: tbl_row_cols y fg bg bfg (cx + 1 + w + 1 + 1) ws cells)
  | _, _, _ => []

/-- The calls of `tbl_row`; `cells` points at the texts of the row, of which the
first `cc` are read. -/
def tbl_row (x y : Int) (w : List Int) (cells : List (List Char)) (fg bg bfg : Nat) :
    List TUI_Put :=
  { x := x, y := y, ch := '|', fg := bfg, bg := bg } :: tbl_row_cols y fg bg bfg (x + 1) w cells

/-- The width that `tui_draw_table` computes for column `c` when no widths are
given: the header length, raised by every longer `data[r * cc + c]`. -/
def table_width (cc row_count : Nat) (headers data : List (List Char)) (c : Nat) : Int :=
  (List.range row_count).foldl
    (fun w r =>
      let l := strlen (data.getD (r * cc + c) [])
      if l > w then l else w)
    (strlen (headers.getD c []))

/-- The calls of `tui_draw_table` and its return value. Undefined when a read of
`headers`, `data` or `col_widths` would leave the array. -/
def tui_draw_table_calls (x y col_count row_count : Int) (headers data : List (List Char))
    (col_widths : Option (List Int)) (fg bg hdr_fg hdr_bg : Nat) :
    Option (List TUI_Put × Int) :=
  let cc : Int := if col_count < TUI_TABLE_MAX_COLS then col_count else TUI_TABLE_MAX_COLS
  let n := cc.toNat
  let rows := row_count.toNat
  if n ≤ headers.length ∧ rows * n ≤ data.length ∧
      (∀ cw, col_widths = some cw → n ≤ cw.length) then
    let widths : List Int := (List.range n).map (fun c =>
      match col_widths with
      | some cw => cw.getD c 0
      | none => table_width n rows headers data c)
    some
      (tbl_sep x y widths fg bg
        ++ tbl_row x (y + 1) widths headers hdr_fg hdr_bg fg
        ++ tbl_sep x (y + 2) widths fg bg
        ++ ((List.range rows).map (fun (r : Nat) =>
              tbl_row x (y + 3 + (r : Int)) widths (data.drop (r * n)) fg bg fg)).flatten
        ++ tbl_sep x (y + 3 + (rows : Int)) widths fg bg,
       4 + (rows : Int))
  else none

def tui_draw_table (t : TUI) (x y col_count row_count : Int) (headers data : List (List Char))
    (col_widths : Option (List Int)) (fg bg hdr_fg hdr_bg : Nat) : Option (TUI × Int) :=
  (tui_draw_table_calls x y col_count row_count headers data col_widths fg bg hdr_fg hdr_bg).map
    (fun r => (tui_replay t r.1, r.2))

/-! ## Reading the grid -/

/-- The cell buffer holds `cols * rows` cells. -/
def TUI.GridOk (t : TUI) : Prop :=
  0 ≤ t.cols ∧ 0 ≤ t.rows ∧ (t.cells.length : Int) = t.cols * t.rows

/-- The cell at column `x` of row `y`: `cells[y * cols + x]` for a position inside
the grid. -/
def tui_cell (t : TUI) (x y : Int) : Option TUI_Cell :=
  if x < 0 ∨ x ≥ t.cols ∨ y < 0 ∨ y ≥ t.rows then none
  else t.cells[(y * t.cols + x).toNat]?

instance (t : TUI) : Decidable t.GridOk := by
  unfold TUI.GridOk; infer_instance

/-- The distance from the left border of a table to the border after its first `c`
columns: a column takes its width, two spaces and one border. -/
def tbl_border (ws : List Int) (c : Nat) : Int := ((ws.take c).map (fun w => w + 3)).sum

/-- The calls `l` all write in row `y`, in the columns `[lo, hi)` and from left to
right. -/
def RowSeg (y lo hi : Int) (l : List TUI_Put) : Prop :=
  (∀ q ∈ l, q.y = y ∧ lo ≤ q.x ∧ q.x < hi) ∧ l.Pairwise (fun a b => a.x < b.x)

/-- The calls `l` all write in the rows `[lo, hi)`, in strictly increasing row-major
order. -/
def RowBand (lo hi : Int) (l : List TUI_Put) : Prop :=
  (∀ q ∈ l, lo ≤ q.y ∧ q.y < hi) ∧ l.Pairwise PutLt

/-- The headers of a table of two columns. -/
def table_headers_sample : List (List Char) := ["ab".toList, "c".toList]

/-- The cells of a table of two columns and one row. -/
def table_data_sample : List (List Char) := ["x".toList, "yyyy".toList]

/-- The cells of the table made of the first `n` columns of every row of `data`, a
row-major table of `row_count` rows of `col_count` cells. -/
def table_first_cols (n col_count row_count : Nat) (data : List (List Char)) :
    List (List Char) :=
  ((List.range row_count).map (fun (r : Nat) => (data.drop (r * col_count)).take n)).flatten

/-- The headers of a table of 17 columns. -/
def table17_headers : List (List Char) := "01234567890123456".toList.map (fun c => [c])

/-- The cells of a table of 17 columns and 2 rows: the letters `a` to `q`, then the
letters `A` to `Q`. -/
def table17_data : List (List Char) :=
  "abcdefghijklmnopqABCDEFGHIJKLMNOPQ".toList.map (fun c => [c])

/-- A grid of 8 columns and 6 rows. -/
def table_grid_sample : TUI :=
  { cell_w := 8, cell_h := 16, scale := 1, cols := 8, rows := 6,
    cells := List.replicate 48 { ch := ' ', fg := 7, bg := 0 },
    running := true, blink_ms := 0, blink_on := true }

/-! ## Grid size, zoom scale and frame start (`tui.c` 60-74, 128-152, 191-196) -/

/-- The function `resize_grid`; `w` and `h` are what `SDL_GetWindowSize` reports. The
division truncates toward zero as in C and is undefined for a divisor 0. The new
buffer is the zeroed one of `calloc`, which is taken to succeed. -/
def resize_grid (t : TUI) (w h : Int) : Option TUI :=
  if t.cell_w * t.scale = 0 ∨ t.cell_h * t.scale = 0 then none
  else
    let nc := w.tdiv (t.cell_w * t.scale)
    let nr := h.tdiv (t.cell_h * t.scale)
    let nc := if nc < 1 then 1 else nc
    let nr := if nr < 1 then 1 else nr
    if nc ≠ t.cols ∨ nr ≠ t.rows then
      some { t with cols := nc, rows := nr,
                    cells := List.replicate (nc * nr).toNat { ch := NUL, fg := 0, bg := 0 } }
    else some t

/-- The largest value of a C `int` (32 bits). -/
def INT_MAX : Int := 2147483647

/-- The smallest value of a C `int` (32 bits). -/
def INT_MIN : Int := -2147483648

/-- The product `a * b` of two `int` values. A product outside the range of `int`
is a signed overflow, which is undefined behaviour in C: `none`. -/
def int_mul (a b : Int) : Option Int :=
  if INT_MIN ≤ a * b ∧ a * b ≤ INT_MAX then some (a * b) else none

/-- The function `tui_set_scale`; `w` and `h` are what `SDL_GetWindowSize` reports.
The divisors `t->cell_w * scale` and `t->cell_h * scale` are products of `int`
(`int_mul`): one that does not fit an `int` is undefined behaviour, as a divisor 0
is. (A build that wraps the product modulo `2 ^ 32` divides by the wrapped value:
with `cell_w = 8` that is 8 for the scale `2 ^ 29 + 1`, and 0 for the scale
`2 ^ 29`.) When the request is accepted, `resize_grid` computes the same two
products again. -/
def tui_set_scale (t : TUI) (w h : Int) (scale : Int) : Option TUI := do
  let scale := if scale < 1 then 1 else scale
  let dw ← int_mul t.cell_w scale
  let dh ← int_mul t.cell_h scale
  if dw = 0 ∨ dh = 0 then none
  else
    let nc := w.tdiv dw
    let nr := h.tdiv dh
    if nc < 20 ∨ nr < 8 then some t
    else resize_grid { t with scale := scale } w h

/-- The function `tui_clear`: undefined when the buffer has fewer than `cols * rows`
cells. -/
def tui_clear (t : TUI) (bg : Nat) : Option TUI :=
  let n := (t.cols * t.rows).toNat
  if n ≤ t.cells.length then
    some { t with cells := List.replicate n { ch := ' ', fg := TUI_WHITE, bg := bg }
                            ++ t.cells.drop n }
  else none

/-- The function `tui_begin`; `now` is the value of `SDL_GetTicks()`, and the
difference `now - t->blink_ms` is taken in `uint64_t`. -/
def tui_begin (t : TUI) (w h : Int) (now : Nat) : Option TUI := do
  let t ← resize_grid t w h
  let t ← tui_clear t TUI_BLACK
  if (now + 2 ^ 64 - t.blink_ms) % 2 ^ 64 ≥ 500 then
    pure { t with blink_on := !t.blink_on, blink_ms := now }
  else pure t

/-- A sequence of frames, each started by `tui_begin` with its window size and clock
reading; returns the last state and the clock readings of the frames in which
`blink_on` flipped, in order. -/
def begin_run (t : TUI) : List (Int × Int × Nat) → Option (TUI × List Nat)
  | [] => some (t, [])
  | f :: fs => do
    let t1 ← tui_begin t f.1 f.2.1 f.2.2
    let r ← begin_run t1 fs
    pure (r.1, if t1.blink_on ≠ t.blink_on then f.2.2 :: r.2 else r.2)

/-! ## Drawing primitives as call sequences (`tui.c` 204-208, 244-275) -/

/-- The calls of `tui_vline`: `tui_putc(t, x, y + i, ch, fg, bg)` for `0 ≤ i < h`. -/
def tui_vline_calls (x y h : Int) (ch : Char) (fg bg : Nat) : List TUI_Put :=
  (List.range h.toNat).map
    (fun (i : Nat) => { x := x, y := y + (i : Int), ch := ch, fg := fg, bg := bg })

/-- The calls of `tui_fill`: row by row, each row from left to right. -/
def tui_fill_calls (x y w h : Int) (ch : Char) (fg bg : Nat) : List TUI_Put :=
  ((List.range h.toNat).map (fun (r : Nat) =>
    (List.range w.toNat).map
      (fun (c : Nat) =>
        ({ x := x + (c : Int), y := y + (r : Int), ch := ch, fg := fg, bg := bg } : TUI_Put)))).flatten

/-- The calls of `tui_box`: the four corners, the two horizontal lines, the two
vertical lines. -/
def tui_box_calls (x y w h : Int) (fg bg : Nat) : List TUI_Put :=
  if w < 2 ∨ h < 2 then []
  else
    [{ x := x, y := y, ch := '+', fg := fg, bg := bg },
     { x := x + w - 1, y := y, ch := '+', fg := fg, bg := bg },
     { x := x, y := y + h - 1, ch := '+', fg := fg, bg := bg },
     { x := x + w - 1, y := y + h - 1, ch := '+', fg := fg, bg := bg }]
    ++ tui_hline_calls (x + 1) y (w - 2) '-' fg bg
    ++ tui_hline_calls (x + 1) (y + h - 1) (w - 2) '-' fg bg
    ++ tui_vline_calls x (y + 1) (h - 2) '|' fg bg
    ++ tui_vline_calls (x + w - 1) (y + 1) (h - 2) '|' fg bg

def tui_puts (t : TUI) (x y : Int) (s : List Char) (fg bg : Nat) : TUI :=
  tui_replay t (tui_puts_calls x y s fg bg)

def tui_hline (t : TUI) (x y w : Int) (ch : Char) (fg bg : Nat) : TUI :=
  tui_replay t (tui_hline_calls x y w ch fg bg)

def tui_vline (t : TUI) (x y h : Int) (ch : Char) (fg bg : Nat) : TUI :=
  tui_replay t (tui_vline_calls x y h ch fg bg)

def tui_fill (t : TUI) (x y w h : Int) (ch : Char) (fg bg : Nat) : TUI :=
  tui_replay t (tui_fill_calls x y w h ch fg bg)

def tui_box (t : TUI) (x y w h : Int) (fg bg : Nat) : TUI :=
  tui_replay t (tui_box_calls x y w h fg bg)

/-! ## Terminal pane (`main.c` 89-137) -/

/-- The inner loop of `term_draw` for the visible row `i`, which shows the stored
line `line` in the colour `color`: `for (c = 0; c < max_chars && lines[li][c]; c++)`. -/
def term_line_calls (x y w : Int) (i : Nat) (line : List Char) (color : Nat) : List TUI_Put :=
  (List.range (min (w - 2).toNat (cstr line).length)).map
    (fun (c : Nat) =>
      { x := x + 1 + (c : Int), y := y + 1 + (i : Int), ch := line.getD c NUL,
        fg := color, bg := TUI_BLACK })

/-- The loop of `term_draw` over the visible rows `i < vis`, row `i` showing the line
of index `first + i`. Undefined when a displayed line index leaves the arrays `lines`
and `colors`. -/
def term_draw_lines (t : TUI) (ts : TermState) (x y w vis first : Int) : Option TUI :=
  (List.range vis.toNat).foldlM (fun t (i : Nat) =>
    let li := first + (i : Int)
    if li ≥ 0 ∧ li < ts.count then
      if li.toNat < ts.lines.length ∧ li.toNat < ts.colors.length then
        some (tui_replay t (term_line_calls x y w i (ts.lines.getD li.toNat [])
          (ts.colors.getD li.toNat 0)))
      else none
    else some t) t

/-- The clamp of the scroll offset in `term_draw` (lines 105-107). -/
def term_scroll_clamp (ts : TermState) (vis : Int) : TermState :=
  let max_scroll := if ts.count > vis then ts.count - vis else 0
  let ts := if ts.scroll > max_scroll then { ts with scroll := max_scroll } else ts
  if ts.scroll < 0 then { ts with scroll := 0 } else ts

/-- The function `term_draw`. Undefined when `term_draw_lines` is, or when the input
buffer holds no NUL. -/
def term_draw (t : TUI) (ts : TermState) (x y w h : Int) (focused : Bool) :
    Option (TUI × TermState) :=
  if h < 6 ∨ w < 10 then some (t, ts)
  else
    let t := tui_fill t x y w h ' ' TUI_WHITE TUI_BLACK
    let t := tui_box t x y w h TUI_BRIGHT_BLACK TUI_BLACK
    let title := " Terminal ".toList
    let tl := strlen title
    let t := tui_puts t (x + (w - tl).tdiv 2) y title TUI_BRIGHT_WHITE TUI_BLACK
    let vis := h - 4
    let max_scroll := if ts.count > vis then ts.count - vis else 0
    let ts := term_scroll_clamp ts vis
    let first := ts.count - vis - ts.scroll
    let first := if first < 0 then 0 else first
    do
      let t ← term_draw_lines t ts x y w vis first
      let t := if ts.scroll < max_scroll ∧ max_scroll > 0 then
          tui_putc t (x + w - 2) (y + 1) '^' TUI_YELLOW TUI_BLACK else t
      let t := if ts.scroll > 0 then
          tui_putc t (x + w - 2) (y + h - 4) 'v' TUI_YELLOW TUI_BLACK else t
      let t := tui_hline t (x + 1) (y + h - 3) (w - 2) '-' TUI_BRIGHT_BLACK TUI_BLACK
      let t := tui_puts t (x + 1) (y + h - 2) "> ".toList TUI_GREEN TUI_BLACK
      let iw := w - 5
      if iw > 2 then do
        let r ← tui_draw_input t (x + 3) (y + h - 2) iw ts.input focused
          TUI_WHITE TUI_BLACK TUI_BLACK TUI_WHITE
        pure (r.1, { ts with input := r.2 })
      else pure (t, ts)

/-- A terminal state whose scroll offset was pushed to 50 by page-up events, over a
log of two lines. -/
def term_scrolled_sample : TermState :=
  { lines := "one".toList :: "two".toList :: List.replicate (TERM_MAX_LINES - 2) [],
    colors := List.replicate TERM_MAX_LINES TUI_WHITE,
    count := 2, scroll := 50, input := tui_input_init (TERM_LINE_MAX - 1) }

/-! ## The event dispatch of the demo application (`main.c` 139-145, 153-290) -/

def SDLK_EQUALS : Nat := 0x0000003d
def SDLK_MINUS : Nat := 0x0000002d
def SDLK_KP_MINUS : Nat := 0x40000056
def SDLK_KP_PLUS : Nat := 0x40000057
def SDLK_PAGEUP : Nat := 0x4000004b
def SDLK_PAGEDOWN : Nat := 0x4000004e

def TAB_GENERAL : Int := 0
def TAB_TABLE : Int := 1
def TAB_TERMINAL : Int := 2
def TAB_ABOUT : Int := 3
def TAB_COUNT : Int := 4

/-- The local variables of `main` that the event loop reads and writes;
`text_input` says whether SDL text input is started on the window
(`tui_text_input_start`, `tui_text_input_stop`). -/
structure AppState where
  t : TUI
  text_input : Bool
  tab_menu : TUI_MenuState
  inp_name : TUI_InputState
  inp_email : TUI_InputState
  act_menu : TUI_MenuState
  modal : TUI_ModalState
  term : TermState
  on_tabs : Bool
  field : Int
  deriving DecidableEq, Repr

/-- The test `e.type == SDL_EVENT_KEY_DOWN && e.key.key == k`. -/
def isKey (e : SDL_Event) (k : Nat) : Bool :=
  match e with
  | .key_down key _ => key == k
  | _ => false

/-- The member `e.key.mod` of a key-down event. -/
def keyMod (e : SDL_Event) : Nat :=
  match e with
  | .key_down _ mod => mod
  | _ => 0

def sync_text_input (st : AppState) (tab field : Int) : AppState :=
  { st with text_input := decide ((tab = 0 ∧ field < 2) ∨ tab = 2) }

/-- The case `TAB_GENERAL` of the switch on the selected tab. -/
def app_general (st : AppState) (e : SDL_Event) : Option AppState :=
  if st.field = 0 then do
    let r ← tui_input_handle st.inp_name e
    let st := { st with inp_name := r.2 }
    if !r.1 && isKey e SDLK_TAB then
      let field : Int := if keyMod e &&& SDL_KMOD_SHIFT ≠ 0 then 2 else 1
      pure (sync_text_input { st with field := field } TAB_GENERAL field)
    else pure st
  else if st.field = 1 then do
    let r ← tui_input_handle st.inp_email e
    let st := { st with inp_email := r.2 }
    if !r.1 && isKey e SDLK_TAB then
      let field : Int := if keyMod e &&& SDL_KMOD_SHIFT ≠ 0 then 0 else 2
      pure (sync_text_input { st with field := field } TAB_GENERAL field)
    else pure st
  else if isKey e SDLK_TAB then
    let field : Int := if keyMod e &&& SDL_KMOD_SHIFT ≠ 0 then 1 else 0
    pure (sync_text_input { st with field := field } TAB_GENERAL field)
  else
    let am := (tui_menu_handle st.act_menu e 3 false).2
    let st := { st with act_menu := am }
    if am.confirmed ≥ 0 then pure { st with modal := tui_modal_open true } else pure st

/-- The case `TAB_TERMINAL` of the switch on the selected tab; `ticks` is the value
of `SDL_GetTicks()` that `term_exec` reads. -/
def app_terminal (st : AppState) (e : SDL_Event) (ticks : Nat) : Option AppState :=
  if isKey e SDLK_RETURN || isKey e SDLK_KP_ENTER then
    if st.term.input.text.getD 0 NUL ≠ NUL then do
      let ts ← term_exec st.term ticks
      pure { st with term := ts }
    else pure st
  else if isKey e SDLK_PAGEUP then
    pure { st with term := { st.term with scroll := st.term.scroll + 5 } }
  else if isKey e SDLK_PAGEDOWN then
    let sc := st.term.scroll - 5
    pure { st with term := { st.term with scroll := if sc < 0 then 0 else sc } }
  else do
    let r ← tui_input_handle st.term.input e
    pure { st with term := { st.term with input := r.2 } }

/-- The body of the loop `while (SDL_PollEvent(&e))` for one event; `w`, `h` are
what `SDL_GetWindowSize` reports. Returns the new state and whether the loop is left
by `break`. -/
def app_dispatch (st : AppState) (e : SDL_Event) (w h : Int) (ticks : Nat) :
    Option (AppState × Bool) :=
  if e = SDL_Event.quit then some ({ st with t := { st.t with running := false } }, true)
  else if st.modal.active then
    some ({ st with modal := (tui_modal_handle st.modal e 2).2 }, false)
  else
    let typing : Bool := !st.on_tabs
      && ((st.tab_menu.selected == TAB_GENERAL && decide (st.field < 2))
          || st.tab_menu.selected == TAB_TERMINAL)
    if !typing && (isKey e SDLK_EQUALS || isKey e SDLK_KP_PLUS) then do
      let t ← tui_set_scale st.t w h (st.t.scale + 1)
      pure ({ st with t := t }, false)
    else if !typing && (isKey e SDLK_MINUS || isKey e SDLK_KP_MINUS) then do
      let t ← tui_set_scale st.t w h (if st.t.scale > 1 then st.t.scale - 1 else 1)
      pure ({ st with t := t }, false)
    else if st.on_tabs then
      let tm := (tui_menu_handle st.tab_menu e TAB_COUNT true).2
      let st := { st with tab_menu := tm }
      if tm.confirmed ≥ 0 then
        some (sync_text_input { st with on_tabs := false, field := 0 } tm.selected 0, false)
      else some (st, false)
    else if isKey e SDLK_ESCAPE then
      some ({ st with on_tabs := true, text_input := false }, false)
    else if st.tab_menu.selected = TAB_GENERAL then
      (app_general st e).map (fun s => (s, false))
    else if st.tab_menu.selected = TAB_TERMINAL then
      (app_terminal st e ticks).map (fun s => (s, false))
    else some (st, false)

/-- A state of the application in which the confirmation modal is open over the
General tab. -/
def app_modal_sample : AppState :=
  { t := tui_sample, text_input := false,
    tab_menu := tui_menu_init, inp_name := tui_input_init 64, inp_email := tui_input_init 64,
    act_menu := { selected := 1, confirmed := 1, escaped := false },
    modal := tui_modal_open true, term := term_init, on_tabs := false, field := 2 }

/-- The context `t1` is `t` but for its cell buffer, which has the same size, and on
the grid `t1` differs from `t` exactly on the positions `span`, where it holds the
cells `v`. -/
def DrawsExactly (t t1 : TUI) (span : Int → Int → Prop) (v : Int → Int → TUI_Cell) : Prop :=
  t1 = { t with cells := t1.cells } ∧ t1.cells.length = t.cells.length ∧
  ∀ px py : Int, 0 ≤ px → px < t.cols → 0 ≤ py → py < t.rows →
    (span px py → tui_cell t1 px py = some (v px py)) ∧
    (¬ span px py → tui_cell t1 px py = tui_cell t px py)

/-- The calls of `tui_draw_input` on the field `s` (its scroll offset already
adjusted): the two brackets, then the `w - 2` characters of the window. -/
def draw_input_calls (x y w : Int) (s : TUI_InputState) (focused blink_on : Bool)
    (fg bg cf cb : Nat) : List TUI_Put :=
  { x := x, y := y, ch := '[', fg := fg, bg := bg }
    :: { x := x + w - 1, y := y, ch := ']', fg := fg, bg := bg }
    :: (List.range (w - 2).toNat).map (fun (i : Nat) =>
        { x := x + 1 + (i : Int), y := y,
          ch := if s.scroll + (i : Int) < strlen s.text
                then s.text.getD (s.scroll + (i : Int)).toNat ' ' else ' ',
          fg := if focused && (s.scroll + (i : Int) == s.cursor) && blink_on then cf else fg,
          bg := if focused && (s.scroll + (i : Int) == s.cursor) && blink_on then cb else bg })

/-! ## Menu drawing (`tui.c` 286-328) -/

/-- The loop of `tui_draw_menu_h` from the item index `i` and the running column
`cx`, over the items that are left. -/
def menu_h_loop (y count selected : Int) (focused blink_on : Bool) (fg bg sf sb : Nat) :
    Int → Int → List (List Char) → List TUI_Put
  | _, _, [] => []
  | i, cx, it :: rest =>
    let highlight : Bool := (i == selected) && (!focused || blink_on)
    let f := if highlight then sf else fg
    let b := if highlight then sb else bg
    { x := cx, y := y, ch := ' ', fg := f, bg := b }
      :: (tui_puts_calls (cx + 1) y it f b
        ++ { x := cx + 1 + strlen it, y := y, ch := ' ', fg := f, bg := b }
          :: ((if i < count - 1 then
                [({ x := cx + 1 + strlen it + 1, y := y, ch := ' ', fg := fg, bg := bg } : TUI_Put)]
              else [])
            ++ menu_h_loop y count selected focused blink_on fg bg sf sb (i + 1)
                (cx + 1 + strlen it + 1 + (if i < count - 1 then 1 else 0)) rest))

/-- The function `tui_draw_menu_h`. Undefined when `count` exceeds the number of
items. -/
def tui_draw_menu_h (t : TUI) (x y : Int) (items : List (List Char)) (count : Int)
    (s : TUI_MenuState) (focused : Bool) (fg bg sf sb : Nat) : Option TUI :=
  if count.toNat ≤ items.length then
    some (tui_replay t (menu_h_loop y count s.selected focused t.blink_on fg bg sf sb 0 x
      (items.take count.toNat)))
  else none

/-- The marker of an item of `tui_draw_menu_v`. -/
def menu_v_marker (sel focused blink_on : Bool) : Char :=
  if sel then (if focused then (if blink_on then '>' else ' ') else '>') else ' '

/-- The loop of `tui_draw_menu_v` from the item index `i`, over the items that are
left. -/
def menu_v_loop (x y w selected : Int) (focused blink_on : Bool) (fg bg sf sb : Nat) :
    Int → List (List Char) → List TUI_Put
  | _, [] => []
  | i, it :: rest =>
    let sel : Bool := i == selected
    let f := if sel then sf else fg
    let b := if sel then sb else bg
    tui_fill_calls x (y + i) w 1 ' ' f b
      ++ { x := x, y := y + i, ch := menu_v_marker sel focused blink_on, fg := f, bg := b }
        :: (tui_puts_calls (x + 2) (y + i) it f b
          ++ menu_v_loop x y w selected focused blink_on fg bg sf sb (i + 1) rest)

/-- The function `tui_draw_menu_v`. Undefined when `count` exceeds the number of
items. -/
def tui_draw_menu_v (t : TUI) (x y w : Int) (items : List (List Char)) (count : Int)
    (s : TUI_MenuState) (focused : Bool) (fg bg sf sb : Nat) : Option TUI :=
  if count.toNat ≤ items.length then
    some (tui_replay t (menu_v_loop x y w s.selected focused t.blink_on fg bg sf sb 0
      (items.take count.toNat)))
  else none

/-- The distance from the first column of a horizontal menu to the first column of
its item `i`: an item takes its text, two spaces and one separator. -/
def menu_h_off (items : List (List Char)) (i : Nat) : Int :=
  ((items.take i).map (fun it => strlen it + 3)).sum

/-- The grid `tui_sample` with the blink flag off. -/
def tui_blink_off_sample : TUI := { tui_sample with blink_on := false }

/-- The items of a menu. -/
def menu_items_sample : List (List Char) := ["Save".toList, "Load".toList]

/-! ## Menu: properties -/

theorem menu_handle_selected (s : TUI_MenuState) (e : SDL_Event) (count : Int)
    (horizontal : Bool) :
    (tui_menu_handle s e count horizontal).2.selected =
      if isPrevKey horizontal e then (if s.selected > 0 then s.selected - 1 else s.selected)
      else if isNextKey horizontal e then
        (if s.selected < count - 1 then s.selected + 1 else s.selected)
      else s.selected := by
  cases e with
  | key_down key mod =>
    cases horizontal <;>
      simp only [tui_menu_handle, isPrevKey, isNextKey, SDLK_TAB, SDLK_UP, SDLK_DOWN,
        SDLK_RETURN, SDLK_KP_ENTER, SDLK_ESCAPE] <;>
      split_ifs <;> simp_all
  | _ => simp [tui_menu_handle, isPrevKey, isNextKey]

theorem menu_handle_range (count : Int) (s : TUI_MenuState)
    (hs : 0 ≤ s.selected ∧ s.selected ≤ count - 1) (e : SDL_Event) (horizontal : Bool) :
    0 ≤ (tui_menu_handle s e count horizontal).2.selected ∧
      (tui_menu_handle s e count horizontal).2.selected ≤ count - 1 := by
  rw [menu_handle_selected]
  split_ifs <;> omega

theorem menu_run_range (count : Int) (horizontal : Bool) (es : List SDL_Event) :
    ∀ s : TUI_MenuState, 0 ≤ s.selected ∧ s.selected ≤ count - 1 →
      0 ≤ (menu_run count horizontal s es).selected ∧
        (menu_run count horizontal s es).selected ≤ count - 1 := by
  induction es with
  | nil => intro s hs; simpa [menu_run] using hs
  | cons e es ih =>
    intro s hs
    have h := ih _ (menu_handle_range count s hs e horizontal)
    simpa [menu_run] using h

theorem menu_run_next (count : Int) (horizontal : Bool) (es : List SDL_Event)
    (hes : ∀ e ∈ es, isNextKey horizontal e) :
    ∀ s : TUI_MenuState, 0 ≤ s.selected ∧ s.selected ≤ count - 1 →
      (menu_run count horizontal s es).selected
        = min (s.selected + (es.length : Int)) (count - 1) := by
  induction es with
  | nil => intro s hs; simp [menu_run]; omega
  | cons e es ih =>
    intro s hs
    have hn : isNextKey horizontal e := hes e (List.mem_cons_self _ _)
    have hp : ¬ isPrevKey horizontal e := by
      cases e with
      | key_down key mod =>
        cases horizontal <;> simp_all [isPrevKey, isNextKey, SDLK_UP, SDLK_DOWN]
      | _ => simp [isPrevKey]
    have h1 := menu_handle_selected s e count horizontal
    rw [if_neg hp, if_pos hn] at h1
    have h2 := ih (fun e he => hes e (List.mem_cons_of_mem _ he)) _
      (menu_handle_range count s hs e horizontal)
    have h3 : menu_run count horizontal s (e :: es)
        = menu_run count horizontal (tui_menu_handle s e count horizontal).2 es := by
      simp [menu_run]
    rw [h3, h2, h1]
    simp only [List.length_cons, Nat.cast_add, Nat.cast_one]
    split_ifs <;> omega

theorem menu_handle_confirmed (s : TUI_MenuState) (e : SDL_Event) (count : Int)
    (horizontal : Bool) :
    (tui_menu_handle s e count horizontal).2.confirmed
      = if isConfirmKey e then s.selected else -1 := by
  cases e with
  | key_down key mod =>
    cases horizontal <;>
      simp only [tui_menu_handle, isConfirmKey, SDLK_TAB, SDLK_UP, SDLK_DOWN,
        SDLK_RETURN, SDLK_KP_ENTER, SDLK_ESCAPE] <;>
      split_ifs <;> simp_all
  | _ => simp [tui_menu_handle, isConfirmKey]

theorem menu_handle_escaped (s : TUI_MenuState) (e : SDL_Event) (count : Int)
    (horizontal : Bool) :
    (tui_menu_handle s e count horizontal).2.escaped = decide (isEscapeKey e) := by
  cases e with
  | key_down key mod =>
    cases horizontal <;>
      simp only [tui_menu_handle, isEscapeKey, SDLK_TAB, SDLK_UP, SDLK_DOWN,
        SDLK_RETURN, SDLK_KP_ENTER, SDLK_ESCAPE] <;>
      split_ifs <;> simp_all <;> omega
  | _ => simp [tui_menu_handle, isEscapeKey]

theorem confirm_not_prev (horizontal : Bool) (e : SDL_Event) (h : isConfirmKey e) :
    ¬ isPrevKey horizontal e := by
  cases e with
  | key_down key mod =>
    cases horizontal <;>
      simp only [isConfirmKey, isPrevKey, SDLK_TAB, SDLK_UP, SDLK_RETURN, SDLK_KP_ENTER] at * <;>
      simp <;> omega
  | _ => simp [isPrevKey]

theorem confirm_not_next (horizontal : Bool) (e : SDL_Event) (h : isConfirmKey e) :
    ¬ isNextKey horizontal e := by
  cases e with
  | key_down key mod =>
    cases horizontal <;>
      simp only [isConfirmKey, isNextKey, SDLK_TAB, SDLK_DOWN, SDLK_RETURN, SDLK_KP_ENTER] at * <;>
      simp <;> omega
  | _ => simp [isNextKey]

/-- C7: for `count ≥ 1` and a menu state with `0 ≤ selected ≤ count - 1`, one
event dispatched through `tui_menu_handle` (either variant) leaves `selected` in
`[0, count - 1]`: the previous-item key decreases it by one unless it is 0, the
next-item key increases it by one unless it is `count - 1`, any other event leaves
it unchanged; hence every sequence of events, from that state and from
`tui_menu_init`, keeps `selected` in `[0, count - 1]`. -/
theorem tui_menu_handle_selected_in_range (count : Int) (hc : 1 ≤ count)
    (s : TUI_MenuState) (hs : 0 ≤ s.selected ∧ s.selected ≤ count - 1)
    (horizontal : Bool) :
    (∀ e : SDL_Event,
      0 ≤ (tui_menu_handle s e count horizontal).2.selected ∧
      (tui_menu_handle s e count horizontal).2.selected ≤ count - 1 ∧
      (tui_menu_handle s e count horizontal).2.selected =
        if isPrevKey horizontal e then (if s.selected = 0 then 0 else s.selected - 1)
        else if isNextKey horizontal e then
          (if s.selected = count - 1 then count - 1 else s.selected + 1)
        else s.selected) ∧
    (∀ es : List SDL_Event,
      0 ≤ (menu_run count horizontal s es).selected ∧
      (menu_run count horizontal s es).selected ≤ count - 1) ∧
    (∀ es : List SDL_Event,
      0 ≤ (menu_run count horizontal tui_menu_init es).selected ∧
      (menu_run count horizontal tui_menu_init es).selected ≤ count - 1) := by
  refine ⟨fun e => ?_, fun es => menu_run_range count horizontal es s hs, fun es => ?_⟩
  · have hr := menu_handle_range count s hs e horizontal
    refine ⟨hr.1, hr.2, ?_⟩
    rw [menu_handle_selected]
    split_ifs <;> omega
  · apply menu_run_range
    simp only [tui_menu_init]
    omega

theorem tui_menu_handle_selected_in_range_witness :
    (1 : Int) ≤ 3 ∧
    (∀ es : List SDL_Event,
      0 ≤ (menu_run 3 false tui_menu_init es).selected ∧
      (menu_run 3 false tui_menu_init es).selected ≤ 3 - 1) ∧
    (tui_menu_handle { selected := 2, confirmed := -1, escaped := false }
      (SDL_Event.key_down SDLK_DOWN 0) 3 false).2.selected = 2 ∧
    (tui_menu_handle { selected := 2, confirmed := -1, escaped := false }
      (SDL_Event.key_down SDLK_UP 0) 3 false).2.selected = 1 :=
  ⟨by decide,
   (tui_menu_handle_selected_in_range 3 (by decide)
      { selected := 2, confirmed := -1, escaped := false } (by decide) false).2.2,
   by decide, by decide⟩

/-- C8: after `tui_menu_handle`, `confirmed` and `escaped` are functions of the
event and of `selected` alone: `confirmed` is `selected` (which such an event
leaves as it was) on a key-down of Return or keypad Enter and `-1` otherwise,
`escaped` is true exactly on a key-down of Escape; the previous values of the two
fields play no role, and the events that are not a key-down clear both. -/
theorem tui_menu_handle_confirmed_escaped (sel c0 : Int) (e0 : Bool) (e : SDL_Event)
    (count : Int) (horizontal : Bool) :
    (tui_menu_handle { selected := sel, confirmed := c0, escaped := e0 } e count
        horizontal).2.confirmed = (if isConfirmKey e then sel else -1) ∧
    (tui_menu_handle { selected := sel, confirmed := c0, escaped := e0 } e count
        horizontal).2.escaped = decide (isEscapeKey e) ∧
    (isConfirmKey e →
      (tui_menu_handle { selected := sel, confirmed := c0, escaped := e0 } e count
        horizontal).2.selected = sel) ∧
    (∀ (c1 : Int) (e1 : Bool),
      (tui_menu_handle { selected := sel, confirmed := c1, escaped := e1 } e count
          horizontal).2.confirmed =
        (tui_menu_handle { selected := sel, confirmed := c0, escaped := e0 } e count
          horizontal).2.confirmed ∧
      (tui_menu_handle { selected := sel, confirmed := c1, escaped := e1 } e count
          horizontal).2.escaped =
        (tui_menu_handle { selected := sel, confirmed := c0, escaped := e0 } e count
          horizontal).2.escaped) ∧
    (∀ txt : List Char,
      (tui_menu_handle { selected := sel, confirmed := c0, escaped := e0 }
        SDL_Event.quit count horizontal).2
          = { selected := sel, confirmed := -1, escaped := false } ∧
      (tui_menu_handle { selected := sel, confirmed := c0, escaped := e0 }
        (SDL_Event.text_input txt) count horizontal).2
          = { selected := sel, confirmed := -1, escaped := false } ∧
      (tui_menu_handle { selected := sel, confirmed := c0, escaped := e0 }
        SDL_Event.other count horizontal).2
          = { selected := sel, confirmed := -1, escaped := false }) := by
  refine ⟨menu_handle_confirmed _ e count horizontal,
    menu_handle_escaped _ e count horizontal, fun hconf => ?_, fun c1 e1 => ?_, fun txt => ?_⟩
  · rw [menu_handle_selected, if_neg (confirm_not_prev horizontal e hconf),
      if_neg (confirm_not_next horizontal e hconf)]
  · simp only [menu_handle_confirmed, menu_handle_escaped, and_self]
  · simp [tui_menu_handle]

theorem tui_menu_handle_confirmed_escaped_witness :
    (tui_menu_handle { selected := 1, confirmed := 0, escaped := true }
      (SDL_Event.key_down SDLK_RETURN 0) 3 false).2.selected = 1 :=
  (tui_menu_handle_confirmed_escaped 1 0 true (SDL_Event.key_down SDLK_RETURN 0) 3
    false).2.2.1 (by decide)

/-- C9: for `count ≥ 1`, from `tui_menu_init`, `k` next-item key events (Down for
a vertical menu, Tab without shift for a horizontal one) followed by one confirm
key event give `confirmed = min(k, count - 1)`. -/
theorem tui_menu_next_then_confirm (count : Int) (hc : 1 ≤ count) (horizontal : Bool)
    (es : List SDL_Event) (hes : ∀ e ∈ es, isNextKey horizontal e)
    (c : SDL_Event) (hcf : isConfirmKey c) :
    (menu_run count horizontal tui_menu_init (es ++ [c])).confirmed
      = min (es.length : Int) (count - 1) := by
  have h0 : 0 ≤ tui_menu_init.selected ∧ tui_menu_init.selected ≤ count - 1 := by
    simp only [tui_menu_init]; omega
  have h1 := menu_run_next count horizontal es hes tui_menu_init h0
  have h2 : menu_run count horizontal tui_menu_init (es ++ [c])
      = (tui_menu_handle (menu_run count horizontal tui_menu_init es) c count
          horizontal).2 := by
    simp [menu_run, List.foldl_append]
  rw [h2]
  rw [menu_handle_confirmed, if_pos hcf, h1]
  simp [tui_menu_init]

theorem tui_menu_next_then_confirm_witness :
    (1 : Int) ≤ 3 ∧
    (∀ e ∈ [SDL_Event.key_down SDLK_DOWN 0, SDL_Event.key_down SDLK_DOWN 0],
      isNextKey false e) ∧
    isConfirmKey (SDL_Event.key_down SDLK_RETURN 0) ∧
    (menu_run 3 false tui_menu_init
      ([SDL_Event.key_down SDLK_DOWN 0, SDL_Event.key_down SDLK_DOWN 0]
        ++ [SDL_Event.key_down SDLK_RETURN 0])).confirmed = 2 :=
  ⟨by decide, by decide, by decide,
   tui_menu_next_then_confirm 3 (by decide) false
     [SDL_Event.key_down SDLK_DOWN 0, SDL_Event.key_down SDLK_DOWN 0] (by decide)
     (SDL_Event.key_down SDLK_RETURN 0) (by decide)⟩

/-! ## Modal: properties -/

/-- C10: an Escape key-down dispatched to an active modal through
`tui_modal_handle`, for any option count: with `enforce` true the modal stays
active and `result` and `selected` are unchanged (the whole state is); with
`enforce` false `active` becomes false and `result` becomes `-1`. -/
theorem tui_modal_handle_escape (s : TUI_ModalState) (hact : s.active = true)
    (count : Int) (mod : Nat) :
    (s.enforce = true →
      (tui_modal_handle s (SDL_Event.key_down SDLK_ESCAPE mod) count).2.active = true ∧
      (tui_modal_handle s (SDL_Event.key_down SDLK_ESCAPE mod) count).2.result = s.result ∧
      (tui_modal_handle s (SDL_Event.key_down SDLK_ESCAPE mod) count).2.selected
        = s.selected ∧
      (tui_modal_handle s (SDL_Event.key_down SDLK_ESCAPE mod) count).2 = s) ∧
    (s.enforce = false →
      (tui_modal_handle s (SDL_Event.key_down SDLK_ESCAPE mod) count).2.active = false ∧
      (tui_modal_handle s (SDL_Event.key_down SDLK_ESCAPE mod) count).2.result = -1) := by
  constructor
  · intro he
    simp [tui_modal_handle, hact, he, SDLK_ESCAPE, SDLK_LEFT, SDLK_RIGHT, SDLK_RETURN,
      SDLK_KP_ENTER]
  · intro he
    simp [tui_modal_handle, hact, he, SDLK_ESCAPE, SDLK_LEFT, SDLK_RIGHT, SDLK_RETURN,
      SDLK_KP_ENTER]

theorem tui_modal_handle_escape_witness :
    ((tui_modal_handle { selected := 1, result := -1, enforce := true, active := true }
        (SDL_Event.key_down SDLK_ESCAPE 0) 2).2
      = { selected := 1, result := -1, enforce := true, active := true }) ∧
    ((tui_modal_handle { selected := 1, result := 0, enforce := false, active := true }
        (SDL_Event.key_down SDLK_ESCAPE 0) 2).2.active = false ∧
     (tui_modal_handle { selected := 1, result := 0, enforce := false, active := true }
        (SDL_Event.key_down SDLK_ESCAPE 0) 2).2.result = -1) :=
  ⟨((tui_modal_handle_escape
      { selected := 1, result := -1, enforce := true, active := true } rfl 2 0).1 rfl).2.2.2,
   (tui_modal_handle_escape
      { selected := 1, result := 0, enforce := false, active := true } rfl 2 0).2 rfl⟩

/-! ## Text input: buffer lemmas -/

theorem cstr_append_nul (l r : List Char) (h : NUL ∉ l) : cstr (l ++ NUL :: r) = l := by
  unfold cstr
  rw [List.takeWhile_append_of_pos]
  · simp
  · intro a ha
    have : a ≠ NUL := fun e => h (e ▸ ha)
    simpa using this

theorem cstr_no_nul (buf : List Char) : NUL ∉ cstr buf := by
  unfold cstr
  intro h
  have := List.mem_takeWhile_imp h
  simp at this

theorem buf_decomp (buf : List Char) (h : NUL ∈ buf) :
    ∃ r, buf = cstr buf ++ NUL :: r := by
  induction buf with
  | nil => simp at h
  | cons c cs ih =>
    by_cases hc : c = NUL
    · exact ⟨cs, by simp [cstr, hc]⟩
    · have h2 : NUL ∈ cs := by
        rcases List.mem_cons.1 h with h1 | h1
        · exact absurd h1.symm hc
        · exact h1
      obtain ⟨r, hr⟩ := ih h2
      refine ⟨r, ?_⟩
      have : cstr (c :: cs) = c :: cstr cs := by simp [cstr, hc]
      rw [this, List.cons_append, ← hr]

theorem buf_strlen_append_nul (l r : List Char) (h : NUL ∉ l) :
    buf_strlen (l ++ NUL :: r) = some (l.length : Int) := by
  simp [buf_strlen, cstr_append_nul l r h]

theorem buf_memmove_nat (buf : List Char) (d s n : Nat) (hd : d + n ≤ buf.length)
    (hs : s + n ≤ buf.length) :
    buf_memmove buf (d : Int) (s : Int) (n : Int)
      = some (buf.take d ++ (buf.drop s).take n ++ buf.drop (d + n)) := by
  unfold buf_memmove
  rw [if_pos]
  · simp
  · refine ⟨by omega, by omega, by omega, ?_, ?_⟩ <;> exact_mod_cast (by omega)

theorem buf_memcpy_nat (buf : List Char) (d : Nat) (src : List Char) (n : Nat)
    (hd : d + n ≤ buf.length) (hn : n ≤ (cstr src).length) :
    buf_memcpy buf (d : Int) src (n : Int)
      = some (buf.take d ++ (cstr src).take n ++ buf.drop (d + n)) := by
  unfold buf_memcpy strlen
  rw [if_pos]
  · simp
  · refine ⟨by omega, by omega, ?_, ?_⟩ <;> exact_mod_cast (by omega)

/-- The buffer after the `memmove` and `memcpy` of a text insertion. -/
theorem insert_buffer (l1 l2 r a : List Char) (ha : a.length ≤ r.length) :
    let buf := l1 ++ l2 ++ NUL :: r
    let b1 := buf.take (l1.length + a.length) ++ (buf.drop l1.length).take (l2.length + 1)
      ++ buf.drop (l1.length + a.length + (l2.length + 1))
    b1.take l1.length ++ a ++ b1.drop (l1.length + a.length)
      = l1 ++ a ++ l2 ++ NUL :: r.drop a.length := by
  intro buf b1
  have hlen : buf.length = l1.length + l2.length + 1 + r.length := by
    simp [buf]; omega
  have hT : (buf.take (l1.length + a.length)).length = l1.length + a.length := by
    rw [List.length_take]; omega
  have e1 : (buf.drop l1.length).take (l2.length + 1) = l2 ++ [NUL] := by
    have : buf = l1 ++ ((l2 ++ [NUL]) ++ r) := by simp [buf]
    rw [this, List.drop_left]
    have h := List.take_left (l2 ++ [NUL]) r
    simpa using h
  have e2 : buf.drop (l1.length + a.length + (l2.length + 1)) = r.drop a.length := by
    have : buf = (l1 ++ l2 ++ [NUL]) ++ r := by simp [buf]
    rw [this]
    have h := @List.drop_append _ (l1 ++ l2 ++ [NUL]) r a.length
    have hl : (l1 ++ l2 ++ [NUL]).length + a.length
        = l1.length + a.length + (l2.length + 1) := by simp; omega
    rw [hl] at h
    exact h
  have e3 : b1.take l1.length = l1 := by
    simp only [b1, List.append_assoc]
    rw [List.take_append_of_le_length (by omega), List.take_take,
      Nat.min_eq_left (by omega)]
    simp [buf]
  have e4 : b1.drop (l1.length + a.length) = l2 ++ [NUL] ++ r.drop a.length := by
    simp only [b1, List.append_assoc]
    have h := List.drop_left (buf.take (l1.length + a.length))
      ((buf.drop l1.length).take (l2.length + 1)
        ++ buf.drop (l1.length + a.length + (l2.length + 1)))
    rw [hT] at h
    rw [h, e1, e2]
    simp
  rw [e3, e4]
  simp

theorem handle_text_input_decomp (s : TUI_InputState) (l1 l2 r txt : List Char)
    (ht : s.text = l1 ++ l2 ++ NUL :: r) (h1 : NUL ∉ l1) (h2 : NUL ∉ l2)
    (hcur : s.cursor = (l1.length : Int))
    (hle : ((l1.length + l2.length + (cstr txt).length : Nat) : Int) ≤ s.max_len)
    (hfit : (cstr txt).length ≤ r.length) :
    tui_input_handle s (SDL_Event.text_input txt)
      = some (true, { s with
          text := l1 ++ cstr txt ++ l2 ++ NUL :: r.drop (cstr txt).length,
          cursor := ((l1.length + (cstr txt).length : Nat) : Int) }) := by
  obtain ⟨text, cursor, scroll, max_len⟩ := s
  simp only at ht hcur hle
  subst hcur
  have hnul : NUL ∉ l1 ++ l2 := by simp [h1, h2]
  have hsl : buf_strlen text = some ((l1.length + l2.length : Nat) : Int) := by
    rw [ht]
    have := buf_strlen_append_nul (l1 ++ l2) r hnul
    simpa using this
  have hlen : text.length = l1.length + l2.length + 1 + r.length := by
    rw [ht]; simp; omega
  have hmv := buf_memmove_nat text (l1.length + (cstr txt).length) l1.length
    (l2.length + 1) (by omega) (by omega)
  have a1 : (l1.length : Int) + strlen txt = ((l1.length + (cstr txt).length : Nat) : Int) := by
    simp [strlen]
  have a2 : ((l1.length + l2.length : Nat) : Int) - (l1.length : Int) + 1
      = ((l2.length + 1 : Nat) : Int) := by
    push_cast; ring
  have hcp := buf_memcpy_nat
    (text.take (l1.length + (cstr txt).length)
      ++ (text.drop l1.length).take (l2.length + 1)
      ++ text.drop (l1.length + (cstr txt).length + (l2.length + 1)))
    l1.length txt (cstr txt).length
    (by simp only [List.length_append, List.length_take, List.length_drop]; omega)
    (le_refl _)
  have hins := insert_buffer l1 l2 r (cstr txt) hfit
  simp only at hins
  rw [← ht] at hins
  have hle2 : ((l1.length + l2.length : Nat) : Int) + strlen txt ≤ max_len := by
    simp only [strlen]; exact_mod_cast hle
  have a3 : strlen txt = (((cstr txt).length : Nat) : Int) := rfl
  simp only [tui_input_handle, hsl, Option.bind_eq_bind, Option.some_bind, if_pos hle2,
    a1, a2, hmv]
  rw [a3, hcp, List.take_length, hins]
  rfl

theorem handle_text_input_reject (s : TUI_InputState) (txt : List Char)
    (hn : NUL ∈ s.text) (h : s.max_len < strlen s.text + strlen txt) :
    tui_input_handle s (SDL_Event.text_input txt) = some (true, s) := by
  have hsl : buf_strlen s.text = some (strlen s.text) := by
    simp [buf_strlen, hn, strlen]
  have : ¬ (strlen s.text + strlen txt ≤ s.max_len) := by omega
  simp only [tui_input_handle, hsl, Option.bind_eq_bind, Option.some_bind, if_neg this]
  rfl

theorem input_decomp (s : TUI_InputState) (hn : NUL ∈ s.text) (hc : s.CursorOk) :
    ∃ l1 l2 r, s.text = l1 ++ l2 ++ NUL :: r ∧ NUL ∉ l1 ∧ NUL ∉ l2 ∧
      s.cursor = (l1.length : Int) ∧ l1 = (cstr s.text).take s.cursor.toNat ∧
      l2 = (cstr s.text).drop s.cursor.toNat ∧ cstr s.text = l1 ++ l2 := by
  obtain ⟨r, hr⟩ := buf_decomp s.text hn
  have hno := cstr_no_nul s.text
  obtain ⟨h0, h1⟩ := hc
  simp only [strlen] at h1
  refine ⟨(cstr s.text).take s.cursor.toNat, (cstr s.text).drop s.cursor.toNat, r,
    ?_, ?_, ?_, ?_, rfl, rfl, ?_⟩
  · rw [List.take_append_drop]; exact hr
  · exact fun h => hno (List.mem_of_mem_take h)
  · exact fun h => hno (List.mem_of_mem_drop h)
  · rw [List.length_take]
    omega
  · rw [List.take_append_drop]

/-- C1: a text-insertion event delivered to `tui_input_handle` on a well-formed
`TUI_InputState` with `0 ≤ cursor ≤ strlen(text)`: when
`strlen(text) + strlen(a) > max_len` the text and the cursor are unchanged;
otherwise the new text is `text[0..cursor) ++ a ++ text[cursor..)` and the new
cursor is `cursor + strlen(a)`. In both cases the call returns, and `scroll` and
`max_len` are unchanged. -/
theorem tui_input_handle_text_input (s : TUI_InputState) (hwf : s.WF) (hc : s.CursorOk)
    (txt : List Char) :
    ∃ s', tui_input_handle s (SDL_Event.text_input txt) = some (true, s') ∧
      s'.scroll = s.scroll ∧ s'.max_len = s.max_len ∧
      (s.max_len < strlen s.text + strlen txt →
        s'.text = s.text ∧ s'.cursor = s.cursor) ∧
      (strlen s.text + strlen txt ≤ s.max_len →
        cstr s'.text = (cstr s.text).take s.cursor.toNat ++ cstr txt
            ++ (cstr s.text).drop s.cursor.toNat ∧
        s'.cursor = s.cursor + strlen txt) := by
  obtain ⟨hlen, hn, hmax⟩ := hwf
  by_cases hle : strlen s.text + strlen txt ≤ s.max_len
  · obtain ⟨l1, l2, r, ht, h1, h2, hcur, e1, e2, hcs⟩ := input_decomp s hn hc
    have hsl : strlen s.text = ((l1.length + l2.length : Nat) : Int) := by
      simp [strlen, hcs]
    have hadd : strlen txt = (((cstr txt).length : Nat) : Int) := rfl
    have htl : s.text.length = l1.length + l2.length + 1 + r.length := by
      rw [ht]; simp; omega
    have hfit : (cstr txt).length ≤ r.length := by
      simp only [TUI_INPUT_MAX] at hlen hmax
      omega
    have hle2 : ((l1.length + l2.length + (cstr txt).length : Nat) : Int) ≤ s.max_len := by
      push_cast; push_cast at hsl; omega
    refine ⟨_, handle_text_input_decomp s l1 l2 r txt ht h1 h2 hcur hle2 hfit,
      rfl, rfl, fun h => absurd hle (by omega), fun _ => ⟨?_, ?_⟩⟩
    · have hno : NUL ∉ l1 ++ cstr txt ++ l2 := by
        simp [h1, h2, cstr_no_nul txt]
      have := cstr_append_nul (l1 ++ cstr txt ++ l2) (r.drop (cstr txt).length) hno
      rw [← e1, ← e2]
      simpa using this
    · simp only [hcur, hadd]
      push_cast
      rfl
  · exact ⟨s, handle_text_input_reject s txt hn (by omega), rfl, rfl,
      fun _ => ⟨rfl, rfl⟩, fun h => absurd h hle⟩

set_option maxRecDepth 8000 in
theorem input_sample_wf : input_sample.WF := by decide

set_option maxRecDepth 8000 in
theorem input_sample_cursor : input_sample.CursorOk := by decide

theorem tui_input_handle_text_input_witness :
    input_sample.WF ∧ input_sample.CursorOk ∧
    ∃ s', tui_input_handle input_sample (SDL_Event.text_input ['X', 'Y']) = some (true, s') ∧
      s'.scroll = input_sample.scroll ∧ s'.max_len = input_sample.max_len ∧
      (input_sample.max_len < strlen input_sample.text + strlen ['X', 'Y'] →
        s'.text = input_sample.text ∧ s'.cursor = input_sample.cursor) ∧
      (strlen input_sample.text + strlen ['X', 'Y'] ≤ input_sample.max_len →
        cstr s'.text = (cstr input_sample.text).take input_sample.cursor.toNat
            ++ cstr ['X', 'Y'] ++ (cstr input_sample.text).drop input_sample.cursor.toNat ∧
        s'.cursor = input_sample.cursor + strlen ['X', 'Y']) :=
  ⟨input_sample_wf, input_sample_cursor,
   tui_input_handle_text_input input_sample input_sample_wf input_sample_cursor ['X', 'Y']⟩

/-- The buffer after the `memmove` of a Backspace or a Delete: the character
`c` between `A` and `B` is removed and the terminator moves one place down. -/
theorem remove_buffer (A B r : List Char) (c : Char) :
    buf_memmove (A ++ c :: B ++ NUL :: r) (A.length : Int) ((A.length + 1 : Nat) : Int)
        ((B.length + 1 : Nat) : Int)
      = some (A ++ B ++ NUL :: NUL :: r) := by
  have hlen : (A ++ c :: B ++ NUL :: r).length = A.length + 1 + B.length + 1 + r.length := by
    simp; omega
  rw [buf_memmove_nat _ _ _ _ (by omega) (by omega)]
  have e1 : (A ++ c :: B ++ NUL :: r).take A.length = A := by
    rw [List.append_assoc, List.take_left]
  have e2 : ((A ++ c :: B ++ NUL :: r).drop (A.length + 1)).take (B.length + 1)
      = B ++ [NUL] := by
    have h : A ++ c :: B ++ NUL :: r = (A ++ [c]) ++ ((B ++ [NUL]) ++ r) := by simp
    have hl : A.length + 1 = (A ++ [c]).length := by simp
    rw [h, hl, List.drop_left]
    have h2 := List.take_left (B ++ [NUL]) r
    simpa using h2
  have e3 : (A ++ c :: B ++ NUL :: r).drop (A.length + (B.length + 1)) = NUL :: r := by
    have h : A ++ c :: B ++ NUL :: r = (A ++ [c] ++ B) ++ NUL :: r := by simp
    have hl : A.length + (B.length + 1) = (A ++ [c] ++ B).length := by
      simp only [List.length_append, List.length_cons, List.length_nil]; omega
    rw [h, hl, List.drop_left]
  rw [e1, e2, e3]
  simp

theorem handle_backspace_decomp (s : TUI_InputState) (A l2 r : List Char) (c : Char)
    (mod : Nat) (ht : s.text = A ++ c :: l2 ++ NUL :: r) (h1 : NUL ∉ A) (hc : c ≠ NUL)
    (h2 : NUL ∉ l2) (hcur : s.cursor = ((A.length + 1 : Nat) : Int)) :
    tui_input_handle s (SDL_Event.key_down SDLK_BACKSPACE mod)
      = some (true, { s with text := A ++ l2 ++ NUL :: NUL :: r,
                             cursor := (A.length : Int) }) := by
  obtain ⟨text, cursor, scroll, max_len⟩ := s
  simp only at ht hcur
  subst hcur
  have hnul : NUL ∉ A ++ c :: l2 := by
    simp only [List.mem_append, List.mem_cons, not_or]
    exact ⟨h1, fun h => hc h.symm, h2⟩
  have hsl : buf_strlen text = some ((A.length + 1 + l2.length : Nat) : Int) := by
    have hl : (A ++ c :: l2).length = A.length + 1 + l2.length := by
      simp only [List.length_append, List.length_cons]; omega
    rw [ht, buf_strlen_append_nul (A ++ c :: l2) r hnul, hl]
  have a1 : ((A.length + 1 + l2.length : Nat) : Int) - ((A.length + 1 : Nat) : Int) + 1
      = ((l2.length + 1 : Nat) : Int) := by push_cast; ring
  have a2 : ((A.length + 1 : Nat) : Int) - 1 = (A.length : Int) := by push_cast; ring
  have hpos : ((A.length + 1 : Nat) : Int) > 0 := by push_cast; omega
  have hrm := remove_buffer A l2 r c
  rw [← ht] at hrm
  simp only [tui_input_handle, hsl, Option.bind_eq_bind, Option.some_bind, if_true,
    if_pos hpos, a1, a2, hrm]
  rfl

theorem handle_delete_decomp (s : TUI_InputState) (l1 B r : List Char) (c : Char)
    (mod : Nat) (ht : s.text = l1 ++ c :: B ++ NUL :: r) (h1 : NUL ∉ l1) (hc : c ≠ NUL)
    (h2 : NUL ∉ B) (hcur : s.cursor = (l1.length : Int)) :
    tui_input_handle s (SDL_Event.key_down SDLK_DELETE mod)
      = some (true, { s with text := l1 ++ B ++ NUL :: NUL :: r }) := by
  obtain ⟨text, cursor, scroll, max_len⟩ := s
  simp only at ht hcur
  subst hcur
  have hnul : NUL ∉ l1 ++ c :: B := by
    simp only [List.mem_append, List.mem_cons, not_or]
    exact ⟨h1, fun h => hc h.symm, h2⟩
  have hsl : buf_strlen text = some ((l1.length + 1 + B.length : Nat) : Int) := by
    have hl : (l1 ++ c :: B).length = l1.length + 1 + B.length := by
      simp only [List.length_append, List.length_cons]; omega
    rw [ht, buf_strlen_append_nul (l1 ++ c :: B) r hnul, hl]
  have a1 : ((l1.length + 1 + B.length : Nat) : Int) - (l1.length : Int)
      = ((B.length + 1 : Nat) : Int) := by push_cast; ring
  have a2 : (l1.length : Int) + 1 = ((l1.length + 1 : Nat) : Int) := by push_cast; ring
  have hlt : (l1.length : Int) < ((l1.length + 1 + B.length : Nat) : Int) := by
    push_cast; omega
  have hne : SDLK_DELETE ≠ SDLK_BACKSPACE := by decide
  have hrm := remove_buffer l1 B r c
  rw [← ht] at hrm
  simp only [tui_input_handle, hsl, Option.bind_eq_bind, Option.some_bind, if_neg hne,
    if_true, if_pos hlt, a1, a2, hrm]
  rfl

theorem inv_of_decomp (s : TUI_InputState) (l r : List Char)
    (ht : s.text = l ++ NUL :: r) (hl : NUL ∉ l) (hlen : l.length + 1 + r.length = TUI_INPUT_MAX)
    (hmax : s.max_len < TUI_INPUT_MAX) (h0 : 0 ≤ s.cursor) (h1 : s.cursor ≤ (l.length : Int)) :
    s.WF ∧ s.CursorOk := by
  refine ⟨⟨?_, ?_, hmax⟩, h0, ?_⟩
  · rw [ht, ← hlen]; simp; omega
  · rw [ht]; simp
  · rw [ht]; simp only [strlen, cstr_append_nul l r hl]; exact h1

/-- Every event dispatched through `tui_input_handle` on a well-formed state whose
cursor lies inside the text is handled without undefined behaviour and leaves
such a state, with the same `max_len`. -/
theorem handle_preserves (s : TUI_InputState) (hwf : s.WF) (hc : s.CursorOk)
    (e : SDL_Event) :
    ∃ r, tui_input_handle s e = some r ∧ r.2.WF ∧ r.2.CursorOk ∧
      r.2.max_len = s.max_len := by
  have hwf0 := hwf
  have hc0 := hc
  obtain ⟨hlen, hn, hmax⟩ := hwf
  obtain ⟨l1, l2, r, ht, h1, h2, hcur, -, -, hcs⟩ := input_decomp s hn hc
  have htl : l1.length + l2.length + 1 + r.length = TUI_INPUT_MAX := by
    rw [← hlen, ht]; simp; omega
  have hsl : buf_strlen s.text = some ((l1.length + l2.length : Nat) : Int) := by
    simp [buf_strlen, hn, hcs]
  cases e with
  | quit => exact ⟨(false, s), rfl, hwf0, hc0, rfl⟩
  | other => exact ⟨(false, s), rfl, hwf0, hc0, rfl⟩
  | text_input txt =>
    by_cases hle : strlen s.text + strlen txt ≤ s.max_len
    · have hslen : strlen s.text = ((l1.length + l2.length : Nat) : Int) := by
        simp [strlen, hcs]
      have hadd : strlen txt = (((cstr txt).length : Nat) : Int) := rfl
      have hfit : (cstr txt).length ≤ r.length := by
        simp only [TUI_INPUT_MAX] at htl hmax
        omega
      have hle2 : ((l1.length + l2.length + (cstr txt).length : Nat) : Int) ≤ s.max_len := by
        push_cast; push_cast at hslen; omega
      refine ⟨_, handle_text_input_decomp s l1 l2 r txt ht h1 h2 hcur hle2 hfit, ?_⟩
      have hno : NUL ∉ l1 ++ cstr txt ++ l2 := by simp [h1, h2, cstr_no_nul txt]
      have := inv_of_decomp
        { s with text := l1 ++ cstr txt ++ l2 ++ NUL :: r.drop (cstr txt).length,
                 cursor := ((l1.length + (cstr txt).length : Nat) : Int) }
        (l1 ++ cstr txt ++ l2) (r.drop (cstr txt).length) rfl hno
        (by simp only [List.length_append, List.length_drop]; omega) hmax
        (by simp only; omega)
        (by simp only [List.length_append]; push_cast; omega)
      exact ⟨this.1, this.2, rfl⟩
    · exact ⟨_, handle_text_input_reject s txt hn (by omega), hwf0, hc0, rfl⟩
  | key_down key mod =>
    by_cases hb : key = SDLK_BACKSPACE ∧ s.cursor > 0
    · obtain ⟨hk, hpos⟩ := hb
      subst hk
      rcases List.eq_nil_or_concat' l1 with hnil | ⟨A, c, hA⟩
      · rw [hnil] at hcur; simp at hcur; omega
      · subst hA
        have hAc : NUL ∉ A ∧ c ≠ NUL := by
          simp only [List.mem_append, List.mem_singleton, not_or] at h1
          exact ⟨h1.1, fun h => h1.2 h.symm⟩
        have ht2 : s.text = A ++ c :: l2 ++ NUL :: r := by rw [ht]; simp
        have hcur2 : s.cursor = ((A.length + 1 : Nat) : Int) := by rw [hcur]; simp
        refine ⟨_, handle_backspace_decomp s A l2 r c mod ht2 hAc.1 hAc.2 h2 hcur2, ?_⟩
        have hno : NUL ∉ A ++ l2 := by simp [hAc.1, h2]
        have := inv_of_decomp
          { s with text := A ++ l2 ++ NUL :: NUL :: r, cursor := (A.length : Int) }
          (A ++ l2) (NUL :: r) rfl hno
          (by simp only [List.length_append, List.length_cons, List.length_nil] at htl ⊢; omega)
          hmax (by simp only; omega) (by simp only [List.length_append]; push_cast; omega)
        exact ⟨this.1, this.2, rfl⟩
    by_cases hd : key = SDLK_DELETE ∧ s.cursor < ((l1.length + l2.length : Nat) : Int)
    · obtain ⟨hk, hlt⟩ := hd
      subst hk
      cases l2 with
      | nil => simp at hlt; omega
      | cons c B =>
        have hcB : c ≠ NUL ∧ NUL ∉ B := by
          simp only [List.mem_cons, not_or] at h2
          exact ⟨fun h => h2.1 h.symm, h2.2⟩
        refine ⟨_, handle_delete_decomp s l1 B r c mod ht h1 hcB.1 hcB.2 hcur, ?_⟩
        have hno : NUL ∉ l1 ++ B := by simp [h1, hcB.2]
        have := inv_of_decomp
          { s with text := l1 ++ B ++ NUL :: NUL :: r }
          (l1 ++ B) (NUL :: r) rfl hno
          (by simp only [List.length_append, List.length_cons, List.length_nil] at htl ⊢; omega)
          hmax (by simp only; omega) (by simp only [List.length_append]; push_cast; omega)
        exact ⟨this.1, this.2, rfl⟩
    have hinv : ∀ c : Int, 0 ≤ c → c ≤ ((l1.length + l2.length : Nat) : Int) →
        ({ s with cursor := c } : TUI_InputState).WF ∧
        ({ s with cursor := c } : TUI_InputState).CursorOk := by
      intro c hc0 hc1
      refine inv_of_decomp _ (l1 ++ l2) r (by simpa using ht) (by simp [h1, h2])
        (by simp only [List.length_append]; omega) hmax hc0 ?_
      simp only [List.length_append]; exact_mod_cast hc1
    simp only [tui_input_handle, hsl, Option.bind_eq_bind, Option.some_bind]
    have hcl : s.cursor ≤ ((l1.length + l2.length : Nat) : Int) := by
      rw [hcur]; push_cast; omega
    have hc0' : 0 ≤ s.cursor := hc0.1
    split_ifs with k1 k2 k3 k4 k5 k6 k7 k8 k9 k10
    all_goals first
      | exact absurd ⟨‹_›, ‹_›⟩ hb
      | exact absurd ⟨‹_›, ‹_›⟩ hd
      | exact ⟨_, rfl, hwf0, hc0, rfl⟩
      | exact ⟨_, rfl, (hinv _ (by omega) (by omega)).1, (hinv _ (by omega) (by omega)).2, rfl⟩

theorem input_run_preserves (es : List SDL_Event) :
    ∀ s : TUI_InputState, s.WF → s.CursorOk →
      ∃ s1, input_run s es = some s1 ∧ s1.WF ∧ s1.CursorOk ∧ s1.max_len = s.max_len := by
  induction es with
  | nil => intro s hwf hc; exact ⟨s, rfl, hwf, hc, rfl⟩
  | cons e es ih =>
    intro s hwf hc
    obtain ⟨r, hr, hwf1, hc1, hm1⟩ := handle_preserves s hwf hc e
    obtain ⟨s1, hs1, hwf2, hc2, hm2⟩ := ih r.2 hwf1 hc1
    refine ⟨s1, ?_, hwf2, hc2, hm2.trans hm1⟩
    simp only [input_run, hr, Option.bind_eq_bind, Option.some_bind]
    exact hs1

/-- With `inner = w - 2 ≥ 1`, `tui_draw_input` on a NUL-terminated buffer returns,
and the state it leaves is the scroll adjustment of the state it was given. -/
theorem draw_input_state (t : TUI) (x y w : Int) (s : TUI_InputState) (focused : Bool)
    (fg bg cf cb : Nat) (hw : 1 ≤ w - 2) (hn : NUL ∈ s.text) :
    ∃ t', tui_draw_input t x y w s focused fg bg cf cb
      = some (t', input_scroll_adjust (w - 2) s) := by
  have hw2 : ¬ (w - 2 < 1) := by omega
  have ht : (input_scroll_adjust (w - 2) s).text = s.text := by
    simp only [input_scroll_adjust]
    split_ifs <;> rfl
  have hsl : buf_strlen (input_scroll_adjust (w - 2) s).text
      = some (strlen s.text) := by
    rw [ht]; simp [buf_strlen, hn, strlen]
  simp only [tui_draw_input, if_neg hw2, hsl, Option.bind_eq_bind, Option.some_bind]
  exact ⟨_, rfl⟩

theorem scroll_adjust_invariant (inner : Int) (hi : 1 ≤ inner) (s : TUI_InputState)
    (h0 : 0 ≤ s.cursor) :
    (input_scroll_adjust inner s).cursor = s.cursor ∧
    (input_scroll_adjust inner s).text = s.text ∧
    (input_scroll_adjust inner s).max_len = s.max_len ∧
    0 ≤ (input_scroll_adjust inner s).scroll ∧
    (input_scroll_adjust inner s).scroll ≤ (input_scroll_adjust inner s).cursor ∧
    (input_scroll_adjust inner s).cursor ≤ (input_scroll_adjust inner s).scroll + inner - 1 := by
  obtain ⟨text, cursor, scroll, max_len⟩ := s
  simp only [input_scroll_adjust]
  simp only at h0
  split_ifs with k1 k2 k3 k4 k5 k6 <;> (try simp only at *) <;>
    refine ⟨trivial, trivial, trivial, ?_, ?_, ?_⟩ <;> omega

/-- C2: for a field width `w` with visible width `v = w - 2 ≥ 1`, `tui_draw_input`
on a state with `cursor ≥ 0` and any `scroll` (too large, stale or negative)
returns and leaves `scroll ≥ 0` and `scroll ≤ cursor ≤ scroll + v - 1`, the cursor
being unchanged; in particular this holds for the draw that follows any sequence
of events dispatched through `tui_input_handle` from a well-formed state, whatever
the scroll value was set to in between. -/
theorem tui_draw_input_scroll_invariant (t : TUI) (x y w : Int) (focused : Bool)
    (fg bg cf cb : Nat) (hw : 1 ≤ w - 2) :
    (∀ s : TUI_InputState, NUL ∈ s.text → 0 ≤ s.cursor →
      ∃ t' s', tui_draw_input t x y w s focused fg bg cf cb = some (t', s') ∧
        s'.cursor = s.cursor ∧ 0 ≤ s'.scroll ∧ s'.scroll ≤ s'.cursor ∧
        s'.cursor ≤ s'.scroll + (w - 2) - 1) ∧
    (∀ (s0 : TUI_InputState) (es : List SDL_Event) (scroll : Int),
      s0.WF → s0.CursorOk →
      ∃ s1 t' s', input_run s0 es = some s1 ∧
        tui_draw_input t x y w { s1 with scroll := scroll } focused fg bg cf cb
          = some (t', s') ∧
        s'.cursor = s1.cursor ∧ 0 ≤ s'.scroll ∧ s'.scroll ≤ s'.cursor ∧
        s'.cursor ≤ s'.scroll + (w - 2) - 1) := by
  have key : ∀ s : TUI_InputState, NUL ∈ s.text → 0 ≤ s.cursor →
      ∃ t' s', tui_draw_input t x y w s focused fg bg cf cb = some (t', s') ∧
        s'.cursor = s.cursor ∧ 0 ≤ s'.scroll ∧ s'.scroll ≤ s'.cursor ∧
        s'.cursor ≤ s'.scroll + (w - 2) - 1 := by
    intro s hn h0
    obtain ⟨t', ht'⟩ := draw_input_state t x y w s focused fg bg cf cb hw hn
    have h := scroll_adjust_invariant (w - 2) hw s h0
    exact ⟨t', _, ht', h.1, h.2.2.2.1, h.2.2.2.2.1, h.2.2.2.2.2⟩
  refine ⟨key, fun s0 es scroll hwf hc => ?_⟩
  obtain ⟨s1, hs1, hwf1, hc1, -⟩ := input_run_preserves es s0 hwf hc
  obtain ⟨t', s', hd, h⟩ := key { s1 with scroll := scroll } hwf1.2.1 hc1.1
  exact ⟨s1, t', s', hs1, hd, h⟩

theorem tui_draw_input_scroll_invariant_witness :
    (1 : Int) ≤ 5 - 2 ∧
    ∃ t' s', tui_draw_input tui_sample 0 0 5 { input_sample with scroll := 100 } true 7 0 0 7
        = some (t', s') ∧
      s'.cursor = 1 ∧ 0 ≤ s'.scroll ∧ s'.scroll ≤ s'.cursor ∧
      s'.cursor ≤ s'.scroll + (5 - 2) - 1 :=
  ⟨by decide,
   (tui_draw_input_scroll_invariant tui_sample 0 0 5 true 7 0 0 7 (by decide)).1
     { input_sample with scroll := 100 } input_sample_wf.2.1 (by decide)⟩

/-! ## Word wrap: the scan of a word and the fuel of the loop -/

theorem word_len_le (s : List Char) : word_len s ≤ s.length := by
  induction s with
  | nil => simp [word_len]
  | cons c cs ih =>
    simp only [word_len]
    split_ifs
    · simp only [List.length_cons]; omega
    · simp

theorem word_len_pos (c : Char) (cs : List Char) (h : ¬ isStop c) :
    0 < word_len (c :: cs) := by
  simp only [isStop, not_or] at h
  simp [word_len, h.1, h.2.1, h.2.2]

theorem word_len_stop (c : Char) (cs : List Char) (h : isStop c) :
    word_len (c :: cs) = 0 := by
  simp only [word_len]
  rw [if_neg]
  simp only [isStop] at h
  rcases h with h | h | h <;> simp [h]

theorem word_len_take (s : List Char) : ∀ c ∈ s.take (word_len s), ¬ isStop c := by
  induction s with
  | nil => simp [word_len]
  | cons c cs ih =>
    by_cases h : isStop c
    · simp [word_len_stop c cs h]
    · have h' := h
      simp only [isStop, not_or] at h'
      have : word_len (c :: cs) = word_len cs + 1 := by
        simp [word_len, h'.1, h'.2.1, h'.2.2]
      rw [this, List.take_succ_cons]
      intro d hd
      rcases List.mem_cons.1 hd with hd | hd
      · rw [hd]; exact h
      · exact ih d hd

theorem word_len_drop (s : List Char) :
    s.drop (word_len s) = [] ∨ ∃ c rest, s.drop (word_len s) = c :: rest ∧ isStop c := by
  induction s with
  | nil => simp [word_len]
  | cons c cs ih =>
    by_cases h : isStop c
    · right; exact ⟨c, cs, by simp [word_len_stop c cs h], h⟩
    · have h' := h
      simp only [isStop, not_or] at h'
      have : word_len (c :: cs) = word_len cs + 1 := by
        simp [word_len, h'.1, h'.2.1, h'.2.2]
      rw [this, List.drop_succ_cons]
      exact ih

theorem word_len_append (word post : List Char) (hw : ∀ c ∈ word, ¬ isStop c)
    (hp : post = [] ∨ ∃ c rest, post = c :: rest ∧ isStop c) :
    word_len (word ++ post) = word.length := by
  induction word with
  | nil =>
    rcases hp with hp | ⟨c, rest, hp, hc⟩
    · simp [hp, word_len]
    · simp [hp, word_len_stop c rest hc]
  | cons c cs ih =>
    have h' := hw c (List.mem_cons_self _ _)
    simp only [isStop, not_or] at h'
    have : word_len (c :: cs ++ post) = word_len (cs ++ post) + 1 := by
      simp [word_len, h'.1, h'.2.1, h'.2.2]
    rw [this, ih (fun d hd => hw d (List.mem_cons_of_mem _ hd))]
    simp

/-- Every iteration of the outer loop consumes at least one character. -/
theorem wrap_space_length (w : Int) (s : List Char) (cx cy : Int) :
    (wrap_space w s cx cy).1.length ≤ s.length ∧
    (∀ rest, s = ' ' :: rest → (wrap_space w s cx cy).1 = rest) := by
  unfold wrap_space
  split
  · next rest =>
    split_ifs <;> simp
  · next rest h =>
    exact ⟨le_refl _, fun r hr => absurd hr (h r)⟩

theorem wrap_step_length (x y w : Int) (fg bg : Nat) (c : Char) (cs : List Char)
    (cx cy : Int) (hc : c ≠ NUL) :
    (wrap_step x y w fg bg c cs cx cy).2.1.length < (c :: cs).length := by
  unfold wrap_step
  by_cases hnl : c = '\n'
  · simp [hnl]
  · simp only [if_neg hnl]
    by_cases hsp : c = ' '
    · have h0 : word_len (c :: cs) = 0 := word_len_stop c cs (Or.inr (Or.inl hsp))
      rw [h0, List.drop_zero]
      rw [(wrap_space_length w (c :: cs) _ _).2 cs (by rw [hsp])]
      simp
    · have hpos : 0 < word_len (c :: cs) :=
        word_len_pos c cs (by simp [isStop, hc, hnl, hsp])
      have hle := word_len_le (c :: cs)
      have h1 := (wrap_space_length w ((c :: cs).drop (word_len (c :: cs)))
        (wrap_word x y w fg bg (word_len (c :: cs)) ((c :: cs).take (word_len (c :: cs)))
          cx cy).2.1
        (wrap_word x y w fg bg (word_len (c :: cs)) ((c :: cs).take (word_len (c :: cs)))
          cx cy).2.2).1
      rw [List.length_drop] at h1
      omega

/-- The fuel of the loop is enough as soon as it reaches the length of the text:
more fuel gives the same result. -/
theorem wrap_loop_fuel_eq (x y w : Int) (fg bg : Nat) (n : Nat) :
    ∀ (m : Nat) (s : List Char) (cx cy : Int), s.length ≤ n → s.length ≤ m →
      wrap_loop x y w fg bg n s cx cy = wrap_loop x y w fg bg m s cx cy := by
  induction n with
  | zero =>
    intro m s cx cy hn _
    have : s = [] := List.length_eq_zero.1 (by omega)
    subst this
    cases m <;> simp [wrap_loop]
  | succ n ih =>
    intro m s cx cy hn hm
    cases s with
    | nil => cases m <;> simp [wrap_loop]
    | cons c cs =>
      cases m with
      | zero => simp at hm
      | succ m =>
        simp only [wrap_loop]
        by_cases hc : c = NUL
        · simp [hc]
        · simp only [if_neg hc]
          have hl := wrap_step_length x y w fg bg c cs cx cy hc
          simp only [List.length_cons] at hl hn hm
          rw [ih m _ _ _ (by omega) (by omega)]

theorem wrap_loop_fuel (x y w : Int) (fg bg : Nat) (n : Nat) (s : List Char)
    (cx cy : Int) (h : s.length ≤ n) :
    wrap_loop x y w fg bg n s cx cy = wrap_loop x y w fg bg s.length s cx cy :=
  wrap_loop_fuel_eq x y w fg bg n s.length s cx cy h (le_refl _)

/-- The loop equation of the outer `while`, without fuel. -/
theorem wrap_loop_cons (x y w : Int) (fg bg : Nat) (c : Char) (cs : List Char)
    (cx cy : Int) (hc : c ≠ NUL) :
    wrap_loop x y w fg bg (c :: cs).length (c :: cs) cx cy =
      ((wrap_step x y w fg bg c cs cx cy).1
        ++ (wrap_loop x y w fg bg (wrap_step x y w fg bg c cs cx cy).2.1.length
              (wrap_step x y w fg bg c cs cx cy).2.1
              (wrap_step x y w fg bg c cs cx cy).2.2.1
              (wrap_step x y w fg bg c cs cx cy).2.2.2).1,
       (wrap_loop x y w fg bg (wrap_step x y w fg bg c cs cx cy).2.1.length
              (wrap_step x y w fg bg c cs cx cy).2.1
              (wrap_step x y w fg bg c cs cx cy).2.2.1
              (wrap_step x y w fg bg c cs cx cy).2.2.2).2) := by
  have hl := wrap_step_length x y w fg bg c cs cx cy hc
  simp only [List.length_cons] at hl
  simp only [List.length_cons, wrap_loop, if_neg hc]
  rw [wrap_loop_fuel x y w fg bg cs.length _ _ _ (by omega)]

/-! ## Word wrap: every call lies in the block, in row-major order -/

theorem wrapOk_nil (x y w cx cy cx1 cy1 : Int) (h0 : 0 ≤ cx1) (h : PosLe cx cy cx1 cy1) :
    WrapOk x y w cx cy [] cx1 cy1 :=
  ⟨h0, h, by simp, List.Pairwise.nil⟩

theorem wrapOk_single (x y w cx cy : Int) (ch : Char) (fg bg : Nat) (h0 : 0 ≤ cx)
    (h1 : cx < w) :
    WrapOk x y w cx cy [{ x := x + cx, y := y + cy, ch := ch, fg := fg, bg := bg }]
      (cx + 1) cy := by
  refine ⟨by omega, Or.inr ⟨rfl, by omega⟩, ?_, List.pairwise_singleton _ _⟩
  intro c hc
  rw [List.mem_singleton] at hc
  subst hc
  dsimp only [PutFrom, PutBefore]
  omega

theorem wrapOk_append (x y w cx cy cx1 cy1 cx2 cy2 : Int) (l1 l2 : List TUI_Put)
    (h1 : WrapOk x y w cx cy l1 cx1 cy1) (h2 : WrapOk x y w cx1 cy1 l2 cx2 cy2) :
    WrapOk x y w cx cy (l1 ++ l2) cx2 cy2 := by
  obtain ⟨a0, a1, a2, a3⟩ := h1
  obtain ⟨b0, b1, b2, b3⟩ := h2
  simp only [PosLe] at a1 b1
  refine ⟨b0, ?_, ?_, ?_⟩
  · simp only [PosLe]; omega
  · intro c hc
    rcases List.mem_append.1 hc with hc | hc
    · obtain ⟨p1, p2, p3, p4⟩ := a2 c hc
      simp only [PutBefore] at p4 ⊢
      exact ⟨p1, p2, p3, by omega⟩
    · obtain ⟨p1, p2, p3, p4⟩ := b2 c hc
      simp only [PutFrom] at p3 ⊢
      exact ⟨p1, p2, by omega, p4⟩
  · rw [List.pairwise_append]
    refine ⟨a3, b3, ?_⟩
    intro a ha b hb
    have pa := (a2 a ha).2.2.2
    have pb := (b2 b hb).2.2.1
    simp only [PutBefore, PutFrom, PutLt] at pa pb ⊢
    omega

theorem wrap_hard_ok (x y w : Int) (fg bg : Nat) (hw : 1 ≤ w) (word : List Char) :
    ∀ cx cy : Int, 0 ≤ cx →
      WrapOk x y w cx cy (wrap_hard x y w fg bg word cx cy).1
        (wrap_hard x y w fg bg word cx cy).2.1 (wrap_hard x y w fg bg word cx cy).2.2 := by
  induction word with
  | nil =>
    intro cx cy h0
    exact wrapOk_nil x y w cx cy cx cy h0 (Or.inr ⟨rfl, le_refl _⟩)
  | cons c cs ih =>
    intro cx cy h0
    simp only [wrap_hard]
    by_cases hge : cx ≥ w
    · simp only [if_pos hge]
      have s1 : WrapOk x y w cx cy [] 0 (cy + 1) :=
        wrapOk_nil x y w cx cy 0 (cy + 1) (le_refl _) (Or.inl (by omega))
      have s2 := wrapOk_single x y w 0 (cy + 1) c fg bg (le_refl _) (by omega)
      have s3 := ih (0 + 1) (cy + 1) (by omega)
      have := wrapOk_append _ _ _ _ _ _ _ _ _ _ _ s1 (wrapOk_append _ _ _ _ _ _ _ _ _ _ _ s2 s3)
      simpa using this
    · simp only [if_neg hge]
      have s2 := wrapOk_single x y w cx cy c fg bg h0 (by omega)
      have s3 := ih (cx + 1) cy (by omega)
      have := wrapOk_append _ _ _ _ _ _ _ _ _ _ _ s2 s3
      simpa using this

theorem wrap_soft_ok (x y w : Int) (fg bg : Nat) (word : List Char) :
    ∀ cx cy : Int, 0 ≤ cx → cx + (word.length : Int) ≤ w →
      WrapOk x y w cx cy (wrap_soft x y fg bg word cx cy).1
        (wrap_soft x y fg bg word cx cy).2 cy := by
  induction word with
  | nil =>
    intro cx cy h0 _
    exact wrapOk_nil x y w cx cy cx cy h0 (Or.inr ⟨rfl, le_refl _⟩)
  | cons c cs ih =>
    intro cx cy h0 hfit
    simp only [List.length_cons, Nat.cast_add, Nat.cast_one] at hfit
    simp only [wrap_soft]
    have s2 := wrapOk_single x y w cx cy c fg bg h0 (by omega)
    have s3 := ih (cx + 1) cy (by omega) (by omega)
    have := wrapOk_append _ _ _ _ _ _ _ _ _ _ _ s2 s3
    simpa using this

theorem wrap_soft_cx (x y : Int) (fg bg : Nat) (word : List Char) :
    ∀ cx cy : Int, (wrap_soft x y fg bg word cx cy).2 = cx + (word.length : Int) := by
  induction word with
  | nil => intro cx cy; simp [wrap_soft]
  | cons c cs ih =>
    intro cx cy
    simp only [wrap_soft, ih, List.length_cons, Nat.cast_add, Nat.cast_one]
    omega

theorem wrap_word_ok (x y w : Int) (fg bg : Nat) (hw : 1 ≤ w) (word : List Char)
    (cx cy : Int) (h0 : 0 ≤ cx) :
    WrapOk x y w cx cy (wrap_word x y w fg bg word.length word cx cy).1
      (wrap_word x y w fg bg word.length word cx cy).2.1
      (wrap_word x y w fg bg word.length word cx cy).2.2 := by
  unfold wrap_word
  by_cases hl : (word.length : Int) > w
  · simp only [if_pos hl]
    exact wrap_hard_ok x y w fg bg hw word cx cy h0
  · simp only [if_neg hl]
    by_cases hb : cx > 0 ∧ cx + (word.length : Int) > w
    · have hb' : (decide (cx > 0) && decide (cx + (word.length : Int) > w)) = true := by
        simp [hb.1, hb.2]
      simp only [hb', if_true]
      have s1 : WrapOk x y w cx cy [] 0 (cy + 1) :=
        wrapOk_nil x y w cx cy 0 (cy + 1) (le_refl _) (Or.inl (by omega))
      have s2 := wrap_soft_ok x y w fg bg word 0 (cy + 1) (le_refl _) (by omega)
      have := wrapOk_append _ _ _ _ _ _ _ _ _ _ _ s1 s2
      simpa using this
    · have hb' : (decide (cx > 0) && decide (cx + (word.length : Int) > w)) = false := by
        simp only [Bool.and_eq_false_imp, decide_eq_true_eq, decide_eq_false_iff_not]
        intro h1 h2
        exact hb ⟨h1, h2⟩
      simp only [hb', Bool.false_eq_true, if_false]
      have hfit : cx + (word.length : Int) ≤ w := by
        by_cases hz : cx > 0
        · have : ¬ (cx + (word.length : Int) > w) := fun h => hb ⟨hz, h⟩
          omega
        · omega
      exact wrap_soft_ok x y w fg bg word cx cy h0 hfit

theorem wrap_space_ok (x y w : Int) (s : List Char) (cx cy : Int) (h0 : 0 ≤ cx) :
    WrapOk x y w cx cy [] (wrap_space w s cx cy).2.1 (wrap_space w s cx cy).2.2 := by
  unfold wrap_space
  split
  · split_ifs
    · exact wrapOk_nil _ _ _ _ _ _ _ (le_refl _) (Or.inl (by simp))
    · exact wrapOk_nil _ _ _ _ _ _ _ (by simp only; omega) (Or.inr ⟨rfl, by simp⟩)
  · exact wrapOk_nil _ _ _ _ _ _ _ h0 (Or.inr ⟨rfl, le_refl _⟩)

theorem wrap_step_ok (x y w : Int) (fg bg : Nat) (hw : 1 ≤ w) (c : Char) (cs : List Char)
    (cx cy : Int) (h0 : 0 ≤ cx) :
    WrapOk x y w cx cy (wrap_step x y w fg bg c cs cx cy).1
      (wrap_step x y w fg bg c cs cx cy).2.2.1 (wrap_step x y w fg bg c cs cx cy).2.2.2 := by
  unfold wrap_step
  by_cases hnl : c = '\n'
  · simp only [if_pos hnl]
    exact wrapOk_nil _ _ _ _ _ _ _ (le_refl _) (Or.inl (by simp))
  · simp only [if_neg hnl]
    have hlen : ((c :: cs).take (word_len (c :: cs))).length = word_len (c :: cs) := by
      rw [List.length_take]
      exact Nat.min_eq_left (word_len_le _)
    have s1 := wrap_word_ok x y w fg bg hw ((c :: cs).take (word_len (c :: cs))) cx cy h0
    rw [hlen] at s1
    have s2 := wrap_space_ok x y w ((c :: cs).drop (word_len (c :: cs)))
      (wrap_word x y w fg bg (word_len (c :: cs)) ((c :: cs).take (word_len (c :: cs)))
        cx cy).2.1
      (wrap_word x y w fg bg (word_len (c :: cs)) ((c :: cs).take (word_len (c :: cs)))
        cx cy).2.2 s1.1
    have := wrapOk_append _ _ _ _ _ _ _ _ _ _ _ s1 s2
    simpa using this

theorem wrap_loop_ok (x y w : Int) (fg bg : Nat) (hw : 1 ≤ w) (n : Nat) :
    ∀ (s : List Char) (cx cy : Int), 0 ≤ cx →
      WrapOk x y w cx cy (wrap_loop x y w fg bg n s cx cy).1
        (wrap_loop x y w fg bg n s cx cy).2.1 (wrap_loop x y w fg bg n s cx cy).2.2 := by
  induction n with
  | zero =>
    intro s cx cy h0
    simp only [wrap_loop]
    exact wrapOk_nil _ _ _ _ _ _ _ h0 (Or.inr ⟨rfl, le_refl _⟩)
  | succ n ih =>
    intro s cx cy h0
    cases s with
    | nil =>
      simp only [wrap_loop]
      exact wrapOk_nil _ _ _ _ _ _ _ h0 (Or.inr ⟨rfl, le_refl _⟩)
    | cons c cs =>
      simp only [wrap_loop]
      by_cases hc : c = NUL
      · simp only [if_pos hc]
        exact wrapOk_nil _ _ _ _ _ _ _ h0 (Or.inr ⟨rfl, le_refl _⟩)
      · simp only [if_neg hc]
        have s1 := wrap_step_ok x y w fg bg hw c cs cx cy h0
        have s2 := ih (wrap_step x y w fg bg c cs cx cy).2.1
          (wrap_step x y w fg bg c cs cx cy).2.2.1 (wrap_step x y w fg bg c cs cx cy).2.2.2 s1.1
        exact wrapOk_append _ _ _ _ _ _ _ _ _ _ _ s1 s2

theorem increasing_length_le (l : List Int) :
    ∀ (lo w : Int), 0 ≤ w → l.Pairwise (fun a b => a < b) →
      (∀ a ∈ l, lo ≤ a ∧ a < lo + w) → (l.length : Int) ≤ w := by
  induction l with
  | nil => intro lo w hw _ _; simpa using hw
  | cons a t ih =>
    intro lo w _ hp hr
    rw [List.pairwise_cons] at hp
    have ha := hr a (List.mem_cons_self _ _)
    have := ih (lo + 1) (w - 1) (by omega) hp.2 (fun b hb => by
      have h1 := hp.1 b hb
      have h2 := hr b (List.mem_cons_of_mem _ hb)
      omega)
    simp only [List.length_cons, Nat.cast_add, Nat.cast_one]
    omega

theorem wrap_calls_ok (x y w : Int) (hw : 1 ≤ w) (s : List Char) (fg bg : Nat) :
    WrapOk x y w 0 0 (tui_puts_wrap_calls x y w s fg bg).1
      (wrap_loop x y w fg bg s.length s 0 0).2.1
      (wrap_loop x y w fg bg s.length s 0 0).2.2 := by
  have h : ¬ (w ≤ 0) := by omega
  simp only [tui_puts_wrap_calls, if_neg h]
  exact wrap_loop_ok x y w fg bg hw s.length s 0 0 (le_refl _)

/-- C3: for a width `w ≥ 1`, every call of `tui_putc` that `tui_puts_wrap` issues
(so every character it writes) is at a column `x + cx` with `0 ≤ cx < w` and a row
`y + cy` with `cy ≥ 0`; and no row receives more than `w` characters, so no
produced line is longer than `w`. -/
theorem tui_puts_wrap_within_width (x y w : Int) (hw : 1 ≤ w) (s : List Char)
    (fg bg : Nat) :
    (∀ c ∈ (tui_puts_wrap_calls x y w s fg bg).1,
      ∃ cx cy : Int, c.x = x + cx ∧ c.y = y + cy ∧ 0 ≤ cx ∧ cx < w ∧ 0 ≤ cy) ∧
    (∀ row : Int,
      (((tui_puts_wrap_calls x y w s fg bg).1.filter (fun c => c.y = row)).length : Int)
        ≤ w) ∧
    (∀ t : TUI, (tui_puts_wrap t x y w s fg bg).1
      = tui_replay t (tui_puts_wrap_calls x y w s fg bg).1) := by
  obtain ⟨-, -, hall, hpw⟩ := wrap_calls_ok x y w hw s fg bg
  refine ⟨fun c hc => ?_, fun row => ?_, fun t => rfl⟩
  · obtain ⟨h1, h2, h3, -⟩ := hall c hc
    simp only [PutFrom] at h3
    exact ⟨c.x - x, c.y - y, by omega, by omega, by omega, by omega, by omega⟩
  · have hsub : ((tui_puts_wrap_calls x y w s fg bg).1.filter (fun c => c.y = row)).Sublist
        (tui_puts_wrap_calls x y w s fg bg).1 := List.filter_sublist _
    have hp2 := hpw.sublist hsub
    have hp3 : (((tui_puts_wrap_calls x y w s fg bg).1.filter (fun c => c.y = row)).map
        (fun c => c.x)).Pairwise (fun a b => a < b) := by
      rw [List.pairwise_map]
      refine hp2.imp_of_mem ?_
      intro a b ha hb hlt
      have ha2 : a.y = row := by simpa using (List.mem_filter.1 ha).2
      have hb2 : b.y = row := by simpa using (List.mem_filter.1 hb).2
      simp only [PutLt] at hlt
      omega
    have := increasing_length_le _ x w (by omega) hp3 (fun a ha => by
      obtain ⟨c, hc, rfl⟩ := List.mem_map.1 ha
      have hc2 := hall c (List.mem_filter.1 hc).1
      exact ⟨hc2.1, hc2.2.1⟩)
    simpa using this

theorem tui_puts_wrap_within_width_witness :
    (1 : Int) ≤ 5 ∧
    ∀ c ∈ (tui_puts_wrap_calls 3 5 5 ['a', 'b', ' ', 'a', 'b', 'c', 'd', 'e', 'f', 'g', 'h']
        7 0).1,
      ∃ cx cy : Int, c.x = 3 + cx ∧ c.y = 5 + cy ∧ 0 ≤ cx ∧ cx < 5 ∧ 0 ≤ cy :=
  ⟨by decide,
   (tui_puts_wrap_within_width 3 5 5 (by decide)
     ['a', 'b', ' ', 'a', 'b', 'c', 'd', 'e', 'f', 'g', 'h'] 7 0).1⟩

/-! ## Word wrap: what the loop does at a word -/

theorem wrap_space_append (w : Int) (s rest : List Char) (cx cy : Int) (hs : s ≠ []) :
    wrap_space w (s ++ rest) cx cy
      = ((wrap_space w s cx cy).1 ++ rest, (wrap_space w s cx cy).2) := by
  cases s with
  | nil => exact absurd rfl hs
  | cons d ds =>
    by_cases hd : d = ' '
    · subst hd
      simp only [wrap_space, List.cons_append]
      split_ifs <;> rfl
    · have e1 : ∀ t : List Char, wrap_space w (d :: t) cx cy = (d :: t, cx, cy) := by
        intro t
        unfold wrap_space
        split
        · next rest h =>
          exact absurd (List.cons.inj h).1 hd
        · rfl
      rw [List.cons_append, e1, e1]
      rfl

theorem word_len_append_stop (a b : List Char) (h : ∃ c ∈ a, isStop c) :
    word_len (a ++ b) = word_len a ∧ word_len a < a.length := by
  induction a with
  | nil => simp at h
  | cons c cs ih =>
    by_cases hc : isStop c
    · simp [word_len_stop c _ hc]
    · have h' := hc
      simp only [isStop, not_or] at h'
      have e1 : ∀ t, word_len (c :: t) = word_len t + 1 := by
        intro t; simp [word_len, h'.1, h'.2.1, h'.2.2]
      obtain ⟨d, hd, hds⟩ := h
      have hd2 : d ∈ cs := by
        rcases List.mem_cons.1 hd with hd | hd
        · rw [hd] at hds; exact absurd hds hc
        · exact hd
      have := ih ⟨d, hd2, hds⟩
      rw [List.cons_append, e1, e1, this.1]
      refine ⟨rfl, ?_⟩
      have h2 := this.2
      simp only [List.length_cons]
      omega

/-- One iteration of the loop at a word `c :: cs` followed by `post`: the word is
written by `wrap_word`, then the test on the space is made on `post`. -/
theorem wrap_step_word (x y w : Int) (fg bg : Nat) (c : Char) (cs post : List Char)
    (cx cy : Int) (hw : ∀ d ∈ c :: cs, ¬ isStop d) (hp : WordEnd post) :
    wrap_step x y w fg bg c (cs ++ post) cx cy
      = ((wrap_word x y w fg bg (c :: cs).length (c :: cs) cx cy).1,
         wrap_space w post (wrap_word x y w fg bg (c :: cs).length (c :: cs) cx cy).2.1
           (wrap_word x y w fg bg (c :: cs).length (c :: cs) cx cy).2.2) := by
  have hc := hw c (List.mem_cons_self _ _)
  simp only [isStop, not_or] at hc
  have hwl : word_len (c :: (cs ++ post)) = (c :: cs).length := by
    rw [← List.cons_append]
    exact word_len_append (c :: cs) post hw hp
  unfold wrap_step
  simp only [if_neg hc.2.2, hwl]
  rw [← List.cons_append, List.take_left, List.drop_left]

theorem wordBoundary_suffix (pre q : List Char) (h : WordBoundary pre) (hq : q <:+ pre) :
    WordBoundary q := by
  obtain ⟨hn, hb⟩ := h
  obtain ⟨p0, hp0⟩ := hq
  refine ⟨fun hm => hn (hp0 ▸ List.mem_append_right _ hm), ?_⟩
  rcases List.eq_nil_or_concat' q with hq | ⟨q0, d, hq⟩
  · exact Or.inl hq
  · right
    refine ⟨q0, d, hq, ?_⟩
    rcases hb with hb | ⟨p, c, hb, hc⟩
    · rw [hb, hq] at hp0; simp at hp0
    · have e : p ++ [c] = (p0 ++ q0) ++ [d] := by
        rw [← hb, ← hp0, hq, List.append_assoc]
      have := List.append_inj_right' e rfl
      simp only [List.cons.injEq, and_true] at this
      rw [← this]; exact hc

theorem wrap_space_suffix (w : Int) (s : List Char) (cx cy : Int) :
    (wrap_space w s cx cy).1 <:+ s := by
  unfold wrap_space
  split
  · split_ifs <;> exact List.suffix_cons _ _
  · exact List.suffix_refl _

theorem wrap_step_suffix (x y w : Int) (fg bg : Nat) (c : Char) (cs : List Char)
    (cx cy : Int) : (wrap_step x y w fg bg c cs cx cy).2.1 <:+ c :: cs := by
  unfold wrap_step
  split_ifs
  · exact List.suffix_cons _ _
  · exact (wrap_space_suffix w _ _ _).trans (List.drop_suffix _ _)

theorem wordBoundary_stop (c : Char) (cs : List Char) (h : WordBoundary (c :: cs)) :
    ∃ d ∈ c :: cs, isStop d := by
  rcases h.2 with h0 | ⟨p, d, hp, hd⟩
  · simp at h0
  · refine ⟨d, ?_, Or.inr hd⟩
    rw [hp]; simp

theorem wrap_step_append (x y w : Int) (fg bg : Nat) (c : Char) (cs rest : List Char)
    (cx cy : Int) (hpre : WordBoundary (c :: cs)) :
    wrap_step x y w fg bg c (cs ++ rest) cx cy
      = ((wrap_step x y w fg bg c cs cx cy).1,
         (wrap_step x y w fg bg c cs cx cy).2.1 ++ rest,
         (wrap_step x y w fg bg c cs cx cy).2.2) := by
  unfold wrap_step
  by_cases hnl : c = '\n'
  · simp only [if_pos hnl]
  · simp only [if_neg hnl]
    obtain ⟨e1, e2⟩ := word_len_append_stop (c :: cs) rest (wordBoundary_stop c cs hpre)
    rw [← List.cons_append, e1, List.take_append_of_le_length (le_of_lt e2),
      List.drop_append_of_le_length (le_of_lt e2)]
    have hne : (c :: cs).drop (word_len (c :: cs)) ≠ [] := by
      intro h
      have := congrArg List.length h
      rw [List.length_drop] at this
      simp only [List.length_nil] at this
      omega
    rw [wrap_space_append w _ rest _ _ hne]

/-- The loop on `pre ++ rest`, where `pre` ends at a word boundary, is the loop on
`pre` followed by the loop on `rest` from the position reached. -/
theorem wrap_loop_append (x y w : Int) (fg bg : Nat) (n : Nat) :
    ∀ (pre : List Char), pre.length ≤ n → WordBoundary pre → ∀ (rest : List Char) (cx cy : Int),
      wrap_loop x y w fg bg (pre ++ rest).length (pre ++ rest) cx cy
        = ((wrap_loop x y w fg bg pre.length pre cx cy).1
            ++ (wrap_loop x y w fg bg rest.length rest
                (wrap_loop x y w fg bg pre.length pre cx cy).2.1
                (wrap_loop x y w fg bg pre.length pre cx cy).2.2).1,
           (wrap_loop x y w fg bg rest.length rest
                (wrap_loop x y w fg bg pre.length pre cx cy).2.1
                (wrap_loop x y w fg bg pre.length pre cx cy).2.2).2) := by
  induction n with
  | zero =>
    intro pre hn _ rest cx cy
    have : pre = [] := List.length_eq_zero.1 (by omega)
    subst this
    simp [wrap_loop]
  | succ n ih =>
    intro pre hn hb rest cx cy
    cases pre with
    | nil => simp [wrap_loop]
    | cons c cs =>
      have hc : c ≠ NUL := fun h => hb.1 (h ▸ List.mem_cons_self _ _)
      have hlen := wrap_step_length x y w fg bg c cs cx cy hc
      simp only [List.length_cons] at hlen hn
      have hq := wordBoundary_suffix _ _ hb (wrap_step_suffix x y w fg bg c cs cx cy)
      have h1 := wrap_loop_cons x y w fg bg c (cs ++ rest) cx cy hc
      rw [wrap_step_append x y w fg bg c cs rest cx cy hb] at h1
      simp only at h1
      rw [List.cons_append, h1, wrap_loop_cons x y w fg bg c cs cx cy hc,
        ih _ (by omega) hq]
      simp only [List.append_assoc]

theorem puts_at_congr (x y : Int) (fg bg : Nat) (col row col2 row2 : Nat → Int)
    (word : List Char) :
    ∀ j0 : Nat, (∀ j, j0 ≤ j → j < j0 + word.length → col j = col2 j ∧ row j = row2 j) →
      puts_at x y fg bg col row j0 word = puts_at x y fg bg col2 row2 j0 word := by
  induction word with
  | nil => intro j0 _; rfl
  | cons c cs ih =>
    intro j0 h
    simp only [List.length_cons] at h
    have h0 := h j0 (le_refl _) (by omega)
    simp only [puts_at, h0.1, h0.2]
    rw [ih (j0 + 1) (fun j hj1 hj2 => h j (by omega) (by omega))]

theorem puts_at_length (x y : Int) (fg bg : Nat) (col row : Nat → Int) (word : List Char) :
    ∀ j0 : Nat, (puts_at x y fg bg col row j0 word).length = word.length := by
  induction word with
  | nil => intro j0; rfl
  | cons c cs ih => intro j0; simp only [puts_at, List.length_cons, ih]

theorem puts_at_getElem (x y : Int) (fg bg : Nat) (col row : Nat → Int) (word : List Char) :
    ∀ j0 j : Nat, (puts_at x y fg bg col row j0 word)[j]?
      = (word[j]?).map (fun c =>
          ({ x := x + col (j0 + j), y := y + row (j0 + j), ch := c, fg := fg, bg := bg }
            : TUI_Put)) := by
  induction word with
  | nil => intro j0 j; simp [puts_at]
  | cons c cs ih =>
    intro j0 j
    cases j with
    | zero => simp [puts_at]
    | succ j =>
      simp only [puts_at, List.getElem?_cons_succ, ih]
      have : j0 + 1 + j = j0 + (j + 1) := by omega
      rw [this]

theorem wrap_soft_puts (x y : Int) (fg bg : Nat) (cx0 cy : Int) (word : List Char) :
    ∀ j0 : Nat, (wrap_soft x y fg bg word (cx0 + (j0 : Int)) cy).1
      = puts_at x y fg bg (fun j => cx0 + (j : Int)) (fun _ => cy) j0 word := by
  induction word with
  | nil => intro j0; rfl
  | cons c cs ih =>
    intro j0
    simp only [wrap_soft, puts_at]
    have : cx0 + (j0 : Int) + 1 = cx0 + ((j0 + 1 : Nat) : Int) := by push_cast; ring
    rw [this, ih (j0 + 1)]

/-- The hard-break loop entered at `(cx, cy)` with `0 ≤ cx ≤ w`, where `(cx, cy)` is
the place of linear index `c0 + j0` counted from the start of line `r0`: the
character of index `j` goes to column `(c0 + j) mod w` of line
`r0 + (c0 + j) div w`. -/
theorem wrap_hard_puts (x y w : Int) (fg bg : Nat) (hw : 1 ≤ w) (c0 r0 : Int)
    (word : List Char) :
    ∀ (j0 : Nat) (cx cy : Int), 0 ≤ cx → cx ≤ w →
      (cy - r0) * w + cx = c0 + (j0 : Int) →
      (wrap_hard x y w fg bg word cx cy).1
        = puts_at x y fg bg (fun j => (c0 + (j : Int)) % w)
            (fun j => r0 + (c0 + (j : Int)) / w) j0 word := by
  induction word with
  | nil => intro j0 cx cy _ _ _; rfl
  | cons c cs ih =>
    intro j0 cx cy h0 h1 hlin
    have hw0 : w ≠ 0 := by omega
    have key : ∀ (cx1 cy1 : Int), 0 ≤ cx1 → cx1 < w → (cy1 - r0) * w + cx1 = c0 + (j0 : Int) →
        (c0 + (j0 : Int)) % w = cx1 ∧ r0 + (c0 + (j0 : Int)) / w = cy1 := by
      intro cx1 cy1 a0 a1 alin
      rw [← alin, add_comm ((cy1 - r0) * w) cx1]
      constructor
      · rw [Int.add_mul_emod_self, Int.emod_eq_of_lt a0 a1]
      · rw [Int.add_mul_ediv_right _ _ hw0, Int.ediv_eq_zero_of_lt a0 a1]
        ring
    simp only [wrap_hard, puts_at]
    by_cases hge : cx ≥ w
    · have hcx : cx = w := by omega
      simp only [if_pos hge]
      have hlin2 : (cy + 1 - r0) * w + 0 = c0 + (j0 : Int) := by
        rw [← hlin, hcx]; ring
      obtain ⟨k1, k2⟩ := key 0 (cy + 1) (le_refl _) (by omega) hlin2
      rw [k1, k2]
      rw [ih (j0 + 1) (0 + 1) (cy + 1) (by omega) (by omega) (by push_cast; linarith)]
    · simp only [if_neg hge]
      obtain ⟨k1, k2⟩ := key cx cy h0 (by omega) hlin
      rw [k1, k2]
      rw [ih (j0 + 1) (cx + 1) cy (by omega) (by omega) (by push_cast; linarith)]

theorem wrap_hard_cx_le (x y w : Int) (fg bg : Nat) (hw : 1 ≤ w) (word : List Char) :
    ∀ cx cy : Int, cx ≤ w → (wrap_hard x y w fg bg word cx cy).2.1 ≤ w := by
  induction word with
  | nil => intro cx cy h; exact h
  | cons c cs ih =>
    intro cx cy h
    simp only [wrap_hard]
    split_ifs with hge
    · exact ih _ _ (by omega)
    · exact ih _ _ (by omega)

theorem wrap_word_cx_le (x y w : Int) (fg bg : Nat) (hw : 1 ≤ w) (word : List Char)
    (cx cy : Int) (h1 : cx ≤ w) :
    (wrap_word x y w fg bg word.length word cx cy).2.1 ≤ w := by
  unfold wrap_word
  split_ifs with hl
  · exact wrap_hard_cx_le x y w fg bg hw word cx cy h1
  · simp only [wrap_soft_cx]
    by_cases hb : cx > 0 ∧ cx + (word.length : Int) > w
    · simp only [hb.1, hb.2, decide_True, Bool.and_self, if_true]
      omega
    · have hb' : (decide (cx > 0) && decide (cx + (word.length : Int) > w)) = false := by
        simp only [Bool.and_eq_false_imp, decide_eq_true_eq, decide_eq_false_iff_not]
        intro a b
        exact hb ⟨a, b⟩
      simp only [hb', Bool.false_eq_true, if_false]
      by_cases hz : cx > 0
      · have : ¬ (cx + (word.length : Int) > w) := fun h => hb ⟨hz, h⟩
        omega
      · omega

theorem wrap_space_cx_le (w : Int) (hw : 1 ≤ w) (s : List Char) (cx cy : Int) (h1 : cx ≤ w) :
    (wrap_space w s cx cy).2.1 ≤ w := by
  unfold wrap_space
  split
  · split_ifs <;> simp only <;> omega
  · exact h1

theorem wrap_step_cx_le (x y w : Int) (fg bg : Nat) (hw : 1 ≤ w) (c : Char) (cs : List Char)
    (cx cy : Int) (h1 : cx ≤ w) :
    (wrap_step x y w fg bg c cs cx cy).2.2.1 ≤ w := by
  unfold wrap_step
  split_ifs
  · simp only; omega
  · have hlen : ((c :: cs).take (word_len (c :: cs))).length = word_len (c :: cs) := by
      rw [List.length_take]
      exact Nat.min_eq_left (word_len_le _)
    have s1 := wrap_word_cx_le x y w fg bg hw ((c :: cs).take (word_len (c :: cs))) cx cy h1
    rw [hlen] at s1
    exact wrap_space_cx_le w hw _ _ _ s1

theorem wrap_loop_cx_le (x y w : Int) (fg bg : Nat) (hw : 1 ≤ w) (n : Nat) :
    ∀ (s : List Char) (cx cy : Int), cx ≤ w → (wrap_loop x y w fg bg n s cx cy).2.1 ≤ w := by
  induction n with
  | zero => intro s cx cy h; simpa [wrap_loop] using h
  | succ n ih =>
    intro s cx cy h
    cases s with
    | nil => simpa [wrap_loop] using h
    | cons c cs =>
      simp only [wrap_loop]
      split_ifs
      · exact h
      · exact ih _ _ _ (wrap_step_cx_le x y w fg bg hw c cs cx cy h)

theorem wrap_pos_bounds (x y w : Int) (fg bg : Nat) (hw : 1 ≤ w) (pre : List Char) :
    0 ≤ (wrap_pos x y w fg bg pre).1 ∧ (wrap_pos x y w fg bg pre).1 ≤ w ∧
    0 ≤ (wrap_pos x y w fg bg pre).2 := by
  have h1 := wrap_loop_ok x y w fg bg hw pre.length pre 0 0 (le_refl _)
  have h2 := wrap_loop_cx_le x y w fg bg hw pre.length pre 0 0 (by omega)
  obtain ⟨a, b, -, -⟩ := h1
  simp only [PosLe] at b
  refine ⟨a, h2, ?_⟩
  simp only [wrap_pos]
  omega

/-- The calls of `tui_puts_wrap` on a text `pre ++ word ++ post` in which `word` is
a word: the calls for `pre`, then those of `wrap_word` for the word, entered with
the position reached at the end of `pre`, then those for the rest of the text. -/
theorem wrap_calls_at_word (x y w : Int) (fg bg : Nat) (hw : 1 ≤ w)
    (pre word post : List Char) (hpre : WordBoundary pre) (hne : word ≠ [])
    (hchars : ∀ d ∈ word, ¬ isStop d) (hpost : WordEnd post) :
    ∃ after, (tui_puts_wrap_calls x y w (pre ++ word ++ post) fg bg).1
      = (tui_puts_wrap_calls x y w pre fg bg).1
        ++ (wrap_word x y w fg bg word.length word (wrap_pos x y w fg bg pre).1
              (wrap_pos x y w fg bg pre).2).1
        ++ after := by
  have hw0 : ¬ (w ≤ 0) := by omega
  cases word with
  | nil => exact absurd rfl hne
  | cons c cs =>
    have hc := hchars c (List.mem_cons_self _ _)
    simp only [isStop, not_or] at hc
    have h1 := wrap_loop_append x y w fg bg pre.length pre (le_refl _) hpre
      ((c :: cs) ++ post) 0 0
    have h2 := wrap_loop_cons x y w fg bg c (cs ++ post)
      (wrap_loop x y w fg bg pre.length pre 0 0).2.1
      (wrap_loop x y w fg bg pre.length pre 0 0).2.2 hc.1
    rw [wrap_step_word x y w fg bg c cs post _ _ hchars hpost] at h2
    simp only [tui_puts_wrap_calls, if_neg hw0, wrap_pos]
    rw [List.append_assoc, h1]
    simp only [List.cons_append] at h2 ⊢
    rw [h2]
    simp only [List.append_assoc]
    exact ⟨_, rfl⟩

theorem getElem_mid (A W B : List TUI_Put) (j : Nat) (hj : j < W.length) :
    (A ++ W ++ B)[A.length + j]? = W[j]? := by
  rw [List.append_assoc, List.getElem?_append_right (by omega)]
  simp only [Nat.add_sub_cancel_left]
  rw [List.getElem?_append_left hj]

/-- C5: for `w ≥ 1`, a word of `s = pre ++ word ++ post` of length at most `w` is
written unbroken, its characters on one row in consecutive columns; it begins a new
line (column 0 of the next row) exactly when the current column `cx` is greater
than 0 and `cx + length(word) > w`, and continues at `cx` on the current line
otherwise. -/
theorem tui_puts_wrap_short_word (x y w : Int) (fg bg : Nat) (hw : 1 ≤ w)
    (pre word post : List Char) (hpre : WordBoundary pre) (hne : word ≠ [])
    (hchars : ∀ d ∈ word, ¬ isStop d) (hpost : WordEnd post)
    (hlen : (word.length : Int) ≤ w) :
    ∃ after, (tui_puts_wrap_calls x y w (pre ++ word ++ post) fg bg).1
      = (tui_puts_wrap_calls x y w pre fg bg).1
        ++ puts_at x y fg bg
            (fun j =>
              (if 0 < (wrap_pos x y w fg bg pre).1 ∧
                  w < (wrap_pos x y w fg bg pre).1 + (word.length : Int)
                then 0 else (wrap_pos x y w fg bg pre).1) + (j : Int))
            (fun _ =>
              if 0 < (wrap_pos x y w fg bg pre).1 ∧
                  w < (wrap_pos x y w fg bg pre).1 + (word.length : Int)
                then (wrap_pos x y w fg bg pre).2 + 1 else (wrap_pos x y w fg bg pre).2)
            0 word
        ++ after ∧
      0 ≤ (if 0 < (wrap_pos x y w fg bg pre).1 ∧
              w < (wrap_pos x y w fg bg pre).1 + (word.length : Int)
            then 0 else (wrap_pos x y w fg bg pre).1) ∧
      (if 0 < (wrap_pos x y w fg bg pre).1 ∧
              w < (wrap_pos x y w fg bg pre).1 + (word.length : Int)
            then 0 else (wrap_pos x y w fg bg pre).1) + (word.length : Int) ≤ w := by
  obtain ⟨after, h⟩ := wrap_calls_at_word x y w fg bg hw pre word post hpre hne hchars hpost
  obtain ⟨b0, -, -⟩ := wrap_pos_bounds x y w fg bg hw pre
  have hl : ¬ ((word.length : Int) > w) := by omega
  refine ⟨after, ?_, ?_, ?_⟩
  · rw [h]
    congr 2
    simp only [wrap_word, if_neg hl]
    by_cases hb : 0 < (wrap_pos x y w fg bg pre).1 ∧
        w < (wrap_pos x y w fg bg pre).1 + (word.length : Int)
    · simp only [gt_iff_lt, hb.1, hb.2, decide_True, Bool.and_self, if_true, and_self]
      have := wrap_soft_puts x y fg bg 0 ((wrap_pos x y w fg bg pre).2 + 1) word 0
      simpa using this
    · have hb' : (decide ((wrap_pos x y w fg bg pre).1 > 0) &&
          decide ((wrap_pos x y w fg bg pre).1 + (word.length : Int) > w)) = false := by
        simp only [Bool.and_eq_false_imp, decide_eq_true_eq, decide_eq_false_iff_not]
        intro a b
        exact hb ⟨a, b⟩
      simp only [hb', Bool.false_eq_true, if_false, if_neg hb]
      have := wrap_soft_puts x y fg bg (wrap_pos x y w fg bg pre).1
        (wrap_pos x y w fg bg pre).2 word 0
      simpa using this
  · split_ifs <;> omega
  · split_ifs with hb
    · omega
    · by_cases hz : 0 < (wrap_pos x y w fg bg pre).1
      · have : ¬ (w < (wrap_pos x y w fg bg pre).1 + (word.length : Int)) :=
          fun h => hb ⟨hz, h⟩
        omega
      · omega

/-- C4, as the code has it: for `w ≥ 1`, a word of `s = pre ++ word ++ post` longer
than `w` is hard-broken from the current column `cx` on, without a line break
before it: its character of index `j` is written at column `(cx + j) mod w` of line
`cy + (cx + j) div w`. So a long word reached at column 0 is broken into chunks of
exactly `w` characters on consecutive lines, the last one possibly shorter, that
is `⌈len / w⌉` chunks. -/
theorem tui_puts_wrap_long_word (x y w : Int) (fg bg : Nat) (hw : 1 ≤ w)
    (pre word post : List Char) (hpre : WordBoundary pre)
    (hchars : ∀ d ∈ word, ¬ isStop d) (hpost : WordEnd post)
    (hlen : w < (word.length : Int)) :
    (∃ after, (tui_puts_wrap_calls x y w (pre ++ word ++ post) fg bg).1
      = (tui_puts_wrap_calls x y w pre fg bg).1
        ++ puts_at x y fg bg
            (fun j => ((wrap_pos x y w fg bg pre).1 + (j : Int)) % w)
            (fun j => (wrap_pos x y w fg bg pre).2
              + ((wrap_pos x y w fg bg pre).1 + (j : Int)) / w)
            0 word
        ++ after) ∧
    ((wrap_pos x y w fg bg pre).1 = 0 →
      HardBrokenInChunks w (tui_puts_wrap_calls x y w (pre ++ word ++ post) fg bg).1
        (tui_puts_wrap_calls x y w pre fg bg).1.length word.length ∧
      ∀ j < word.length,
        ((tui_puts_wrap_calls x y w (pre ++ word ++ post) fg bg).1[
            (tui_puts_wrap_calls x y w pre fg bg).1.length + j]?).map (fun c => c.x)
          = some (x + (j : Int) % w)) := by
  have hne : word ≠ [] := by
    intro h; rw [h] at hlen; simp at hlen; omega
  obtain ⟨after, h⟩ := wrap_calls_at_word x y w fg bg hw pre word post hpre hne hchars hpost
  obtain ⟨b0, b1, -⟩ := wrap_pos_bounds x y w fg bg hw pre
  have hW : (wrap_word x y w fg bg word.length word (wrap_pos x y w fg bg pre).1
      (wrap_pos x y w fg bg pre).2).1
      = puts_at x y fg bg (fun j => ((wrap_pos x y w fg bg pre).1 + (j : Int)) % w)
          (fun j => (wrap_pos x y w fg bg pre).2
            + ((wrap_pos x y w fg bg pre).1 + (j : Int)) / w) 0 word := by
    simp only [wrap_word, gt_iff_lt, if_pos hlen]
    exact wrap_hard_puts x y w fg bg hw _ _ word 0 _ _ b0 b1 (by simp)
  rw [hW] at h
  refine ⟨⟨after, h⟩, fun h0 => ?_⟩
  have hget : ∀ j < word.length,
      (tui_puts_wrap_calls x y w (pre ++ word ++ post) fg bg).1[
          (tui_puts_wrap_calls x y w pre fg bg).1.length + j]?
        = (word[j]?).map (fun c =>
            ({ x := x + (j : Int) % w, y := y + ((wrap_pos x y w fg bg pre).2 + (j : Int) / w),
               ch := c, fg := fg, bg := bg } : TUI_Put)) := by
    intro j hj
    rw [h, getElem_mid _ _ _ j (by rw [puts_at_length]; exact hj), puts_at_getElem, h0]
    simp
  constructor
  · refine ⟨y + (wrap_pos x y w fg bg pre).2, fun j hj => ?_⟩
    rw [hget j hj, List.getElem?_eq_getElem hj]
    simp only [Option.map_some']
    congr 1
    ring
  · intro j hj
    rw [hget j hj, List.getElem?_eq_getElem hj]
    simp only [Option.map_some']

/-- C4 as stated fails: with `w = 5`, the word "abcdefgh" of the text
"ab abcdefgh" is reached at column 3 and written as the three chunks "ab", "cdefg",
"h" (rows 0, 0, 1, 1, 1, 1, 1, 2), not as `⌈8 / 5⌉ = 2` chunks of 5 and 3. -/
theorem tui_puts_wrap_long_word_counterexample :
    ((tui_puts_wrap_calls 0 0 5
        (['a', 'b', ' '] ++ ['a', 'b', 'c', 'd', 'e', 'f', 'g', 'h'] ++ []) 7 0).1.drop 2).map
        (fun c => (c.ch, c.x, c.y))
      = [('a', 3, 0), ('b', 4, 0), ('c', 0, 1), ('d', 1, 1), ('e', 2, 1), ('f', 3, 1),
         ('g', 4, 1), ('h', 0, 2)] ∧
    (tui_puts_wrap_calls 0 0 5 ['a', 'b', ' '] 7 0).1.length = 2 ∧
    ¬ HardBrokenInChunks 5
        (tui_puts_wrap_calls 0 0 5
          (['a', 'b', ' '] ++ ['a', 'b', 'c', 'd', 'e', 'f', 'g', 'h'] ++ []) 7 0).1
        (tui_puts_wrap_calls 0 0 5 ['a', 'b', ' '] 7 0).1.length
        ['a', 'b', 'c', 'd', 'e', 'f', 'g', 'h'].length := by
  refine ⟨by decide, by decide, ?_⟩
  rintro ⟨r0, h⟩
  have h0 := h 0 (by decide)
  have h2 := h 2 (by decide)
  have e0 : ((tui_puts_wrap_calls 0 0 5
      (['a', 'b', ' '] ++ ['a', 'b', 'c', 'd', 'e', 'f', 'g', 'h'] ++ []) 7 0).1[
        (tui_puts_wrap_calls 0 0 5 ['a', 'b', ' '] 7 0).1.length + 0]?).map (fun c => c.y)
      = some 0 := by decide
  have e2 : ((tui_puts_wrap_calls 0 0 5
      (['a', 'b', ' '] ++ ['a', 'b', 'c', 'd', 'e', 'f', 'g', 'h'] ++ []) 7 0).1[
        (tui_puts_wrap_calls 0 0 5 ['a', 'b', ' '] 7 0).1.length + 2]?).map (fun c => c.y)
      = some 1 := by decide
  rw [e0] at h0
  rw [e2] at h2
  simp only [Option.some.injEq] at h0 h2
  norm_num at h0 h2
  omega

theorem tui_puts_wrap_long_word_witness :
    (1 : Int) ≤ 5 ∧ WordBoundary ['a', 'b', '\n'] ∧
    (5 : Int) < (['a', 'b', 'c', 'd', 'e', 'f', 'g', 'h'].length : Int) ∧
    (wrap_pos 0 0 5 7 0 ['a', 'b', '\n']).1 = 0 ∧
    HardBrokenInChunks 5
      (tui_puts_wrap_calls 0 0 5
        (['a', 'b', '\n'] ++ ['a', 'b', 'c', 'd', 'e', 'f', 'g', 'h'] ++ []) 7 0).1
      (tui_puts_wrap_calls 0 0 5 ['a', 'b', '\n'] 7 0).1.length
      ['a', 'b', 'c', 'd', 'e', 'f', 'g', 'h'].length :=
  ⟨by decide, ⟨by decide, Or.inr ⟨['a', 'b'], '\n', rfl, Or.inr rfl⟩⟩, by decide, by decide,
   ((tui_puts_wrap_long_word 0 0 5 7 0 (by decide) ['a', 'b', '\n']
      ['a', 'b', 'c', 'd', 'e', 'f', 'g', 'h'] []
      ⟨by decide, Or.inr ⟨['a', 'b'], '\n', rfl, Or.inr rfl⟩⟩ (by decide) (Or.inl rfl)
      (by decide)).2 (by decide)).1⟩

theorem tui_puts_wrap_short_word_witness :
    (1 : Int) ≤ 5 ∧ WordBoundary ['a', 'b', ' '] ∧
    ((['c', 'd', 'e'].length : Nat) : Int) ≤ 5 ∧
    ∃ after, (tui_puts_wrap_calls 0 0 5 (['a', 'b', ' '] ++ ['c', 'd', 'e'] ++ [' ', 'f']) 7 0).1
      = (tui_puts_wrap_calls 0 0 5 ['a', 'b', ' '] 7 0).1
        ++ puts_at 0 0 7 0
            (fun j =>
              (if 0 < (wrap_pos 0 0 5 7 0 ['a', 'b', ' ']).1 ∧
                  5 < (wrap_pos 0 0 5 7 0 ['a', 'b', ' ']).1 + (['c', 'd', 'e'].length : Int)
                then 0 else (wrap_pos 0 0 5 7 0 ['a', 'b', ' ']).1) + (j : Int))
            (fun _ =>
              if 0 < (wrap_pos 0 0 5 7 0 ['a', 'b', ' ']).1 ∧
                  5 < (wrap_pos 0 0 5 7 0 ['a', 'b', ' ']).1 + (['c', 'd', 'e'].length : Int)
                then (wrap_pos 0 0 5 7 0 ['a', 'b', ' ']).2 + 1
                else (wrap_pos 0 0 5 7 0 ['a', 'b', ' ']).2)
            0 ['c', 'd', 'e']
        ++ after ∧
      0 ≤ (if 0 < (wrap_pos 0 0 5 7 0 ['a', 'b', ' ']).1 ∧
              5 < (wrap_pos 0 0 5 7 0 ['a', 'b', ' ']).1 + (['c', 'd', 'e'].length : Int)
            then 0 else (wrap_pos 0 0 5 7 0 ['a', 'b', ' ']).1) ∧
      (if 0 < (wrap_pos 0 0 5 7 0 ['a', 'b', ' ']).1 ∧
              5 < (wrap_pos 0 0 5 7 0 ['a', 'b', ' ']).1 + (['c', 'd', 'e'].length : Int)
            then 0 else (wrap_pos 0 0 5 7 0 ['a', 'b', ' ']).1)
          + (['c', 'd', 'e'].length : Int) ≤ 5 :=
  ⟨by decide, ⟨by decide, Or.inr ⟨['a', 'b'], ' ', rfl, Or.inl rfl⟩⟩, by decide,
   tui_puts_wrap_short_word 0 0 5 7 0 (by decide) ['a', 'b', ' '] ['c', 'd', 'e'] [' ', 'f']
     ⟨by decide, Or.inr ⟨['a', 'b'], ' ', rfl, Or.inl rfl⟩⟩ (by decide) (by decide)
     (Or.inr ⟨' ', ['f'], rfl, Or.inr (Or.inl rfl)⟩) (by decide)⟩

/-! ## Word wrap: texts made of newline-separated words -/

theorem lines_of_ne_nil (s : List Char) : lines_of s ≠ [] := by
  induction s with
  | nil => simp [lines_of]
  | cons c cs ih =>
    simp only [lines_of]
    split_ifs
    · simp
    · split <;> simp

theorem lines_of_cons_nl (cs : List Char) : lines_of ('\n' :: cs) = [] :: lines_of cs := by
  simp [lines_of]

theorem lines_of_cons_other (c : Char) (cs : List Char) (hc : c ≠ '\n') :
    ∃ l ls, lines_of cs = l :: ls ∧ lines_of (c :: cs) = (c :: l) :: ls := by
  cases h : lines_of cs with
  | nil => exact absurd h (lines_of_ne_nil cs)
  | cons l ls =>
    refine ⟨l, ls, rfl, ?_⟩
    simp only [lines_of, if_neg hc, h]

theorem lines_of_no_nl (l : List Char) (h : '\n' ∉ l) : lines_of l = [l] := by
  induction l with
  | nil => rfl
  | cons c cs ih =>
    have hc : c ≠ '\n' := fun e => h (e ▸ List.mem_cons_self _ _)
    have hcs : '\n' ∉ cs := fun e => h (List.mem_cons_of_mem _ e)
    simp only [lines_of, if_neg hc, ih hcs]

theorem lines_of_append_nl (l rest : List Char) (h : '\n' ∉ l) :
    lines_of (l ++ '\n' :: rest) = l :: lines_of rest := by
  induction l with
  | nil => simp [lines_of]
  | cons c cs ih =>
    have hc : c ≠ '\n' := fun e => h (e ▸ List.mem_cons_self _ _)
    have hcs : '\n' ∉ cs := fun e => h (List.mem_cons_of_mem _ e)
    obtain ⟨l0, ls, h1, h2⟩ := lines_of_cons_other c (cs ++ '\n' :: rest) hc
    rw [ih hcs] at h1
    obtain ⟨e1, e2⟩ := List.cons.inj h1
    rw [List.cons_append, h2, ← e1, ← e2]

/-- A text splits at its first newline. -/
theorem split_first_nl (s : List Char) :
    ∃ l, '\n' ∉ l ∧ (s = l ∨ ∃ rest, s = l ++ '\n' :: rest) := by
  induction s with
  | nil => exact ⟨[], by simp, Or.inl rfl⟩
  | cons c cs ih =>
    by_cases hc : c = '\n'
    · exact ⟨[], by simp, Or.inr ⟨cs, by simp [hc]⟩⟩
    · obtain ⟨l, hl, h⟩ := ih
      refine ⟨c :: l, ?_, ?_⟩
      · simp only [List.mem_cons, not_or]
        exact ⟨fun e => hc e.symm, hl⟩
      · rcases h with h | ⟨rest, h⟩
        · exact Or.inl (by rw [h])
        · exact Or.inr ⟨rest, by rw [h]; rfl⟩

/-- The loop at a newline: `cx = 0; cy++; i++`. -/
theorem wrap_loop_nl (x y w : Int) (fg bg : Nat) (rest : List Char) (cx cy : Int) :
    wrap_loop x y w fg bg ('\n' :: rest).length ('\n' :: rest) cx cy
      = wrap_loop x y w fg bg rest.length rest 0 (cy + 1) := by
  have hc : ('\n' : Char) ≠ NUL := by decide
  rw [wrap_loop_cons x y w fg bg '\n' rest cx cy hc]
  simp [wrap_step]

/-- The loop at a word of length at most `w` reached at column 0 and not followed
by a space: the word is written from column 0 on. -/
theorem wrap_loop_line (x y w : Int) (fg bg : Nat) (l post : List Char) (cy : Int)
    (hne : l ≠ []) (hchars : ∀ d ∈ l, ¬ isStop d) (hlen : (l.length : Int) ≤ w)
    (hpost : post = [] ∨ ∃ rest, post = '\n' :: rest) :
    wrap_loop x y w fg bg (l ++ post).length (l ++ post) 0 cy
      = (puts_at x y fg bg (fun j => (j : Int)) (fun _ => cy) 0 l
          ++ (wrap_loop x y w fg bg post.length post (l.length : Int) cy).1,
         (wrap_loop x y w fg bg post.length post (l.length : Int) cy).2) := by
  cases l with
  | nil => exact absurd rfl hne
  | cons c cs =>
    have hc := hchars c (List.mem_cons_self _ _)
    simp only [isStop, not_or] at hc
    have hend : WordEnd post := by
      rcases hpost with h | ⟨rest, h⟩
      · exact Or.inl h
      · exact Or.inr ⟨'\n', rest, h, Or.inr (Or.inr rfl)⟩
    have hl : ¬ (((c :: cs).length : Int) > w) := by omega
    have hword : wrap_word x y w fg bg (c :: cs).length (c :: cs) 0 cy
        = (puts_at x y fg bg (fun j => (j : Int)) (fun _ => cy) 0 (c :: cs),
           ((c :: cs).length : Int), cy) := by
      have h1 := wrap_soft_puts x y fg bg 0 cy (c :: cs) 0
      have h2 := wrap_soft_cx x y fg bg (c :: cs) 0 cy
      simp only [Nat.cast_zero, add_zero, zero_add] at h1 h2
      simp only [wrap_word, if_neg hl, gt_iff_lt, lt_self_iff_false, decide_False,
        Bool.false_and, Bool.false_eq_true, if_false, h1, h2]
    have hspace : wrap_space w post ((c :: cs).length : Int) cy
        = (post, ((c :: cs).length : Int), cy) := by
      rcases hpost with h | ⟨rest, h⟩
      · rw [h]; rfl
      · rw [h]; rfl
    have h2 := wrap_loop_cons x y w fg bg c (cs ++ post) 0 cy hc.1
    rw [wrap_step_word x y w fg bg c cs post 0 cy hchars hend, hword] at h2
    simp only [hspace] at h2
    rw [List.cons_append, h2]

theorem wrap_loop_lines (x y w : Int) (fg bg : Nat) (n : Nat) :
    ∀ (s : List Char), s.length ≤ n → ' ' ∉ s → NUL ∉ s →
      (∀ l ∈ lines_of s, (l.length : Int) ≤ w) → ∀ (cx cy : Int), (cx = 0 ∨ s = [] ∨
        ∃ rest, s = '\n' :: rest) →
      (wrap_loop x y w fg bg s.length s cx cy).1 = lines_puts x y fg bg cy (lines_of s) ∧
      (wrap_loop x y w fg bg s.length s cx cy).2.2 = cy + (s.count '\n' : Int) := by
  induction n with
  | zero =>
    intro s hn _ _ _ cx cy _
    have : s = [] := List.length_eq_zero.1 (by omega)
    subst this
    simp [wrap_loop, lines_of, lines_puts, puts_at]
  | succ n ih =>
    intro s hn hsp hnul hl cx cy hstart
    cases s with
    | nil => simp [wrap_loop, lines_of, lines_puts, puts_at]
    | cons c cs =>
      simp only [List.length_cons] at hn
      have hsp' : ' ' ∉ cs := fun e => hsp (List.mem_cons_of_mem _ e)
      have hnul' : NUL ∉ cs := fun e => hnul (List.mem_cons_of_mem _ e)
      by_cases hc : c = '\n'
      · subst hc
        rw [lines_of_cons_nl] at hl
        have := ih cs (by omega) hsp' hnul'
          (fun l hm => hl l (List.mem_cons_of_mem _ hm)) 0 (cy + 1) (Or.inl rfl)
        rw [wrap_loop_nl, this.1, this.2, lines_of_cons_nl]
        refine ⟨by simp [lines_puts, puts_at], ?_⟩
        simp only [List.count_cons_self, Nat.cast_add, Nat.cast_one]
        ring
      · have hcx : cx = 0 := by
          rcases hstart with h | h | ⟨rest, h⟩
          · exact h
          · simp at h
          · exact absurd (List.cons.inj h).1 hc
        subst hcx
        obtain ⟨l, hlnl, hsplit⟩ := split_first_nl (c :: cs)
        have hlne : l ≠ [] := by
          intro e
          subst e
          rcases hsplit with h | ⟨rest, h⟩
          · simp at h
          · exact hc (List.cons.inj h).1
        have hmem : ∀ d ∈ l, d ∈ c :: cs := by
          intro d hd
          rcases hsplit with h | ⟨rest, h⟩
          · rw [h]; exact hd
          · rw [h]; exact List.mem_append_left _ hd
        have hchars : ∀ d ∈ l, ¬ isStop d := by
          intro d hd hs
          rcases hs with h | h | h
          · exact hnul (h ▸ hmem d hd)
          · exact hsp (h ▸ hmem d hd)
          · exact hlnl (h ▸ hd)
        rcases hsplit with h | ⟨rest, h⟩
        · have hlo : lines_of l = [l] := lines_of_no_nl l hlnl
          have hlen : (l.length : Int) ≤ w := hl l (by rw [h, hlo]; simp)
          have := wrap_loop_line x y w fg bg l [] cy hlne hchars hlen (Or.inl rfl)
          rw [List.append_nil] at this
          rw [h, this, hlo]
          refine ⟨by simp [wrap_loop, lines_puts], ?_⟩
          simp only [wrap_loop, List.length_nil]
          rw [List.count_eq_zero_of_not_mem hlnl]
          simp
        · have hlo : lines_of (l ++ '\n' :: rest) = l :: lines_of rest :=
            lines_of_append_nl l rest hlnl
          rw [h] at hl
          have hlen : (l.length : Int) ≤ w := hl l (by rw [hlo]; simp)
          have h1 := wrap_loop_line x y w fg bg l ('\n' :: rest) cy hlne hchars hlen
            (Or.inr ⟨rest, rfl⟩)
          have hrl : rest.length ≤ n := by
            have := congrArg List.length h
            simp only [List.length_cons, List.length_append] at this
            omega
          have hrsp : ' ' ∉ rest := fun e => hsp (by rw [h]; simp [e])
          have hrnul : NUL ∉ rest := fun e => hnul (by rw [h]; simp [e])
          have h2 := ih rest hrl hrsp hrnul
            (fun l0 hm => hl l0 (by rw [hlo]; exact List.mem_cons_of_mem _ hm)) 0 (cy + 1)
            (Or.inl rfl)
          rw [h, h1, wrap_loop_nl, h2.1, h2.2, hlo]
          refine ⟨by simp [lines_puts], ?_⟩
          rw [List.count_append, List.count_eq_zero_of_not_mem hlnl]
          simp only [List.count_cons_self, Nat.cast_add, Nat.cast_one, zero_add,
            Nat.cast_zero]
          ring

theorem lines_of_length (s : List Char) : (lines_of s).length = 1 + s.count '\n' := by
  induction s with
  | nil => simp [lines_of]
  | cons c cs ih =>
    by_cases hc : c = '\n'
    · subst hc
      rw [lines_of_cons_nl, List.length_cons, ih, List.count_cons_self]
      omega
    · obtain ⟨l, ls, h1, h2⟩ := lines_of_cons_other c cs hc
      rw [h2, List.length_cons, List.count_cons_of_ne (fun e => hc e.symm), ← ih, h1,
        List.length_cons]

/-- C6: for `w ≥ 1` and a text without space whose newline-separated words (empty
ones included) each have length at most `w`, `tui_puts_wrap` returns
`1 + (number of newlines in the text)` and writes the word of index `k`, the one
preceded by `k` newlines, from column `x` on, on row `y + k`: every newline starts
a new line, also at column 0. -/
theorem tui_puts_wrap_newlines (x y w : Int) (fg bg : Nat) (hw : 1 ≤ w) (s : List Char)
    (hsp : ' ' ∉ s) (hnul : NUL ∉ s) (hl : ∀ l ∈ lines_of s, (l.length : Int) ≤ w) :
    (tui_puts_wrap_calls x y w s fg bg).2 = 1 + (s.count '\n' : Int) ∧
    (tui_puts_wrap_calls x y w s fg bg).1 = lines_puts x y fg bg 0 (lines_of s) ∧
    (lines_of s).length = 1 + s.count '\n' ∧
    (∀ t : TUI, tui_puts_wrap t x y w s fg bg
      = (tui_replay t (lines_puts x y fg bg 0 (lines_of s)), 1 + (s.count '\n' : Int))) := by
  have hw0 : ¬ (w ≤ 0) := by omega
  have h := wrap_loop_lines x y w fg bg s.length s (le_refl _) hsp hnul hl 0 0 (Or.inl rfl)
  have h1 : (tui_puts_wrap_calls x y w s fg bg).2 = 1 + (s.count '\n' : Int) := by
    simp only [tui_puts_wrap_calls, if_neg hw0, h.2]
    ring
  have h2 : (tui_puts_wrap_calls x y w s fg bg).1 = lines_puts x y fg bg 0 (lines_of s) := by
    simp only [tui_puts_wrap_calls, if_neg hw0, h.1]
  refine ⟨h1, h2, lines_of_length s, fun t => ?_⟩
  simp only [tui_puts_wrap, h1, h2]

theorem tui_puts_wrap_newlines_witness :
    (1 : Int) ≤ 3 ∧ ' ' ∉ ['a', 'b', 'c', '\n', '\n', 'd'] ∧
    NUL ∉ ['a', 'b', 'c', '\n', '\n', 'd'] ∧
    (∀ l ∈ lines_of ['a', 'b', 'c', '\n', '\n', 'd'], (l.length : Int) ≤ 3) ∧
    (tui_puts_wrap_calls 0 0 3 ['a', 'b', 'c', '\n', '\n', 'd'] 7 0).2 = 3 ∧
    (tui_puts_wrap_calls 0 0 3 ['a', 'b', 'c', '\n', '\n', 'd'] 7 0).1
      = lines_puts 0 0 7 0 0 [['a', 'b', 'c'], [], ['d']] :=
  ⟨by decide, by decide, by decide, by decide,
   (tui_puts_wrap_newlines 0 0 3 7 0 (by decide) ['a', 'b', 'c', '\n', '\n', 'd']
      (by decide) (by decide) (by decide)).1,
   (tui_puts_wrap_newlines 0 0 3 7 0 (by decide) ['a', 'b', 'c', '\n', '\n', 'd']
      (by decide) (by decide) (by decide)).2.1⟩

/-- The pieces of `lines_of` hold no newline, and joined by newlines they give the
text back. -/
theorem lines_of_spec (s : List Char) :
    (∀ l ∈ lines_of s, '\n' ∉ l) ∧ List.intercalate ['\n'] (lines_of s) = s := by
  induction s with
  | nil => simp [lines_of, List.intercalate]
  | cons c cs ih =>
    by_cases hc : c = '\n'
    · subst hc
      rw [lines_of_cons_nl]
      refine ⟨fun l hl => ?_, ?_⟩
      · rcases List.mem_cons.1 hl with h | h
        · rw [h]; simp
        · exact ih.1 l h
      · have h2 := ih.2
        cases hlo : lines_of cs with
        | nil => exact absurd hlo (lines_of_ne_nil cs)
        | cons l ls =>
          rw [hlo] at h2
          simp only [List.intercalate, List.intersperse_cons_cons, List.flatten_cons,
            List.nil_append, List.singleton_append] at h2 ⊢
          rw [h2]
    · obtain ⟨l, ls, h1, h2⟩ := lines_of_cons_other c cs hc
      rw [h2]
      rw [h1] at ih
      refine ⟨fun l0 hl => ?_, ?_⟩
      · rcases List.mem_cons.1 hl with h | h
        · rw [h]
          simp only [List.mem_cons, not_or]
          exact ⟨fun e => hc e.symm, ih.1 l (List.mem_cons_self _ _)⟩
        · exact ih.1 l0 (List.mem_cons_of_mem _ h)
      · have h3 := ih.2
        cases ls with
        | nil =>
          simp only [List.intercalate, List.intersperse_single, List.flatten_cons, List.flatten_nil,
            List.append_nil] at h3 ⊢
          rw [h3]
        | cons l1 ls1 =>
          simp only [List.intercalate, List.intersperse_cons_cons, List.flatten_cons,
            List.cons_append] at h3 ⊢
          rw [h3]

/-! ## Modal: no dismissal without a choice -/

theorem modal_run_snoc (count : Int) (s : TUI_ModalState) (es : List SDL_Event) (e : SDL_Event) :
    modal_run count s (es ++ [e]) = (tui_modal_handle (modal_run count s es) e count).2 := by
  simp [modal_run, List.foldl_append]

theorem modal_handle_inactive (s : TUI_ModalState) (e : SDL_Event) (count : Int)
    (h : s.active = false) : (tui_modal_handle s e count).2 = s := by
  simp [tui_modal_handle, h]

theorem modal_handle_cases (s : TUI_ModalState) (e : SDL_Event) (count : Int)
    (hact : s.active = true) (henf : s.enforce = true)
    (hsel : 0 ≤ s.selected ∧ s.selected ≤ count - 1) :
    ((tui_modal_handle s e count).2.active = true ∧
      (tui_modal_handle s e count).2.enforce = true ∧
      0 ≤ (tui_modal_handle s e count).2.selected ∧
      (tui_modal_handle s e count).2.selected ≤ count - 1 ∧ ¬ isConfirmKey e) ∨
    (isConfirmKey e ∧ (tui_modal_handle s e count).2.active = false ∧
      (tui_modal_handle s e count).2.enforce = true ∧
      (tui_modal_handle s e count).2.selected = s.selected ∧
      (tui_modal_handle s e count).2.result = s.selected) := by
  cases e with
  | key_down key mod =>
    simp only [tui_modal_handle, hact, henf, isConfirmKey, SDLK_LEFT, SDLK_RIGHT, SDLK_RETURN,
      SDLK_KP_ENTER, SDLK_ESCAPE]
    split_ifs <;> simp_all <;> omega
  | _ => simp [tui_modal_handle, hact, henf, hsel, isConfirmKey]

theorem modal_run_invariant (count : Int) (hc : 1 ≤ count) (es : List SDL_Event) :
    (modal_run count (tui_modal_open true) es).enforce = true ∧
    0 ≤ (modal_run count (tui_modal_open true) es).selected ∧
    (modal_run count (tui_modal_open true) es).selected ≤ count - 1 ∧
    ((modal_run count (tui_modal_open true) es).active = true ∨
      ∃ es1 c es2, es = es1 ++ c :: es2 ∧ isConfirmKey c ∧
        (modal_run count (tui_modal_open true) es1).active = true ∧
        (modal_run count (tui_modal_open true) es).result
          = (modal_run count (tui_modal_open true) es1).selected ∧
        0 ≤ (modal_run count (tui_modal_open true) es).result ∧
        (modal_run count (tui_modal_open true) es).result < count) := by
  induction es using List.reverseRecOn with
  | nil =>
    refine ⟨by simp [modal_run, tui_modal_open], by simp [modal_run, tui_modal_open], ?_,
      Or.inl (by simp [modal_run, tui_modal_open])⟩
    simp only [modal_run, List.foldl_nil, tui_modal_open]
    omega
  | append_singleton es e ih =>
    obtain ⟨henf, h0, h1, hst⟩ := ih
    rw [modal_run_snoc]
    by_cases hact : (modal_run count (tui_modal_open true) es).active = true
    · rcases modal_handle_cases _ e count hact henf ⟨h0, h1⟩ with h | h
      · exact ⟨h.2.1, h.2.2.1, h.2.2.2.1, Or.inl h.1⟩
      · refine ⟨h.2.2.1, by rw [h.2.2.2.1]; exact h0, by rw [h.2.2.2.1]; exact h1, Or.inr ?_⟩
        exact ⟨es, e, [], rfl, h.1, hact, h.2.2.2.2, by rw [h.2.2.2.2]; exact h0,
          by rw [h.2.2.2.2]; omega⟩
    · have hina : (modal_run count (tui_modal_open true) es).active = false := by
        simpa using hact
      rw [modal_handle_inactive _ e count hina]
      refine ⟨henf, h0, h1, Or.inr ?_⟩
      rcases hst with h | ⟨es1, c, es2, he, hc1, ha1, hr, hr0, hr1⟩
      · exact absurd h hact
      · exact ⟨es1, c, es2 ++ [e], by rw [he]; simp, hc1, ha1, hr, hr0, hr1⟩

/-- C11: after `tui_modal_open(enforce = true)`, for `count ≥ 1` and every finite
sequence of events dispatched through `tui_modal_handle`, the state reached is
active, or a confirm key was dispatched while the modal was active and `result` is
the option selected at that moment, with `0 ≤ result < count`. -/
theorem tui_modal_enforce_needs_choice (count : Int) (hc : 1 ≤ count)
    (es : List SDL_Event) :
    (modal_run count (tui_modal_open true) es).active = true ∨
    ∃ es1 c es2, es = es1 ++ c :: es2 ∧ isConfirmKey c ∧
      (modal_run count (tui_modal_open true) es1).active = true ∧
      (modal_run count (tui_modal_open true) es).result
        = (modal_run count (tui_modal_open true) es1).selected ∧
      0 ≤ (modal_run count (tui_modal_open true) es).result ∧
      (modal_run count (tui_modal_open true) es).result < count :=
  (modal_run_invariant count hc es).2.2.2

theorem tui_modal_enforce_needs_choice_witness :
    (1 : Int) ≤ 2 ∧
    ((modal_run 2 (tui_modal_open true)
        [SDL_Event.key_down SDLK_ESCAPE 0, SDL_Event.key_down SDLK_RIGHT 0,
         SDL_Event.key_down SDLK_RETURN 0, SDL_Event.key_down SDLK_ESCAPE 0]).active = true ∨
     ∃ es1 c es2,
      [SDL_Event.key_down SDLK_ESCAPE 0, SDL_Event.key_down SDLK_RIGHT 0,
         SDL_Event.key_down SDLK_RETURN 0, SDL_Event.key_down SDLK_ESCAPE 0]
        = es1 ++ c :: es2 ∧ isConfirmKey c ∧
      (modal_run 2 (tui_modal_open true) es1).active = true ∧
      (modal_run 2 (tui_modal_open true)
        [SDL_Event.key_down SDLK_ESCAPE 0, SDL_Event.key_down SDLK_RIGHT 0,
         SDL_Event.key_down SDLK_RETURN 0, SDL_Event.key_down SDLK_ESCAPE 0]).result
        = (modal_run 2 (tui_modal_open true) es1).selected ∧
      0 ≤ (modal_run 2 (tui_modal_open true)
        [SDL_Event.key_down SDLK_ESCAPE 0, SDL_Event.key_down SDLK_RIGHT 0,
         SDL_Event.key_down SDLK_RETURN 0, SDL_Event.key_down SDLK_ESCAPE 0]).result ∧
      (modal_run 2 (tui_modal_open true)
        [SDL_Event.key_down SDLK_ESCAPE 0, SDL_Event.key_down SDLK_RIGHT 0,
         SDL_Event.key_down SDLK_RETURN 0, SDL_Event.key_down SDLK_ESCAPE 0]).result < 2) :=
  ⟨by decide,
   tui_modal_enforce_needs_choice 2 (by decide)
     [SDL_Event.key_down SDLK_ESCAPE 0, SDL_Event.key_down SDLK_RIGHT 0,
      SDL_Event.key_down SDLK_RETURN 0, SDL_Event.key_down SDLK_ESCAPE 0]⟩

/-! ## Text input: Backspace, Delete and the invariant of the field -/

theorem eraseIdx_mid (A B : List Char) (c : Char) :
    (A ++ c :: B).eraseIdx A.length = A ++ B := by
  induction A with
  | nil => rfl
  | cons a A ih => simp only [List.cons_append, List.length_cons, List.eraseIdx_cons_succ, ih]

theorem handle_backspace_zero (s : TUI_InputState) (mod : Nat) (hn : NUL ∈ s.text)
    (h0 : s.cursor = 0) :
    tui_input_handle s (SDL_Event.key_down SDLK_BACKSPACE mod) = some (true, s) := by
  have hsl : buf_strlen s.text = some (strlen s.text) := by
    simp [buf_strlen, hn, strlen]
  simp only [tui_input_handle, hsl, Option.bind_eq_bind, Option.some_bind, if_true, h0,
    gt_iff_lt, lt_self_iff_false, if_false]
  rfl

theorem handle_delete_end (s : TUI_InputState) (mod : Nat) (hn : NUL ∈ s.text)
    (h0 : s.cursor = strlen s.text) :
    tui_input_handle s (SDL_Event.key_down SDLK_DELETE mod) = some (true, s) := by
  have hsl : buf_strlen s.text = some (strlen s.text) := by
    simp [buf_strlen, hn, strlen]
  have hne : SDLK_DELETE ≠ SDLK_BACKSPACE := by decide
  simp only [tui_input_handle, hsl, Option.bind_eq_bind, Option.some_bind, if_neg hne, if_true,
    h0, lt_self_iff_false, if_false]
  rfl

/-- C16: on a well-formed `TUI_InputState` with `0 ≤ cursor ≤ strlen(text)`, a
Backspace key-down with `cursor > 0` removes exactly the character of index
`cursor - 1` and decrements the cursor, and with `cursor = 0` changes nothing; a
Delete key-down with `cursor < strlen(text)` removes exactly the character of index
`cursor` and keeps the cursor, and with `cursor = strlen(text)` changes nothing. The
other characters keep their order (`List.eraseIdx`), and `scroll` and `max_len` are
unchanged. -/
theorem tui_input_handle_backspace_delete (s : TUI_InputState) (hwf : s.WF)
    (hc : s.CursorOk) (mod : Nat) :
    (∃ s', tui_input_handle s (SDL_Event.key_down SDLK_BACKSPACE mod) = some (true, s') ∧
      s'.scroll = s.scroll ∧ s'.max_len = s.max_len ∧
      (0 < s.cursor →
        cstr s'.text = (cstr s.text).eraseIdx (s.cursor - 1).toNat ∧
        s'.cursor = s.cursor - 1) ∧
      (s.cursor = 0 → s' = s)) ∧
    (∃ s', tui_input_handle s (SDL_Event.key_down SDLK_DELETE mod) = some (true, s') ∧
      s'.scroll = s.scroll ∧ s'.max_len = s.max_len ∧
      (s.cursor < strlen s.text →
        cstr s'.text = (cstr s.text).eraseIdx s.cursor.toNat ∧ s'.cursor = s.cursor) ∧
      (s.cursor = strlen s.text → s' = s)) := by
  obtain ⟨hlen, hn, hmax⟩ := hwf
  obtain ⟨l1, l2, r, ht, h1, h2, hcur, -, -, hcs⟩ := input_decomp s hn hc
  have hsl : strlen s.text = ((l1.length + l2.length : Nat) : Int) := by
    simp [strlen, hcs]
  constructor
  · rcases List.eq_nil_or_concat' l1 with hnil | ⟨A, c, hA⟩
    · have h0 : s.cursor = 0 := by rw [hcur, hnil]; rfl
      exact ⟨s, handle_backspace_zero s mod hn h0, rfl, rfl, fun h => absurd h (by omega),
        fun _ => rfl⟩
    · subst hA
      have hAc : NUL ∉ A ∧ c ≠ NUL := by
        simp only [List.mem_append, List.mem_singleton, not_or] at h1
        exact ⟨h1.1, fun h => h1.2 h.symm⟩
      have ht2 : s.text = A ++ c :: l2 ++ NUL :: r := by rw [ht]; simp
      have hcur2 : s.cursor = ((A.length + 1 : Nat) : Int) := by rw [hcur]; simp
      refine ⟨_, handle_backspace_decomp s A l2 r c mod ht2 hAc.1 hAc.2 h2 hcur2, rfl, rfl,
        fun _ => ⟨?_, ?_⟩, fun h => absurd h (by rw [hcur2]; push_cast; omega)⟩
      · have hno : NUL ∉ A ++ l2 := by simp [hAc.1, h2]
        have e1 := cstr_append_nul (A ++ l2) (NUL :: r) hno
        have e2 : (s.cursor - 1).toNat = A.length := by rw [hcur2]; push_cast; omega
        have e3 : cstr s.text = A ++ c :: l2 := by rw [hcs]; simp
        rw [e2, e3, eraseIdx_mid]
        exact e1
      · simp only [hcur2]; push_cast; ring
  · cases l2 with
    | nil =>
      have h0 : s.cursor = strlen s.text := by rw [hsl, hcur]; simp
      exact ⟨s, handle_delete_end s mod hn h0, rfl, rfl, fun h => absurd h (by omega),
        fun _ => rfl⟩
    | cons c B =>
      have hcB : c ≠ NUL ∧ NUL ∉ B := by
        simp only [List.mem_cons, not_or] at h2
        exact ⟨fun h => h2.1 h.symm, h2.2⟩
      refine ⟨_, handle_delete_decomp s l1 B r c mod ht h1 hcB.1 hcB.2 hcur, rfl, rfl,
        fun _ => ⟨?_, rfl⟩, fun h => absurd h (by rw [hsl, hcur]; simp only [List.length_cons]; push_cast; omega)⟩
      have hno : NUL ∉ l1 ++ B := by simp [h1, hcB.2]
      have e1 := cstr_append_nul (l1 ++ B) (NUL :: r) hno
      have e2 : s.cursor.toNat = l1.length := by rw [hcur]; simp
      rw [e2, hcs, eraseIdx_mid]
      exact e1

theorem tui_input_handle_backspace_delete_witness :
    input_sample.WF ∧ input_sample.CursorOk ∧
    (∃ s', tui_input_handle input_sample (SDL_Event.key_down SDLK_BACKSPACE 0) = some (true, s') ∧
      s'.scroll = input_sample.scroll ∧ s'.max_len = input_sample.max_len ∧
      (0 < input_sample.cursor →
        cstr s'.text = (cstr input_sample.text).eraseIdx (input_sample.cursor - 1).toNat ∧
        s'.cursor = input_sample.cursor - 1) ∧
      (input_sample.cursor = 0 → s' = input_sample)) :=
  ⟨input_sample_wf, input_sample_cursor,
   (tui_input_handle_backspace_delete input_sample input_sample_wf input_sample_cursor 0).1⟩


/-- After an event, the text is no longer than before, or it fits `max_len`. -/
theorem handle_strlen (s : TUI_InputState) (hwf : s.WF) (hc : s.CursorOk) (e : SDL_Event)
    (r : Bool × TUI_InputState) (hr : tui_input_handle s e = some r) :
    strlen r.2.text ≤ strlen s.text ∨ strlen r.2.text ≤ s.max_len := by
  obtain ⟨hlen, hn, hmax⟩ := hwf
  obtain ⟨l1, l2, r0, ht, h1, h2, hcur, -, -, hcs⟩ := input_decomp s hn hc
  have htl : l1.length + l2.length + 1 + r0.length = TUI_INPUT_MAX := by
    rw [← hlen, ht]; simp; omega
  have hslen : strlen s.text = ((l1.length + l2.length : Nat) : Int) := by
    simp [strlen, hcs]
  have hsl : buf_strlen s.text = some ((l1.length + l2.length : Nat) : Int) := by
    simp [buf_strlen, hn, hcs]
  cases e with
  | quit =>
    have : r = (false, s) := by simpa [tui_input_handle] using hr.symm
    rw [this]; exact Or.inl (le_refl _)
  | other =>
    have : r = (false, s) := by simpa [tui_input_handle] using hr.symm
    rw [this]; exact Or.inl (le_refl _)
  | text_input txt =>
    by_cases hle : strlen s.text + strlen txt ≤ s.max_len
    · have hadd : strlen txt = (((cstr txt).length : Nat) : Int) := rfl
      have hfit : (cstr txt).length ≤ r0.length := by
        simp only [TUI_INPUT_MAX] at htl hmax
        omega
      have hle2 : ((l1.length + l2.length + (cstr txt).length : Nat) : Int) ≤ s.max_len := by
        push_cast; push_cast at hslen; omega
      rw [handle_text_input_decomp s l1 l2 r0 txt ht h1 h2 hcur hle2 hfit] at hr
      have hr2 := (Option.some.inj hr).symm
      rw [hr2]
      right
      have hno : NUL ∉ l1 ++ cstr txt ++ l2 := by simp [h1, h2, cstr_no_nul txt]
      simp only [strlen, cstr_append_nul _ _ hno, List.length_append]
      push_cast
      push_cast at hle2
      omega
    · rw [handle_text_input_reject s txt hn (by omega)] at hr
      rw [← Option.some.inj hr]; exact Or.inl (le_refl _)
  | key_down key mod =>
    by_cases hb : key = SDLK_BACKSPACE ∧ s.cursor > 0
    · obtain ⟨hk, hpos⟩ := hb
      subst hk
      rcases List.eq_nil_or_concat' l1 with hnil | ⟨A, c, hA⟩
      · rw [hnil] at hcur; simp at hcur; omega
      · subst hA
        have hAc : NUL ∉ A ∧ c ≠ NUL := by
          simp only [List.mem_append, List.mem_singleton, not_or] at h1
          exact ⟨h1.1, fun h => h1.2 h.symm⟩
        have ht2 : s.text = A ++ c :: l2 ++ NUL :: r0 := by rw [ht]; simp
        have hcur2 : s.cursor = ((A.length + 1 : Nat) : Int) := by rw [hcur]; simp
        rw [handle_backspace_decomp s A l2 r0 c mod ht2 hAc.1 hAc.2 h2 hcur2] at hr
        rw [← Option.some.inj hr]
        left
        have hno : NUL ∉ A ++ l2 := by simp [hAc.1, h2]
        simp only [strlen, cstr_append_nul _ _ hno, hcs, List.length_append,
          List.length_singleton]
        push_cast
        omega
    by_cases hd : key = SDLK_DELETE ∧ s.cursor < ((l1.length + l2.length : Nat) : Int)
    · obtain ⟨hk, hlt⟩ := hd
      subst hk
      cases l2 with
      | nil => simp at hlt; omega
      | cons c B =>
        have hcB : c ≠ NUL ∧ NUL ∉ B := by
          simp only [List.mem_cons, not_or] at h2
          exact ⟨fun h => h2.1 h.symm, h2.2⟩
        rw [handle_delete_decomp s l1 B r0 c mod ht h1 hcB.1 hcB.2 hcur] at hr
        rw [← Option.some.inj hr]
        left
        have hno : NUL ∉ l1 ++ B := by simp [h1, hcB.2]
        simp only [strlen, cstr_append_nul _ _ hno, hcs, List.length_append, List.length_cons]
        push_cast
        omega
    left
    simp only [tui_input_handle, hsl, Option.bind_eq_bind, Option.some_bind] at hr
    split_ifs at hr with k1 k2 k3 k4 k5 k6 k7 k8 k9 k10
    all_goals first
      | exact absurd ⟨‹_›, ‹_›⟩ hb
      | exact absurd ⟨‹_›, ‹_›⟩ hd
      | rw [← Option.some.inj hr]

theorem input_run_invariant (es : List SDL_Event) :
    ∀ s : TUI_InputState, s.WF → s.CursorOk → strlen s.text ≤ s.max_len →
      ∃ s1, input_run s es = some s1 ∧ s1.WF ∧ s1.CursorOk ∧
        strlen s1.text ≤ s1.max_len ∧ s1.max_len = s.max_len := by
  induction es with
  | nil => intro s hwf hc hl; exact ⟨s, rfl, hwf, hc, hl, rfl⟩
  | cons e es ih =>
    intro s hwf hc hl
    obtain ⟨r, hr, hwf1, hc1, hm1⟩ := handle_preserves s hwf hc e
    have hl1 : strlen r.2.text ≤ r.2.max_len := by
      rcases handle_strlen s hwf hc e r hr with h | h
      · rw [hm1]; omega
      · rw [hm1]; exact h
    obtain ⟨s1, hs1, hwf2, hc2, hl2, hm2⟩ := ih r.2 hwf1 hc1 hl1
    refine ⟨s1, ?_, hwf2, hc2, hl2, hm2.trans hm1⟩
    simp only [input_run, hr, Option.bind_eq_bind, Option.some_bind]
    exact hs1

theorem cstr_replicate_nul (n : Nat) : cstr (List.replicate n NUL) = [] := by
  cases n with
  | zero => rfl
  | succ n => simp [cstr, List.replicate_succ]

theorem input_init_ok (max_len : Int) (h0 : 0 ≤ max_len) :
    (tui_input_init max_len).WF ∧ (tui_input_init max_len).CursorOk ∧
    strlen (tui_input_init max_len).text ≤ (tui_input_init max_len).max_len := by
  have hs : strlen (tui_input_init max_len).text = 0 := by
    simp [strlen, tui_input_init, cstr_replicate_nul]
  refine ⟨⟨?_, ?_, ?_⟩, ⟨by simp [tui_input_init], ?_⟩, ?_⟩
  · simp [tui_input_init]
  · simp only [tui_input_init, TUI_INPUT_MAX]
    exact List.mem_replicate.2 ⟨by decide, rfl⟩
  · simp only [tui_input_init, TUI_INPUT_MAX]
    split_ifs <;> omega
  · rw [hs]; simp [tui_input_init]
  · rw [hs]
    simp only [tui_input_init, TUI_INPUT_MAX]
    split_ifs <;> omega

/-- C17: from `tui_input_init(max_len)` with `max_len ≥ 0`, every finite sequence of
events dispatched through `tui_input_handle` is handled without undefined
behaviour and leaves `0 ≤ cursor ≤ strlen(text) ≤ max_len ≤ 255` (`max_len` being the
value that `tui_input_init` stored), in a buffer of 256 bytes that holds the
terminator. -/
theorem tui_input_handle_invariant (max_len : Int) (h0 : 0 ≤ max_len)
    (es : List SDL_Event) :
    ∃ s, input_run (tui_input_init max_len) es = some s ∧
      0 ≤ s.cursor ∧ s.cursor ≤ strlen s.text ∧ strlen s.text ≤ s.max_len ∧
      s.max_len ≤ 255 ∧ s.max_len = min max_len 255 ∧
      s.text.length = 256 ∧ NUL ∈ s.text := by
  obtain ⟨hwf, hc, hl⟩ := input_init_ok max_len h0
  obtain ⟨s, hs, hwf1, hc1, hl1, hm1⟩ := input_run_invariant es _ hwf hc hl
  have hm : (tui_input_init max_len).max_len = min max_len 255 := by
    simp only [tui_input_init, TUI_INPUT_MAX]
    split_ifs with h
    · push_cast at h; omega
    · push_cast at h ⊢; omega
  refine ⟨s, hs, hc1.1, hc1.2, hl1, ?_, by rw [hm1, hm], hwf1.1, hwf1.2.1⟩
  have := hwf1.2.2
  simp only [TUI_INPUT_MAX] at this
  push_cast at this
  omega

theorem tui_input_handle_invariant_witness :
    (0 : Int) ≤ 3 ∧
    ∃ s, input_run (tui_input_init 3)
        [SDL_Event.text_input ['a', 'b'], SDL_Event.key_down SDLK_LEFT 0,
         SDL_Event.text_input ['c', 'd'], SDL_Event.text_input ['e'],
         SDL_Event.key_down SDLK_BACKSPACE 0] = some s ∧
      0 ≤ s.cursor ∧ s.cursor ≤ strlen s.text ∧ strlen s.text ≤ s.max_len ∧
      s.max_len ≤ 255 ∧ s.max_len = min 3 255 ∧
      s.text.length = 256 ∧ NUL ∈ s.text :=
  ⟨by decide,
   tui_input_handle_invariant 3 (by decide)
     [SDL_Event.text_input ['a', 'b'], SDL_Event.key_down SDLK_LEFT 0,
      SDL_Event.text_input ['c', 'd'], SDL_Event.text_input ['e'],
      SDL_Event.key_down SDLK_BACKSPACE 0]⟩

/-! ## Text input: the draw leaves the cursor alone -/

theorem scroll_adjust_fields (inner : Int) (s : TUI_InputState) :
    (input_scroll_adjust inner s).cursor = s.cursor ∧
    (input_scroll_adjust inner s).text = s.text ∧
    (input_scroll_adjust inner s).max_len = s.max_len := by
  simp only [input_scroll_adjust]
  split_ifs <;> exact ⟨rfl, rfl, rfl⟩

/-- The draw of a field whose buffer holds a NUL returns, for every width, and
changes neither the cursor, nor the text, nor `max_len`. -/
theorem draw_input_fields (t : TUI) (x y w : Int) (s : TUI_InputState) (focused : Bool)
    (fg bg cf cb : Nat) (hn : NUL ∈ s.text) :
    ∃ t' s', tui_draw_input t x y w s focused fg bg cf cb = some (t', s') ∧
      s'.cursor = s.cursor ∧ s'.text = s.text ∧ s'.max_len = s.max_len := by
  by_cases hw : w - 2 < 1
  · exact ⟨t, s, by simp [tui_draw_input, hw], rfl, rfl, rfl⟩
  · obtain ⟨t', ht'⟩ := draw_input_state t x y w s focused fg bg cf cb (by omega) hn
    have h := scroll_adjust_fields (w - 2) s
    exact ⟨t', _, ht', h.1, h.2.1, h.2.2⟩

set_option maxRecDepth 8000 in
theorem input_cleared_strlen : strlen input_cleared.text = 0 := by decide

/-- C18 as stated fails: on the field `input_cleared`, whose text was emptied from
outside while the cursor stayed at 3, the draw leaves `cursor = 3` and
`strlen(text) = 0`. -/
theorem tui_draw_input_cursor_counterexample :
    ∃ t' s', tui_draw_input tui_sample 0 0 10 input_cleared true 7 0 0 7 = some (t', s') ∧
      s'.cursor = 3 ∧ strlen s'.text = 0 ∧ ¬ (0 ≤ s'.cursor ∧ s'.cursor ≤ strlen s'.text) := by
  have hn : NUL ∈ input_cleared.text := by
    simp only [input_cleared]; exact List.mem_cons_self _ _
  obtain ⟨t', s', h, h1, h2, -⟩ :=
    draw_input_fields tui_sample 0 0 10 input_cleared true 7 0 0 7 hn
  have hc : s'.cursor = 3 := by rw [h1]; rfl
  have hl : strlen s'.text = 0 := by
    rw [h2]; exact input_cleared_strlen
  exact ⟨t', s', h, hc, hl, by rw [hc, hl]; omega⟩

/-- C18, as the code has it: `tui_draw_input` re-clamps `scroll` only. On every
`TUI_InputState` whose buffer holds a NUL, and for every width, it returns and
leaves the cursor, the text and `max_len` unchanged; so `0 ≤ cursor ≤ strlen(text)`
holds after the draw exactly when it held before. -/
theorem tui_draw_input_keeps_cursor (t : TUI) (x y w : Int) (s : TUI_InputState)
    (focused : Bool) (fg bg cf cb : Nat) (hn : NUL ∈ s.text) :
    ∃ t' s', tui_draw_input t x y w s focused fg bg cf cb = some (t', s') ∧
      s'.cursor = s.cursor ∧ s'.text = s.text ∧ s'.max_len = s.max_len ∧
      ((0 ≤ s'.cursor ∧ s'.cursor ≤ strlen s'.text) ↔
        (0 ≤ s.cursor ∧ s.cursor ≤ strlen s.text)) := by
  obtain ⟨t', s', h, h1, h2, h3⟩ := draw_input_fields t x y w s focused fg bg cf cb hn
  exact ⟨t', s', h, h1, h2, h3, by rw [h1, h2]⟩

theorem tui_draw_input_keeps_cursor_witness :
    NUL ∈ input_sample.text ∧
    ∃ t' s', tui_draw_input tui_sample 0 0 10 input_sample true 7 0 0 7 = some (t', s') ∧
      s'.cursor = input_sample.cursor ∧ s'.text = input_sample.text ∧
      s'.max_len = input_sample.max_len ∧
      ((0 ≤ s'.cursor ∧ s'.cursor ≤ strlen s'.text) ↔
        (0 ≤ input_sample.cursor ∧ input_sample.cursor ≤ strlen input_sample.text)) :=
  ⟨input_sample_wf.2.1,
   tui_draw_input_keeps_cursor tui_sample 0 0 10 input_sample true 7 0 0 7
     input_sample_wf.2.1⟩

/-! ## Terminal log: `term_print` keeps the most recent lines -/

theorem keep_last_of_le {α : Type} (n : Nat) (l : List α) (h : l.length ≤ n) :
    keep_last n l = l := by
  simp [keep_last, Nat.sub_eq_zero_of_le h]

theorem keep_last_length {α : Type} (n : Nat) (l : List α) :
    (keep_last n l).length = min l.length n := by
  simp only [keep_last, List.length_drop]
  omega

theorem keep_last_append {α : Type} (n : Nat) (a b : List α) :
    keep_last n (keep_last n a ++ b) = keep_last n (a ++ b) := by
  by_cases h : a.length ≤ n
  · rw [keep_last_of_le n a h]
  · unfold keep_last
    have hk : (a.drop (a.length - n)).length = n := by rw [List.length_drop]; omega
    have e1 : (a.drop (a.length - n) ++ b).length - n = b.length := by
      rw [List.length_append, hk]; omega
    have e2 : (a ++ b).length - n = b.length + (a.length - n) := by
      rw [List.length_append]; omega
    have e3 : (a ++ b).drop (a.length - n) = a.drop (a.length - n) ++ b :=
      List.drop_append_of_le_length (by omega)
    have e4 : (a ++ b).drop (b.length + (a.length - n))
        = ((a ++ b).drop (a.length - n)).drop b.length := by
      simp only [List.drop_drop]
      congr 1
      omega
    rw [e1, e2, e4, e3]

theorem split_at {α : Type} (l : List α) (c : Nat) (h : c < l.length) :
    ∃ A x B, l = A ++ x :: B ∧ A.length = c := by
  refine ⟨l.take c, l[c], l.drop (c + 1), ?_, ?_⟩
  · rw [← List.drop_eq_getElem_cons h, List.take_append_drop]
  · rw [List.length_take]; omega

theorem set_mid {α : Type} (A B : List α) (x y : α) :
    (A ++ x :: B).set A.length y = A ++ y :: B := by
  induction A with
  | nil => rfl
  | cons a A ih => simp only [List.cons_append, List.length_cons, List.set_cons_succ, ih]

/-- The stored lines after a line is written in the free row `c`. -/
theorem print_log_lt (L : List (List Char)) (C : List Nat) (c : Nat) (hL : c < L.length)
    (hC : c < C.length) (new : List Char) (fg : Nat) :
    ((L.set c new).zip (C.set c fg)).take (c + 1) = (L.zip C).take c ++ [(new, fg)] := by
  obtain ⟨A, x, B, rfl, hA⟩ := split_at L c hL
  obtain ⟨A2, x2, B2, rfl, hA2⟩ := split_at C c hC
  have hlen : A.length = A2.length := by omega
  have hz : (A.zip A2).length = c := by simp [List.length_zip, hA, hA2]
  have e1 : (A ++ x :: B).set c new = A ++ new :: B := by rw [← hA]; exact set_mid A B x new
  have e2 : (A2 ++ x2 :: B2).set c fg = A2 ++ fg :: B2 := by
    rw [← hA2]; exact set_mid A2 B2 x2 fg
  rw [e1, e2, List.zip_append hlen, List.zip_append hlen, List.zip_cons_cons, List.zip_cons_cons]
  have t1 := @List.take_append _ (A.zip A2) ((new, fg) :: B.zip B2) 1
  have t2 := @List.take_append _ (A.zip A2) ((x, x2) :: B.zip B2) 0
  rw [hz] at t1 t2
  rw [Nat.add_zero] at t2
  rw [t1, t2]
  simp

/-- The stored lines after the oldest row is shifted out of a full log and a line is
written in the last row. -/
theorem print_log_full (L : List (List Char)) (C : List Nat) (n : Nat)
    (hL : L.length = n + 1) (hC : C.length = n + 1) (new : List Char) (fg : Nat) :
    ((arr_memmove L 0 1 n).set n new).zip ((arr_memmove C 0 1 n).set n fg)
      = (L.zip C).drop 1 ++ [(new, fg)] := by
  have key : ∀ {α : Type} (l : List α) (y : α), l.length = n + 1 →
      (arr_memmove l 0 1 n).set n y = l.drop 1 ++ [y] := by
    intro α l y hl
    obtain ⟨A, z, B, rfl, hA⟩ := split_at l n (by omega)
    have hB : B = [] := by
      apply List.length_eq_zero.1
      simp only [List.length_append, List.length_cons] at hl
      omega
    subst hB
    have e1 : ((A ++ [z]).drop 1).take n = (A ++ [z]).drop 1 := by
      apply List.take_of_length_le
      simp only [List.length_drop, List.length_append, List.length_singleton]
      omega
    have e2 : (A ++ [z]).drop n = [z] := by
      rw [← hA]; simp
    have e3 : ((A ++ [z]).drop 1).length = n := by
      simp only [List.length_drop, List.length_append, List.length_singleton]
      omega
    simp only [arr_memmove, List.take_zero, List.nil_append, Nat.zero_add, e1, e2]
    have := set_mid ((A ++ [z]).drop 1) [] z y
    rw [e3] at this
    exact this
  rw [key L new hL, key C fg hC]
  cases L with
  | nil => simp at hL
  | cons a L =>
    cases C with
    | nil => simp at hC
    | cons b C =>
      simp only [List.length_cons, Nat.add_right_cancel_iff] at hL hC
      simp only [List.drop_succ_cons, List.drop_zero, List.zip_cons_cons]
      rw [List.zip_append (by omega)]
      simp

/-- One `term_print` on a well-formed log: it returns, keeps the log well-formed,
and the stored lines are the last 200 of the former ones followed by the new line
(cut to 255 characters). The view scroll and the input field are untouched. -/
theorem term_print_log (ts : TermState) (hwf : ts.WF) (msg : List Char) (fg : Nat) :
    ∃ ts1, term_print ts msg fg = some ts1 ∧ ts1.WF ∧
      log_lines ts1 = keep_last TERM_MAX_LINES
        (log_lines ts ++ [(snprintf TERM_LINE_MAX (cstr msg), fg)]) ∧
      ts1.scroll = ts.scroll ∧ ts1.input = ts.input := by
  obtain ⟨hL, hC, h0, h1, hin⟩ := hwf
  obtain ⟨c, hc⟩ := Int.eq_ofNat_of_zero_le h0
  simp only [TERM_MAX_LINES] at hL hC h1
  have hzl : (ts.lines.zip ts.colors).length = 200 := by
    simp [List.length_zip, hL, hC]
  by_cases hfull : ts.count ≥ TERM_MAX_LINES
  · have hc200 : c = 200 := by
      simp only [TERM_MAX_LINES] at hfull
      omega
    have hlog : log_lines ts = ts.lines.zip ts.colors := by
      simp only [log_lines, hc, Int.toNat_ofNat, hc200]
      exact List.take_of_length_le (by omega)
    have hpl := print_log_full ts.lines ts.colors 199 hL hC
      (snprintf TERM_LINE_MAX (cstr msg)) fg
    refine ⟨{ ts with
        lines := (arr_memmove ts.lines 0 1 199).set 199 (snprintf TERM_LINE_MAX (cstr msg)),
        colors := (arr_memmove ts.colors 0 1 199).set 199 fg,
        count := 200 }, ?_, ?_, ?_, rfl, rfl⟩
    · have hge : ts.count ≥ ((200 : Nat) : Int) := by simpa [TERM_MAX_LINES] using hfull
      unfold term_print
      simp only [TERM_MAX_LINES]
      rw [if_pos hge]
      norm_num
      exact ⟨rfl, rfl⟩
    · refine ⟨?_, ?_, by simp, by simp [TERM_MAX_LINES], hin⟩
      · have := congrArg List.length hpl
        simp only [List.length_zip, List.length_set, List.length_append, List.length_drop,
          List.length_singleton, hL, hC] at this ⊢
        simp only [arr_memmove, List.length_append, List.length_take, List.length_drop, hL,
          TERM_MAX_LINES]
        omega
      · simp only [List.length_set, arr_memmove, List.length_append, List.length_take,
          List.length_drop, hC, TERM_MAX_LINES]
        omega
    · have hlen2 : ((ts.lines.zip ts.colors).drop 1
          ++ [(snprintf TERM_LINE_MAX (cstr msg), fg)]).length = 200 := by
        simp only [List.length_append, List.length_drop, hzl, List.length_singleton]
      rw [hlog]
      simp only [log_lines]
      rw [hpl]
      have e1 : ((200 : Int)).toNat = 200 := by decide
      rw [e1, List.take_of_length_le (by omega)]
      simp only [keep_last, TERM_MAX_LINES, List.length_append, hzl, List.length_singleton]
      rw [List.drop_append_of_le_length (by omega)]
  · have hc200 : c < 200 := by
      simp only [TERM_MAX_LINES] at hfull
      omega
    have hpl := print_log_lt ts.lines ts.colors c (by omega) (by omega)
      (snprintf TERM_LINE_MAX (cstr msg)) fg
    have hnn : ¬ (ts.count < 0) := by omega
    refine ⟨{ ts with
        lines := ts.lines.set c (snprintf TERM_LINE_MAX (cstr msg)),
        colors := ts.colors.set c fg,
        count := ((c + 1 : Nat) : Int) }, ?_, ?_, ?_, rfl, rfl⟩
    · simp only [term_print, if_neg hfull, if_neg hnn]
      simp only [hc, Int.toNat_ofNat]
      push_cast
      rfl
    · refine ⟨by simp [hL, TERM_MAX_LINES], by simp [hC, TERM_MAX_LINES], by simp only; omega,
        ?_, hin⟩
      simp only [TERM_MAX_LINES]
      push_cast
      omega
    · simp only [log_lines, hc, Int.toNat_ofNat]
      rw [hpl]
      apply (keep_last_of_le _ _ _).symm
      simp only [List.length_append, List.length_take, hzl, List.length_singleton,
        TERM_MAX_LINES]
      omega

/-- A sequence of `term_print` calls on a well-formed log: the stored lines are the
last 200 of the former ones followed by the new lines, each cut to 255
characters. -/
theorem term_prints_log (ps : List (List Char × Nat)) :
    ∀ ts : TermState, ts.WF →
      ∃ ts1, term_prints ts ps = some ts1 ∧ ts1.WF ∧
        log_lines ts1 = keep_last TERM_MAX_LINES
          (log_lines ts ++ ps.map (fun p => (snprintf TERM_LINE_MAX (cstr p.1), p.2))) ∧
        ts1.scroll = ts.scroll ∧ ts1.input = ts.input := by
  induction ps with
  | nil =>
    intro ts hwf
    refine ⟨ts, rfl, hwf, ?_, rfl, rfl⟩
    simp only [List.map_nil, List.append_nil]
    apply (keep_last_of_le _ _ _).symm
    obtain ⟨hL, hC, h0, h1, -⟩ := hwf
    simp only [log_lines, List.length_take, List.length_zip, hL, hC, TERM_MAX_LINES]
    omega
  | cons p ps ih =>
    intro ts hwf
    obtain ⟨ts1, h1, hwf1, hl1, hs1, hi1⟩ := term_print_log ts hwf p.1 p.2
    obtain ⟨ts2, h2, hwf2, hl2, hs2, hi2⟩ := ih ts1 hwf1
    refine ⟨ts2, ?_, hwf2, ?_, hs2.trans hs1, hi2.trans hi1⟩
    · simp only [term_prints, h1, Option.bind_eq_bind, Option.some_bind]
      exact h2
    · rw [hl2, hl1, keep_last_append]
      simp only [List.map_cons, List.append_assoc, List.singleton_append]

/-! ## Terminal log: `term_exec` -/

theorem foldlM_term_print (f : Nat → List Char) (l : List Nat) :
    ∀ ts : TermState,
      l.foldlM (fun ts i => term_print ts (f i) i) ts
        = term_prints ts (l.map (fun i => (f i, i))) := by
  induction l with
  | nil => intro ts; rfl
  | cons a l ih =>
    intro ts
    simp only [List.foldlM_cons, List.map_cons, term_prints, Option.bind_eq_bind]
    cases term_print ts (f a) a with
    | none => rfl
    | some ts1 => simp only [Option.some_bind]; exact ih ts1

theorem map_bind_opt (o : Option TermState) (f : TermState → Option TermState)
    (g : TermState → TermState) :
    (o.bind f).map g = o.bind (fun t => (f t).map g) := by
  cases o <;> rfl

/-- The commands other than `clear`: `term_exec` prints the prompt, then the lines
of `term_outputs`, then resets the view scroll and the input field. -/
theorem term_exec_eq (ts : TermState) (ticks : Nat) (hn : NUL ∈ ts.input.text)
    (hcl : cstr ts.input.text ≠ "clear".toList) :
    term_exec ts ticks
      = (term_prints ts
          ((snprintf TERM_LINE_MAX ("> ".toList ++ cstr ts.input.text), TUI_GREEN)
            :: term_outputs (cstr ts.input.text) ticks)).map term_exec_end := by
  have hn2 : ¬ (NUL ∉ ts.input.text) := not_not.2 hn
  simp only [term_exec, if_neg hn2, if_neg hcl, term_prints, Option.bind_eq_bind]
  cases term_print ts (snprintf TERM_LINE_MAX ("> ".toList ++ cstr ts.input.text)) TUI_GREEN with
  | none => rfl
  | some ts1 =>
    simp only [Option.some_bind]
    unfold term_outputs
    by_cases h1 : cstr ts.input.text = "help".toList
    · rw [if_pos h1, if_pos h1]
      simp only [term_prints, Option.bind_eq_bind, map_bind_opt, Option.map_some']
      rfl
    rw [if_neg h1, if_neg h1]
    by_cases h2 : (cstr ts.input.text).take 5 = "echo ".toList
    · rw [if_pos h2, if_pos h2]
      simp only [term_prints, Option.bind_eq_bind, map_bind_opt, Option.map_some']
      rfl
    rw [if_neg h2, if_neg h2]
    by_cases h3 : cstr ts.input.text = "hello".toList
    · rw [if_pos h3, if_pos h3]
      simp only [term_prints, Option.bind_eq_bind, map_bind_opt, Option.map_some']
      rfl
    rw [if_neg h3, if_neg h3]
    by_cases h4 : cstr ts.input.text = "time".toList
    · rw [if_pos h4, if_pos h4]
      simp only [term_prints, Option.bind_eq_bind, map_bind_opt, Option.map_some']
      rfl
    rw [if_neg h4, if_neg h4]
    by_cases h5 : cstr ts.input.text = "colors".toList
    · rw [if_pos h5, if_pos h5]
      rw [foldlM_term_print (fun i =>
        snprintf 32 ("  Color ".toList ++ fmt_2d i ++ " ########".toList))]
      cases term_prints ts1 ((List.range TUI_PALETTE_SIZE).map (fun i =>
        (snprintf 32 ("  Color ".toList ++ fmt_2d i ++ " ########".toList), i))) <;> rfl
    rw [if_neg h5, if_neg h5]
    by_cases h6 : cstr ts.input.text = "version".toList
    · rw [if_pos h6, if_pos h6]
      simp only [term_prints, Option.bind_eq_bind, map_bind_opt, Option.map_some']
      rfl
    rw [if_neg h6, if_neg h6]
    by_cases h7 : cstr ts.input.text ≠ []
    · rw [if_pos h7, if_pos h7]
      simp only [term_prints, Option.bind_eq_bind, map_bind_opt, Option.map_some']
      rfl
    rw [if_neg h7, if_neg h7]
    rfl

theorem cstr_of_not_mem (l : List Char) (h : NUL ∉ l) : cstr l = l := by
  induction l with
  | nil => rfl
  | cons a l ih =>
    have ha : a ≠ NUL := fun e => h (by simp [e])
    have hl : NUL ∉ l := fun e => h (List.mem_cons_of_mem _ e)
    have ih2 := ih hl
    unfold cstr at ih2 ⊢
    simp [ha, ih2]

theorem snprintf_of_le (n : Nat) (l : List Char) (h : l.length ≤ n - 1) :
    snprintf n l = l :=
  List.take_of_length_le h

theorem term_init_wf : term_init.WF := by
  refine ⟨?_, ?_, ?_, ?_, ?_⟩
  · simp [term_init]
  · simp [term_init]
  · simp [term_init]
  · simp [term_init, TERM_MAX_LINES]
  · exact (input_init_ok _ (by simp [TERM_LINE_MAX])).1

theorem log_lines_init : log_lines term_init = [] := by
  simp [log_lines, term_init]

theorem log_lines_length (ts : TermState) (hwf : ts.WF) :
    ((log_lines ts).length : Int) = ts.count := by
  obtain ⟨hL, hC, h0, h1, -⟩ := hwf
  simp only [log_lines, List.length_take, List.length_zip, hL, hC, TERM_MAX_LINES] at *
  omega

theorem keep_last_append_le {α : Type} (n : Nat) (a b : List α) (h : b.length ≤ n) :
    keep_last n (a ++ b) = keep_last (n - b.length) a ++ b := by
  unfold keep_last
  have e : (a ++ b).length - n = a.length - (n - b.length) := by
    rw [List.length_append]; omega
  rw [e, List.drop_append_of_le_length (by omega)]

theorem map_snprintf_id (ps : List (List Char × Nat))
    (h : ∀ p ∈ ps, NUL ∉ p.1 ∧ p.1.length ≤ 255) :
    ps.map (fun p => (snprintf TERM_LINE_MAX (cstr p.1), p.2)) = ps := by
  induction ps with
  | nil => rfl
  | cons p ps ih =>
    have hp := h p (List.mem_cons_self _ _)
    rw [List.map_cons, ih (fun q hq => h q (List.mem_cons_of_mem _ hq))]
    rw [cstr_of_not_mem _ hp.1, snprintf_of_le _ _ (by simpa [TERM_LINE_MAX] using hp.2)]

/-- C12: appending the lines `ps` (C strings of at most 255 characters, each with a
colour) with `term_print` to the empty log of `term_init` succeeds and leaves
`min(n, 200)` stored lines, which are the last `min(n, 200)` lines of `ps` with their
colours and in their order; when `n = 200 + k` these are `ps` without its first `k`
lines. -/
theorem term_print_keeps_most_recent (ps : List (List Char × Nat))
    (h : ∀ p ∈ ps, NUL ∉ p.1 ∧ p.1.length ≤ 255) :
    ∃ ts, term_prints term_init ps = some ts ∧
      ts.count = ((min ps.length TERM_MAX_LINES : Nat) : Int) ∧
      log_lines ts = ps.drop (ps.length - min ps.length TERM_MAX_LINES) ∧
      (∀ k, ps.length = TERM_MAX_LINES + k →
        ts.count = (TERM_MAX_LINES : Int) ∧ log_lines ts = ps.drop k) := by
  obtain ⟨ts, h1, hwf, hl, -, -⟩ := term_prints_log ps term_init term_init_wf
  rw [log_lines_init, List.nil_append, map_snprintf_id ps h] at hl
  have hc := log_lines_length ts hwf
  have hlen : (log_lines ts).length = min ps.length TERM_MAX_LINES := by
    rw [hl, keep_last_length]
  have hd : log_lines ts = ps.drop (ps.length - min ps.length TERM_MAX_LINES) := by
    have e : ps.length - 200 = ps.length - min ps.length 200 := by omega
    rw [hl]; unfold keep_last
    simp only [TERM_MAX_LINES]
    rw [e]
  refine ⟨ts, h1, ?_, hd, ?_⟩
  · rw [← hc, hlen]
  · intro k hk
    constructor
    · rw [← hc, hlen, hk]; simp
    · have e : TERM_MAX_LINES + k - min (TERM_MAX_LINES + k) TERM_MAX_LINES = k := by
        simp only [TERM_MAX_LINES]; omega
      rw [hd, hk, e]

theorem term_print_keeps_most_recent_witness :
    ∃ ts, term_prints term_init term_lines_sample = some ts ∧
      ts.count = ((min term_lines_sample.length TERM_MAX_LINES : Nat) : Int) ∧
      log_lines ts
        = term_lines_sample.drop
            (term_lines_sample.length - min term_lines_sample.length TERM_MAX_LINES) ∧
      (∀ k, term_lines_sample.length = TERM_MAX_LINES + k →
        ts.count = (TERM_MAX_LINES : Int) ∧ log_lines ts = term_lines_sample.drop k) :=
  term_print_keeps_most_recent term_lines_sample (by
    intro p hp
    rcases List.mem_cons.1 hp with rfl | hp
    · decide
    · rw [List.eq_of_mem_replicate hp]; decide)

theorem cstr_length_lt (buf : List Char) (h : NUL ∈ buf) :
    (cstr buf).length < buf.length := by
  obtain ⟨r, hr⟩ := buf_decomp buf h
  have := congrArg List.length hr
  simp only [List.length_append, List.length_cons] at this
  omega

theorem input_reset_ok (s : TUI_InputState) (h : s.WF) :
    ({ s with text := s.text.set 0 NUL, cursor := 0, scroll := 0 } : TUI_InputState).WF ∧
    cstr (s.text.set 0 NUL) = [] := by
  obtain ⟨hl, hn, hm⟩ := h
  cases ht : s.text with
  | nil => rw [ht] at hl; simp [TUI_INPUT_MAX] at hl
  | cons x r =>
    rw [ht] at hl
    refine ⟨⟨?_, ?_, hm⟩, ?_⟩
    · simpa using hl
    · simp
    · simp [cstr]

theorem term_exec_end_wf (ts : TermState) (hwf : ts.WF) : (term_exec_end ts).WF := by
  obtain ⟨hL, hC, h0, h1, hin⟩ := hwf
  exact ⟨hL, hC, h0, h1, (input_reset_ok ts.input hin).1⟩

theorem term_exec_clear (ts : TermState) (ticks : Nat) (hn : NUL ∈ ts.input.text)
    (hcl : cstr ts.input.text = "clear".toList) :
    term_exec ts ticks = some (term_exec_end { ts with count := 0, scroll := 0 }) := by
  have hn2 : ¬ (NUL ∉ ts.input.text) := not_not.2 hn
  simp only [term_exec, if_neg hn2, if_pos hcl]
  rfl

/-- The line that `term_print` stores for the prompt buffer of `term_exec`. -/
theorem prompt_line (cmd : List Char) (h : NUL ∉ cmd) :
    snprintf TERM_LINE_MAX (cstr (snprintf TERM_LINE_MAX ("> ".toList ++ cmd)))
      = ("> ".toList ++ cmd).take 255 := by
  have h1 : NUL ∉ ("> ".toList ++ cmd).take 255 := by
    intro hm
    have hm2 := List.mem_of_mem_take hm
    rcases List.mem_append.1 hm2 with h2 | h2
    · revert h2; decide
    · exact h h2
  have e : snprintf TERM_LINE_MAX ("> ".toList ++ cmd) = ("> ".toList ++ cmd).take 255 := rfl
  rw [e, cstr_of_not_mem _ h1]
  apply snprintf_of_le
  rw [List.length_take]
  simp only [TERM_LINE_MAX]
  omega

/-- What `term_exec` does for a command other than `clear`, on the stored lines. -/
theorem term_exec_log (ts : TermState) (ticks : Nat) (hwf : ts.WF)
    (hcl : cstr ts.input.text ≠ "clear".toList) :
    ∃ ts1, term_exec ts ticks = some ts1 ∧ ts1.WF ∧
      log_lines ts1 = keep_last TERM_MAX_LINES
        (log_lines ts ++ (("> ".toList ++ cstr ts.input.text).take 255, TUI_GREEN)
          :: (term_outputs (cstr ts.input.text) ticks).map
               (fun p => (snprintf TERM_LINE_MAX (cstr p.1), p.2))) ∧
      ts1.scroll = 0 ∧
      ts1.input = { ts.input with text := ts.input.text.set 0 NUL, cursor := 0, scroll := 0 } := by
  obtain ⟨ts2, h2, hwf2, hl2, -, hi2⟩ := term_prints_log
    ((snprintf TERM_LINE_MAX ("> ".toList ++ cstr ts.input.text), TUI_GREEN)
      :: term_outputs (cstr ts.input.text) ticks) ts hwf
  refine ⟨term_exec_end ts2, ?_, term_exec_end_wf ts2 hwf2, ?_, rfl, ?_⟩
  · rw [term_exec_eq ts ticks hwf.2.2.2.2.2.1 hcl, h2]; rfl
  · rw [List.map_cons, prompt_line _ (cstr_no_nul _)] at hl2
    exact hl2
  · simp only [term_exec_end, hi2]

theorem term_outputs_length (cmd : List Char) (ticks : Nat) :
    (term_outputs cmd ticks).length ≤ 16 := by
  unfold term_outputs
  by_cases h1 : cmd = "help".toList
  · rw [if_pos h1]; simp
  rw [if_neg h1]
  by_cases h2 : cmd.take 5 = "echo ".toList
  · rw [if_pos h2]; simp
  rw [if_neg h2]
  by_cases h3 : cmd = "hello".toList
  · rw [if_pos h3]; simp
  rw [if_neg h3]
  by_cases h4 : cmd = "time".toList
  · rw [if_pos h4]; simp
  rw [if_neg h4]
  by_cases h5 : cmd = "colors".toList
  · rw [if_pos h5]; simp [TUI_PALETTE_SIZE]
  rw [if_neg h5]
  by_cases h6 : cmd = "version".toList
  · rw [if_pos h6]; simp
  rw [if_neg h6]
  by_cases h7 : cmd ≠ []
  · rw [if_pos h7]; simp
  rw [if_neg h7]; simp

theorem term_outputs_echo (m : List Char) (ticks : Nat) :
    term_outputs ("echo ".toList ++ m) ticks = [(m, TUI_WHITE)] := by
  have e : "echo ".toList = ['e', 'c', 'h', 'o', ' '] := rfl
  have h1 : "echo ".toList ++ m ≠ "help".toList := by
    intro h
    have := congrArg List.length h
    rw [e, List.length_append] at this
    have e2 : "help".toList.length = 4 := rfl
    rw [e2] at this
    simp only [List.length_cons, List.length_nil] at this
    omega
  unfold term_outputs
  rw [if_neg h1, if_pos (by rw [e]; rfl)]
  rw [e]; rfl

/-- C13, as amended: when the input field holds the command `echo ` followed by `m`,
`term_exec` returns and appends exactly two lines after the stored ones (of which
the last 198 are kept): the first 255 characters of the prompt `> echo ` followed by
`m`, in green, and then the line `m`, in white. The prompt is stored whole when `m`
has at most 248 characters. -/
theorem term_exec_echo (ts : TermState) (ticks : Nat) (m : List Char) (hwf : ts.WF)
    (hlen : ("echo ".toList ++ m).length ≤ 255)
    (hin : cstr ts.input.text = "echo ".toList ++ m) :
    ∃ ts1, term_exec ts ticks = some ts1 ∧
      log_lines ts1 = keep_last (TERM_MAX_LINES - 2) (log_lines ts)
        ++ [(("> echo ".toList ++ m).take 255, TUI_GREEN), (m, TUI_WHITE)] ∧
      (m.length ≤ 248 → ("> echo ".toList ++ m).take 255 = "> echo ".toList ++ m) := by
  have e : "echo ".toList = ['e', 'c', 'h', 'o', ' '] := rfl
  have hcl : cstr ts.input.text ≠ "clear".toList := by
    rw [hin, e]; intro h
    have h2 := List.head_eq_of_cons_eq h
    revert h2; decide
  have hm : NUL ∉ m := by
    intro h
    exact cstr_no_nul ts.input.text (by rw [hin]; exact List.mem_append_right _ h)
  have hm2 : m.length ≤ 255 := by
    rw [List.length_append, e] at hlen
    simp only [List.length_cons, List.length_nil] at hlen
    omega
  obtain ⟨ts1, h1, -, hl, -, -⟩ := term_exec_log ts ticks hwf hcl
  refine ⟨ts1, h1, ?_, ?_⟩
  · rw [hl, hin, term_outputs_echo]
    simp only [List.map_cons, List.map_nil]
    rw [cstr_of_not_mem m hm, snprintf_of_le TERM_LINE_MAX m (by simpa [TERM_LINE_MAX] using hm2)]
    have e3 : "> ".toList ++ ("echo ".toList ++ m) = "> echo ".toList ++ m := rfl
    rw [e3]
    exact keep_last_append_le TERM_MAX_LINES (log_lines ts) _ (by simp [TERM_MAX_LINES])
  · intro h248
    apply List.take_of_length_le
    have e4 : "> echo ".toList.length = 7 := rfl
    rw [List.length_append, e4]
    omega

set_option maxRecDepth 8000 in
theorem term_exec_echo_witness :
    term_echo_sample.WF ∧
    ∃ ts1, term_exec term_echo_sample 0 = some ts1 ∧
      log_lines ts1 = keep_last (TERM_MAX_LINES - 2) (log_lines term_echo_sample)
        ++ [(("> echo ".toList ++ "hi".toList).take 255, TUI_GREEN), ("hi".toList, TUI_WHITE)] ∧
      ("hi".toList.length ≤ 248 →
        ("> echo ".toList ++ "hi".toList).take 255 = "> echo ".toList ++ "hi".toList) :=
  ⟨by decide, term_exec_echo term_echo_sample 0 "hi".toList (by decide) (by decide) (by decide)⟩

set_option maxRecDepth 20000 in
/-- C13 as stated fails for a command of 254 characters: the stored prompt is cut to
255 characters, one short of `> echo ` followed by `m`. -/
theorem term_exec_echo_counterexample :
    term_long_echo.WF ∧
    cstr term_long_echo.input.text = "echo ".toList ++ List.replicate 249 'a' ∧
    ("echo ".toList ++ List.replicate 249 'a').length ≤ 255 ∧
    (term_exec term_long_echo 0).map log_lines
      = some [("> echo ".toList ++ List.replicate 248 'a', TUI_GREEN),
              (List.replicate 249 'a', TUI_WHITE)] ∧
    ("> echo ".toList ++ List.replicate 249 'a', TUI_GREEN)
      ∉ [("> echo ".toList ++ List.replicate 248 'a', TUI_GREEN),
         (List.replicate 249 'a', TUI_WHITE)] := by
  decide

/-- C14: on every terminal state `term_exec` returns; when the input text is exactly
`clear` the line count and the scroll become 0 and no line is stored, and for every
other input text the stored lines end with the echoed prompt (the first 255
characters of `> ` followed by the text, in green) and the lines the command prints
after it. -/
theorem term_exec_clear_or_prompt (ts : TermState) (ticks : Nat) (hwf : ts.WF) :
    ∃ ts1, term_exec ts ticks = some ts1 ∧
      (cstr ts.input.text = "clear".toList →
        ts1.count = 0 ∧ ts1.scroll = 0 ∧ log_lines ts1 = []) ∧
      (cstr ts.input.text ≠ "clear".toList →
        log_lines ts1
          = keep_last (TERM_MAX_LINES - 1 - (term_outputs (cstr ts.input.text) ticks).length)
              (log_lines ts)
            ++ (("> ".toList ++ cstr ts.input.text).take 255, TUI_GREEN)
              :: (term_outputs (cstr ts.input.text) ticks).map
                   (fun p => (snprintf TERM_LINE_MAX (cstr p.1), p.2))) := by
  by_cases hcl : cstr ts.input.text = "clear".toList
  · refine ⟨_, term_exec_clear ts ticks hwf.2.2.2.2.2.1 hcl, fun _ => ⟨rfl, rfl, ?_⟩,
      fun h => absurd hcl h⟩
    simp [log_lines, term_exec_end]
  · obtain ⟨ts1, h1, -, hl, -, -⟩ := term_exec_log ts ticks hwf hcl
    refine ⟨ts1, h1, fun h => absurd h hcl, fun _ => ?_⟩
    have hlen := term_outputs_length (cstr ts.input.text) ticks
    rw [hl, keep_last_append_le TERM_MAX_LINES (log_lines ts) _
      (by simp only [List.length_cons, List.length_map, TERM_MAX_LINES]; omega)]
    simp only [List.length_cons, List.length_map, TERM_MAX_LINES]
    rw [Nat.sub_add_eq, Nat.sub_right_comm]

set_option maxRecDepth 8000 in
theorem term_exec_clear_or_prompt_witness :
    term_clear_sample.WF ∧
    ∃ ts1, term_exec term_clear_sample 0 = some ts1 ∧
      (cstr term_clear_sample.input.text = "clear".toList →
        ts1.count = 0 ∧ ts1.scroll = 0 ∧ log_lines ts1 = []) ∧
      (cstr term_clear_sample.input.text ≠ "clear".toList →
        log_lines ts1
          = keep_last
              (TERM_MAX_LINES - 1 - (term_outputs (cstr term_clear_sample.input.text) 0).length)
              (log_lines term_clear_sample)
            ++ (("> ".toList ++ cstr term_clear_sample.input.text).take 255, TUI_GREEN)
              :: (term_outputs (cstr term_clear_sample.input.text) 0).map
                   (fun p => (snprintf TERM_LINE_MAX (cstr p.1), p.2))) :=
  ⟨by decide, term_exec_clear_or_prompt term_clear_sample 0 (by decide)⟩

/-- C15: on every terminal state and for every input text, `term_exec` returns a state
whose input field is reset (empty text, `cursor = 0`, input `scroll = 0`, `max_len`
as before) and whose view scroll is 0. -/
theorem term_exec_resets_input (ts : TermState) (ticks : Nat) (hwf : ts.WF) :
    ∃ ts1, term_exec ts ticks = some ts1 ∧
      cstr ts1.input.text = [] ∧ strlen ts1.input.text = 0 ∧
      ts1.input.cursor = 0 ∧ ts1.input.scroll = 0 ∧
      ts1.input.max_len = ts.input.max_len ∧ ts1.scroll = 0 := by
  have hz := (input_reset_ok ts.input hwf.2.2.2.2).2
  by_cases hcl : cstr ts.input.text = "clear".toList
  · refine ⟨_, term_exec_clear ts ticks hwf.2.2.2.2.2.1 hcl, ?_, ?_, rfl, rfl, rfl, rfl⟩
    · exact hz
    · simp only [strlen, term_exec_end, hz, List.length_nil, Nat.cast_zero]
  · obtain ⟨ts1, h1, -, -, hs, hi⟩ := term_exec_log ts ticks hwf hcl
    refine ⟨ts1, h1, ?_, ?_, ?_, ?_, ?_, hs⟩
    · rw [hi]; exact hz
    · rw [hi]; simp only [strlen, hz, List.length_nil, Nat.cast_zero]
    · rw [hi]
    · rw [hi]
    · rw [hi]

set_option maxRecDepth 8000 in
theorem term_exec_resets_input_witness :
    term_help_sample.WF ∧
    ∃ ts1, term_exec term_help_sample 7 = some ts1 ∧
      cstr ts1.input.text = [] ∧ strlen ts1.input.text = 0 ∧
      ts1.input.cursor = 0 ∧ ts1.input.scroll = 0 ∧
      ts1.input.max_len = term_help_sample.input.max_len ∧ ts1.scroll = 0 :=
  ⟨by decide, term_exec_resets_input term_help_sample 7 (by decide)⟩

/-! ## Reading the grid after a sequence of `tui_putc` calls -/

theorem putc_grid_ok (t : TUI) (x y : Int) (ch : Char) (fg bg : Nat) (h : t.GridOk) :
    (tui_putc t x y ch fg bg).GridOk := by
  unfold tui_putc
  split_ifs
  · exact h
  · obtain ⟨h0, h1, h2⟩ := h
    exact ⟨h0, h1, by simpa using h2⟩

theorem putc_dims (t : TUI) (x y : Int) (ch : Char) (fg bg : Nat) :
    (tui_putc t x y ch fg bg).cols = t.cols ∧ (tui_putc t x y ch fg bg).rows = t.rows := by
  unfold tui_putc
  split_ifs <;> exact ⟨rfl, rfl⟩

theorem grid_index_lt (t : TUI) (x y : Int) (h : t.GridOk)
    (hx0 : 0 ≤ x) (hx1 : x < t.cols) (hy0 : 0 ≤ y) (hy1 : y < t.rows) :
    0 ≤ y * t.cols + x ∧ (y * t.cols + x).toNat < t.cells.length := by
  obtain ⟨h0, h1, h2⟩ := h
  have ha : 0 ≤ y * t.cols := Int.mul_nonneg hy0 h0
  have hb : (y + 1) * t.cols ≤ t.rows * t.cols := Int.mul_le_mul_of_nonneg_right (by omega) h0
  have hc : (y + 1) * t.cols = y * t.cols + t.cols := by ring
  have hd : t.rows * t.cols = t.cols * t.rows := Int.mul_comm _ _
  constructor
  · omega
  · have : ((y * t.cols + x).toNat : Int) < (t.cells.length : Int) := by
      rw [Int.toNat_of_nonneg (by omega)]; omega
    exact_mod_cast this

theorem grid_index_inj (cols x y x1 y1 : Int)
    (hx0 : 0 ≤ x) (hx1 : x < cols) (hy0 : 0 ≤ y)
    (hx0' : 0 ≤ x1) (hx1' : x1 < cols) (hy0' : 0 ≤ y1)
    (h : (y * cols + x).toNat = (y1 * cols + x1).toNat) : x = x1 ∧ y = y1 := by
  have hc : 0 < cols := by omega
  have ha : 0 ≤ y * cols := Int.mul_nonneg hy0 (by omega)
  have hb : 0 ≤ y1 * cols := Int.mul_nonneg hy0' (by omega)
  have e : y * cols + x = y1 * cols + x1 := by
    have := congrArg (fun n : Nat => (n : Int)) h
    simp only at this
    rw [Int.toNat_of_nonneg (by omega), Int.toNat_of_nonneg (by omega)] at this
    exact this
  have m1 : (y * cols + x) % cols = x := by
    rw [Int.add_comm, Int.add_mul_emod_self]; exact Int.emod_eq_of_lt hx0 hx1
  have m2 : (y1 * cols + x1) % cols = x1 := by
    rw [Int.add_comm, Int.add_mul_emod_self]; exact Int.emod_eq_of_lt hx0' hx1'
  have ex : x = x1 := by rw [← m1, ← m2, e]
  refine ⟨ex, ?_⟩
  have e2 : y * cols = y1 * cols := by omega
  exact Int.eq_of_mul_eq_mul_right (by omega) e2

theorem putc_cell_self (t : TUI) (x y : Int) (ch : Char) (fg bg : Nat) (h : t.GridOk)
    (hx0 : 0 ≤ x) (hx1 : x < t.cols) (hy0 : 0 ≤ y) (hy1 : y < t.rows) :
    tui_cell (tui_putc t x y ch fg bg) x y = some { ch := ch, fg := fg, bg := bg } := by
  have hin : ¬ (x < 0 ∨ x ≥ t.cols ∨ y < 0 ∨ y ≥ t.rows) := by omega
  obtain ⟨-, hlt⟩ := grid_index_lt t x y h hx0 hx1 hy0 hy1
  simp only [tui_cell, tui_putc, if_neg hin]
  simp [hlt]

theorem putc_cell_other (t : TUI) (x y x1 y1 : Int) (ch : Char) (fg bg : Nat)
    (hne : ¬ (x1 = x ∧ y1 = y)) :
    tui_cell (tui_putc t x1 y1 ch fg bg) x y = tui_cell t x y := by
  by_cases hout : x1 < 0 ∨ x1 ≥ t.cols ∨ y1 < 0 ∨ y1 ≥ t.rows
  · simp only [tui_putc, if_pos hout]
  · by_cases hin : x < 0 ∨ x ≥ t.cols ∨ y < 0 ∨ y ≥ t.rows
    · simp only [tui_cell, tui_putc, if_neg hout, if_pos hin]
    · simp only [tui_cell, tui_putc, if_neg hout, if_neg hin]
      apply List.getElem?_set_ne
      intro e
      have := grid_index_inj t.cols x1 y1 x y (by omega) (by omega) (by omega) (by omega)
        (by omega) (by omega) e
      exact hne this

theorem replay_grid_ok (calls : List TUI_Put) :
    ∀ t : TUI, t.GridOk → (tui_replay t calls).GridOk := by
  induction calls with
  | nil => intro t h; exact h
  | cons a rest ih =>
    intro t h
    exact ih _ (putc_grid_ok t a.x a.y a.ch a.fg a.bg h)

theorem replay_dims (calls : List TUI_Put) :
    ∀ t : TUI, (tui_replay t calls).cols = t.cols ∧ (tui_replay t calls).rows = t.rows := by
  induction calls with
  | nil => intro t; exact ⟨rfl, rfl⟩
  | cons a rest ih =>
    intro t
    have h1 := ih (tui_putc t a.x a.y a.ch a.fg a.bg)
    have h2 := putc_dims t a.x a.y a.ch a.fg a.bg
    exact ⟨h1.1.trans h2.1, h1.2.trans h2.2⟩

theorem replay_cell_other (calls : List TUI_Put) (x y : Int) :
    ∀ t : TUI, (∀ c ∈ calls, ¬ (c.x = x ∧ c.y = y)) →
      tui_cell (tui_replay t calls) x y = tui_cell t x y := by
  induction calls with
  | nil => intro t _; rfl
  | cons a rest ih =>
    intro t h
    have h1 := ih (tui_putc t a.x a.y a.ch a.fg a.bg)
      (fun c hc => h c (List.mem_cons_of_mem _ hc))
    have h2 := putc_cell_other t x y a.x a.y a.ch a.fg a.bg (h a (List.mem_cons_self _ _))
    exact h1.trans h2

/-- A call of a sequence in strictly increasing row-major order is the only one at
its position, so the grid holds what it wrote. -/
theorem replay_cell_mem (calls : List TUI_Put) (p : TUI_Put) :
    ∀ t : TUI, t.GridOk → calls.Pairwise PutLt → p ∈ calls →
      0 ≤ p.x → p.x < t.cols → 0 ≤ p.y → p.y < t.rows →
      tui_cell (tui_replay t calls) p.x p.y = some { ch := p.ch, fg := p.fg, bg := p.bg } := by
  induction calls with
  | nil => intro t _ _ hp; simp at hp
  | cons a rest ih =>
    intro t hg hpw hp hx0 hx1 hy0 hy1
    rw [List.pairwise_cons] at hpw
    rcases List.mem_cons.1 hp with rfl | hp2
    · have h1 := replay_cell_other rest p.x p.y (tui_putc t p.x p.y p.ch p.fg p.bg)
        (fun c hc => by
          have := hpw.1 c hc
          simp only [PutLt] at this
          omega)
      have h2 := putc_cell_self t p.x p.y p.ch p.fg p.bg hg hx0 hx1 hy0 hy1
      exact h1.trans h2
    · have hd := putc_dims t a.x a.y a.ch a.fg a.bg
      exact ih (tui_putc t a.x a.y a.ch a.fg a.bg) (putc_grid_ok t a.x a.y a.ch a.fg a.bg hg)
        hpw.2 hp2 hx0 (by rw [hd.1]; exact hx1) hy0 (by rw [hd.2]; exact hy1)

/-! ## Table: layout -/

theorem table_width_spec (cc rc : Nat) (headers data : List (List Char)) (c : Nat) :
    strlen (headers.getD c []) ≤ table_width cc rc headers data c ∧
    (∀ r < rc, strlen (data.getD (r * cc + c) []) ≤ table_width cc rc headers data c) ∧
    (table_width cc rc headers data c = strlen (headers.getD c []) ∨
      ∃ r < rc, table_width cc rc headers data c = strlen (data.getD (r * cc + c) [])) := by
  induction rc with
  | zero =>
    refine ⟨le_refl _, fun r hr => absurd hr (Nat.not_lt_zero r), Or.inl rfl⟩
  | succ n ih =>
    obtain ⟨h1, h2, h3⟩ := ih
    have e : table_width cc (n + 1) headers data c
        = if strlen (data.getD (n * cc + c) []) > table_width cc n headers data c
          then strlen (data.getD (n * cc + c) []) else table_width cc n headers data c := by
      simp only [table_width, List.range_succ, List.foldl_append, List.foldl_cons,
        List.foldl_nil]
    rw [e]
    by_cases hgt : strlen (data.getD (n * cc + c) []) > table_width cc n headers data c
    · rw [if_pos hgt]
      refine ⟨by omega, ?_, Or.inr ⟨n, Nat.lt_succ_self n, rfl⟩⟩
      intro r hr
      rcases Nat.lt_succ_iff_lt_or_eq.1 hr with h | h
      · have := h2 r h; omega
      · rw [h]
    · rw [if_neg hgt]
      refine ⟨h1, ?_, ?_⟩
      · intro r hr
        rcases Nat.lt_succ_iff_lt_or_eq.1 hr with h | h
        · exact h2 r h
        · rw [h]; omega
      · rcases h3 with h | ⟨r, hr, h⟩
        · exact Or.inl h
        · exact Or.inr ⟨r, Nat.lt_succ_of_lt hr, h⟩

theorem tbl_border_zero (ws : List Int) : tbl_border ws 0 = 0 := by
  simp [tbl_border]

theorem tbl_border_cons (w : Int) (ws : List Int) (c : Nat) :
    tbl_border (w :: ws) (c + 1) = w + 3 + tbl_border ws c := by
  simp [tbl_border]

theorem range_map_seg (n : Nat) (f : Nat → TUI_Put) (x0 y : Int)
    (hf : ∀ i, (f i).x = x0 + (i : Int) ∧ (f i).y = y) :
    RowSeg y x0 (x0 + (n : Int)) ((List.range n).map f) := by
  constructor
  · intro q hq
    obtain ⟨i, hi, rfl⟩ := List.mem_map.1 hq
    have := List.mem_range.1 hi
    obtain ⟨h1, h2⟩ := hf i
    omega
  · rw [List.pairwise_map]
    apply List.Pairwise.imp _ (List.pairwise_lt_range n)
    intro a b hab
    have h1 := (hf a).1
    have h2 := (hf b).1
    omega

theorem seg_nil (y lo hi : Int) : RowSeg y lo hi [] :=
  ⟨fun q hq => by simp at hq, List.Pairwise.nil⟩

theorem seg_append (y lo mid hi : Int) (A B : List TUI_Put)
    (hA : RowSeg y lo mid A) (hB : RowSeg y mid hi B) (h1 : lo ≤ mid) (h2 : mid ≤ hi) :
    RowSeg y lo hi (A ++ B) := by
  constructor
  · intro q hq
    rcases List.mem_append.1 hq with h | h
    · have := hA.1 q h; omega
    · have := hB.1 q h; omega
  · rw [List.pairwise_append]
    refine ⟨hA.2, hB.2, ?_⟩
    intro a ha b hb
    have := hA.1 a ha
    have := hB.1 b hb
    omega

theorem seg_cons (y lo hi : Int) (p : TUI_Put) (B : List TUI_Put)
    (hp : p.x = lo ∧ p.y = y) (hB : RowSeg y (lo + 1) hi B) (h : lo + 1 ≤ hi) :
    RowSeg y lo hi (p :: B) := by
  constructor
  · intro q hq
    rcases List.mem_cons.1 hq with h1 | h1
    · rw [h1]; omega
    · have := hB.1 q h1; omega
  · rw [List.pairwise_cons]
    refine ⟨?_, hB.2⟩
    intro b hb
    have := hB.1 b hb
    omega

theorem seg_putlt (y lo hi : Int) (l : List TUI_Put) (h : RowSeg y lo hi l) :
    l.Pairwise PutLt := by
  have h2 := h.2
  rw [List.pairwise_iff_forall_sublist] at h2 ⊢
  intro a b hab
  have ha := h.1 a (hab.subset (by simp))
  have hb := h.1 b (hab.subset (by simp))
  exact Or.inr ⟨by omega, h2 hab⟩

theorem strlen_nonneg (s : List Char) : 0 ≤ strlen s := by
  simp [strlen]

theorem puts_seg (x y : Int) (s : List Char) (fg bg : Nat) :
    RowSeg y x (x + strlen s) (tui_puts_calls x y s fg bg) :=
  range_map_seg (cstr s).length _ x y (fun _ => ⟨rfl, rfl⟩)

theorem hline_seg (x y w : Int) (ch : Char) (fg bg : Nat) (hw : 0 ≤ w) :
    RowSeg y x (x + w) (tui_hline_calls x y w ch fg bg) := by
  have := range_map_seg w.toNat
    (fun (i : Nat) => ({ x := x + (i : Int), y := y, ch := ch, fg := fg, bg := bg } : TUI_Put))
    x y (fun _ => ⟨rfl, rfl⟩)
  rw [Int.toNat_of_nonneg hw] at this
  exact this

theorem sep_cols_seg (y : Int) (fg bg : Nat) (ws : List Int) :
    ∀ cx : Int, (∀ w ∈ ws, 0 ≤ w) →
      RowSeg y cx (cx + tbl_border ws ws.length) (tbl_sep_cols y fg bg cx ws) ∧
      0 ≤ tbl_border ws ws.length := by
  induction ws with
  | nil => intro cx _; exact ⟨seg_nil _ _ _, by simp [tbl_border]⟩
  | cons w ws ih =>
    intro cx hw
    have hw0 : 0 ≤ w := hw w (List.mem_cons_self _ _)
    obtain ⟨ih1, ih2⟩ := ih (cx + (w + 2) + 1) (fun v hv => hw v (List.mem_cons_of_mem _ hv))
    rw [List.length_cons, tbl_border_cons]
    refine ⟨?_, by omega⟩
    unfold tbl_sep_cols
    apply seg_append y cx (cx + (w + 2)) _ _ _ (hline_seg cx y (w + 2) '-' fg bg (by omega))
    · apply seg_cons y (cx + (w + 2)) _ _ _ ⟨rfl, rfl⟩
      · have e : cx + (w + 3 + tbl_border ws ws.length)
            = cx + (w + 2) + 1 + tbl_border ws ws.length := by omega
        rw [e]; exact ih1
      · omega
    · omega
    · omega

theorem row_cols_seg (y : Int) (fg bg bfg : Nat) (ws : List Int) :
    ∀ (cx : Int) (cells : List (List Char)),
      (∀ c < ws.length, strlen (cells.getD c []) ≤ ws.getD c 0) →
      RowSeg y cx (cx + tbl_border ws ws.length) (tbl_row_cols y fg bg bfg cx ws cells) ∧
      0 ≤ tbl_border ws ws.length := by
  induction ws with
  | nil => intro cx cells _; exact ⟨by unfold tbl_row_cols; exact seg_nil _ _ _, by simp [tbl_border]⟩
  | cons w ws ih =>
    intro cx cells hfit
    have hs0 := hfit 0 (by simp)
    have hw0 : 0 ≤ w := by
      have := strlen_nonneg (cells.getD 0 [])
      simp only [List.getD_cons_zero] at hs0
      omega
    cases cells with
    | nil =>
      have ih2 := (ih cx [] (fun c hc => by
        have := hfit (c + 1) (by simpa using hc)
        simpa using this)).2
      rw [List.length_cons, tbl_border_cons]
      refine ⟨?_, by omega⟩
      unfold tbl_row_cols
      exact seg_nil _ _ _
    | cons s cells =>
      obtain ⟨ih1, ih2⟩ := ih (cx + 1 + w + 1 + 1) cells (fun c hc => by
        have := hfit (c + 1) (by simpa using hc)
        simpa using this)
      have hs : strlen s ≤ w := by simpa using hs0
      have hsn := strlen_nonneg s
      rw [List.length_cons, tbl_border_cons]
      refine ⟨?_, by omega⟩
      unfold tbl_row_cols
      apply seg_cons y cx _ _ _ ⟨rfl, rfl⟩ _ (by omega)
      rw [List.append_assoc]
      apply seg_append y (cx + 1) (cx + 1 + strlen s) _ _ _ (puts_seg (cx + 1) y s fg bg) _
        (by omega) (by omega)
      have hpad := range_map_seg (w - strlen s).toNat
        (fun (k : Nat) => ({ x := cx + 1 + (strlen s + (k : Int)), y := y, ch := ' ',
                             fg := fg, bg := bg } : TUI_Put))
        (cx + 1 + strlen s) y (fun i => ⟨by simp only; omega, rfl⟩)
      rw [Int.toNat_of_nonneg (by omega)] at hpad
      apply seg_append y (cx + 1 + strlen s) (cx + 1 + w) _ _ _ ?_ _ (by omega) (by omega)
      · have e : cx + 1 + strlen s + (w - strlen s) = cx + 1 + w := by omega
        rw [e] at hpad; exact hpad
      · apply seg_cons y (cx + 1 + w) _ _ _ ⟨rfl, rfl⟩ _ (by omega)
        apply seg_cons y (cx + 1 + w + 1) _ _ _ ⟨rfl, rfl⟩ _ (by omega)
        have e : cx + (w + 3 + tbl_border ws ws.length)
            = cx + 1 + w + 1 + 1 + tbl_border ws ws.length := by omega
        rw [e]; exact ih1

theorem sep_border_mem (y : Int) (fg bg : Nat) (ws : List Int) :
    ∀ (cx : Int) (c : Nat), c < ws.length →
      ({ x := cx + tbl_border ws (c + 1) - 1, y := y, ch := '+', fg := fg, bg := bg }
        : TUI_Put) ∈ tbl_sep_cols y fg bg cx ws := by
  induction ws with
  | nil => intro cx c hc; simp at hc
  | cons w ws ih =>
    intro cx c hc
    unfold tbl_sep_cols
    apply List.mem_append_right
    cases c with
    | zero =>
      have e : cx + tbl_border (w :: ws) (0 + 1) - 1 = cx + (w + 2) := by
        rw [tbl_border_cons, tbl_border_zero]; omega
      rw [e]; exact List.mem_cons_self _ _
    | succ c =>
      have ih2 := ih (cx + (w + 2) + 1) c (by simpa using hc)
      have e : cx + tbl_border (w :: ws) (c + 1 + 1) - 1
          = cx + (w + 2) + 1 + tbl_border ws (c + 1) - 1 := by
        rw [tbl_border_cons]; omega
      rw [e]; exact List.mem_cons_of_mem _ ih2

theorem row_border_mem (y : Int) (fg bg bfg : Nat) (ws : List Int) :
    ∀ (cx : Int) (cells : List (List Char)) (c : Nat), c < ws.length →
      ws.length ≤ cells.length →
      ({ x := cx + tbl_border ws (c + 1) - 1, y := y, ch := '|', fg := bfg, bg := bg }
        : TUI_Put) ∈ tbl_row_cols y fg bg bfg cx ws cells := by
  induction ws with
  | nil => intro cx cells c hc; simp at hc
  | cons w ws ih =>
    intro cx cells c hc hlen
    cases cells with
    | nil => simp at hlen
    | cons s cells =>
      unfold tbl_row_cols
      apply List.mem_cons_of_mem
      apply List.mem_append_right
      apply List.mem_cons_of_mem
      cases c with
      | zero =>
        have e : cx + tbl_border (w :: ws) (0 + 1) - 1 = cx + 1 + w + 1 := by
          rw [tbl_border_cons, tbl_border_zero]; omega
        rw [e]; exact List.mem_cons_self _ _
      | succ c =>
        have ih2 := ih (cx + 1 + w + 1 + 1) cells c (by simpa using hc) (by simpa using hlen)
        have e : cx + tbl_border (w :: ws) (c + 1 + 1) - 1
            = cx + 1 + w + 1 + 1 + tbl_border ws (c + 1) - 1 := by
          rw [tbl_border_cons]; omega
        rw [e]; exact List.mem_cons_of_mem _ ih2

theorem row_text_mem (y : Int) (fg bg bfg : Nat) (ws : List Int) :
    ∀ (cx : Int) (cells : List (List Char)) (c i : Nat), c < ws.length →
      ws.length ≤ cells.length → i < (cstr (cells.getD c [])).length →
      ({ x := cx + tbl_border ws c + 1 + (i : Int), y := y,
         ch := (cells.getD c []).getD i NUL, fg := fg, bg := bg }
        : TUI_Put) ∈ tbl_row_cols y fg bg bfg cx ws cells := by
  induction ws with
  | nil => intro cx cells c i hc; simp at hc
  | cons w ws ih =>
    intro cx cells c i hc hlen hi
    cases cells with
    | nil => simp at hlen
    | cons s cells =>
      unfold tbl_row_cols
      apply List.mem_cons_of_mem
      cases c with
      | zero =>
        apply List.mem_append_left
        apply List.mem_append_left
        have e : cx + tbl_border (w :: ws) 0 + 1 + (i : Int) = cx + 1 + (i : Int) := by
          rw [tbl_border_zero]; omega
        rw [e]
        simp only [List.getD_cons_zero] at hi ⊢
        exact List.mem_map.2 ⟨i, List.mem_range.2 hi, rfl⟩
      | succ c =>
        apply List.mem_append_right
        apply List.mem_cons_of_mem
        apply List.mem_cons_of_mem
        simp only [List.getD_cons_succ] at hi ⊢
        have ih2 := ih (cx + 1 + w + 1 + 1) cells c i (by simpa using hc) (by simpa using hlen) hi
        have e : cx + tbl_border (w :: ws) (c + 1) + 1 + (i : Int)
            = cx + 1 + w + 1 + 1 + tbl_border ws c + 1 + (i : Int) := by
          rw [tbl_border_cons]; omega
        rw [e]; exact ih2

theorem tbl_sep_seg (x y : Int) (ws : List Int) (fg bg : Nat) (hw : ∀ w ∈ ws, 0 ≤ w) :
    RowSeg y x (x + 1 + tbl_border ws ws.length) (tbl_sep x y ws fg bg) := by
  obtain ⟨h1, h2⟩ := sep_cols_seg y fg bg ws (x + 1) hw
  exact seg_cons y x _ _ _ ⟨rfl, rfl⟩ h1 (by omega)

theorem tbl_row_seg (x y : Int) (ws : List Int) (cells : List (List Char)) (fg bg bfg : Nat)
    (hfit : ∀ c < ws.length, strlen (cells.getD c []) ≤ ws.getD c 0) :
    RowSeg y x (x + 1 + tbl_border ws ws.length) (tbl_row x y ws cells fg bg bfg) := by
  obtain ⟨h1, h2⟩ := row_cols_seg y fg bg bfg ws (x + 1) cells hfit
  exact seg_cons y x _ _ _ ⟨rfl, rfl⟩ h1 (by omega)

theorem band_of_seg (y lo hi : Int) (l : List TUI_Put) (h : RowSeg y lo hi l) :
    RowBand y (y + 1) l :=
  ⟨fun q hq => by have := h.1 q hq; omega, seg_putlt y lo hi l h⟩

theorem band_append (lo mid hi : Int) (A B : List TUI_Put)
    (hA : RowBand lo mid A) (hB : RowBand mid hi B) (h1 : lo ≤ mid) (h2 : mid ≤ hi) :
    RowBand lo hi (A ++ B) := by
  constructor
  · intro q hq
    rcases List.mem_append.1 hq with h | h
    · have := hA.1 q h; omega
    · have := hB.1 q h; omega
  · rw [List.pairwise_append]
    refine ⟨hA.2, hB.2, ?_⟩
    intro a ha b hb
    have := hA.1 a ha
    have := hB.1 b hb
    exact Or.inl (by omega)

theorem band_rows (f : Nat → List TUI_Put) (y0 : Int) (lo hi : Nat → Int) :
    ∀ n : Nat, (∀ r < n, RowSeg (y0 + (r : Int)) (lo r) (hi r) (f r)) →
      RowBand y0 (y0 + (n : Int)) ((List.range n).map f).flatten := by
  intro n
  induction n with
  | zero =>
    intro _
    exact ⟨fun q hq => by simp at hq, by simp⟩
  | succ n ih =>
    intro h
    have h1 := ih (fun r hr => h r (Nat.lt_succ_of_lt hr))
    have h2 := band_of_seg _ _ _ _ (h n (Nat.lt_succ_self n))
    rw [List.range_succ, List.map_append, List.flatten_append]
    simp only [List.map_cons, List.map_nil, List.flatten_cons, List.flatten_nil,
      List.append_nil]
    have e : y0 + ((n + 1 : Nat) : Int) = y0 + (n : Int) + 1 := by push_cast; omega
    rw [e]
    exact band_append y0 (y0 + (n : Int)) _ _ _ h1 h2 (by omega) (by omega)

theorem getD_drop_str (data : List (List Char)) (k c : Nat) :
    (data.drop k).getD c [] = data.getD (k + c) [] := by
  simp [List.getD_eq_getElem?_getD, List.getElem?_drop]

theorem widths_getD (cc rc : Nat) (headers data : List (List Char)) (c : Nat) (hc : c < cc) :
    ((List.range cc).map (table_width cc rc headers data)).getD c 0
      = table_width cc rc headers data c := by
  simp [List.getD_eq_getElem?_getD, List.getElem?_map, List.getElem?_range hc]

theorem table_cap (cc : Nat) (h : cc ≤ TUI_TABLE_MAX_COLS) :
    (if (cc : Int) < (TUI_TABLE_MAX_COLS : Int) then (cc : Int)
      else (TUI_TABLE_MAX_COLS : Int)).toNat = cc := by
  simp only [TUI_TABLE_MAX_COLS] at *
  split_ifs with h1
  · simp
  · have : cc = 16 := by omega
    rw [this]; rfl

/-- The calls of `tui_draw_table` on a table of at most 16 columns without explicit
widths. -/
theorem draw_table_calls_eq (x y : Int) (cc rc : Nat) (headers data : List (List Char))
    (fg bg hfg hbg : Nat) (hcc : cc ≤ TUI_TABLE_MAX_COLS) (hh : cc ≤ headers.length)
    (hd : rc * cc ≤ data.length) :
    tui_draw_table_calls x y cc rc headers data none fg bg hfg hbg
      = some
        (tbl_sep x y ((List.range cc).map (table_width cc rc headers data)) fg bg
          ++ tbl_row x (y + 1) ((List.range cc).map (table_width cc rc headers data))
              headers hfg hbg fg
          ++ tbl_sep x (y + 2) ((List.range cc).map (table_width cc rc headers data)) fg bg
          ++ ((List.range rc).map (fun (r : Nat) =>
                tbl_row x (y + 3 + (r : Int))
                  ((List.range cc).map (table_width cc rc headers data))
                  (data.drop (r * cc)) fg bg fg)).flatten
          ++ tbl_sep x (y + 3 + (rc : Int))
              ((List.range cc).map (table_width cc rc headers data)) fg bg,
         4 + (rc : Int)) := by
  unfold tui_draw_table_calls
  simp only [table_cap cc hcc, Int.toNat_ofNat]
  rw [if_pos ⟨hh, hd, fun cw h => by simp at h⟩]

/-- The grid after `tui_draw_table` on a table without explicit widths, read with the
clamped column count `cc` as the number of columns and as the row stride. -/
theorem draw_table_cells (t : TUI) (x y : Int) (cc rc : Nat)
    (headers data : List (List Char)) (fg bg hfg hbg : Nat) (hg : t.GridOk)
    (hcc : cc ≤ TUI_TABLE_MAX_COLS) (hh : cc ≤ headers.length) (hd : rc * cc ≤ data.length) :
    ∃ (W : List Int) (t1 : TUI),
      tui_draw_table t x y cc rc headers data none fg bg hfg hbg = some (t1, 4 + (rc : Int)) ∧
      W.length = cc ∧
      (∀ c < cc,
        strlen (headers.getD c []) ≤ W.getD c 0 ∧
        (∀ r < rc, strlen (data.getD (r * cc + c) []) ≤ W.getD c 0) ∧
        (W.getD c 0 = strlen (headers.getD c []) ∨
          ∃ r < rc, W.getD c 0 = strlen (data.getD (r * cc + c) []))) ∧
      (∀ c < cc, ∀ k : Nat, k ≤ rc + 3 →
        0 ≤ x + tbl_border W (c + 1) → x + tbl_border W (c + 1) < t.cols →
        0 ≤ y + (k : Int) → y + (k : Int) < t.rows →
        (tui_cell t1 (x + tbl_border W (c + 1)) (y + (k : Int))).map (fun cell => cell.ch)
          = some (if k = 0 ∨ k = 2 ∨ k = rc + 3 then '+' else '|')) ∧
      (∀ c < cc, ∀ i : Nat, (i : Int) < strlen (headers.getD c []) →
        0 ≤ x + tbl_border W c + 2 + (i : Int) → x + tbl_border W c + 2 + (i : Int) < t.cols →
        0 ≤ y + 1 → y + 1 < t.rows →
        tui_cell t1 (x + tbl_border W c + 2 + (i : Int)) (y + 1)
          = some { ch := (headers.getD c []).getD i NUL, fg := hfg, bg := hbg }) ∧
      (∀ c < cc, ∀ r < rc, ∀ i : Nat, (i : Int) < strlen (data.getD (r * cc + c) []) →
        0 ≤ x + tbl_border W c + 2 + (i : Int) → x + tbl_border W c + 2 + (i : Int) < t.cols →
        0 ≤ y + 3 + (r : Int) → y + 3 + (r : Int) < t.rows →
        tui_cell t1 (x + tbl_border W c + 2 + (i : Int)) (y + 3 + (r : Int))
          = some { ch := (data.getD (r * cc + c) []).getD i NUL, fg := fg, bg := bg }) := by
  have hcalls := draw_table_calls_eq x y cc rc headers data fg bg hfg hbg hcc
    hh hd
  obtain ⟨W, hW⟩ : ∃ W, W = (List.range cc).map (table_width cc rc headers data) := ⟨_, rfl⟩
  rw [← hW] at hcalls
  have hWlen : W.length = cc := by rw [hW]; simp
  have hWget : ∀ c < cc, W.getD c 0 = table_width cc rc headers data c := by
    intro c hc; rw [hW]; exact widths_getD cc rc headers data c hc
  have hW0 : ∀ w ∈ W, 0 ≤ w := by
    intro w hw
    rw [hW] at hw
    obtain ⟨c, -, rfl⟩ := List.mem_map.1 hw
    have h1 := (table_width_spec cc rc headers data c).1
    have h2 := strlen_nonneg (headers.getD c [])
    omega
  have hfitH : ∀ c < W.length, strlen (headers.getD c []) ≤ W.getD c 0 := by
    intro c hc
    rw [hWlen] at hc
    rw [hWget c hc]
    exact (table_width_spec cc rc headers data c).1
  have hfitD : ∀ r < rc, ∀ c < W.length,
      strlen ((data.drop (r * cc)).getD c []) ≤ W.getD c 0 := by
    intro r hr c hc
    rw [hWlen] at hc
    rw [hWget c hc, getD_drop_str]
    exact (table_width_spec cc rc headers data c).2.1 r hr
  have hlenD : ∀ r < rc, W.length ≤ (data.drop (r * cc)).length := by
    intro r hr
    rw [hWlen, List.length_drop]
    have := Nat.mul_le_mul_right cc (Nat.succ_le_of_lt hr)
    rw [Nat.succ_mul] at this
    omega
  -- the five parts of the call sequence
  obtain ⟨S0, hS0⟩ : ∃ l, l = tbl_sep x y W fg bg := ⟨_, rfl⟩
  obtain ⟨H, hH⟩ : ∃ l, l = tbl_row x (y + 1) W headers hfg hbg fg := ⟨_, rfl⟩
  obtain ⟨S2, hS2⟩ : ∃ l, l = tbl_sep x (y + 2) W fg bg := ⟨_, rfl⟩
  obtain ⟨Rows, hRows⟩ : ∃ l, l = ((List.range rc).map (fun (r : Nat) =>
      tbl_row x (y + 3 + (r : Int)) W (data.drop (r * cc)) fg bg fg)).flatten := ⟨_, rfl⟩
  obtain ⟨SL, hSL⟩ : ∃ l, l = tbl_sep x (y + 3 + (rc : Int)) W fg bg := ⟨_, rfl⟩
  rw [← hS0, ← hH, ← hS2, ← hRows, ← hSL] at hcalls
  have bS0 : RowBand y (y + 1) S0 := by
    rw [hS0]; exact band_of_seg _ _ _ _ (tbl_sep_seg x y W fg bg hW0)
  have bH : RowBand (y + 1) (y + 2) H := by
    have := band_of_seg _ _ _ _ (tbl_row_seg x (y + 1) W headers hfg hbg fg hfitH)
    have e : y + 1 + 1 = y + 2 := by omega
    rw [e] at this; rw [hH]; exact this
  have bS2 : RowBand (y + 2) (y + 3) S2 := by
    have := band_of_seg _ _ _ _ (tbl_sep_seg x (y + 2) W fg bg hW0)
    have e : y + 2 + 1 = y + 3 := by omega
    rw [e] at this; rw [hS2]; exact this
  have bRows : RowBand (y + 3) (y + 3 + (rc : Int)) Rows := by
    rw [hRows]
    exact band_rows _ (y + 3) (fun _ => x) (fun _ => x + 1 + tbl_border W W.length) rc
      (fun r hr => tbl_row_seg x (y + 3 + (r : Int)) W (data.drop (r * cc)) fg bg fg
        (hfitD r hr))
  have bSL : RowBand (y + 3 + (rc : Int)) (y + 3 + (rc : Int) + 1) SL := by
    rw [hSL]; exact band_of_seg _ _ _ _ (tbl_sep_seg x (y + 3 + (rc : Int)) W fg bg hW0)
  have b1 := band_append y (y + 1) (y + 2) S0 H bS0 bH (by omega) (by omega)
  have b2 := band_append y (y + 2) (y + 3) _ S2 b1 bS2 (by omega) (by omega)
  have b3 := band_append y (y + 3) (y + 3 + (rc : Int)) _ Rows b2 bRows (by omega) (by omega)
  have b4 := band_append y (y + 3 + (rc : Int)) (y + 3 + (rc : Int) + 1) _ SL b3 bSL
    (by omega) (by omega)
  have key : ∀ p : TUI_Put, p ∈ S0 ++ H ++ S2 ++ Rows ++ SL →
      0 ≤ p.x → p.x < t.cols → 0 ≤ p.y → p.y < t.rows →
      tui_cell (tui_replay t (S0 ++ H ++ S2 ++ Rows ++ SL)) p.x p.y
        = some { ch := p.ch, fg := p.fg, bg := p.bg } :=
    fun p hp => replay_cell_mem _ p t hg b4.2 hp
  have mS0 : ∀ q, q ∈ S0 → q ∈ S0 ++ H ++ S2 ++ Rows ++ SL := fun q hq => by simp [hq]
  have mH : ∀ q, q ∈ H → q ∈ S0 ++ H ++ S2 ++ Rows ++ SL := fun q hq => by simp [hq]
  have mS2 : ∀ q, q ∈ S2 → q ∈ S0 ++ H ++ S2 ++ Rows ++ SL := fun q hq => by simp [hq]
  have mRows : ∀ q, q ∈ Rows → q ∈ S0 ++ H ++ S2 ++ Rows ++ SL := fun q hq => by simp [hq]
  have mSL : ∀ q, q ∈ SL → q ∈ S0 ++ H ++ S2 ++ Rows ++ SL := fun q hq => by simp [hq]
  have mRow : ∀ r < rc, ∀ q, q ∈ tbl_row x (y + 3 + (r : Int)) W (data.drop (r * cc)) fg bg fg →
      q ∈ Rows := by
    intro r hr q hq
    rw [hRows]
    exact List.mem_flatten.2 ⟨_, List.mem_map.2 ⟨r, List.mem_range.2 hr, rfl⟩, hq⟩
  refine ⟨W, tui_replay t (S0 ++ H ++ S2 ++ Rows ++ SL), ?_, hWlen, ?_, ?_, ?_, ?_⟩
  · simp only [tui_draw_table, hcalls, Option.map_some']
  · intro c hc
    rw [hWget c hc]
    exact table_width_spec cc rc headers data c
  · intro c hc k hk hx0 hx1 hy0 hy1
    have hcW : c < W.length := by rw [hWlen]; exact hc
    have e : x + 1 + tbl_border W (c + 1) - 1 = x + tbl_border W (c + 1) := by omega
    have hmem : ∃ f b,
        TUI_Put.mk (x + tbl_border W (c + 1)) (y + (k : Int))
          (if k = 0 ∨ k = 2 ∨ k = rc + 3 then '+' else '|') f b
        ∈ S0 ++ H ++ S2 ++ Rows ++ SL := by
      by_cases h0 : k = 0
      · subst h0
        refine ⟨fg, bg, mS0 _ ?_⟩
        have m := sep_border_mem y fg bg W (x + 1) c hcW
        rw [e] at m
        rw [if_pos (Or.inl rfl), hS0]
        have ey : y + ((0 : Nat) : Int) = y := by simp
        rw [ey]
        exact List.mem_cons_of_mem _ m
      by_cases h2 : k = 2
      · subst h2
        refine ⟨fg, bg, mS2 _ ?_⟩
        have m := sep_border_mem (y + 2) fg bg W (x + 1) c hcW
        rw [e] at m
        rw [if_pos (Or.inr (Or.inl rfl)), hS2]
        exact List.mem_cons_of_mem _ m
      by_cases h3 : k = rc + 3
      · subst h3
        refine ⟨fg, bg, mSL _ ?_⟩
        have m := sep_border_mem (y + 3 + (rc : Int)) fg bg W (x + 1) c hcW
        rw [e] at m
        rw [if_pos (Or.inr (Or.inr rfl)), hSL]
        have ey : y + ((rc + 3 : Nat) : Int) = y + 3 + (rc : Int) := by push_cast; omega
        rw [ey]
        exact List.mem_cons_of_mem _ m
      have hif : ¬ (k = 0 ∨ k = 2 ∨ k = rc + 3) := by omega
      rw [if_neg hif]
      by_cases h1 : k = 1
      · subst h1
        refine ⟨fg, hbg, mH _ ?_⟩
        have m := row_border_mem (y + 1) hfg hbg fg W (x + 1) headers c hcW
          (by rw [hWlen]; exact hh)
        rw [e] at m
        rw [hH]
        exact List.mem_cons_of_mem _ m
      · have hr : k - 3 < rc := by omega
        refine ⟨fg, bg, mRows _ (mRow (k - 3) hr _ ?_)⟩
        have m := row_border_mem (y + 3 + ((k - 3 : Nat) : Int)) fg bg fg W (x + 1)
          (data.drop ((k - 3) * cc)) c hcW (hlenD (k - 3) hr)
        rw [e] at m
        have ey : y + (k : Int) = y + 3 + ((k - 3 : Nat) : Int) := by omega
        rw [ey]
        exact List.mem_cons_of_mem _ m
    obtain ⟨f, b, hm⟩ := hmem
    have := key _ hm hx0 hx1 hy0 hy1
    simp only at this
    rw [this]
    rfl
  · intro c hc i hi hx0 hx1 hy0 hy1
    have hcW : c < W.length := by rw [hWlen]; exact hc
    have hi2 : i < (cstr (headers.getD c [])).length := by
      simp only [strlen] at hi; exact_mod_cast hi
    have m := row_text_mem (y + 1) hfg hbg fg W (x + 1) headers c i hcW
      (by rw [hWlen]; exact hh) hi2
    have e : x + 1 + tbl_border W c + 1 + (i : Int) = x + tbl_border W c + 2 + (i : Int) := by
      omega
    rw [e] at m
    have := key _ (mH _ (by rw [hH]; exact List.mem_cons_of_mem _ m)) hx0 hx1 hy0 hy1
    simpa using this
  · intro c hc r hr i hi hx0 hx1 hy0 hy1
    have hcW : c < W.length := by rw [hWlen]; exact hc
    have hi2 : i < (cstr ((data.drop (r * cc)).getD c [])).length := by
      rw [getD_drop_str]
      simp only [strlen] at hi; exact_mod_cast hi
    have m := row_text_mem (y + 3 + (r : Int)) fg bg fg W (x + 1) (data.drop (r * cc)) c i hcW
      (hlenD r hr) hi2
    have e : x + 1 + tbl_border W c + 1 + (i : Int) = x + tbl_border W c + 2 + (i : Int) := by
      omega
    rw [e, getD_drop_str] at m
    have := key _ (mRows _ (mRow r hr _ (List.mem_cons_of_mem _ m))) hx0 hx1 hy0 hy1
    simpa using this

/-- C19: on a table of `cc ≤ 16` columns and `rc` rows without explicit widths,
`tui_draw_table` returns `4 + rc` and lays the table out with the widths `W`, where
`W[c]` is the greatest of the header length and the cell lengths of column `c`: on
each of the `rc + 4` table rows the cell at column `x + Σ_{j ≤ c} (W[j] + 3)` holds
the border after column `c` (`+` on the three separator rows, `|` on the others), and
the text of every header and data cell is no longer than `W[c]` and stands from
column `x + Σ_{j < c} (W[j] + 3) + 2` on, in its row. Cells are read from the grid
after the draw, at the positions that lie inside it. -/
theorem tui_draw_table_layout (t : TUI) (x y : Int) (cc rc : Nat)
    (headers data : List (List Char)) (fg bg hfg hbg : Nat) (hg : t.GridOk)
    (hcc : cc ≤ TUI_TABLE_MAX_COLS) (hh : headers.length = cc) (hd : data.length = rc * cc) :
    ∃ (W : List Int) (t1 : TUI),
      tui_draw_table t x y cc rc headers data none fg bg hfg hbg = some (t1, 4 + (rc : Int)) ∧
      W.length = cc ∧
      (∀ c < cc,
        strlen (headers.getD c []) ≤ W.getD c 0 ∧
        (∀ r < rc, strlen (data.getD (r * cc + c) []) ≤ W.getD c 0) ∧
        (W.getD c 0 = strlen (headers.getD c []) ∨
          ∃ r < rc, W.getD c 0 = strlen (data.getD (r * cc + c) []))) ∧
      (∀ c < cc, ∀ k : Nat, k ≤ rc + 3 →
        0 ≤ x + tbl_border W (c + 1) → x + tbl_border W (c + 1) < t.cols →
        0 ≤ y + (k : Int) → y + (k : Int) < t.rows →
        (tui_cell t1 (x + tbl_border W (c + 1)) (y + (k : Int))).map (fun cell => cell.ch)
          = some (if k = 0 ∨ k = 2 ∨ k = rc + 3 then '+' else '|')) ∧
      (∀ c < cc, ∀ i : Nat, (i : Int) < strlen (headers.getD c []) →
        0 ≤ x + tbl_border W c + 2 + (i : Int) → x + tbl_border W c + 2 + (i : Int) < t.cols →
        0 ≤ y + 1 → y + 1 < t.rows →
        tui_cell t1 (x + tbl_border W c + 2 + (i : Int)) (y + 1)
          = some { ch := (headers.getD c []).getD i NUL, fg := hfg, bg := hbg }) ∧
      (∀ c < cc, ∀ r < rc, ∀ i : Nat, (i : Int) < strlen (data.getD (r * cc + c) []) →
        0 ≤ x + tbl_border W c + 2 + (i : Int) → x + tbl_border W c + 2 + (i : Int) < t.cols →
        0 ≤ y + 3 + (r : Int) → y + 3 + (r : Int) < t.rows →
        tui_cell t1 (x + tbl_border W c + 2 + (i : Int)) (y + 3 + (r : Int))
          = some { ch := (data.getD (r * cc + c) []).getD i NUL, fg := fg, bg := bg }) :=
  draw_table_cells t x y cc rc headers data fg bg hfg hbg hg hcc (le_of_eq hh.symm)
    (le_of_eq hd.symm)

set_option maxRecDepth 8000 in
theorem tui_draw_table_layout_witness :
    tui_sample.GridOk ∧ 2 ≤ TUI_TABLE_MAX_COLS ∧ table_headers_sample.length = 2 ∧
    table_data_sample.length = 1 * 2 ∧
    ∃ (W : List Int) (t1 : TUI),
      tui_draw_table tui_sample 1 0 ((2 : Nat) : Int) ((1 : Nat) : Int) table_headers_sample
        table_data_sample none 7 0 3 0 = some (t1, 4 + ((1 : Nat) : Int)) ∧
      W.length = 2 ∧
      (∀ c < 2,
        strlen (table_headers_sample.getD c []) ≤ W.getD c 0 ∧
        (∀ r < 1, strlen (table_data_sample.getD (r * 2 + c) []) ≤ W.getD c 0) ∧
        (W.getD c 0 = strlen (table_headers_sample.getD c []) ∨
          ∃ r < 1, W.getD c 0 = strlen (table_data_sample.getD (r * 2 + c) []))) ∧
      (∀ c < 2, ∀ k : Nat, k ≤ 1 + 3 →
        0 ≤ 1 + tbl_border W (c + 1) → 1 + tbl_border W (c + 1) < tui_sample.cols →
        0 ≤ 0 + (k : Int) → 0 + (k : Int) < tui_sample.rows →
        (tui_cell t1 (1 + tbl_border W (c + 1)) (0 + (k : Int))).map (fun cell => cell.ch)
          = some (if k = 0 ∨ k = 2 ∨ k = 1 + 3 then '+' else '|')) ∧
      (∀ c < 2, ∀ i : Nat, (i : Int) < strlen (table_headers_sample.getD c []) →
        0 ≤ 1 + tbl_border W c + 2 + (i : Int) →
        1 + tbl_border W c + 2 + (i : Int) < tui_sample.cols →
        0 ≤ (0 : Int) + 1 → (0 : Int) + 1 < tui_sample.rows →
        tui_cell t1 (1 + tbl_border W c + 2 + (i : Int)) (0 + 1)
          = some { ch := (table_headers_sample.getD c []).getD i NUL, fg := 3, bg := 0 }) ∧
      (∀ c < 2, ∀ r < 1, ∀ i : Nat,
        (i : Int) < strlen (table_data_sample.getD (r * 2 + c) []) →
        0 ≤ 1 + tbl_border W c + 2 + (i : Int) →
        1 + tbl_border W c + 2 + (i : Int) < tui_sample.cols →
        0 ≤ (0 : Int) + 3 + (r : Int) → (0 : Int) + 3 + (r : Int) < tui_sample.rows →
        tui_cell t1 (1 + tbl_border W c + 2 + (i : Int)) (0 + 3 + (r : Int))
          = some { ch := (table_data_sample.getD (r * 2 + c) []).getD i NUL,
                   fg := 7, bg := 0 }) :=
  ⟨by decide, by decide, by decide, by decide,
   tui_draw_table_layout tui_sample 1 0 2 1 table_headers_sample table_data_sample 7 0 3 0
     (by decide) (by decide) (by decide) (by decide)⟩


/-- With 16 columns or more, `tui_draw_table` makes the calls it makes for exactly 16
columns on the same arrays: the column count enters only through the clamped `cc`,
which is also the row stride of the reads of `data`. -/
theorem draw_table_calls_cap (x y col_count row_count : Int) (headers data : List (List Char))
    (col_widths : Option (List Int)) (fg bg hdr_fg hdr_bg : Nat)
    (h : (TUI_TABLE_MAX_COLS : Int) ≤ col_count) :
    tui_draw_table_calls x y col_count row_count headers data col_widths fg bg hdr_fg hdr_bg
      = tui_draw_table_calls x y (TUI_TABLE_MAX_COLS : Int) row_count headers data col_widths
          fg bg hdr_fg hdr_bg := by
  have e1 : (if col_count < (TUI_TABLE_MAX_COLS : Int) then col_count
      else (TUI_TABLE_MAX_COLS : Int)) = (TUI_TABLE_MAX_COLS : Int) := if_neg (by omega)
  have e2 : (if (TUI_TABLE_MAX_COLS : Int) < (TUI_TABLE_MAX_COLS : Int)
      then (TUI_TABLE_MAX_COLS : Int) else (TUI_TABLE_MAX_COLS : Int))
      = (TUI_TABLE_MAX_COLS : Int) := if_neg (by omega)
  unfold tui_draw_table_calls
  simp only [e1, e2]

set_option maxRecDepth 8000 in
/-- C20 at a table of 17 columns and 2 rows: the second data row is read from
`data + 16`, so its first cell shows `q`, the 17th cell of the first row, where the
table made of the first 16 columns shows `A`. -/
theorem tui_draw_table_excess_columns_shift :
    (tui_draw_table table_grid_sample 0 0 17 2 table17_headers table17_data
        none 7 0 3 0).map (fun r => tui_cell r.1 2 4)
      = some (some { ch := 'q', fg := 7, bg := 0 }) ∧
    (tui_draw_table table_grid_sample 0 0 16 2 (table17_headers.take 16)
        (table_first_cols 16 17 2 table17_data) none 7 0 3 0).map (fun r => tui_cell r.1 2 4)
      = some (some { ch := 'A', fg := 7, bg := 0 }) := by
  have hg : table_grid_sample.GridOk := by decide
  constructor
  · have hcap : tui_draw_table table_grid_sample 0 0 17 2 table17_headers table17_data
        none 7 0 3 0
        = tui_draw_table table_grid_sample 0 0 ((16 : Nat) : Int) ((2 : Nat) : Int)
            table17_headers table17_data none 7 0 3 0 := by
      unfold tui_draw_table
      rw [draw_table_calls_cap 0 0 17 2 table17_headers table17_data none 7 0 3 0 (by decide)]
      rfl
    obtain ⟨W, t1, h1, -, -, -, -, hdata⟩ := draw_table_cells table_grid_sample 0 0 16 2
      table17_headers table17_data 7 0 3 0 hg (by decide) (by decide) (by decide)
    have hx : (0 : Int) + tbl_border W 0 + 2 + ((0 : Nat) : Int) = 2 := by
      rw [tbl_border_zero]; rfl
    have hc := hdata 0 (by decide) 1 (by decide) 0 (by decide)
      (by rw [hx]; decide) (by rw [hx]; decide) (by decide) (by decide)
    rw [hx] at hc
    rw [hcap, h1]
    exact congrArg some hc
  · obtain ⟨W, t1, h1, -, -, -, -, hdata⟩ := draw_table_cells table_grid_sample 0 0 16 2
      (table17_headers.take 16) (table_first_cols 16 17 2 table17_data) 7 0 3 0 hg
      (by decide) (by decide) (by decide)
    have hx : (0 : Int) + tbl_border W 0 + 2 + ((0 : Nat) : Int) = 2 := by
      rw [tbl_border_zero]; rfl
    have hc := hdata 0 (by decide) 1 (by decide) 0 (by decide)
      (by rw [hx]; decide) (by rw [hx]; decide) (by decide) (by decide)
    rw [hx] at hc
    have h2 : tui_draw_table table_grid_sample 0 0 16 2 (table17_headers.take 16)
        (table_first_cols 16 17 2 table17_data) none 7 0 3 0 = some (t1, 4 + ((2 : Nat) : Int)) :=
      h1
    rw [h2]
    exact congrArg some hc

/-! ## Text input: redraw and undo -/

theorem backspaces_undo (l1 l2 : List Char) (mod : Nat) (scroll max_len : Int)
    (h1 : NUL ∉ l1) (h2 : NUL ∉ l2) :
    ∀ (A r : List Char), NUL ∉ A →
      input_run
          { text := l1 ++ A ++ l2 ++ NUL :: r, cursor := ((l1.length + A.length : Nat) : Int),
            scroll := scroll, max_len := max_len }
          (List.replicate A.length (SDL_Event.key_down SDLK_BACKSPACE mod))
        = some { text := l1 ++ l2 ++ NUL :: (List.replicate A.length NUL ++ r),
                 cursor := (l1.length : Int), scroll := scroll, max_len := max_len } := by
  intro A
  induction A using List.reverseRecOn with
  | nil =>
    intro r _
    simp [input_run]
  | append_singleton A c ih =>
    intro r hA
    have hA1 : NUL ∉ A := fun h => hA (List.mem_append_left _ h)
    have hc : c ≠ NUL := fun h => hA (by simp [h])
    have hstep := handle_backspace_decomp
      { text := l1 ++ (A ++ [c]) ++ l2 ++ NUL :: r,
        cursor := ((l1.length + (A ++ [c]).length : Nat) : Int),
        scroll := scroll, max_len := max_len }
      (l1 ++ A) l2 r c mod (by simp) (by
        intro h
        rcases List.mem_append.1 h with h | h
        · exact h1 h
        · exact hA1 h) hc h2 (by simp [Nat.add_assoc])
    have hlen : (A ++ [c]).length = A.length + 1 := by simp
    rw [hlen, List.replicate_succ]
    simp only [input_run, Option.bind_eq_bind]
    rw [← hlen, hstep]
    simp only [Option.some_bind]
    have ih2 := ih (NUL :: r) hA1
    have e1 : ((l1 ++ A).length : Int) = ((l1.length + A.length : Nat) : Int) := by simp
    rw [e1]
    have e2 : l1 ++ A ++ l2 ++ NUL :: NUL :: r = l1 ++ A ++ l2 ++ NUL :: (NUL :: r) := rfl
    rw [e2, ih2, hlen]
    have e3 : List.replicate A.length NUL ++ NUL :: r
        = List.replicate (A.length + 1) NUL ++ r := by
      rw [List.replicate_succ', List.append_assoc]; rfl
    rw [e3]

/-- C28: on a field with `0 ≤ cursor ≤ strlen(text)`, the insertion of a text `a`
with `strlen(text) + strlen(a) ≤ max_len` followed by `strlen(a)` Backspace key-downs
is handled without fault and leaves the text and the cursor (and `scroll` and
`max_len`) of before. -/
theorem tui_input_insert_then_backspace (s : TUI_InputState) (a : List Char) (mod : Nat)
    (hwf : s.WF) (hc : s.CursorOk) (hfit : strlen s.text + strlen a ≤ s.max_len) :
    ∃ s1, input_run s (SDL_Event.text_input a
          :: List.replicate (cstr a).length (SDL_Event.key_down SDLK_BACKSPACE mod))
        = some s1 ∧
      cstr s1.text = cstr s.text ∧ s1.cursor = s.cursor ∧ s1.scroll = s.scroll ∧
      s1.max_len = s.max_len := by
  obtain ⟨hlen, hn, hmax⟩ := hwf
  obtain ⟨l1, l2, r, ht, h1, h2, hcur, -, -, hcs⟩ := input_decomp s hn hc
  have hl : s.text.length = l1.length + l2.length + 1 + r.length := by
    rw [ht]; simp; omega
  simp only [strlen, hcs, List.length_append] at hfit
  simp only [TUI_INPUT_MAX] at hlen hmax
  have hfit2 : (cstr a).length ≤ r.length := by omega
  have hins := handle_text_input_decomp s l1 l2 r a ht h1 h2 hcur
    (by push_cast; push_cast at hfit; omega) hfit2
  have hun := backspaces_undo l1 l2 mod s.scroll s.max_len h1 h2 (cstr a)
    (r.drop (cstr a).length) (cstr_no_nul a)
  refine ⟨{ text := l1 ++ l2 ++ NUL :: (List.replicate (cstr a).length NUL
              ++ r.drop (cstr a).length),
            cursor := (l1.length : Int), scroll := s.scroll, max_len := s.max_len },
    ?_, ?_, hcur.symm, rfl, rfl⟩
  · simp only [input_run, Option.bind_eq_bind, hins, Option.some_bind]
    exact hun
  · rw [hcs, cstr_append_nul _ _ (by
      intro h
      rcases List.mem_append.1 h with h | h
      · exact h1 h
      · exact h2 h)]

set_option maxRecDepth 8000 in
theorem tui_input_insert_then_backspace_witness :
    input_sample.WF ∧ input_sample.CursorOk ∧
    strlen input_sample.text + strlen "xyz".toList ≤ input_sample.max_len ∧
    ∃ s1, input_run input_sample (SDL_Event.text_input "xyz".toList
          :: List.replicate (cstr "xyz".toList).length (SDL_Event.key_down SDLK_BACKSPACE 0))
        = some s1 ∧
      cstr s1.text = cstr input_sample.text ∧ s1.cursor = input_sample.cursor ∧
      s1.scroll = input_sample.scroll ∧ s1.max_len = input_sample.max_len :=
  ⟨by decide, by decide, by decide,
   tui_input_insert_then_backspace input_sample "xyz".toList 0 (by decide) (by decide)
     (by decide)⟩

/-! ## Zoom scale and blink -/

theorem resize_grid_spec (t : TUI) (w h : Int) (hcw : 0 < t.cell_w) (hch : 0 < t.cell_h)
    (hs : 1 ≤ t.scale) :
    ∃ t1, resize_grid t w h = some t1 ∧
      t1.cols = (if w.tdiv (t.cell_w * t.scale) < 1 then 1 else w.tdiv (t.cell_w * t.scale)) ∧
      t1.rows = (if h.tdiv (t.cell_h * t.scale) < 1 then 1 else h.tdiv (t.cell_h * t.scale)) ∧
      t1.scale = t.scale ∧ t1.cell_w = t.cell_w ∧ t1.cell_h = t.cell_h ∧
      t1.running = t.running ∧ t1.blink_ms = t.blink_ms ∧ t1.blink_on = t.blink_on ∧
      (t.GridOk ∨ t1.cols ≠ t.cols ∨ t1.rows ≠ t.rows → t1.GridOk) ∧
      ((t1.cols = t.cols ∧ t1.rows = t.rows) → t1 = t) := by
  have h1 : 0 < t.cell_w * t.scale := Int.mul_pos hcw (by omega)
  have h2 : 0 < t.cell_h * t.scale := Int.mul_pos hch (by omega)
  have hne : ¬ (t.cell_w * t.scale = 0 ∨ t.cell_h * t.scale = 0) := by omega
  obtain ⟨nc, hnc⟩ : ∃ nc, nc = (if w.tdiv (t.cell_w * t.scale) < 1 then 1
      else w.tdiv (t.cell_w * t.scale)) := ⟨_, rfl⟩
  obtain ⟨nr, hnr⟩ : ∃ nr, nr = (if h.tdiv (t.cell_h * t.scale) < 1 then 1
      else h.tdiv (t.cell_h * t.scale)) := ⟨_, rfl⟩
  have hnc1 : 1 ≤ nc := by rw [hnc]; split_ifs <;> omega
  have hnr1 : 1 ≤ nr := by rw [hnr]; split_ifs <;> omega
  simp only [resize_grid, if_neg hne, ← hnc, ← hnr]
  by_cases hch2 : nc ≠ t.cols ∨ nr ≠ t.rows
  · rw [if_pos hch2]
    refine ⟨_, rfl, rfl, rfl, rfl, rfl, rfl, rfl, rfl, rfl, ?_, ?_⟩
    · intro _
      have hp : 0 ≤ nc * nr := Int.mul_nonneg (by omega) (by omega)
      refine ⟨by simp only; omega, by simp only; omega, ?_⟩
      simp only [List.length_replicate]
      exact Int.toNat_of_nonneg hp
    · intro hsame
      simp only at hsame
      omega
  · rw [if_neg hch2]
    have : nc = t.cols ∧ nr = t.rows := by omega
    refine ⟨t, rfl, this.1.symm, this.2.symm, rfl, rfl, rfl, rfl, rfl, rfl, ?_,
      fun _ => rfl⟩
    intro h
    rcases h with h | h | h
    · exact h
    · exact absurd rfl h
    · exact absurd rfl h

theorem tui_clear_spec (t : TUI) (bg : Nat) (hg : t.GridOk) :
    ∃ t1, tui_clear t bg = some t1 ∧ t1.GridOk ∧ t1.cols = t.cols ∧ t1.rows = t.rows ∧
      t1.scale = t.scale ∧ t1.cell_w = t.cell_w ∧ t1.cell_h = t.cell_h ∧
      t1.running = t.running ∧ t1.blink_ms = t.blink_ms ∧ t1.blink_on = t.blink_on := by
  obtain ⟨h0, h1, h2⟩ := hg
  have hn : (t.cols * t.rows).toNat = t.cells.length := by
    rw [← h2]; exact Int.toNat_ofNat _
  simp only [tui_clear, hn, le_refl, if_true]
  refine ⟨_, rfl, ⟨h0, h1, ?_⟩, rfl, rfl, rfl, rfl, rfl, rfl, rfl, rfl⟩
  simp only [List.length_append, List.length_replicate, List.length_drop, Nat.sub_self,
    Nat.add_zero]
  exact h2

/-- One call of `tui_begin` on a well-formed context with the clock not behind
`blink_ms`. -/
theorem tui_begin_step (t : TUI) (W H : Int) (now : Nat) (hg : t.GridOk)
    (hcw : 0 < t.cell_w) (hch : 0 < t.cell_h) (hs : 1 ≤ t.scale)
    (hnow : t.blink_ms ≤ now) (h64 : now < 2 ^ 64) :
    ∃ t1, tui_begin t W H now = some t1 ∧
      (500 ≤ now - t.blink_ms → t1.blink_on = !t.blink_on ∧ t1.blink_ms = now) ∧
      (now - t.blink_ms < 500 → t1.blink_on = t.blink_on ∧ t1.blink_ms = t.blink_ms) ∧
      t1.GridOk ∧ t1.cell_w = t.cell_w ∧ t1.cell_h = t.cell_h ∧ t1.scale = t.scale := by
  obtain ⟨t1, e1, -, -, hsc1, hw1, hh1, -, hbm1, hbo1, hg1, -⟩ :=
    resize_grid_spec t W H hcw hch hs
  obtain ⟨t2, e2, hg2, hc2, hr2, hsc2, hw2, hh2, -, hbm2, hbo2⟩ :=
    tui_clear_spec t1 TUI_BLACK (hg1 (Or.inl hg))
  have hmod : (now + 2 ^ 64 - t2.blink_ms) % 2 ^ 64 = now - t.blink_ms := by
    rw [hbm2, hbm1]
    have e : now + 2 ^ 64 - t.blink_ms = (now - t.blink_ms) + 2 ^ 64 := by omega
    rw [e, Nat.add_mod_right]
    exact Nat.mod_eq_of_lt (by omega)
  simp only [tui_begin, e1, e2, Option.bind_eq_bind, Option.some_bind, hmod]
  by_cases h5 : 500 ≤ now - t.blink_ms
  · rw [if_pos h5]
    refine ⟨_, rfl, fun _ => ⟨by simp only [hbo2, hbo1], rfl⟩, fun h => by omega,
      hg2, by rw [← hw1, ← hw2], by rw [← hh1, ← hh2], by rw [← hsc1, ← hsc2]⟩
  · rw [if_neg h5]
    refine ⟨_, rfl, fun h => absurd h h5, fun _ => ⟨by rw [hbo2, hbo1], by rw [hbm2, hbm1]⟩,
      hg2, by rw [← hw1, ← hw2], by rw [← hh1, ← hh2], by rw [← hsc1, ← hsc2]⟩

theorem begin_run_flips (frames : List (Int × Int × Nat)) :
    ∀ t : TUI, t.GridOk → 0 < t.cell_w → 0 < t.cell_h → 1 ≤ t.scale →
      List.Chain (fun a b => a ≤ b) t.blink_ms (frames.map (fun f => f.2.2)) →
      (∀ f ∈ frames, f.2.2 < 2 ^ 64) →
      ∃ t1 flips, begin_run t frames = some (t1, flips) ∧
        List.Chain (fun a b => a + 500 ≤ b) t.blink_ms flips := by
  induction frames with
  | nil =>
    intro t _ _ _ _ _ _
    exact ⟨t, [], rfl, List.Chain.nil⟩
  | cons f fs ih =>
    intro t hg hcw hch hs hmono h64
    rw [List.map_cons, List.chain_cons] at hmono
    obtain ⟨hle, hrest⟩ := hmono
    obtain ⟨t1, e1, hflip, hkeep, hg1, hw1, hh1, hs1⟩ :=
      tui_begin_step t f.1 f.2.1 f.2.2 hg hcw hch hs hle (h64 f (List.mem_cons_self _ _))
    have hbm_le : t1.blink_ms ≤ f.2.2 := by
      by_cases h5 : 500 ≤ f.2.2 - t.blink_ms
      · rw [(hflip h5).2]
      · rw [(hkeep (by omega)).2]; exact hle
    have hrest1 : List.Chain (fun a b => a ≤ b) t1.blink_ms (fs.map (fun f => f.2.2)) := by
      cases fs with
      | nil => exact List.Chain.nil
      | cons g gs =>
        rw [List.map_cons, List.chain_cons] at hrest ⊢
        exact ⟨le_trans hbm_le hrest.1, hrest.2⟩
    obtain ⟨t2, flips, e2, hch2⟩ := ih t1 hg1 (by rw [hw1]; exact hcw) (by rw [hh1]; exact hch)
      (by rw [hs1]; exact hs) hrest1 (fun g hg => h64 g (List.mem_cons_of_mem _ hg))
    simp only [begin_run, e1, e2, Option.bind_eq_bind, Option.some_bind]
    by_cases h5 : 500 ≤ f.2.2 - t.blink_ms
    · obtain ⟨hb, hm⟩ := hflip h5
      have hne : t1.blink_on ≠ t.blink_on := by rw [hb]; cases t.blink_on <;> decide
      rw [if_pos hne]
      refine ⟨t2, _, rfl, ?_⟩
      rw [List.chain_cons]
      rw [hm] at hch2
      exact ⟨by omega, hch2⟩
    · obtain ⟨hb, hm⟩ := hkeep (by omega)
      rw [if_neg (not_not.2 hb)]
      rw [hm] at hch2
      exact ⟨t2, _, rfl, hch2⟩

/-- C23: on a well-formed context and with a clock reading `now ≥ blink_ms`,
`tui_begin` returns, and it inverts `blink_on` and sets `blink_ms` to `now` when
`now - blink_ms ≥ 500`, and leaves both as they are otherwise. Over any sequence of
frames with a clock that never goes back, the readings at which the flag flips are
at least 500 apart from one another, and the first is at least 500 after the initial
`blink_ms`. -/
theorem tui_begin_blink (t : TUI) (hg : t.GridOk) (hcw : 0 < t.cell_w) (hch : 0 < t.cell_h)
    (hs : 1 ≤ t.scale) :
    (∀ (W H : Int) (now : Nat), t.blink_ms ≤ now → now < 2 ^ 64 →
      ∃ t1, tui_begin t W H now = some t1 ∧
        (500 ≤ now - t.blink_ms → t1.blink_on = !t.blink_on ∧ t1.blink_ms = now) ∧
        (now - t.blink_ms < 500 → t1.blink_on = t.blink_on ∧ t1.blink_ms = t.blink_ms)) ∧
    (∀ frames : List (Int × Int × Nat),
      List.Chain (fun a b => a ≤ b) t.blink_ms (frames.map (fun f => f.2.2)) →
      (∀ f ∈ frames, f.2.2 < 2 ^ 64) →
      ∃ t1 flips, begin_run t frames = some (t1, flips) ∧
        List.Chain (fun a b => a + 500 ≤ b) t.blink_ms flips) := by
  constructor
  · intro W H now hnow h64
    obtain ⟨t1, e, h1, h2, -⟩ := tui_begin_step t W H now hg hcw hch hs hnow h64
    exact ⟨t1, e, h1, h2⟩
  · intro frames hmono h64
    exact begin_run_flips frames t hg hcw hch hs hmono h64

set_option maxRecDepth 8000 in
theorem tui_begin_blink_witness :
    tui_sample.GridOk ∧ 0 < tui_sample.cell_w ∧ 0 < tui_sample.cell_h ∧ 1 ≤ tui_sample.scale ∧
    ((∀ (W H : Int) (now : Nat), tui_sample.blink_ms ≤ now → now < 2 ^ 64 →
      ∃ t1, tui_begin tui_sample W H now = some t1 ∧
        (500 ≤ now - tui_sample.blink_ms →
          t1.blink_on = !tui_sample.blink_on ∧ t1.blink_ms = now) ∧
        (now - tui_sample.blink_ms < 500 →
          t1.blink_on = tui_sample.blink_on ∧ t1.blink_ms = tui_sample.blink_ms)) ∧
    (∀ frames : List (Int × Int × Nat),
      List.Chain (fun a b => a ≤ b) tui_sample.blink_ms (frames.map (fun f => f.2.2)) →
      (∀ f ∈ frames, f.2.2 < 2 ^ 64) →
      ∃ t1 flips, begin_run tui_sample frames = some (t1, flips) ∧
        List.Chain (fun a b => a + 500 ≤ b) tui_sample.blink_ms flips)) :=
  ⟨by decide, by decide, by decide, by decide,
   tui_begin_blink tui_sample (by decide) (by decide) (by decide) (by decide)⟩

/-! ## Terminal pane: scroll clamp -/

theorem foldlM_some {α β : Type} (f : β → α → Option β) (l : List α)
    (h : ∀ a ∈ l, ∀ b, ∃ b1, f b a = some b1) :
    ∀ b, ∃ b1, l.foldlM f b = some b1 := by
  induction l with
  | nil => intro b; exact ⟨b, rfl⟩
  | cons a l ih =>
    intro b
    obtain ⟨b1, h1⟩ := h a (List.mem_cons_self _ _) b
    obtain ⟨b2, h2⟩ := ih (fun a1 ha1 => h a1 (List.mem_cons_of_mem _ ha1)) b1
    exact ⟨b2, by simp only [List.foldlM_cons, h1, Option.bind_eq_bind, Option.some_bind, h2]⟩

theorem term_scroll_clamp_spec (ts : TermState) (vis : Int) :
    (term_scroll_clamp ts vis).count = ts.count ∧
    (term_scroll_clamp ts vis).lines = ts.lines ∧
    (term_scroll_clamp ts vis).colors = ts.colors ∧
    (term_scroll_clamp ts vis).input = ts.input ∧
    0 ≤ (term_scroll_clamp ts vis).scroll ∧
    (term_scroll_clamp ts vis).scroll ≤ max 0 (ts.count - vis) := by
  obtain ⟨ms, hms⟩ : ∃ ms, ms = (if ts.count > vis then ts.count - vis else 0) := ⟨_, rfl⟩
  have hms0 : 0 ≤ ms := by rw [hms]; split_ifs <;> omega
  have hmsle : ms ≤ max 0 (ts.count - vis) := by
    rw [hms]; split_ifs
    · exact le_max_right _ _
    · exact le_max_left _ _
  simp only [term_scroll_clamp, ← hms]
  by_cases ha : ts.scroll > ms
  · simp only [if_pos ha]
    rw [if_neg (by omega)]
    exact ⟨rfl, rfl, rfl, rfl, hms0, hmsle⟩
  · simp only [if_neg ha]
    by_cases hb : ts.scroll < 0
    · rw [if_pos hb]
      exact ⟨rfl, rfl, rfl, rfl, le_refl _, le_max_left _ _⟩
    · rw [if_neg hb]
      exact ⟨rfl, rfl, rfl, rfl, by omega, le_trans (by omega) hmsle⟩

theorem term_draw_lines_some (t : TUI) (ts : TermState) (x y w vis first : Int)
    (hL : ts.lines.length = TERM_MAX_LINES) (hC : ts.colors.length = TERM_MAX_LINES)
    (h1 : ts.count ≤ TERM_MAX_LINES) :
    ∃ t1, term_draw_lines t ts x y w vis first = some t1 := by
  simp only [TERM_MAX_LINES] at hL hC h1
  unfold term_draw_lines
  apply foldlM_some
  intro i _ b
  beta_reduce
  by_cases hli : first + (i : Int) ≥ 0 ∧ first + (i : Int) < ts.count
  · have hb : (first + (i : Int)).toNat < 200 := by omega
    simp only [if_pos hli]
    rw [if_pos ⟨by rw [hL]; exact hb, by rw [hC]; exact hb⟩]
    exact ⟨_, rfl⟩
  · simp only [if_neg hli]
    exact ⟨_, rfl⟩

/-- C21, as amended: on a well-formed terminal state `term_draw` returns; for a pane
of height at least 6 and width at least 10 the scroll offset after the draw lies in
`[0, max(0, count - (h - 4))]`, whatever it was before; for a smaller pane nothing is
drawn and the state, scroll offset included, is left as it was. -/
theorem term_draw_scroll_clamp (t : TUI) (ts : TermState) (x y w h : Int) (focused : Bool)
    (hwf : ts.WF) :
    ∃ t1 ts1, term_draw t ts x y w h focused = some (t1, ts1) ∧
      ts1.count = ts.count ∧
      (6 ≤ h → 10 ≤ w → 0 ≤ ts1.scroll ∧ ts1.scroll ≤ max 0 (ts.count - (h - 4))) ∧
      (h < 6 ∨ w < 10 → t1 = t ∧ ts1 = ts) := by
  by_cases hsmall : h < 6 ∨ w < 10
  · refine ⟨t, ts, by simp only [term_draw, if_pos hsmall], rfl, fun h6 h10 => by omega,
      fun _ => ⟨rfl, rfl⟩⟩
  · obtain ⟨hL, hC, h0, h1, hin⟩ := hwf
    obtain ⟨hc2, hl2, hco2, hi2, hs0, hs1⟩ := term_scroll_clamp_spec ts (h - 4)
    obtain ⟨ts2, hts2⟩ : ∃ ts2, ts2 = term_scroll_clamp ts (h - 4) := ⟨_, rfl⟩
    rw [← hts2] at hc2 hl2 hco2 hi2 hs0 hs1
    simp only [term_draw, if_neg hsmall, ← hts2]
    obtain ⟨ta, hta⟩ := term_draw_lines_some
      (tui_puts (tui_box (tui_fill t x y w h ' ' TUI_WHITE TUI_BLACK) x y w h
          TUI_BRIGHT_BLACK TUI_BLACK)
        (x + (w - strlen " Terminal ".toList).tdiv 2) y " Terminal ".toList
        TUI_BRIGHT_WHITE TUI_BLACK)
      ts2 x y w (h - 4)
      (if ts2.count - (h - 4) - ts2.scroll < 0 then 0 else ts2.count - (h - 4) - ts2.scroll)
      (by rw [hl2]; exact hL) (by rw [hco2]; exact hC) (by rw [hc2]; exact h1)
    rw [hta]
    simp only [Option.bind_eq_bind, Option.some_bind]
    have hiw : w - 5 > 2 := by omega
    rw [if_pos hiw]
    obtain ⟨tb, sb, hdraw, -, -, -⟩ := draw_input_fields
      (tui_puts
        (tui_hline
          (if ts2.scroll > 0 then
            tui_putc
              (if ts2.scroll < (if ts.count > h - 4 then ts.count - (h - 4) else 0) ∧
                  (if ts.count > h - 4 then ts.count - (h - 4) else 0) > 0 then
                tui_putc ta (x + w - 2) (y + 1) '^' TUI_YELLOW TUI_BLACK else ta)
              (x + w - 2) (y + h - 4) 'v' TUI_YELLOW TUI_BLACK
          else
            if ts2.scroll < (if ts.count > h - 4 then ts.count - (h - 4) else 0) ∧
                (if ts.count > h - 4 then ts.count - (h - 4) else 0) > 0 then
              tui_putc ta (x + w - 2) (y + 1) '^' TUI_YELLOW TUI_BLACK else ta)
          (x + 1) (y + h - 3) (w - 2) '-' TUI_BRIGHT_BLACK TUI_BLACK)
        (x + 1) (y + h - 2) "> ".toList TUI_GREEN TUI_BLACK)
      (x + 3) (y + h - 2) (w - 5) ts2.input focused TUI_WHITE TUI_BLACK TUI_BLACK TUI_WHITE
      (by rw [hi2]; exact hin.2.1)
    rw [hdraw]
    exact ⟨tb, _, rfl, hc2, fun _ _ => ⟨hs0, hs1⟩, fun hh => absurd hh hsmall⟩

set_option maxRecDepth 8000 in
theorem term_draw_scroll_clamp_witness :
    term_scrolled_sample.WF ∧
    ∃ t1 ts1, term_draw tui_sample term_scrolled_sample 1 5 38 6 true = some (t1, ts1) ∧
      ts1.count = term_scrolled_sample.count ∧
      ((6 : Int) ≤ 6 → (10 : Int) ≤ 38 →
        0 ≤ ts1.scroll ∧ ts1.scroll ≤ max 0 (term_scrolled_sample.count - (6 - 4))) ∧
      ((6 : Int) < 6 ∨ (38 : Int) < 10 → t1 = tui_sample ∧ ts1 = term_scrolled_sample) :=
  ⟨by decide, term_draw_scroll_clamp tui_sample term_scrolled_sample 1 5 38 6 true (by decide)⟩

set_option maxRecDepth 8000 in
/-- C21 as stated fails for a pane narrower than 10 (`main` passes the width
`cols - 2`, which is 8 on a grid of 10 columns): `term_draw` returns at once, and a
scroll offset of 50 over a log of two lines stays 50. -/
theorem term_draw_small_pane_counterexample :
    term_scrolled_sample.WF ∧
    ∃ t1 ts1, term_draw tui_sample term_scrolled_sample 1 5 8 6 true = some (t1, ts1) ∧
      ts1.scroll = 50 ∧ ts1.count = 2 ∧
      ¬ (0 ≤ ts1.scroll ∧ ts1.scroll ≤ max 0 (ts1.count - (6 - 4))) :=
  ⟨by decide, tui_sample, term_scrolled_sample, by decide, rfl, rfl, by decide⟩

/-! ## Event dispatch: the modal captures the events -/

/-- C27: when the modal is active, the event dispatch of `main` hands every event
other than quit to `tui_modal_handle` (with two options) and to nothing else: the
event loop goes on, and the tab menu, the action menu, both text fields, the
terminal state, `on_tabs`, `field`, the text input mode and the whole `TUI` context
(zoom scale included) are as before. -/
theorem app_dispatch_modal_captures (st : AppState) (e : SDL_Event) (w h : Int) (ticks : Nat)
    (hact : st.modal.active = true) (hq : e ≠ SDL_Event.quit) :
    ∃ st1, app_dispatch st e w h ticks = some (st1, false) ∧
      st1.modal = (tui_modal_handle st.modal e 2).2 ∧
      st1.tab_menu = st.tab_menu ∧ st1.act_menu = st.act_menu ∧
      st1.inp_name = st.inp_name ∧ st1.inp_email = st.inp_email ∧
      st1.term = st.term ∧ st1.on_tabs = st.on_tabs ∧ st1.field = st.field ∧
      st1.text_input = st.text_input ∧ st1.t = st.t := by
  refine ⟨{ st with modal := (tui_modal_handle st.modal e 2).2 }, ?_, rfl, rfl, rfl, rfl, rfl,
    rfl, rfl, rfl, rfl, rfl⟩
  simp only [app_dispatch, if_neg hq, hact, if_true]

theorem app_dispatch_modal_captures_witness :
    app_modal_sample.modal.active = true ∧
    SDL_Event.key_down SDLK_TAB 0 ≠ SDL_Event.quit ∧
    ∃ st1, app_dispatch app_modal_sample (SDL_Event.key_down SDLK_TAB 0) 320 64 0
        = some (st1, false) ∧
      st1.modal = (tui_modal_handle app_modal_sample.modal (SDL_Event.key_down SDLK_TAB 0) 2).2 ∧
      st1.tab_menu = app_modal_sample.tab_menu ∧ st1.act_menu = app_modal_sample.act_menu ∧
      st1.inp_name = app_modal_sample.inp_name ∧ st1.inp_email = app_modal_sample.inp_email ∧
      st1.term = app_modal_sample.term ∧ st1.on_tabs = app_modal_sample.on_tabs ∧
      st1.field = app_modal_sample.field ∧
      st1.text_input = app_modal_sample.text_input ∧ st1.t = app_modal_sample.t :=
  ⟨by decide, by decide,
   app_dispatch_modal_captures app_modal_sample (SDL_Event.key_down SDLK_TAB 0) 320 64 0
     (by decide) (by decide)⟩

/-! ## Drawing primitives: what they write -/

theorem replay_append (t : TUI) (A B : List TUI_Put) :
    tui_replay t (A ++ B) = tui_replay (tui_replay t A) B := by
  simp only [tui_replay, List.foldl_append]

theorem putc_frame (t : TUI) (x y : Int) (ch : Char) (fg bg : Nat) :
    tui_putc t x y ch fg bg = { t with cells := (tui_putc t x y ch fg bg).cells } ∧
    (tui_putc t x y ch fg bg).cells.length = t.cells.length := by
  unfold tui_putc
  split_ifs
  · exact ⟨rfl, rfl⟩
  · exact ⟨rfl, by simp⟩

theorem replay_frame (calls : List TUI_Put) :
    ∀ t : TUI, tui_replay t calls = { t with cells := (tui_replay t calls).cells } ∧
      (tui_replay t calls).cells.length = t.cells.length := by
  induction calls with
  | nil => intro t; exact ⟨rfl, rfl⟩
  | cons a rest ih =>
    intro t
    have h1 := ih (tui_putc t a.x a.y a.ch a.fg a.bg)
    have h2 := putc_frame t a.x a.y a.ch a.fg a.bg
    have e : tui_replay t (a :: rest) = tui_replay (tui_putc t a.x a.y a.ch a.fg a.bg) rest :=
      rfl
    rw [e]
    refine ⟨?_, h1.2.trans h2.2⟩
    rw [h1.1]
    rw [h2.1]

/-- When every call at the position `(px, py)` writes a cell with the property `P`,
and the position is written or held such a cell before, it holds one after. -/
theorem replay_cell_pred (P : TUI_Cell → Prop) (calls : List TUI_Put) (px py : Int) :
    ∀ t : TUI, t.GridOk → 0 ≤ px → px < t.cols → 0 ≤ py → py < t.rows →
      (∀ c ∈ calls, c.x = px ∧ c.y = py → P { ch := c.ch, fg := c.fg, bg := c.bg }) →
      ((∃ c ∈ calls, c.x = px ∧ c.y = py) ∨ ∃ cell, tui_cell t px py = some cell ∧ P cell) →
      ∃ cell, tui_cell (tui_replay t calls) px py = some cell ∧ P cell := by
  induction calls with
  | nil =>
    intro t _ _ _ _ _ _ h
    rcases h with ⟨c, hc, -⟩ | h
    · simp at hc
    · exact h
  | cons a rest ih =>
    intro t hg hx0 hx1 hy0 hy1 hall hex
    have hd := putc_dims t a.x a.y a.ch a.fg a.bg
    have hg1 := putc_grid_ok t a.x a.y a.ch a.fg a.bg hg
    apply ih (tui_putc t a.x a.y a.ch a.fg a.bg) hg1 hx0 (by rw [hd.1]; exact hx1) hy0
      (by rw [hd.2]; exact hy1) (fun c hc => hall c (List.mem_cons_of_mem _ hc))
    by_cases hat : a.x = px ∧ a.y = py
    · right
      refine ⟨_, ?_, hall a (List.mem_cons_self _ _) hat⟩
      rw [← hat.1, ← hat.2]
      exact putc_cell_self t a.x a.y a.ch a.fg a.bg hg (by omega) (by omega) (by omega)
        (by omega)
    · rcases hex with ⟨c, hc, hcat⟩ | ⟨cell, hcell, hP⟩
      · rcases List.mem_cons.1 hc with rfl | hc2
        · exact absurd hcat hat
        · exact Or.inl ⟨c, hc2, hcat⟩
      · right
        exact ⟨cell, by rw [putc_cell_other t px py a.x a.y a.ch a.fg a.bg hat]; exact hcell, hP⟩

/-- The last call at a position decides what the cell holds. -/
theorem replay_cell_last (A B : List TUI_Put) (c : TUI_Put) (t : TUI) (hg : t.GridOk)
    (hx0 : 0 ≤ c.x) (hx1 : c.x < t.cols) (hy0 : 0 ≤ c.y) (hy1 : c.y < t.rows)
    (hB : ∀ b ∈ B, ¬ (b.x = c.x ∧ b.y = c.y)) :
    tui_cell (tui_replay t (A ++ c :: B)) c.x c.y
      = some { ch := c.ch, fg := c.fg, bg := c.bg } := by
  rw [replay_append]
  have e : tui_replay (tui_replay t A) (c :: B)
      = tui_replay (tui_putc (tui_replay t A) c.x c.y c.ch c.fg c.bg) B := rfl
  rw [e, replay_cell_other B c.x c.y _ hB]
  have hd := replay_dims A t
  exact putc_cell_self _ c.x c.y c.ch c.fg c.bg (replay_grid_ok A t hg) hx0
    (by rw [hd.1]; exact hx1) hy0 (by rw [hd.2]; exact hy1)

/-- A call sequence whose calls lie on `span` and write the cells `v`, and which
reaches every position of `span`, draws exactly `v` on `span`. -/
theorem replay_draws (t : TUI) (hg : t.GridOk) (calls : List TUI_Put)
    (span : Int → Int → Prop) (v : Int → Int → TUI_Cell)
    (ha : ∀ c ∈ calls, span c.x c.y ∧ ({ ch := c.ch, fg := c.fg, bg := c.bg } : TUI_Cell) = v c.x c.y)
    (hb : ∀ px py, span px py → ∃ c ∈ calls, c.x = px ∧ c.y = py) :
    DrawsExactly t (tui_replay t calls) span v := by
  obtain ⟨f1, f2⟩ := replay_frame calls t
  refine ⟨f1, f2, ?_⟩
  intro px py hx0 hx1 hy0 hy1
  constructor
  · intro hs
    obtain ⟨cell, h1, h2⟩ := replay_cell_pred (fun cell => cell = v px py) calls px py t hg
      hx0 hx1 hy0 hy1
      (fun c hc hat => by
        have := (ha c hc).2
        rw [hat.1, hat.2] at this
        exact this)
      (Or.inl (hb px py hs))
    rw [h1, h2]
  · intro hs
    apply replay_cell_other
    intro c hc hat
    have := (ha c hc).1
    rw [hat.1, hat.2] at this
    exact hs this

theorem mem_puts_calls (x y : Int) (s : List Char) (fg bg : Nat) (c : TUI_Put) :
    c ∈ tui_puts_calls x y s fg bg ↔
      ∃ i : Nat, i < (cstr s).length ∧
        c = { x := x + (i : Int), y := y, ch := s.getD i NUL, fg := fg, bg := bg } := by
  simp only [tui_puts_calls, List.mem_map, List.mem_range]
  constructor
  · rintro ⟨i, hi, rfl⟩; exact ⟨i, hi, rfl⟩
  · rintro ⟨i, hi, rfl⟩; exact ⟨i, hi, rfl⟩

theorem mem_hline_calls (x y w : Int) (ch : Char) (fg bg : Nat) (c : TUI_Put) :
    c ∈ tui_hline_calls x y w ch fg bg ↔
      ∃ i : Nat, (i : Int) < w ∧
        c = { x := x + (i : Int), y := y, ch := ch, fg := fg, bg := bg } := by
  simp only [tui_hline_calls, List.mem_map, List.mem_range]
  constructor
  · rintro ⟨i, hi, rfl⟩; exact ⟨i, by omega, rfl⟩
  · rintro ⟨i, hi, rfl⟩; exact ⟨i, by omega, rfl⟩

theorem mem_vline_calls (x y h : Int) (ch : Char) (fg bg : Nat) (c : TUI_Put) :
    c ∈ tui_vline_calls x y h ch fg bg ↔
      ∃ i : Nat, (i : Int) < h ∧
        c = { x := x, y := y + (i : Int), ch := ch, fg := fg, bg := bg } := by
  simp only [tui_vline_calls, List.mem_map, List.mem_range]
  constructor
  · rintro ⟨i, hi, rfl⟩; exact ⟨i, by omega, rfl⟩
  · rintro ⟨i, hi, rfl⟩; exact ⟨i, by omega, rfl⟩

theorem mem_fill_calls (x y w h : Int) (ch : Char) (fg bg : Nat) (c : TUI_Put) :
    c ∈ tui_fill_calls x y w h ch fg bg ↔
      ∃ r i : Nat, (r : Int) < h ∧ (i : Int) < w ∧
        c = { x := x + (i : Int), y := y + (r : Int), ch := ch, fg := fg, bg := bg } := by
  simp only [tui_fill_calls, List.mem_flatten, List.mem_map, List.mem_range]
  constructor
  · rintro ⟨l, ⟨r, hr, rfl⟩, hc⟩
    obtain ⟨i, hi, rfl⟩ := List.mem_map.1 hc
    exact ⟨r, i, by omega, by have := List.mem_range.1 hi; omega, rfl⟩
  · rintro ⟨r, i, hr, hi, rfl⟩
    exact ⟨_, ⟨r, by omega, rfl⟩, List.mem_map.2 ⟨i, List.mem_range.2 (by omega), rfl⟩⟩

theorem puts_draws (t : TUI) (hg : t.GridOk) (x y : Int) (s : List Char) (fg bg : Nat) :
    DrawsExactly t (tui_puts t x y s fg bg)
      (fun px py => py = y ∧ x ≤ px ∧ px < x + strlen s)
      (fun px _ => { ch := s.getD (px - x).toNat NUL, fg := fg, bg := bg }) := by
  apply replay_draws t hg
  · intro c hc
    obtain ⟨i, hi, rfl⟩ := (mem_puts_calls x y s fg bg c).1 hc
    have e : (x + (i : Int) - x).toNat = i := by omega
    refine ⟨⟨rfl, by simp only; omega, by simp only [strlen]; omega⟩, ?_⟩
    simp only [e]
  · intro px py ⟨h1, h2, h3⟩
    simp only [strlen] at h3
    refine ⟨_, (mem_puts_calls x y s fg bg _).2 ⟨(px - x).toNat, by omega, rfl⟩, ?_, h1.symm⟩
    simp only; omega

theorem hline_draws (t : TUI) (hg : t.GridOk) (x y w : Int) (ch : Char) (fg bg : Nat) :
    DrawsExactly t (tui_hline t x y w ch fg bg)
      (fun px py => py = y ∧ x ≤ px ∧ px < x + w)
      (fun _ _ => { ch := ch, fg := fg, bg := bg }) := by
  apply replay_draws t hg
  · intro c hc
    obtain ⟨i, hi, rfl⟩ := (mem_hline_calls x y w ch fg bg c).1 hc
    exact ⟨⟨rfl, by simp only; omega, by simp only; omega⟩, rfl⟩
  · intro px py ⟨h1, h2, h3⟩
    refine ⟨_, (mem_hline_calls x y w ch fg bg _).2 ⟨(px - x).toNat, by omega, rfl⟩, ?_,
      h1.symm⟩
    simp only; omega

theorem vline_draws (t : TUI) (hg : t.GridOk) (x y h : Int) (ch : Char) (fg bg : Nat) :
    DrawsExactly t (tui_vline t x y h ch fg bg)
      (fun px py => px = x ∧ y ≤ py ∧ py < y + h)
      (fun _ _ => { ch := ch, fg := fg, bg := bg }) := by
  apply replay_draws t hg
  · intro c hc
    obtain ⟨i, hi, rfl⟩ := (mem_vline_calls x y h ch fg bg c).1 hc
    exact ⟨⟨rfl, by simp only; omega, by simp only; omega⟩, rfl⟩
  · intro px py ⟨h1, h2, h3⟩
    refine ⟨_, (mem_vline_calls x y h ch fg bg _).2 ⟨(py - y).toNat, by omega, rfl⟩,
      h1.symm, ?_⟩
    simp only; omega

theorem fill_draws (t : TUI) (hg : t.GridOk) (x y w h : Int) (ch : Char) (fg bg : Nat) :
    DrawsExactly t (tui_fill t x y w h ch fg bg)
      (fun px py => x ≤ px ∧ px < x + w ∧ y ≤ py ∧ py < y + h)
      (fun _ _ => { ch := ch, fg := fg, bg := bg }) := by
  apply replay_draws t hg
  · intro c hc
    obtain ⟨r, i, hr, hi, rfl⟩ := (mem_fill_calls x y w h ch fg bg c).1 hc
    exact ⟨⟨by simp only; omega, by simp only; omega, by simp only; omega,
      by simp only; omega⟩, rfl⟩
  · intro px py ⟨h1, h2, h3, h4⟩
    refine ⟨_, (mem_fill_calls x y w h ch fg bg _).2
      ⟨(py - y).toNat, (px - x).toNat, by omega, by omega, rfl⟩, ?_, ?_⟩
    · simp only; omega
    · simp only; omega

theorem box_draws (t : TUI) (hg : t.GridOk) (x y w h : Int) (fg bg : Nat) :
    DrawsExactly t (tui_box t x y w h fg bg)
      (fun px py => 2 ≤ w ∧ 2 ≤ h ∧ x ≤ px ∧ px ≤ x + w - 1 ∧ y ≤ py ∧ py ≤ y + h - 1 ∧
        (px = x ∨ px = x + w - 1 ∨ py = y ∨ py = y + h - 1))
      (fun px py =>
        { ch := if (px = x ∨ px = x + w - 1) ∧ (py = y ∨ py = y + h - 1) then '+'
                else if py = y ∨ py = y + h - 1 then '-' else '|',
          fg := fg, bg := bg }) := by
  by_cases hsmall : w < 2 ∨ h < 2
  · have e : tui_box t x y w h fg bg = tui_replay t [] := by
      simp only [tui_box, tui_box_calls, if_pos hsmall]
    rw [e]
    apply replay_draws t hg
    · intro c hc; simp at hc
    · intro px py hs; omega
  · have hmem : ∀ c, c ∈ tui_box_calls x y w h fg bg ↔
        (c = { x := x, y := y, ch := '+', fg := fg, bg := bg } ∨
         c = { x := x + w - 1, y := y, ch := '+', fg := fg, bg := bg } ∨
         c = { x := x, y := y + h - 1, ch := '+', fg := fg, bg := bg } ∨
         c = { x := x + w - 1, y := y + h - 1, ch := '+', fg := fg, bg := bg }) ∨
        c ∈ tui_hline_calls (x + 1) y (w - 2) '-' fg bg ∨
        c ∈ tui_hline_calls (x + 1) (y + h - 1) (w - 2) '-' fg bg ∨
        c ∈ tui_vline_calls x (y + 1) (h - 2) '|' fg bg ∨
        c ∈ tui_vline_calls (x + w - 1) (y + 1) (h - 2) '|' fg bg := by
      intro c
      simp only [tui_box_calls, if_neg hsmall, List.mem_append, List.mem_cons,
        List.mem_singleton, List.not_mem_nil, or_false, or_assoc]
    apply replay_draws t hg
    · intro c hc
      rcases (hmem c).1 hc with (e | e | e | e) | hc | hc | hc | hc
      · have hx : c.x = x := by rw [e]
        have hy : c.y = y := by rw [e]
        refine ⟨by omega, ?_⟩
        beta_reduce
        rw [if_pos (by omega), e]
      · have hx : c.x = x + w - 1 := by rw [e]
        have hy : c.y = y := by rw [e]
        refine ⟨by omega, ?_⟩
        beta_reduce
        rw [if_pos (by omega), e]
      · have hx : c.x = x := by rw [e]
        have hy : c.y = y + h - 1 := by rw [e]
        refine ⟨by omega, ?_⟩
        beta_reduce
        rw [if_pos (by omega), e]
      · have hx : c.x = x + w - 1 := by rw [e]
        have hy : c.y = y + h - 1 := by rw [e]
        refine ⟨by omega, ?_⟩
        beta_reduce
        rw [if_pos (by omega), e]
      · obtain ⟨i, hi, e⟩ := (mem_hline_calls _ _ _ _ _ _ c).1 hc
        have hx : c.x = x + 1 + (i : Int) := by rw [e]
        have hy : c.y = y := by rw [e]
        refine ⟨by omega, ?_⟩
        beta_reduce
        rw [if_neg (by omega), if_pos (by omega), e]
      · obtain ⟨i, hi, e⟩ := (mem_hline_calls _ _ _ _ _ _ c).1 hc
        have hx : c.x = x + 1 + (i : Int) := by rw [e]
        have hy : c.y = y + h - 1 := by rw [e]
        refine ⟨by omega, ?_⟩
        beta_reduce
        rw [if_neg (by omega), if_pos (by omega), e]
      · obtain ⟨i, hi, e⟩ := (mem_vline_calls _ _ _ _ _ _ c).1 hc
        have hx : c.x = x := by rw [e]
        have hy : c.y = y + 1 + (i : Int) := by rw [e]
        refine ⟨by omega, ?_⟩
        beta_reduce
        rw [if_neg (by omega), if_neg (by omega), e]
      · obtain ⟨i, hi, e⟩ := (mem_vline_calls _ _ _ _ _ _ c).1 hc
        have hx : c.x = x + w - 1 := by rw [e]
        have hy : c.y = y + 1 + (i : Int) := by rw [e]
        refine ⟨by omega, ?_⟩
        beta_reduce
        rw [if_neg (by omega), if_neg (by omega), e]
    · intro px py hs
      by_cases hrow : py = y ∨ py = y + h - 1
      · by_cases hcol : px = x ∨ px = x + w - 1
        · rcases hrow with hr | hr <;> rcases hcol with hcl | hcl
          · exact ⟨_, (hmem _).2 (Or.inl (Or.inl rfl)), hcl.symm, hr.symm⟩
          · exact ⟨_, (hmem _).2 (Or.inl (Or.inr (Or.inl rfl))), hcl.symm, hr.symm⟩
          · exact ⟨_, (hmem _).2 (Or.inl (Or.inr (Or.inr (Or.inl rfl)))), hcl.symm, hr.symm⟩
          · exact ⟨_, (hmem _).2 (Or.inl (Or.inr (Or.inr (Or.inr rfl)))), hcl.symm, hr.symm⟩
        · rcases hrow with hr | hr
          · refine ⟨_, (hmem _).2 (Or.inr (Or.inl ((mem_hline_calls _ _ _ _ _ _ _).2
              ⟨(px - x - 1).toNat, by omega, rfl⟩))), ?_, hr.symm⟩
            simp only; omega
          · refine ⟨_, (hmem _).2 (Or.inr (Or.inr (Or.inl ((mem_hline_calls _ _ _ _ _ _ _).2
              ⟨(px - x - 1).toNat, by omega, rfl⟩)))), ?_, hr.symm⟩
            simp only; omega
      · have hcol : px = x ∨ px = x + w - 1 := by omega
        rcases hcol with hcl | hcl
        · refine ⟨_, (hmem _).2 (Or.inr (Or.inr (Or.inr (Or.inl
            ((mem_vline_calls _ _ _ _ _ _ _).2 ⟨(py - y - 1).toNat, by omega, rfl⟩))))),
            hcl.symm, ?_⟩
          simp only; omega
        · refine ⟨_, (hmem _).2 (Or.inr (Or.inr (Or.inr (Or.inr
            ((mem_vline_calls _ _ _ _ _ _ _).2 ⟨(py - y - 1).toNat, by omega, rfl⟩))))),
            hcl.symm, ?_⟩
          simp only; omega

/-- C24: on a grid of `cols x rows` cells, `tui_putc` outside the grid returns the
context unchanged, and inside it replaces the cell of index `y * cols + x` and
nothing else; `tui_puts`, `tui_hline`, `tui_vline`, `tui_fill` and `tui_box` leave the
context as it is but for the cell buffer, whose size they keep, and among the cells
of the grid they change exactly those of their span, line, rectangle or frame, which
they set to the character and colours given (`tui_box`: `+` at the corners, `-` on
the top and bottom, `|` on the sides, and nothing for `w < 2` or `h < 2`). -/
theorem tui_primitives_clip (t : TUI) (hg : t.GridOk) :
    (∀ (x y : Int) (ch : Char) (fg bg : Nat),
      ((x < 0 ∨ x ≥ t.cols ∨ y < 0 ∨ y ≥ t.rows) → tui_putc t x y ch fg bg = t) ∧
      (¬ (x < 0 ∨ x ≥ t.cols ∨ y < 0 ∨ y ≥ t.rows) →
        (y * t.cols + x).toNat < t.cells.length ∧
        (tui_putc t x y ch fg bg).cells
          = t.cells.set (y * t.cols + x).toNat { ch := ch, fg := fg, bg := bg }) ∧
      DrawsExactly t (tui_putc t x y ch fg bg) (fun px py => px = x ∧ py = y)
        (fun _ _ => { ch := ch, fg := fg, bg := bg })) ∧
    (∀ (x y : Int) (s : List Char) (fg bg : Nat),
      DrawsExactly t (tui_puts t x y s fg bg)
        (fun px py => py = y ∧ x ≤ px ∧ px < x + strlen s)
        (fun px _ => { ch := s.getD (px - x).toNat NUL, fg := fg, bg := bg })) ∧
    (∀ (x y w : Int) (ch : Char) (fg bg : Nat),
      DrawsExactly t (tui_hline t x y w ch fg bg)
        (fun px py => py = y ∧ x ≤ px ∧ px < x + w)
        (fun _ _ => { ch := ch, fg := fg, bg := bg })) ∧
    (∀ (x y h : Int) (ch : Char) (fg bg : Nat),
      DrawsExactly t (tui_vline t x y h ch fg bg)
        (fun px py => px = x ∧ y ≤ py ∧ py < y + h)
        (fun _ _ => { ch := ch, fg := fg, bg := bg })) ∧
    (∀ (x y w h : Int) (ch : Char) (fg bg : Nat),
      DrawsExactly t (tui_fill t x y w h ch fg bg)
        (fun px py => x ≤ px ∧ px < x + w ∧ y ≤ py ∧ py < y + h)
        (fun _ _ => { ch := ch, fg := fg, bg := bg })) ∧
    (∀ (x y w h : Int) (fg bg : Nat),
      DrawsExactly t (tui_box t x y w h fg bg)
        (fun px py => 2 ≤ w ∧ 2 ≤ h ∧ x ≤ px ∧ px ≤ x + w - 1 ∧ y ≤ py ∧ py ≤ y + h - 1 ∧
          (px = x ∨ px = x + w - 1 ∨ py = y ∨ py = y + h - 1))
        (fun px py =>
          { ch := if (px = x ∨ px = x + w - 1) ∧ (py = y ∨ py = y + h - 1) then '+'
                  else if py = y ∨ py = y + h - 1 then '-' else '|',
            fg := fg, bg := bg })) := by
  refine ⟨?_, puts_draws t hg, hline_draws t hg, vline_draws t hg, fill_draws t hg,
    box_draws t hg⟩
  intro x y ch fg bg
  refine ⟨fun hout => by simp only [tui_putc, if_pos hout], fun hin => ?_, ?_⟩
  · refine ⟨(grid_index_lt t x y hg (by omega) (by omega) (by omega) (by omega)).2, ?_⟩
    simp only [tui_putc, if_neg hin]
  · have e : tui_putc t x y ch fg bg
        = tui_replay t [{ x := x, y := y, ch := ch, fg := fg, bg := bg }] := rfl
    rw [e]
    apply replay_draws t hg
    · intro c hc
      rw [List.mem_singleton] at hc
      rw [hc]
      exact ⟨⟨rfl, rfl⟩, rfl⟩
    · intro px py hs
      exact ⟨_, List.mem_singleton.2 rfl, hs.1.symm, hs.2.symm⟩

set_option maxRecDepth 8000 in
theorem tui_primitives_clip_witness :
    tui_sample.GridOk ∧
    DrawsExactly tui_sample (tui_hline tui_sample 38 1 5 '-' 7 0)
      (fun px py => py = 1 ∧ 38 ≤ px ∧ px < 38 + 5)
      (fun _ _ => { ch := '-', fg := 7, bg := 0 }) :=
  ⟨by decide, (tui_primitives_clip tui_sample (by decide)).2.2.1 38 1 5 '-' 7 0⟩

/-! ## Text input: what the draw shows -/

theorem putc_blink (t : TUI) (x y : Int) (ch : Char) (fg bg : Nat) :
    (tui_putc t x y ch fg bg).blink_on = t.blink_on := by
  unfold tui_putc
  split_ifs <;> rfl

theorem foldl_putc_replay {α : Type} (g : Bool → α → TUI_Put) (l : List α) :
    ∀ t : TUI,
      l.foldl (fun t i => tui_putc t (g t.blink_on i).x (g t.blink_on i).y (g t.blink_on i).ch
          (g t.blink_on i).fg (g t.blink_on i).bg) t
        = tui_replay t (l.map (g t.blink_on)) := by
  induction l with
  | nil => intro t; rfl
  | cons a l ih =>
    intro t
    simp only [List.foldl_cons, List.map_cons]
    rw [ih, putc_blink]
    rfl

theorem draw_input_replay (t : TUI) (x y w : Int) (s : TUI_InputState) (focused : Bool)
    (fg bg cf cb : Nat) (hw : 1 ≤ w - 2) (hn : NUL ∈ s.text) :
    tui_draw_input t x y w s focused fg bg cf cb
      = some (tui_replay t (draw_input_calls x y w (input_scroll_adjust (w - 2) s) focused
                t.blink_on fg bg cf cb), input_scroll_adjust (w - 2) s) := by
  obtain ⟨-, ht, -⟩ := scroll_adjust_fields (w - 2) s
  have hn2 : NUL ∈ (input_scroll_adjust (w - 2) s).text := by rw [ht]; exact hn
  have hlen : buf_strlen (input_scroll_adjust (w - 2) s).text
      = some (strlen (input_scroll_adjust (w - 2) s).text) := by
    simp only [buf_strlen, if_pos hn2, strlen]
  have hnw : ¬ (w - 2 < 1) := by omega
  have hl : (do let a ← List.range (w - 2).toNat; pure (a : Int))
      = (List.range (w - 2).toNat).map (fun (a : Nat) => (a : Int)) := by
    have hl2 : ∀ l : List Nat, (l.flatMap fun a => [(a : Int)])
        = l.map (fun (a : Nat) => (a : Int)) := by
      intro l
      induction l with
      | nil => rfl
      | cons a l ih => simp only [List.flatMap_cons, List.map_cons, ih, List.singleton_append]
    simp only [List.bind_eq_flatMap, List.pure_def]
    exact hl2 _
  simp only [tui_draw_input, if_neg hnw, hlen, Option.bind_eq_bind, Option.some_bind,
    Option.pure_def]
  have hf := foldl_putc_replay
    (fun (b : Bool) (i : Int) =>
      ({ x := x + 1 + i, y := y,
         ch := if (input_scroll_adjust (w - 2) s).scroll + i
                  < strlen (input_scroll_adjust (w - 2) s).text
               then (input_scroll_adjust (w - 2) s).text.getD
                  ((input_scroll_adjust (w - 2) s).scroll + i).toNat ' ' else ' ',
         fg := if focused && ((input_scroll_adjust (w - 2) s).scroll + i
                  == (input_scroll_adjust (w - 2) s).cursor) && b then cf else fg,
         bg := if focused && ((input_scroll_adjust (w - 2) s).scroll + i
                  == (input_scroll_adjust (w - 2) s).cursor) && b then cb else bg } : TUI_Put))
    ((List.range (w - 2).toNat).map (fun (a : Nat) => (a : Int)))
    (tui_putc (tui_putc t x y '[' fg bg) (x + w - 1) y ']' fg bg)
  simp only at hf
  rw [hl, hf]
  simp only [putc_blink, List.map_map]
  rfl

theorem at_cur_iff (focused blink : Bool) (a b : Int) :
    (focused && (a == b) && blink) = true ↔ (focused = true ∧ blink = true ∧ a = b) := by
  cases focused <;> cases blink <;> simp

theorem mem_draw_input_calls (x y w : Int) (s : TUI_InputState) (focused blink_on : Bool)
    (fg bg cf cb : Nat) (c : TUI_Put) :
    c ∈ draw_input_calls x y w s focused blink_on fg bg cf cb ↔
      c = { x := x, y := y, ch := '[', fg := fg, bg := bg } ∨
      c = { x := x + w - 1, y := y, ch := ']', fg := fg, bg := bg } ∨
      ∃ i : Nat, (i : Int) < w - 2 ∧
        c = { x := x + 1 + (i : Int), y := y,
              ch := if s.scroll + (i : Int) < strlen s.text
                    then s.text.getD (s.scroll + (i : Int)).toNat ' ' else ' ',
              fg := if focused = true ∧ blink_on = true ∧ s.scroll + (i : Int) = s.cursor
                    then cf else fg,
              bg := if focused = true ∧ blink_on = true ∧ s.scroll + (i : Int) = s.cursor
                    then cb else bg } := by
  simp only [draw_input_calls, List.mem_cons, List.mem_map, List.mem_range, at_cur_iff]
  constructor
  · rintro (h | h | ⟨i, hi, rfl⟩)
    · exact Or.inl h
    · exact Or.inr (Or.inl h)
    · exact Or.inr (Or.inr ⟨i, by omega, rfl⟩)
  · rintro (h | h | ⟨i, hi, rfl⟩)
    · exact Or.inl h
    · exact Or.inr (Or.inl h)
    · exact Or.inr (Or.inr ⟨i, by omega, rfl⟩)

/-- C25: for a field of width `w ≥ 3` that lies inside the grid, on a buffer that
holds a string, `tui_draw_input` returns, and afterwards: the cell `(x, y)` holds `[`
and the cell `(x + w - 1, y)` holds `]`, both in the base colours; for `0 ≤ i < w - 2`
the cell `(x + 1 + i, y)` holds `text[scroll + i]` when `scroll + i < strlen(text)`
and a space otherwise, `scroll` being the offset after the draw, in the cursor
colours when the field is focused, the blink flag is on and `scroll + i = cursor`, and
in the base colours otherwise. -/
theorem tui_draw_input_cells (t : TUI) (x y w : Int) (s : TUI_InputState) (focused : Bool)
    (fg bg cf cb : Nat) (hg : t.GridOk) (hn : NUL ∈ s.text) (hw : 3 ≤ w)
    (hx0 : 0 ≤ x) (hx1 : x + w ≤ t.cols) (hy0 : 0 ≤ y) (hy1 : y < t.rows) :
    ∃ t1 s1, tui_draw_input t x y w s focused fg bg cf cb = some (t1, s1) ∧
      tui_cell t1 x y = some { ch := '[', fg := fg, bg := bg } ∧
      tui_cell t1 (x + w - 1) y = some { ch := ']', fg := fg, bg := bg } ∧
      ∀ i : Nat, (i : Int) < w - 2 →
        tui_cell t1 (x + 1 + (i : Int)) y = some
          { ch := if s1.scroll + (i : Int) < strlen s1.text
                  then s1.text.getD (s1.scroll + (i : Int)).toNat ' ' else ' ',
            fg := if focused = true ∧ t.blink_on = true ∧ s1.scroll + (i : Int) = s1.cursor
                  then cf else fg,
            bg := if focused = true ∧ t.blink_on = true ∧ s1.scroll + (i : Int) = s1.cursor
                  then cb else bg } := by
  obtain ⟨s1, hs1⟩ : ∃ s1, s1 = input_scroll_adjust (w - 2) s := ⟨_, rfl⟩
  have hdraw := draw_input_replay t x y w s focused fg bg cf cb (by omega) hn
  rw [← hs1] at hdraw
  have key : ∀ (px : Int) (v : TUI_Cell), 0 ≤ px → px < t.cols →
      (∀ c ∈ draw_input_calls x y w s1 focused t.blink_on fg bg cf cb,
        c.x = px ∧ c.y = y → ({ ch := c.ch, fg := c.fg, bg := c.bg } : TUI_Cell) = v) →
      (∃ c ∈ draw_input_calls x y w s1 focused t.blink_on fg bg cf cb, c.x = px ∧ c.y = y) →
      tui_cell (tui_replay t (draw_input_calls x y w s1 focused t.blink_on fg bg cf cb)) px y
        = some v := by
    intro px v h0 h1 hall hex
    obtain ⟨cell, e1, e2⟩ := replay_cell_pred (fun cell => cell = v) _ px y t hg h0 h1 hy0 hy1
      hall (Or.inl hex)
    rw [e1, e2]
  refine ⟨_, s1, hdraw, ?_, ?_, ?_⟩
  · apply key x _ hx0 (by omega)
    · intro c hc hat
      rcases (mem_draw_input_calls _ _ _ _ _ _ _ _ _ _ c).1 hc with e | e | ⟨i, hi, e⟩
      · rw [e]
      · have : c.x = x + w - 1 := by rw [e]
        omega
      · have : c.x = x + 1 + (i : Int) := by rw [e]
        omega
    · exact ⟨_, (mem_draw_input_calls _ _ _ _ _ _ _ _ _ _ _).2 (Or.inl rfl), rfl, rfl⟩
  · apply key (x + w - 1) _ (by omega) (by omega)
    · intro c hc hat
      rcases (mem_draw_input_calls _ _ _ _ _ _ _ _ _ _ c).1 hc with e | e | ⟨i, hi, e⟩
      · have : c.x = x := by rw [e]
        omega
      · rw [e]
      · have : c.x = x + 1 + (i : Int) := by rw [e]
        omega
    · exact ⟨_, (mem_draw_input_calls _ _ _ _ _ _ _ _ _ _ _).2 (Or.inr (Or.inl rfl)), rfl, rfl⟩
  · intro i hi
    apply key (x + 1 + (i : Int)) _ (by omega) (by omega)
    · intro c hc hat
      rcases (mem_draw_input_calls _ _ _ _ _ _ _ _ _ _ c).1 hc with e | e | ⟨j, hj, e⟩
      · have : c.x = x := by rw [e]
        omega
      · have : c.x = x + w - 1 := by rw [e]
        omega
      · have hcx : c.x = x + 1 + (j : Int) := by rw [e]
        have hji : j = i := by omega
        rw [e, hji]
    · exact ⟨_, (mem_draw_input_calls _ _ _ _ _ _ _ _ _ _ _).2 (Or.inr (Or.inr ⟨i, hi, rfl⟩)),
        rfl, rfl⟩

set_option maxRecDepth 8000 in
theorem tui_draw_input_cells_witness :
    tui_sample.GridOk ∧ NUL ∈ input_sample.text ∧ (3 : Int) ≤ 10 ∧ (0 : Int) ≤ 2 ∧
    (2 : Int) + 10 ≤ tui_sample.cols ∧ (0 : Int) ≤ 1 ∧ (1 : Int) < tui_sample.rows ∧
    ∃ t1 s1, tui_draw_input tui_sample 2 1 10 input_sample true 7 0 0 7 = some (t1, s1) ∧
      tui_cell t1 2 1 = some { ch := '[', fg := 7, bg := 0 } ∧
      tui_cell t1 (2 + 10 - 1) 1 = some { ch := ']', fg := 7, bg := 0 } ∧
      ∀ i : Nat, (i : Int) < 10 - 2 →
        tui_cell t1 (2 + 1 + (i : Int)) 1 = some
          { ch := if s1.scroll + (i : Int) < strlen s1.text
                  then s1.text.getD (s1.scroll + (i : Int)).toNat ' ' else ' ',
            fg := if true = true ∧ tui_sample.blink_on = true ∧ s1.scroll + (i : Int) = s1.cursor
                  then 0 else 7,
            bg := if true = true ∧ tui_sample.blink_on = true ∧ s1.scroll + (i : Int) = s1.cursor
                  then 7 else 0 } :=
  ⟨by decide, by decide, by decide, by decide, by decide, by decide, by decide,
   tui_draw_input_cells tui_sample 2 1 10 input_sample true 7 0 0 7 (by decide) (by decide)
     (by decide) (by decide) (by decide) (by decide) (by decide)⟩

/-! ## Menu drawing: colours of the items -/

theorem menu_h_off_zero (items : List (List Char)) : menu_h_off items 0 = 0 := by
  simp [menu_h_off]

theorem menu_h_off_cons (it : List Char) (rest : List (List Char)) (n : Nat) :
    menu_h_off (it :: rest) (n + 1) = strlen it + 3 + menu_h_off rest n := by
  simp [menu_h_off]

theorem menu_h_off_nonneg (items : List (List Char)) : ∀ n, 0 ≤ menu_h_off items n := by
  induction items with
  | nil => intro n; simp [menu_h_off]
  | cons it rest ih =>
    intro n
    cases n with
    | zero => rw [menu_h_off_zero]
    | succ n =>
      rw [menu_h_off_cons]
      have := ih n
      have := strlen_nonneg it
      omega

theorem menu_h_loop_ge (y count selected : Int) (focused blink_on : Bool) (fg bg sf sb : Nat)
    (items : List (List Char)) :
    ∀ (i cx : Int), ∀ c ∈ menu_h_loop y count selected focused blink_on fg bg sf sb i cx items,
      cx ≤ c.x ∧ c.y = y := by
  induction items with
  | nil => intro i cx c hc; simp [menu_h_loop] at hc
  | cons it rest ih =>
    intro i cx c hc
    have hs := strlen_nonneg it
    simp only [menu_h_loop, List.mem_cons, List.mem_append] at hc
    rcases hc with e | hc | e | hc | hc
    · rw [e]; exact ⟨le_refl _, rfl⟩
    · obtain ⟨j, hj, e⟩ := (mem_puts_calls _ _ _ _ _ c).1 hc
      rw [e]; exact ⟨by simp only; omega, rfl⟩
    · rw [e]; exact ⟨by simp only; omega, rfl⟩
    · by_cases hlt : i < count - 1
      · rw [if_pos hlt, List.mem_singleton] at hc
        rw [hc]; exact ⟨by simp only; omega, rfl⟩
      · rw [if_neg hlt] at hc; simp at hc
    · have := ih _ _ c hc
      refine ⟨?_, this.2⟩
      have h1 := this.1
      split_ifs at h1 <;> omega

/-- The calls of `menu_h_loop` at a column of the item of index `n` (counted from the
first item of the loop) belong to that item: they have its colours, and there is
one. -/
theorem menu_h_cells (y count selected : Int) (focused blink_on : Bool) (fg bg sf sb : Nat)
    (items : List (List Char)) :
    ∀ (i0 cx : Int) (n k : Nat), i0 + (items.length : Int) ≤ count → n < items.length →
      (k : Int) < strlen (items.getD n []) + 2 →
      (∀ c ∈ menu_h_loop y count selected focused blink_on fg bg sf sb i0 cx items,
        c.x = cx + menu_h_off items n + (k : Int) →
        c.fg = (if ((i0 + (n : Int) == selected) && (!focused || blink_on)) = true
                then sf else fg) ∧
        c.bg = (if ((i0 + (n : Int) == selected) && (!focused || blink_on)) = true
                then sb else bg)) ∧
      (∃ c ∈ menu_h_loop y count selected focused blink_on fg bg sf sb i0 cx items,
        c.x = cx + menu_h_off items n + (k : Int) ∧ c.y = y) := by
  induction items with
  | nil => intro i0 cx n k _ hn; simp at hn
  | cons it rest ih =>
    intro i0 cx n k hcount hn hk
    have hs := strlen_nonneg it
    cases n with
    | zero =>
      simp only [List.getD_cons_zero] at hk
      rw [menu_h_off_zero]
      have e0 : i0 + ((0 : Nat) : Int) = i0 := by simp
      rw [e0]
      constructor
      · intro c hc hx
        simp only [menu_h_loop, List.mem_cons, List.mem_append] at hc
        rcases hc with e | hc | e | hc | hc
        · rw [e]; exact ⟨rfl, rfl⟩
        · obtain ⟨j, hj, e⟩ := (mem_puts_calls _ _ _ _ _ c).1 hc
          rw [e]; exact ⟨rfl, rfl⟩
        · rw [e]; exact ⟨rfl, rfl⟩
        · by_cases hlt : i0 < count - 1
          · rw [if_pos hlt, List.mem_singleton] at hc
            have : c.x = cx + 1 + strlen it + 1 := by rw [hc]
            omega
          · rw [if_neg hlt] at hc; simp at hc
        · have h1 := (menu_h_loop_ge y count selected focused blink_on fg bg sf sb rest _ _ c hc).1
          split_ifs at h1 <;> omega
      · by_cases hk0 : k = 0
        · refine ⟨TUI_Put.mk cx y ' '
            (if ((i0 == selected) && (!focused || blink_on)) = true then sf else fg)
            (if ((i0 == selected) && (!focused || blink_on)) = true then sb else bg), ?_, ?_, rfl⟩
          · simp only [menu_h_loop, List.mem_cons, true_or]
          · simp only; omega
        · by_cases hk1 : (k : Int) = strlen it + 1
          · refine ⟨TUI_Put.mk (cx + 1 + strlen it) y ' '
              (if ((i0 == selected) && (!focused || blink_on)) = true then sf else fg)
              (if ((i0 == selected) && (!focused || blink_on)) = true then sb else bg), ?_, ?_, rfl⟩
            · simp only [menu_h_loop, List.mem_cons, List.mem_append, true_or, or_true]
            · simp only; omega
          · have hj : k - 1 < (cstr it).length := by
              simp only [strlen] at hk hk1; omega
            refine ⟨TUI_Put.mk (cx + 1 + ((k - 1 : Nat) : Int)) y (it.getD (k - 1) NUL)
              (if ((i0 == selected) && (!focused || blink_on)) = true then sf else fg)
              (if ((i0 == selected) && (!focused || blink_on)) = true then sb else bg), ?_, ?_, rfl⟩
            · simp only [menu_h_loop, List.mem_cons, List.mem_append]
              exact Or.inr (Or.inl ((mem_puts_calls _ _ _ _ _ _).2 ⟨k - 1, hj, rfl⟩))
            · simp only; omega
    | succ n =>
      simp only [List.getD_cons_succ] at hk
      simp only [List.length_cons] at hcount hn
      have hlt : i0 < count - 1 := by omega
      have hoff := menu_h_off_nonneg rest n
      obtain ⟨ih1, ih2⟩ := ih (i0 + 1) (cx + 1 + strlen it + 1 + 1) n k (by push_cast at hcount ⊢; omega)
        (by omega) hk
      have ep : cx + menu_h_off (it :: rest) (n + 1) + (k : Int)
          = cx + 1 + strlen it + 1 + 1 + menu_h_off rest n + (k : Int) := by
        rw [menu_h_off_cons]; omega
      have ei : i0 + ((n + 1 : Nat) : Int) = i0 + 1 + (n : Int) := by push_cast; omega
      rw [ep, ei]
      constructor
      · intro c hc hx
        simp only [menu_h_loop, List.mem_cons, List.mem_append, if_pos hlt,
          List.mem_singleton, List.not_mem_nil, or_false] at hc
        rcases hc with e | hc | e | e | hc
        · have : c.x = cx := by rw [e]
          omega
        · obtain ⟨j, hj, e⟩ := (mem_puts_calls _ _ _ _ _ c).1 hc
          have : c.x = cx + 1 + (j : Int) := by rw [e]
          simp only [strlen] at *
          omega
        · have : c.x = cx + 1 + strlen it := by rw [e]
          omega
        · have : c.x = cx + 1 + strlen it + 1 := by rw [e]
          omega
        · exact ih1 c hc hx
      · obtain ⟨c, hc, hx, hy⟩ := ih2
        refine ⟨c, ?_, hx, hy⟩
        simp only [menu_h_loop, List.mem_cons, List.mem_append, if_pos hlt]
        exact Or.inr (Or.inr (Or.inr (Or.inr hc)))

theorem menu_v_rows (x y w selected : Int) (focused blink_on : Bool) (fg bg sf sb : Nat)
    (items : List (List Char)) :
    ∀ (i0 : Int), ∀ c ∈ menu_v_loop x y w selected focused blink_on fg bg sf sb i0 items,
      ∃ n : Nat, n < items.length ∧ c.y = y + (i0 + (n : Int)) ∧
        c.fg = (if (i0 + (n : Int) == selected) = true then sf else fg) ∧
        c.bg = (if (i0 + (n : Int) == selected) = true then sb else bg) ∧
        (c.x = x ∨ x + 2 ≤ c.x ∨ (x ≤ c.x ∧ c.x < x + w)) := by
  induction items with
  | nil => intro i0 c hc; simp [menu_v_loop] at hc
  | cons it rest ih =>
    intro i0 c hc
    simp only [menu_v_loop, List.mem_cons, List.mem_append] at hc
    have e0 : i0 + ((0 : Nat) : Int) = i0 := by simp
    rcases hc with hc | e | hc | hc
    · obtain ⟨r, j, hr, hj, e⟩ := (mem_fill_calls _ _ _ _ _ _ _ c).1 hc
      have hr0 : r = 0 := by omega
      refine ⟨0, by simp, ?_, ?_, ?_, ?_⟩
      · rw [e, e0, hr0]; simp
      · rw [e, e0]
      · rw [e, e0]
      · have : c.x = x + (j : Int) := by rw [e]
        right; right; omega
    · refine ⟨0, by simp, ?_, ?_, ?_, ?_⟩
      · rw [e, e0]
      · rw [e, e0]
      · rw [e, e0]
      · left; rw [e]
    · obtain ⟨j, hj, e⟩ := (mem_puts_calls _ _ _ _ _ c).1 hc
      refine ⟨0, by simp, ?_, ?_, ?_, ?_⟩
      · rw [e, e0]
      · rw [e, e0]
      · rw [e, e0]
      · have : c.x = x + 2 + (j : Int) := by rw [e]
        right; left; omega
    · obtain ⟨n, hn, h1, h2, h3, h4⟩ := ih (i0 + 1) c hc
      have ei : i0 + ((n + 1 : Nat) : Int) = i0 + 1 + (n : Int) := by push_cast; omega
      refine ⟨n + 1, by simpa using hn, ?_, ?_, ?_, h4⟩
      · rw [ei]; exact h1
      · rw [ei]; exact h2
      · rw [ei]; exact h3

theorem menu_v_exists (x y w selected : Int) (focused blink_on : Bool) (fg bg sf sb : Nat)
    (items : List (List Char)) :
    ∀ (i0 : Int) (n : Nat) (px : Int), n < items.length →
      ((x ≤ px ∧ px < x + w) ∨ (x + 2 ≤ px ∧ px < x + 2 + strlen (items.getD n [])) ∨ px = x) →
      ∃ c ∈ menu_v_loop x y w selected focused blink_on fg bg sf sb i0 items,
        c.x = px ∧ c.y = y + (i0 + (n : Int)) := by
  induction items with
  | nil => intro i0 n px hn; simp at hn
  | cons it rest ih =>
    intro i0 n px hn hpx
    cases n with
    | zero =>
      have e0 : i0 + ((0 : Nat) : Int) = i0 := by simp
      simp only [List.getD_cons_zero] at hpx
      rw [e0]
      rcases hpx with h | h | h
      · refine ⟨TUI_Put.mk (x + ((px - x).toNat : Int)) (y + i0 + ((0 : Nat) : Int)) ' '
          (if (i0 == selected) = true then sf else fg)
          (if (i0 == selected) = true then sb else bg), ?_, ?_, ?_⟩
        · simp only [menu_v_loop, List.mem_cons, List.mem_append]
          exact Or.inl ((mem_fill_calls _ _ _ _ _ _ _ _).2
            ⟨0, (px - x).toNat, by simp, by omega, rfl⟩)
        · simp only; omega
        · simp
      · refine ⟨TUI_Put.mk (x + 2 + ((px - x - 2).toNat : Int)) (y + i0)
          (it.getD (px - x - 2).toNat NUL)
          (if (i0 == selected) = true then sf else fg)
          (if (i0 == selected) = true then sb else bg), ?_, ?_, rfl⟩
        · simp only [menu_v_loop, List.mem_cons, List.mem_append]
          refine Or.inr (Or.inr (Or.inl ((mem_puts_calls _ _ _ _ _ _).2
            ⟨(px - x - 2).toNat, ?_, rfl⟩)))
          simp only [strlen] at h; omega
        · simp only; omega
      · refine ⟨TUI_Put.mk x (y + i0) (menu_v_marker (i0 == selected) focused blink_on)
          (if (i0 == selected) = true then sf else fg)
          (if (i0 == selected) = true then sb else bg), ?_, h.symm, rfl⟩
        simp only [menu_v_loop, List.mem_cons, List.mem_append, true_or, or_true]
    | succ n =>
      simp only [List.getD_cons_succ] at hpx
      obtain ⟨c, hc, hx, hy⟩ := ih (i0 + 1) n px (by simpa using hn) hpx
      have ei : i0 + ((n + 1 : Nat) : Int) = i0 + 1 + (n : Int) := by push_cast; omega
      refine ⟨c, ?_, hx, by rw [ei]; exact hy⟩
      simp only [menu_v_loop, List.mem_cons, List.mem_append]
      exact Or.inr (Or.inr (Or.inr hc))

/-- The call that writes the marker of the item of index `n` is the last one at its
position. -/
theorem menu_v_marker_last (x y w selected : Int) (focused blink_on : Bool)
    (fg bg sf sb : Nat) (items : List (List Char)) :
    ∀ (i0 : Int) (n : Nat), n < items.length →
      ∃ A B c, menu_v_loop x y w selected focused blink_on fg bg sf sb i0 items = A ++ c :: B ∧
        c.x = x ∧ c.y = y + (i0 + (n : Int)) ∧
        c.ch = menu_v_marker (i0 + (n : Int) == selected) focused blink_on ∧
        ∀ b ∈ B, ¬ (b.x = c.x ∧ b.y = c.y) := by
  induction items with
  | nil => intro i0 n hn; simp at hn
  | cons it rest ih =>
    intro i0 n hn
    cases n with
    | zero =>
      have e0 : i0 + ((0 : Nat) : Int) = i0 := by simp
      rw [e0]
      refine ⟨_, _, _, rfl, rfl, rfl, rfl, ?_⟩
      intro b hb hat
      simp only at hat
      rcases List.mem_append.1 hb with hb | hb
      · obtain ⟨j, hj, e⟩ := (mem_puts_calls _ _ _ _ _ b).1 hb
        have : b.x = x + 2 + (j : Int) := by rw [e]
        omega
      · obtain ⟨m, -, hy, -⟩ := menu_v_rows x y w selected focused blink_on fg bg sf sb rest
          (i0 + 1) b hb
        omega
    | succ n =>
      obtain ⟨A, B, c, hsplit, hx, hy, hch, hB⟩ := ih (i0 + 1) n (by simpa using hn)
      have ei : i0 + ((n + 1 : Nat) : Int) = i0 + 1 + (n : Int) := by push_cast; omega
      refine ⟨tui_fill_calls x (y + i0) w 1 ' ' (if (i0 == selected) = true then sf else fg)
            (if (i0 == selected) = true then sb else bg)
          ++ TUI_Put.mk x (y + i0) (menu_v_marker (i0 == selected) focused blink_on)
              (if (i0 == selected) = true then sf else fg)
              (if (i0 == selected) = true then sb else bg)
            :: (tui_puts_calls (x + 2) (y + i0) it (if (i0 == selected) = true then sf else fg)
                (if (i0 == selected) = true then sb else bg) ++ A),
        B, c, ?_, hx, by rw [ei]; exact hy, by rw [ei]; exact hch, hB⟩
      simp only [menu_v_loop, hsplit, List.append_assoc, List.cons_append]

theorem highlight_iff (i selected : Int) (focused blink : Bool) :
    ((i == selected) && (!focused || blink)) = true ↔
      (i = selected ∧ (focused = false ∨ blink = true)) := by
  cases focused <;> cases blink <;> simp

theorem menu_v_marker_eq (i selected : Int) (focused blink : Bool) :
    menu_v_marker (i == selected) focused blink
      = (if i = selected ∧ (focused = false ∨ blink = true) then '>' else ' ') := by
  unfold menu_v_marker
  by_cases h : i = selected
  · cases focused <;> cases blink <;> simp [h]
  · simp [h]

/-- C26, as amended. Horizontal menu: every cell of an item (its text and the space
on either side) is drawn in the selection colours when the item is the selected one
and the menu is not focused or the blink flag is on, and in the base colours
otherwise. Vertical menu: every cell of an item's row that the draw writes is in the
selection colours when the item is the selected one, whatever the focus and the blink
flag are, and in the base colours otherwise; the first cell of the row holds the
marker, `>` for the selected item unless the menu is focused and the blink flag is
off, and a space otherwise. Cells are read at the positions inside the grid. -/
theorem tui_draw_menu_colours (t : TUI) (hg : t.GridOk) (x y : Int)
    (items : List (List Char)) (s : TUI_MenuState) (focused : Bool) (fg bg sf sb : Nat) :
    (∃ t1, tui_draw_menu_h t x y items (items.length : Int) s focused fg bg sf sb = some t1 ∧
      ∀ (i k : Nat), i < items.length → (k : Int) < strlen (items.getD i []) + 2 →
        0 ≤ x + menu_h_off items i + (k : Int) → x + menu_h_off items i + (k : Int) < t.cols →
        0 ≤ y → y < t.rows →
        ∃ cell, tui_cell t1 (x + menu_h_off items i + (k : Int)) y = some cell ∧
          cell.fg = (if (i : Int) = s.selected ∧ (focused = false ∨ t.blink_on = true)
                      then sf else fg) ∧
          cell.bg = (if (i : Int) = s.selected ∧ (focused = false ∨ t.blink_on = true)
                      then sb else bg)) ∧
    (∀ w : Int,
      ∃ t1, tui_draw_menu_v t x y w items (items.length : Int) s focused fg bg sf sb = some t1 ∧
        (∀ (i : Nat) (px : Int), i < items.length →
          ((x ≤ px ∧ px < x + w) ∨ (x + 2 ≤ px ∧ px < x + 2 + strlen (items.getD i [])) ∨
            px = x) →
          0 ≤ px → px < t.cols → 0 ≤ y + (i : Int) → y + (i : Int) < t.rows →
          ∃ cell, tui_cell t1 px (y + (i : Int)) = some cell ∧
            cell.fg = (if (i : Int) = s.selected then sf else fg) ∧
            cell.bg = (if (i : Int) = s.selected then sb else bg)) ∧
        (∀ i : Nat, i < items.length →
          0 ≤ x → x < t.cols → 0 ≤ y + (i : Int) → y + (i : Int) < t.rows →
          ∃ cell, tui_cell t1 x (y + (i : Int)) = some cell ∧
            cell.ch = (if (i : Int) = s.selected ∧ (focused = false ∨ t.blink_on = true)
                        then '>' else ' '))) := by
  have htake : items.take ((items.length : Int)).toNat = items := by
    rw [Int.toNat_ofNat]; exact List.take_length items
  have hle : ((items.length : Int)).toNat ≤ items.length := by rw [Int.toNat_ofNat]
  constructor
  · refine ⟨tui_replay t (menu_h_loop y (items.length : Int) s.selected focused t.blink_on
        fg bg sf sb 0 x items), by simp only [tui_draw_menu_h, if_pos hle, htake], ?_⟩
    intro i k hi hk hx0 hx1 hy0 hy1
    obtain ⟨h1, h2⟩ := menu_h_cells y (items.length : Int) s.selected focused t.blink_on
      fg bg sf sb items 0 x i k (by omega) hi hk
    have e0 : (0 : Int) + (i : Int) = (i : Int) := by omega
    rw [e0] at h1
    simp only [highlight_iff] at h1
    obtain ⟨cell, hc1, hc2⟩ := replay_cell_pred
      (fun cell => cell.fg = (if (i : Int) = s.selected ∧ (focused = false ∨ t.blink_on = true)
          then sf else fg) ∧
        cell.bg = (if (i : Int) = s.selected ∧ (focused = false ∨ t.blink_on = true)
          then sb else bg))
      _ (x + menu_h_off items i + (k : Int)) y t hg hx0 hx1 hy0 hy1
      (fun c hc hat => h1 c hc hat.1)
      (Or.inl h2)
    exact ⟨cell, hc1, hc2⟩
  · intro w
    refine ⟨tui_replay t (menu_v_loop x y w s.selected focused t.blink_on fg bg sf sb 0
        items), by simp only [tui_draw_menu_v, if_pos hle, htake], ?_, ?_⟩
    · intro i px hi hpx hx0 hx1 hy0 hy1
      obtain ⟨c0, hc0, hc0x, hc0y⟩ := menu_v_exists x y w s.selected focused t.blink_on
        fg bg sf sb items 0 i px hi hpx
      have e0 : (0 : Int) + (i : Int) = (i : Int) := by omega
      rw [e0] at hc0y
      obtain ⟨cell, hc1, hc2⟩ := replay_cell_pred
        (fun cell => cell.fg = (if (i : Int) = s.selected then sf else fg) ∧
          cell.bg = (if (i : Int) = s.selected then sb else bg))
        _ px (y + (i : Int)) t hg hx0 hx1 hy0 hy1
        (fun c hc hat => by
          obtain ⟨n, -, hy, hf, hb, -⟩ := menu_v_rows x y w s.selected focused t.blink_on
            fg bg sf sb items 0 c hc
          have hn : n = i := by omega
          rw [hn, e0] at hf hb
          simp only [beq_iff_eq] at hf hb
          exact ⟨hf, hb⟩)
        (Or.inl ⟨c0, hc0, hc0x, hc0y⟩)
      exact ⟨cell, hc1, hc2⟩
    · intro i hi hx0 hx1 hy0 hy1
      obtain ⟨A, B, c, hsplit, hcx, hcy, hch, hB⟩ := menu_v_marker_last x y w s.selected focused
        t.blink_on fg bg sf sb items 0 i hi
      have e0 : (0 : Int) + (i : Int) = (i : Int) := by omega
      rw [e0] at hcy hch
      rw [menu_v_marker_eq] at hch
      have := replay_cell_last A B c t hg (by omega) (by omega) (by omega) (by omega) hB
      rw [← hsplit, hcx, hcy] at this
      exact ⟨_, this, hch⟩

set_option maxRecDepth 8000 in
theorem tui_draw_menu_colours_witness :
    tui_blink_off_sample.GridOk ∧
    ∃ t1, tui_draw_menu_v tui_blink_off_sample 2 1 10 menu_items_sample
        (menu_items_sample.length : Int) tui_menu_init true 7 0 15 4 = some t1 ∧
      (∀ (i : Nat) (px : Int), i < menu_items_sample.length →
        ((2 ≤ px ∧ px < 2 + 10) ∨
          (2 + 2 ≤ px ∧ px < 2 + 2 + strlen (menu_items_sample.getD i [])) ∨ px = 2) →
        0 ≤ px → px < tui_blink_off_sample.cols → 0 ≤ 1 + (i : Int) →
        1 + (i : Int) < tui_blink_off_sample.rows →
        ∃ cell, tui_cell t1 px (1 + (i : Int)) = some cell ∧
          cell.fg = (if (i : Int) = tui_menu_init.selected then 15 else 7) ∧
          cell.bg = (if (i : Int) = tui_menu_init.selected then 4 else 0)) ∧
      (∀ i : Nat, i < menu_items_sample.length →
        (0 : Int) ≤ 2 → 2 < tui_blink_off_sample.cols → 0 ≤ 1 + (i : Int) →
        1 + (i : Int) < tui_blink_off_sample.rows →
        ∃ cell, tui_cell t1 2 (1 + (i : Int)) = some cell ∧
          cell.ch = (if (i : Int) = tui_menu_init.selected ∧
                        (true = false ∨ tui_blink_off_sample.blink_on = true)
                      then '>' else ' ')) :=
  ⟨by decide,
   (tui_draw_menu_colours tui_blink_off_sample (by decide) 2 1 menu_items_sample
     tui_menu_init true 7 0 15 4).2 10⟩

set_option maxRecDepth 20000 in
/-- C26 as stated fails for the vertical menu: focused and with the blink flag off,
the selected item `Save` is still drawn in the selection colours. -/
theorem tui_draw_menu_v_counterexample :
    tui_blink_off_sample.blink_on = false ∧ tui_menu_init.selected = 0 ∧
    (tui_draw_menu_v tui_blink_off_sample 2 1 10 menu_items_sample 2 tui_menu_init true
        7 0 15 4).map (fun t1 => tui_cell t1 4 1)
      = some (some { ch := 'S', fg := 15, bg := 4 }) := by
  decide

/-! ## Word wrap: what is written -/

/-- The character and the colours that a call writes. -/
theorem wrap_hard_cells (x y w : Int) (fg bg : Nat) (word : List Char) :
    ∀ cx cy : Int, (wrap_hard x y w fg bg word cx cy).1.map (fun c => (c.ch, c.fg, c.bg))
      = word.map (fun ch => (ch, fg, bg)) := by
  induction word with
  | nil => intro cx cy; rfl
  | cons c cs ih =>
    intro cx cy
    simp only [wrap_hard, List.map_cons, ih]

theorem wrap_soft_cells (x y : Int) (fg bg : Nat) (word : List Char) :
    ∀ cx cy : Int, (wrap_soft x y fg bg word cx cy).1.map (fun c => (c.ch, c.fg, c.bg))
      = word.map (fun ch => (ch, fg, bg)) := by
  induction word with
  | nil => intro cx cy; rfl
  | cons c cs ih =>
    intro cx cy
    simp only [wrap_soft, List.map_cons, ih]

theorem wrap_word_cells (x y w : Int) (fg bg : Nat) (wl : Nat) (word : List Char)
    (cx cy : Int) :
    (wrap_word x y w fg bg wl word cx cy).1.map (fun c => (c.ch, c.fg, c.bg))
      = word.map (fun ch => (ch, fg, bg)) := by
  unfold wrap_word
  split_ifs
  · exact wrap_hard_cells x y w fg bg word cx cy
  · exact wrap_soft_cells x y fg bg word _ _

theorem cstr_append_no_nul (l r : List Char) (h : NUL ∉ l) : cstr (l ++ r) = l ++ cstr r := by
  induction l with
  | nil => rfl
  | cons a l ih =>
    have ha : a ≠ NUL := fun e => h (by simp [e])
    have hl : NUL ∉ l := fun e => h (List.mem_cons_of_mem _ e)
    have ih2 := ih hl
    unfold cstr at ih2 ⊢
    simp [ha, ih2]

theorem cstr_cons (c : Char) (cs : List Char) (h : c ≠ NUL) : cstr (c :: cs) = c :: cstr cs :=
  cstr_append_no_nul [c] cs (by simp [Ne.symm h])

/-- The visible characters of a text: those of the C string that are neither a space
nor a newline. -/
theorem wrap_step_cells (x y w : Int) (fg bg : Nat) (c : Char) (cs : List Char)
    (cx cy : Int) (hc : c ≠ NUL) :
    ((cstr (c :: cs)).filter (fun ch => ch != ' ' && ch != '\n')).map (fun ch => (ch, fg, bg))
      = (wrap_step x y w fg bg c cs cx cy).1.map (fun p => (p.ch, p.fg, p.bg))
        ++ ((cstr (wrap_step x y w fg bg c cs cx cy).2.1).filter
              (fun ch => ch != ' ' && ch != '\n')).map (fun ch => (ch, fg, bg)) := by
  unfold wrap_step
  by_cases hnl : c = '\n'
  · simp only [if_pos hnl, List.map_nil, List.nil_append]
    rw [cstr_cons c cs hc, hnl]
    simp
  · simp only [if_neg hnl]
    rw [wrap_word_cells]
    have hword := word_len_take (c :: cs)
    have hnn : NUL ∉ (c :: cs).take (word_len (c :: cs)) := by
      intro h
      exact hword NUL h (Or.inl rfl)
    have hsplit : c :: cs = (c :: cs).take (word_len (c :: cs))
        ++ (c :: cs).drop (word_len (c :: cs)) := (List.take_append_drop _ _).symm
    have hfw : ((c :: cs).take (word_len (c :: cs))).filter (fun ch => ch != ' ' && ch != '\n')
        = (c :: cs).take (word_len (c :: cs)) := by
      rw [List.filter_eq_self]
      intro a ha
      have := hword a ha
      simp only [isStop, not_or] at this
      simp [this.2.1, this.2.2]
    have hrest : (cstr ((c :: cs).drop (word_len (c :: cs)))).filter
          (fun ch => ch != ' ' && ch != '\n')
        = (cstr (wrap_space w ((c :: cs).drop (word_len (c :: cs)))
            (wrap_word x y w fg bg (word_len (c :: cs)) ((c :: cs).take (word_len (c :: cs)))
              cx cy).2.1
            (wrap_word x y w fg bg (word_len (c :: cs)) ((c :: cs).take (word_len (c :: cs)))
              cx cy).2.2).1).filter (fun ch => ch != ' ' && ch != '\n') := by
      cases hd : (c :: cs).drop (word_len (c :: cs)) with
      | nil => simp [wrap_space]
      | cons a rest =>
        by_cases ha : a = ' '
        · rw [(wrap_space_length w (a :: rest) _ _).2 rest (by rw [ha])]
          rw [cstr_cons a rest (by rw [ha]; decide), ha]
          simp
        · have : ∀ cx1 cy1, (wrap_space w (a :: rest) cx1 cy1).1 = a :: rest := by
            intro cx1 cy1
            unfold wrap_space
            split
            · next r heq =>
              exact absurd (List.cons.inj heq).1 ha
            · rfl
          rw [this]
    conv_lhs => rw [hsplit]
    rw [cstr_append_no_nul _ _ hnn, List.filter_append, hfw, hrest, List.map_append]

theorem wrap_loop_cells (x y w : Int) (fg bg : Nat) (n : Nat) :
    ∀ (s : List Char) (cx cy : Int), s.length ≤ n →
      (wrap_loop x y w fg bg n s cx cy).1.map (fun p => (p.ch, p.fg, p.bg))
        = ((cstr s).filter (fun ch => ch != ' ' && ch != '\n')).map (fun ch => (ch, fg, bg)) := by
  induction n with
  | zero =>
    intro s cx cy hs
    have : s = [] := List.length_eq_zero.1 (by omega)
    rw [this]; rfl
  | succ n ih =>
    intro s cx cy hs
    cases s with
    | nil => rfl
    | cons c cs =>
      by_cases hc : c = NUL
      · simp only [wrap_loop, if_pos hc, List.map_nil]
        rw [hc]
        simp [cstr]
      · simp only [wrap_loop, if_neg hc, List.map_append]
        have hlen := wrap_step_length x y w fg bg c cs cx cy hc
        rw [ih _ _ _ (by simp only [List.length_cons] at hs hlen; omega)]
        exact (wrap_step_cells x y w fg bg c cs cx cy hc).symm

/-! ## Word wrap: the position of a space -/

theorem wrap_step_append_stop (x y w : Int) (fg bg : Nat) (c : Char) (cs rest : List Char)
    (cx cy : Int) (hstop : ∃ d ∈ c :: cs, isStop d) :
    wrap_step x y w fg bg c (cs ++ rest) cx cy
      = ((wrap_step x y w fg bg c cs cx cy).1,
         (wrap_step x y w fg bg c cs cx cy).2.1 ++ rest,
         (wrap_step x y w fg bg c cs cx cy).2.2) := by
  unfold wrap_step
  by_cases hnl : c = '\n'
  · simp only [if_pos hnl]
  · simp only [if_neg hnl]
    obtain ⟨e1, e2⟩ := word_len_append_stop (c :: cs) rest hstop
    rw [← List.cons_append, e1, List.take_append_of_le_length (le_of_lt e2),
      List.drop_append_of_le_length (le_of_lt e2)]
    have hne : (c :: cs).drop (word_len (c :: cs)) ≠ [] := by
      intro h
      have := congrArg List.length h
      rw [List.length_drop] at this
      simp only [List.length_nil] at this
      omega
    rw [wrap_space_append w _ rest _ _ hne]

/-- One iteration of the loop at a space, entered with `cx ≤ w`: no call, and the
space is passed by `cx++`, with a line break when `cx` reaches `w`. -/
theorem wrap_step_space (x y w : Int) (fg bg : Nat) (hw : 1 ≤ w) (rest : List Char)
    (cx cy : Int) (h1 : cx ≤ w) :
    wrap_step x y w fg bg ' ' rest cx cy
      = ([], rest, if cx + 1 ≥ w then 0 else cx + 1, if cx + 1 ≥ w then cy + 1 else cy) := by
  have hnl : ¬ ((' ' : Char) = '\n') := by decide
  have h0 : word_len (' ' :: rest) = 0 := word_len_stop ' ' rest (Or.inr (Or.inl rfl))
  have hb : (decide (cx > 0) && decide (cx + ((0 : Nat) : Int) > w)) = false := by
    simp only [Bool.and_eq_false_imp, decide_eq_true_eq, decide_eq_false_iff_not]
    intro _
    simp only [Nat.cast_zero, add_zero]
    omega
  have hw0 : ¬ (((0 : Nat) : Int) > w) := by simp only [Nat.cast_zero]; omega
  simp only [wrap_step, if_neg hnl, h0, List.take_zero, List.drop_zero, wrap_word, if_neg hw0,
    hb, Bool.false_eq_true, if_false, wrap_soft, wrap_space]
  split_ifs <;> rfl

theorem wrap_loop_space (x y w : Int) (fg bg : Nat) (hw : 1 ≤ w) (rest : List Char)
    (cx cy : Int) (h1 : cx ≤ w) :
    wrap_loop x y w fg bg (' ' :: rest).length (' ' :: rest) cx cy
      = wrap_loop x y w fg bg rest.length rest (if cx + 1 ≥ w then 0 else cx + 1)
          (if cx + 1 ≥ w then cy + 1 else cy) := by
  rw [wrap_loop_cons x y w fg bg ' ' rest cx cy (by decide),
    wrap_step_space x y w fg bg hw rest cx cy h1]
  simp only [List.nil_append]

/-- The test on the space after a word, then the rest of the loop, is the loop
entered at the space. -/
theorem wrap_loop_after_space (x y w : Int) (fg bg : Nat) (hw : 1 ≤ w) (tail : List Char)
    (cx cy : Int) (h1 : cx ≤ w) :
    wrap_loop x y w fg bg (wrap_space w tail cx cy).1.length (wrap_space w tail cx cy).1
        (wrap_space w tail cx cy).2.1 (wrap_space w tail cx cy).2.2
      = wrap_loop x y w fg bg tail.length tail cx cy := by
  cases tail with
  | nil => rfl
  | cons d rest =>
    by_cases hsp : d = ' '
    · subst hsp
      rw [wrap_loop_space x y w fg bg hw rest cx cy h1]
      simp only [wrap_space]
      split_ifs <;> rfl
    · have e1 : wrap_space w (d :: rest) cx cy = (d :: rest, cx, cy) := by
        unfold wrap_space
        split
        · next r heq => exact absurd (List.cons.inj heq).1 hsp
        · rfl
      rw [e1]

/-- The loop on a text that is one word. -/
theorem wrap_loop_word (x y w : Int) (fg bg : Nat) (c : Char) (cs : List Char)
    (cx cy : Int) (hword : ∀ d ∈ c :: cs, ¬ isStop d) :
    wrap_loop x y w fg bg (c :: cs).length (c :: cs) cx cy
      = wrap_word x y w fg bg (c :: cs).length (c :: cs) cx cy := by
  have hc : c ≠ NUL := fun h => hword c (List.mem_cons_self _ _) (Or.inl h)
  have h2 := wrap_loop_cons x y w fg bg c (cs ++ []) cx cy hc
  rw [wrap_step_word x y w fg bg c cs [] cx cy hword (Or.inl rfl)] at h2
  simp only [List.append_nil] at h2
  rw [h2]
  simp only [wrap_space, List.length_nil, wrap_loop, List.append_nil]

/-- The loop on `pre ++ tail`, where `pre` holds no NUL and `tail` is empty or starts
with a space, a newline or a NUL, is the loop on `pre` followed by the loop on
`tail` from the position reached. -/
theorem wrap_loop_split (x y w : Int) (fg bg : Nat) (hw : 1 ≤ w) (n : Nat) :
    ∀ (pre : List Char), pre.length ≤ n → NUL ∉ pre → ∀ (tail : List Char), WordEnd tail →
      ∀ (cx cy : Int), cx ≤ w →
      wrap_loop x y w fg bg (pre ++ tail).length (pre ++ tail) cx cy
        = ((wrap_loop x y w fg bg pre.length pre cx cy).1
            ++ (wrap_loop x y w fg bg tail.length tail
                (wrap_loop x y w fg bg pre.length pre cx cy).2.1
                (wrap_loop x y w fg bg pre.length pre cx cy).2.2).1,
           (wrap_loop x y w fg bg tail.length tail
                (wrap_loop x y w fg bg pre.length pre cx cy).2.1
                (wrap_loop x y w fg bg pre.length pre cx cy).2.2).2) := by
  induction n with
  | zero =>
    intro pre hn _ tail _ cx cy _
    have : pre = [] := List.length_eq_zero.1 (by omega)
    subst this
    simp [wrap_loop]
  | succ n ih =>
    intro pre hn hnul tail htail cx cy hcx
    cases pre with
    | nil => simp [wrap_loop]
    | cons c cs =>
      have hc : c ≠ NUL := fun h => hnul (h ▸ List.mem_cons_self _ _)
      have hlen := wrap_step_length x y w fg bg c cs cx cy hc
      simp only [List.length_cons] at hlen hn
      by_cases hstop : ∃ d ∈ c :: cs, isStop d
      · have hq : NUL ∉ (wrap_step x y w fg bg c cs cx cy).2.1 := fun hm =>
          hnul ((wrap_step_suffix x y w fg bg c cs cx cy).subset hm)
        have h1 := wrap_loop_cons x y w fg bg c (cs ++ tail) cx cy hc
        rw [wrap_step_append_stop x y w fg bg c cs tail cx cy hstop] at h1
        simp only at h1
        rw [List.cons_append, h1, wrap_loop_cons x y w fg bg c cs cx cy hc,
          ih _ (by omega) hq tail htail _ _ (wrap_step_cx_le x y w fg bg hw c cs cx cy hcx)]
        simp only [List.append_assoc]
      · have hword : ∀ d ∈ c :: cs, ¬ isStop d := fun d hd hs => hstop ⟨d, hd, hs⟩
        have h1 := wrap_loop_cons x y w fg bg c (cs ++ tail) cx cy hc
        rw [wrap_step_word x y w fg bg c cs tail cx cy hword htail] at h1
        simp only at h1
        have hcx1 := wrap_word_cx_le x y w fg bg hw (c :: cs) cx cy hcx
        rw [wrap_loop_after_space x y w fg bg hw tail _ _ hcx1] at h1
        rw [List.cons_append, h1, wrap_loop_word x y w fg bg c cs cx cy hword]

theorem wrap_soft_last (x y : Int) (fg bg : Nat) (q : List Char) (c : Char) :
    ∀ cx cy : Int, ∃ A, (wrap_soft x y fg bg (q ++ [c]) cx cy).1
      = A ++ [TUI_Put.mk (x + (wrap_soft x y fg bg (q ++ [c]) cx cy).2 - 1) (y + cy) c fg bg] := by
  induction q with
  | nil =>
    intro cx cy
    refine ⟨[], ?_⟩
    simp only [List.nil_append, wrap_soft]
    have e : x + (cx + 1) - 1 = x + cx := by omega
    rw [e]
  | cons d q ih =>
    intro cx cy
    obtain ⟨A, hA⟩ := ih (cx + 1) cy
    refine ⟨TUI_Put.mk (x + cx) (y + cy) d fg bg :: A, ?_⟩
    simp only [List.cons_append, wrap_soft]
    exact congrArg _ hA

theorem wrap_hard_last (x y w : Int) (fg bg : Nat) (q : List Char) (c : Char) :
    ∀ cx cy : Int, ∃ A, (wrap_hard x y w fg bg (q ++ [c]) cx cy).1
      = A ++ [TUI_Put.mk (x + (wrap_hard x y w fg bg (q ++ [c]) cx cy).2.1 - 1)
                (y + (wrap_hard x y w fg bg (q ++ [c]) cx cy).2.2) c fg bg] := by
  induction q with
  | nil =>
    intro cx cy
    refine ⟨[], ?_⟩
    simp only [List.nil_append, wrap_hard]
    have e : ∀ a : Int, x + (a + 1) - 1 = x + a := fun a => by omega
    rw [e]
  | cons d q ih =>
    intro cx cy
    obtain ⟨A, hA⟩ := ih ((if cx ≥ w then 0 else cx) + 1) (if cx ≥ w then cy + 1 else cy)
    refine ⟨TUI_Put.mk (x + (if cx ≥ w then 0 else cx)) (y + (if cx ≥ w then cy + 1 else cy))
      d fg bg :: A, ?_⟩
    simp only [List.cons_append, wrap_hard]
    exact congrArg _ hA

/-- The last call of `wrap_word` writes the last character of the word, in the cell
left of the position reached. -/
theorem wrap_word_last (x y w : Int) (fg bg : Nat) (wl : Nat) (q : List Char) (c : Char)
    (cx cy : Int) :
    ∃ A, (wrap_word x y w fg bg wl (q ++ [c]) cx cy).1
      = A ++ [TUI_Put.mk (x + (wrap_word x y w fg bg wl (q ++ [c]) cx cy).2.1 - 1)
                (y + (wrap_word x y w fg bg wl (q ++ [c]) cx cy).2.2) c fg bg] := by
  unfold wrap_word
  split_ifs with hl
  · exact wrap_hard_last x y w fg bg q c cx cy
  · exact wrap_soft_last x y fg bg q c _ _

/-- A text that ends with a character of a word is a text that ends at a word
boundary followed by a word. -/
theorem word_suffix (q : List Char) (c : Char) (hc : ¬ isStop c) (hq : NUL ∉ q) :
    ∃ bp w0, q ++ [c] = bp ++ (w0 ++ [c]) ∧ WordBoundary bp ∧ ∀ d ∈ w0 ++ [c], ¬ isStop d := by
  induction q with
  | nil =>
    refine ⟨[], [], rfl, ⟨by simp, Or.inl rfl⟩, ?_⟩
    intro d hd
    simp only [List.nil_append, List.mem_singleton] at hd
    rw [hd]; exact hc
  | cons d q ih =>
    have hd : d ≠ NUL := fun h => hq (h ▸ List.mem_cons_self _ _)
    obtain ⟨bp, w0, e, hb, hw0⟩ := ih (fun h => hq (List.mem_cons_of_mem _ h))
    by_cases hbp : bp = []
    · subst hbp
      simp only [List.nil_append] at e
      by_cases hs : isStop d
      · refine ⟨[d], w0, by simp only [List.cons_append, List.nil_append, e], ⟨?_, ?_⟩, hw0⟩
        · simp only [List.mem_singleton]; exact fun h => hd h.symm
        · right
          refine ⟨[], d, rfl, ?_⟩
          rcases hs with h | h | h
          · exact absurd h hd
          · exact Or.inl h
          · exact Or.inr h
      · refine ⟨[], d :: w0, by simp only [List.cons_append, List.nil_append, e],
          ⟨by simp, Or.inl rfl⟩, ?_⟩
        intro a ha
        simp only [List.cons_append, List.mem_cons] at ha
        rcases ha with ha | ha
        · rw [ha]; exact hs
        · exact hw0 a ha
    · refine ⟨d :: bp, w0, by simp only [List.cons_append, e], ⟨?_, ?_⟩, hw0⟩
      · intro h
        rcases List.mem_cons.1 h with h | h
        · exact hd h.symm
        · exact hb.1 h
      · right
        rcases hb.2 with h | ⟨p, a, hp, ha⟩
        · exact absurd h hbp
        · exact ⟨d :: p, a, by rw [hp, List.cons_append], ha⟩

/-- The last call of the loop on a text that ends with a character of a word writes
that character, in the cell left of the position reached. -/
theorem wrap_loop_last (x y w : Int) (fg bg : Nat) (q : List Char) (c : Char)
    (hc : ¬ isStop c) (hq : NUL ∉ q) (cx cy : Int) :
    ∃ A, (wrap_loop x y w fg bg (q ++ [c]).length (q ++ [c]) cx cy).1
      = A ++ [TUI_Put.mk (x + (wrap_loop x y w fg bg (q ++ [c]).length (q ++ [c]) cx cy).2.1 - 1)
                (y + (wrap_loop x y w fg bg (q ++ [c]).length (q ++ [c]) cx cy).2.2) c fg bg] := by
  obtain ⟨bp, w0, e, hb, hw0⟩ := word_suffix q c hc hq
  rw [e, wrap_loop_append x y w fg bg bp.length bp (le_refl _) hb (w0 ++ [c]) cx cy]
  simp only
  have hne : w0 ++ [c] ≠ [] := by simp
  obtain ⟨a, as, has⟩ := List.exists_cons_of_ne_nil hne
  have hlw : ∀ cx1 cy1, wrap_loop x y w fg bg (w0 ++ [c]).length (w0 ++ [c]) cx1 cy1
      = wrap_word x y w fg bg (w0 ++ [c]).length (w0 ++ [c]) cx1 cy1 := by
    intro cx1 cy1
    rw [has]
    exact wrap_loop_word x y w fg bg a as cx1 cy1 (by rw [← has]; exact hw0)
  rw [hlw]
  obtain ⟨A, hA⟩ := wrap_word_last x y w fg bg (w0 ++ [c]).length w0 c
    (wrap_loop x y w fg bg bp.length bp cx cy).2.1 (wrap_loop x y w fg bg bp.length bp cx cy).2.2
  refine ⟨(wrap_loop x y w fg bg bp.length bp cx cy).1 ++ A, ?_⟩
  rw [hA, List.append_assoc]

/-- The position of the loop after a text that ends with a space or a newline. -/
theorem wrap_pos_snoc (x y w : Int) (fg bg : Nat) (hw : 1 ≤ w) (q : List Char)
    (hq : NUL ∉ q) :
    wrap_pos x y w fg bg (q ++ [' '])
      = (if (wrap_pos x y w fg bg q).1 + 1 ≥ w then 0 else (wrap_pos x y w fg bg q).1 + 1,
         if (wrap_pos x y w fg bg q).1 + 1 ≥ w then (wrap_pos x y w fg bg q).2 + 1
         else (wrap_pos x y w fg bg q).2) ∧
    wrap_pos x y w fg bg (q ++ ['\n']) = (0, (wrap_pos x y w fg bg q).2 + 1) := by
  have hle := wrap_loop_cx_le x y w fg bg hw q.length q 0 0 (by omega)
  constructor
  · have h := wrap_loop_split x y w fg bg hw q.length q (le_refl _) hq [' ']
      (Or.inr ⟨' ', [], rfl, Or.inr (Or.inl rfl)⟩) 0 0 (by omega)
    rw [wrap_loop_space x y w fg bg hw [] _ _ hle] at h
    simp only [wrap_pos, h, List.length_nil, wrap_loop]
  · have h := wrap_loop_split x y w fg bg hw q.length q (le_refl _) hq ['\n']
      (Or.inr ⟨'\n', [], rfl, Or.inr (Or.inr rfl)⟩) 0 0 (by omega)
    rw [wrap_loop_nl x y w fg bg [] _ _] at h
    simp only [wrap_pos, h, List.length_nil, wrap_loop]

/-- The calls of `tui_puts_wrap` on a text `pre ++ ' ' :: post`: the calls for `pre`,
which lie before the position `(cx, cy)` reached at the end of `pre`, then the calls
for `post`, which lie after that position: the space is passed by `cx++` and nothing
is written at `(cx, cy)`. -/
theorem wrap_calls_at_space (x y w : Int) (fg bg : Nat) (hw : 1 ≤ w)
    (pre post : List Char) (hpre : NUL ∉ pre) :
    ∃ after, (tui_puts_wrap_calls x y w (pre ++ ' ' :: post) fg bg).1
        = (tui_puts_wrap_calls x y w pre fg bg).1 ++ after ∧
      (tui_puts_wrap_calls x y w pre fg bg).1.map (fun c => c.ch)
        = pre.filter (fun ch => ch != ' ' && ch != '\n') ∧
      after.map (fun c => c.ch) = (cstr post).filter (fun ch => ch != ' ' && ch != '\n') ∧
      (∀ c ∈ (tui_puts_wrap_calls x y w pre fg bg).1,
        c.y < y + (wrap_pos x y w fg bg pre).2 ∨
          (c.y = y + (wrap_pos x y w fg bg pre).2 ∧ c.x < x + (wrap_pos x y w fg bg pre).1)) ∧
      (∀ c ∈ after,
        y + (wrap_pos x y w fg bg pre).2 < c.y ∨
          (c.y = y + (wrap_pos x y w fg bg pre).2 ∧ x + (wrap_pos x y w fg bg pre).1 < c.x)) := by
  have hw0 : ¬ (w ≤ 0) := by omega
  have hle := wrap_loop_cx_le x y w fg bg hw pre.length pre 0 0 (by omega)
  obtain ⟨h0, -, hbefore, -⟩ := wrap_loop_ok x y w fg bg hw pre.length pre 0 0 (le_refl _)
  have h := wrap_loop_split x y w fg bg hw pre.length pre (le_refl _) hpre (' ' :: post)
    (Or.inr ⟨' ', post, rfl, Or.inr (Or.inl rfl)⟩) 0 0 (by omega)
  rw [wrap_loop_space x y w fg bg hw post _ _ hle] at h
  obtain ⟨ax, hax⟩ : ∃ ax, ax = (if (wrap_loop x y w fg bg pre.length pre 0 0).2.1 + 1 ≥ w
      then 0 else (wrap_loop x y w fg bg pre.length pre 0 0).2.1 + 1) := ⟨_, rfl⟩
  obtain ⟨ay, hay⟩ : ∃ ay, ay = (if (wrap_loop x y w fg bg pre.length pre 0 0).2.1 + 1 ≥ w
      then (wrap_loop x y w fg bg pre.length pre 0 0).2.2 + 1
      else (wrap_loop x y w fg bg pre.length pre 0 0).2.2) := ⟨_, rfl⟩
  rw [← hax, ← hay] at h
  have hax0 : 0 ≤ ax := by rw [hax]; split_ifs <;> omega
  have hfst : ∀ (l : List TUI_Put) (m : List Char),
      l.map (fun p => (p.ch, p.fg, p.bg)) = m.map (fun ch => (ch, fg, bg)) →
      l.map (fun c => c.ch) = m := by
    intro l m e
    have := congrArg (List.map Prod.fst) e
    simpa [List.map_map, Function.comp_def] using this
  refine ⟨(wrap_loop x y w fg bg post.length post ax ay).1,
    by simp only [tui_puts_wrap_calls, if_neg hw0, h], ?_, ?_, ?_, ?_⟩
  · have hc := wrap_loop_cells x y w fg bg pre.length pre 0 0 (le_refl _)
    rw [cstr_of_not_mem pre hpre] at hc
    simp only [tui_puts_wrap_calls, if_neg hw0]
    exact hfst _ _ hc
  · exact hfst _ _ (wrap_loop_cells x y w fg bg post.length post _ _ (le_refl _))
  · intro c hc
    simp only [tui_puts_wrap_calls, if_neg hw0] at hc
    exact (hbefore c hc).2.2.2
  · intro c hc
    have := ((wrap_loop_ok x y w fg bg hw post.length post ax ay hax0).2.2.1 c hc).2.2.1
    simp only [PutFrom] at this
    simp only [wrap_pos]
    rw [hax, hay] at this
    split_ifs at this <;> omega

/-- C30: for a width `w ≥ 1`, the calls of `tui_puts_wrap` write, in the order of
the text, exactly the characters of `s` that are neither a space nor a newline, each
in the colours given, at positions that strictly increase in row-major order; on a
grid that contains the block of `w` columns and as many rows as the function
returns, every one of these characters is in its cell after the call, and every
cell of the grid that is not such a position holds what it held before. The position
of a space of the text, `s = pre ++ ' ' :: post`, is the one `(x + cx, y + cy)` at
which the loop stands when it reaches the space, with `0 ≤ cx ≤ w`: the characters
of `pre` are written before it in row-major order, the last of them in the cell
left of it when it is not itself a space or a newline, and the characters of `post`
are written after it, so that no call writes at the position of the space and its
cell holds what it held before. That position is the start of the block for a space
that opens the text, the start of the next row after a newline, and after another
space the cell right of that space, or the start of the next row when that cell
would lie outside the `w` columns of the block. -/
theorem tui_puts_wrap_writes (t : TUI) (hg : t.GridOk) (x y w : Int) (hw : 1 ≤ w)
    (s : List Char) (fg bg : Nat) (hx0 : 0 ≤ x) (hx1 : x + w ≤ t.cols) (hy0 : 0 ≤ y)
    (hy1 : y + (tui_puts_wrap_calls x y w s fg bg).2 ≤ t.rows) :
    (tui_puts_wrap_calls x y w s fg bg).1.map (fun c => (c.ch, c.fg, c.bg))
      = ((cstr s).filter (fun ch => ch != ' ' && ch != '\n')).map (fun ch => (ch, fg, bg)) ∧
    (tui_puts_wrap_calls x y w s fg bg).1.Pairwise PutLt ∧
    (∀ c ∈ (tui_puts_wrap_calls x y w s fg bg).1,
      c.ch ≠ ' ' ∧ c.ch ≠ '\n' ∧
      tui_cell (tui_puts_wrap t x y w s fg bg).1 c.x c.y
        = some { ch := c.ch, fg := fg, bg := bg }) ∧
    (∀ px py : Int, (∀ c ∈ (tui_puts_wrap_calls x y w s fg bg).1, ¬ (c.x = px ∧ c.y = py)) →
      tui_cell (tui_puts_wrap t x y w s fg bg).1 px py = tui_cell t px py) ∧
    (∀ pre post : List Char, s = pre ++ ' ' :: post → NUL ∉ pre →
      0 ≤ (wrap_pos x y w fg bg pre).1 ∧ (wrap_pos x y w fg bg pre).1 ≤ w ∧
      0 ≤ (wrap_pos x y w fg bg pre).2 ∧
      (∃ before after,
        (tui_puts_wrap_calls x y w s fg bg).1 = before ++ after ∧
        before.map (fun c => c.ch) = pre.filter (fun ch => ch != ' ' && ch != '\n') ∧
        after.map (fun c => c.ch) = (cstr post).filter (fun ch => ch != ' ' && ch != '\n') ∧
        (∀ c ∈ before,
          c.y < y + (wrap_pos x y w fg bg pre).2 ∨
            (c.y = y + (wrap_pos x y w fg bg pre).2 ∧ c.x < x + (wrap_pos x y w fg bg pre).1)) ∧
        (∀ c ∈ after,
          y + (wrap_pos x y w fg bg pre).2 < c.y ∨
            (c.y = y + (wrap_pos x y w fg bg pre).2 ∧ x + (wrap_pos x y w fg bg pre).1 < c.x)) ∧
        (∀ (q : List Char) (c : Char), pre = q ++ [c] → c ≠ ' ' → c ≠ '\n' →
          ∃ A, before = A ++ [TUI_Put.mk (x + (wrap_pos x y w fg bg pre).1 - 1)
                                (y + (wrap_pos x y w fg bg pre).2) c fg bg])) ∧
      (∀ c ∈ (tui_puts_wrap_calls x y w s fg bg).1,
        ¬ (c.x = x + (wrap_pos x y w fg bg pre).1 ∧ c.y = y + (wrap_pos x y w fg bg pre).2)) ∧
      tui_cell (tui_puts_wrap t x y w s fg bg).1 (x + (wrap_pos x y w fg bg pre).1)
          (y + (wrap_pos x y w fg bg pre).2)
        = tui_cell t (x + (wrap_pos x y w fg bg pre).1) (y + (wrap_pos x y w fg bg pre).2) ∧
      (pre = [] → wrap_pos x y w fg bg pre = (0, 0)) ∧
      (∀ q : List Char, pre = q ++ ['\n'] →
        wrap_pos x y w fg bg pre = (0, (wrap_pos x y w fg bg q).2 + 1)) ∧
      (∀ q : List Char, pre = q ++ [' '] →
        wrap_pos x y w fg bg pre
          = (if (wrap_pos x y w fg bg q).1 + 1 ≥ w then 0 else (wrap_pos x y w fg bg q).1 + 1,
             if (wrap_pos x y w fg bg q).1 + 1 ≥ w then (wrap_pos x y w fg bg q).2 + 1
             else (wrap_pos x y w fg bg q).2))) := by
  have hnw : ¬ (w ≤ 0) := by omega
  have hcells : (tui_puts_wrap_calls x y w s fg bg).1.map (fun c => (c.ch, c.fg, c.bg))
      = ((cstr s).filter (fun ch => ch != ' ' && ch != '\n')).map (fun ch => (ch, fg, bg)) := by
    simp only [tui_puts_wrap_calls, if_neg hnw]
    exact wrap_loop_cells x y w fg bg s.length s 0 0 (le_refl _)
  obtain ⟨-, -, hpos, hpw⟩ := wrap_calls_ok x y w hw s fg bg
  have hret : (tui_puts_wrap_calls x y w s fg bg).2
      = (wrap_loop x y w fg bg s.length s 0 0).2.2 + 1 := by
    simp only [tui_puts_wrap_calls, if_neg hnw]
  rw [hret] at hy1
  refine ⟨hcells, hpw, ?_, ?_, ?_⟩
  · intro c hc
    have hm : (c.ch, c.fg, c.bg) ∈ ((cstr s).filter (fun ch => ch != ' ' && ch != '\n')).map
        (fun ch => (ch, fg, bg)) := by
      rw [← hcells]; exact List.mem_map.2 ⟨c, hc, rfl⟩
    obtain ⟨ch, hch, e⟩ := List.mem_map.1 hm
    have hfil := (List.mem_filter.1 hch).2
    simp only [Prod.mk.injEq] at e
    obtain ⟨e1, e2, e3⟩ := e
    simp only [Bool.and_eq_true, bne_iff_ne, ne_eq] at hfil
    obtain ⟨hx, hx2, hfrom, hbefore⟩ := hpos c hc
    simp only [PutFrom, PutBefore] at hfrom hbefore
    have hcell := replay_cell_mem (tui_puts_wrap_calls x y w s fg bg).1 c t hg hpw hc
      (by omega) (by omega) (by omega) (by omega)
    rw [← e2, ← e3] at hcell
    refine ⟨by rw [← e1]; exact hfil.1, by rw [← e1]; exact hfil.2, hcell⟩
  · intro px py hno
    exact replay_cell_other _ px py t hno
  · intro pre post hs hnul
    obtain ⟨b0, b1, b2⟩ := wrap_pos_bounds x y w fg bg hw pre
    obtain ⟨after, hsplit, hmb, hma, hbef, haft⟩ :=
      wrap_calls_at_space x y w fg bg hw pre post hnul
    rw [← hs] at hsplit
    have hno : ∀ c ∈ (tui_puts_wrap_calls x y w s fg bg).1,
        ¬ (c.x = x + (wrap_pos x y w fg bg pre).1 ∧ c.y = y + (wrap_pos x y w fg bg pre).2) := by
      intro c hc hat
      rw [hsplit] at hc
      rcases List.mem_append.1 hc with h | h
      · have := hbef c h
        omega
      · have := haft c h
        omega
    refine ⟨b0, b1, b2, ⟨_, after, hsplit, hmb, hma, hbef, haft, ?_⟩, hno,
      replay_cell_other _ _ _ t hno, ?_, ?_, ?_⟩
    · intro q c hq hc1 hc2
      subst hq
      have hcn : c ≠ NUL := fun h => hnul (by rw [h]; simp)
      have hqn : NUL ∉ q := fun h => hnul (List.mem_append_left _ h)
      obtain ⟨A, hA⟩ := wrap_loop_last x y w fg bg q c
        (by simp only [isStop, not_or]; exact ⟨hcn, hc1, hc2⟩) hqn 0 0
      refine ⟨A, ?_⟩
      simp only [tui_puts_wrap_calls, if_neg hnw, wrap_pos]
      exact hA
    · intro h
      subst h
      rfl
    · intro q hq
      subst hq
      exact (wrap_pos_snoc x y w fg bg hw q (fun h => hnul (List.mem_append_left _ h))).2
    · intro q hq
      subst hq
      exact (wrap_pos_snoc x y w fg bg hw q (fun h => hnul (List.mem_append_left _ h))).1

set_option maxRecDepth 8000 in
theorem tui_puts_wrap_writes_witness :
    tui_sample.GridOk ∧ (1 : Int) ≤ 5 ∧ (0 : Int) ≤ 2 ∧ (2 : Int) + 5 ≤ tui_sample.cols ∧
    (0 : Int) ≤ 1 ∧ 1 + (tui_puts_wrap_calls 2 1 5 "ab cd ef".toList 7 0).2 ≤ tui_sample.rows ∧
    "ab cd ef".toList = "ab".toList ++ ' ' :: "cd ef".toList ∧ NUL ∉ "ab".toList ∧
    (tui_puts_wrap_calls 2 1 5 "ab cd ef".toList 7 0).1.map (fun c => (c.ch, c.fg, c.bg))
      = ((cstr "ab cd ef".toList).filter (fun ch => ch != ' ' && ch != '\n')).map
          (fun ch => (ch, 7, 0)) ∧
    (tui_puts_wrap_calls 2 1 5 "ab cd ef".toList 7 0).1.Pairwise PutLt ∧
    (∀ c ∈ (tui_puts_wrap_calls 2 1 5 "ab cd ef".toList 7 0).1,
      c.ch ≠ ' ' ∧ c.ch ≠ '\n' ∧
      tui_cell (tui_puts_wrap tui_sample 2 1 5 "ab cd ef".toList 7 0).1 c.x c.y
        = some { ch := c.ch, fg := 7, bg := 0 }) ∧
    (∀ px py : Int,
      (∀ c ∈ (tui_puts_wrap_calls 2 1 5 "ab cd ef".toList 7 0).1, ¬ (c.x = px ∧ c.y = py)) →
      tui_cell (tui_puts_wrap tui_sample 2 1 5 "ab cd ef".toList 7 0).1 px py
        = tui_cell tui_sample px py) ∧
    (∀ pre post : List Char, "ab cd ef".toList = pre ++ ' ' :: post → NUL ∉ pre →
      0 ≤ (wrap_pos 2 1 5 7 0 pre).1 ∧ (wrap_pos 2 1 5 7 0 pre).1 ≤ 5 ∧
      0 ≤ (wrap_pos 2 1 5 7 0 pre).2 ∧
      (∃ before after,
        (tui_puts_wrap_calls 2 1 5 "ab cd ef".toList 7 0).1 = before ++ after ∧
        before.map (fun c => c.ch) = pre.filter (fun ch => ch != ' ' && ch != '\n') ∧
        after.map (fun c => c.ch) = (cstr post).filter (fun ch => ch != ' ' && ch != '\n') ∧
        (∀ c ∈ before,
          c.y < 1 + (wrap_pos 2 1 5 7 0 pre).2 ∨
            (c.y = 1 + (wrap_pos 2 1 5 7 0 pre).2 ∧ c.x < 2 + (wrap_pos 2 1 5 7 0 pre).1)) ∧
        (∀ c ∈ after,
          1 + (wrap_pos 2 1 5 7 0 pre).2 < c.y ∨
            (c.y = 1 + (wrap_pos 2 1 5 7 0 pre).2 ∧ 2 + (wrap_pos 2 1 5 7 0 pre).1 < c.x)) ∧
        (∀ (q : List Char) (c : Char), pre = q ++ [c] → c ≠ ' ' → c ≠ '\n' →
          ∃ A, before = A ++ [TUI_Put.mk (2 + (wrap_pos 2 1 5 7 0 pre).1 - 1)
                                (1 + (wrap_pos 2 1 5 7 0 pre).2) c 7 0])) ∧
      (∀ c ∈ (tui_puts_wrap_calls 2 1 5 "ab cd ef".toList 7 0).1,
        ¬ (c.x = 2 + (wrap_pos 2 1 5 7 0 pre).1 ∧ c.y = 1 + (wrap_pos 2 1 5 7 0 pre).2)) ∧
      tui_cell (tui_puts_wrap tui_sample 2 1 5 "ab cd ef".toList 7 0).1
          (2 + (wrap_pos 2 1 5 7 0 pre).1) (1 + (wrap_pos 2 1 5 7 0 pre).2)
        = tui_cell tui_sample (2 + (wrap_pos 2 1 5 7 0 pre).1)
            (1 + (wrap_pos 2 1 5 7 0 pre).2) ∧
      (pre = [] → wrap_pos 2 1 5 7 0 pre = (0, 0)) ∧
      (∀ q : List Char, pre = q ++ ['\n'] →
        wrap_pos 2 1 5 7 0 pre = (0, (wrap_pos 2 1 5 7 0 q).2 + 1)) ∧
      (∀ q : List Char, pre = q ++ [' '] →
        wrap_pos 2 1 5 7 0 pre
          = (if (wrap_pos 2 1 5 7 0 q).1 + 1 ≥ 5 then 0 else (wrap_pos 2 1 5 7 0 q).1 + 1,
             if (wrap_pos 2 1 5 7 0 q).1 + 1 ≥ 5 then (wrap_pos 2 1 5 7 0 q).2 + 1
             else (wrap_pos 2 1 5 7 0 q).2))) :=
  ⟨by decide, by decide, by decide, by decide, by decide, by decide, by decide, by decide,
   tui_puts_wrap_writes tui_sample (by decide) 2 1 5 (by decide) "ab cd ef".toList 7 0
     (by decide) (by decide) (by decide) (by decide)⟩

end SDL3TUI
